import Mathlib

/-!
# emsh: an embedded line editor and mini-shell

A shallow embedding of the C sources (`ctlseq.[ch]`, `list.h`, `bytearray.h`,
`numcast10.[ch]`, `emsh.[ch]`) together with machine-checked properties of the
embedded code.

Conventions of the embedding

* A byte (`char`, or the `int c` handed to `emsh_task`) is a `Nat`.
* `NULL` is `none`; a null dereference, an out-of-bounds access and a failed
  `assert` make the embedded function return `none`.
* Output written through the `write_char` / `write_strn` callbacks is appended
  to the trace `out`; every invocation of the `exec` callback is logged.
* The unsigned arithmetic of `numcast10_impl_fw_*` is taken modulo `2 ^ w` for a type
  of `w` bits.
-/

namespace Emsh

/-! ## ctlseq.h / ctlseq.c -/

/-- Model of `CTLSEQ_C_CSI_1`. -/
def CTLSEQ_C_CSI_1 : Nat := 0x1B
/-- Model of `CTLSEQ_C_CSI_2`. -/
def CTLSEQ_C_CSI_2 : Nat := 0x5B
/-- Model of `CTLSEQ_K_PSEP`. -/
def CTLSEQ_K_PSEP : Nat := 0x3B

/-- Model of `ctlseq_is_param_byte`. -/
def ctlseq_is_param_byte (c : Nat) : Bool := decide (0x30 ≤ c) && decide (c ≤ 0x3F)

/-- Model of `ctlseq_is_interm_byte`. -/
def ctlseq_is_interm_byte (c : Nat) : Bool := decide (0x20 ≤ c) && decide (c ≤ 0x2F)

/-- Model of `ctlseq_is_final_byte`. -/
def ctlseq_is_final_byte (c : Nat) : Bool := decide (0x40 ≤ c) && decide (c ≤ 0x7E)

/-- Model of `ctlseq_st_t`. -/
inductive ctlseq_st_t where
  | INIT | ESC | CSI | PARAM | INTERM | FINAL
  deriving DecidableEq, Repr

/-- Model of `ctlseq_ev_t`. -/
inductive ctlseq_ev_t where
  | NONE | ESC | CSI | PARAM | INTERM | FINAL | ILSEQ
  deriving DecidableEq, Repr

/-- The body of `ctlseq_sm` for the states other than `FINAL`
(the `switch` after the fall-through of `case CTLSEQ_ST_FINAL`).
The result is `(*p_st, ev, psep)`. -/
def ctlseq_sm_body (st : ctlseq_st_t) (c : Nat) : ctlseq_st_t × ctlseq_ev_t × Nat :=
  match st with
  | .FINAL => (st, .NONE, 0)
  | .INIT =>
    if c = CTLSEQ_C_CSI_1 then (.ESC, .ESC, 0) else (st, .NONE, 0)
  | .ESC =>
    if c = CTLSEQ_C_CSI_2 then (.CSI, .CSI, 0) else (.INIT, .ILSEQ, 0)
  | .CSI =>
    if ctlseq_is_param_byte c then
      (.PARAM, .PARAM, if c = CTLSEQ_K_PSEP then 1 else 0)
    else if ctlseq_is_interm_byte c then (.INTERM, .INTERM, 0)
    else if ctlseq_is_final_byte c then (.FINAL, .FINAL, 0)
    else (.INIT, .ILSEQ, 0)
  | .PARAM =>
    if ctlseq_is_param_byte c then
      (st, .NONE, if c = CTLSEQ_K_PSEP then 1 else 0)
    else if ctlseq_is_interm_byte c then (.INTERM, .INTERM, 1)
    else if ctlseq_is_final_byte c then (.FINAL, .FINAL, 1)
    else (.INIT, .ILSEQ, 1)
  | .INTERM =>
    if ctlseq_is_interm_byte c then (st, .NONE, 0)
    else if ctlseq_is_final_byte c then (.FINAL, .FINAL, 0)
    else (.INIT, .ILSEQ, 0)

/-- Model of `ctlseq_sm`: the new `*p_st`, the returned event and the value stored
through `p_psep`. `FINAL` is first reset to `INIT` and falls through. -/
def ctlseq_sm (st : ctlseq_st_t) (c : Nat) : ctlseq_st_t × ctlseq_ev_t × Nat :=
  match st with
  | .FINAL => ctlseq_sm_body .INIT c
  | _ => ctlseq_sm_body st c

/-- Feeding a byte string to `ctlseq_sm`, one call per byte: the list of
`(state after the byte, event of the byte)`. -/
def ctlseq_trace : ctlseq_st_t → List Nat → List (ctlseq_st_t × ctlseq_ev_t)
  | _, [] => []
  | st, c :: cs => ((ctlseq_sm st c).1, (ctlseq_sm st c).2.1) :: ctlseq_trace (ctlseq_sm st c).1 cs

/-- The state reached from `st` after feeding a byte string to `ctlseq_sm`. -/
def ctlseq_run : ctlseq_st_t → List Nat → ctlseq_st_t
  | st, [] => st
  | st, c :: cs => ctlseq_run (ctlseq_sm st c).1 cs


/-! ## list.h

The nodes of this program are the two list heads stored in `emsh_hist_t`
(`free_list`, `list`) and the `node` member of each `emsh_block_t` of the pool.
The `list_assert` checks are kept (`LIST_DEBUG` defaults to 1). -/

/-- The address of a `list_node_t`. -/
inductive list_ptr where
  | free_list
  | list
  | block (i : Nat)
  deriving DecidableEq, Repr

/-- Model of `struct list_node`. -/
structure list_node_t where
  prev : Option list_ptr
  next : Option list_ptr
  deriving DecidableEq, Repr

/-- The storage of all list nodes, by address. -/
abbrev list_heap := list_ptr → list_node_t

/-- The store `p->prev = v`. -/
def list_set_prev (h : list_heap) (p : list_ptr) (v : Option list_ptr) : list_heap :=
  Function.update h p { h p with prev := v }

/-- The store `p->next = v`. -/
def list_set_next (h : list_heap) (p : list_ptr) (v : Option list_ptr) : list_heap :=
  Function.update h p { h p with next := v }

/-- Model of `assert(cond)`. -/
def c_assert (cond : Bool) : Option Unit := if cond then some () else none

/-- Model of `list_node_init`. -/
def list_node_init (h : list_heap) (self : Option list_ptr) : Option list_heap := do
  c_assert (self != none)
  let s ← self
  -- self->prev = self->next = NULL;
  let h := list_set_next h s none
  pure (list_set_prev h s none)

/-- Model of `list_node_sanity_check`. -/
def list_node_sanity_check (h : list_heap) (self : Option list_ptr) : Bool :=
  match self with
  | none => false
  | some s =>
    if (h s).prev = some s ∨ (h s).next = some s then false
    else if (h s).prev = none ∧ (h s).next = none then true
    else
      match (h s).prev, (h s).next with
      | some p, some n => decide ((h p).next = some s ∧ (h n).prev = some s)
      | _, _ => false

/-- Model of `list_node_is_linked`. -/
def list_node_is_linked (h : list_heap) (self : Option list_ptr) : Option Bool := do
  c_assert (list_node_sanity_check h self)
  let s ← self
  pure ((h s).prev != none)

/-- Model of `list_node_unlink`. -/
def list_node_unlink (h : list_heap) (self : Option list_ptr) : Option list_heap := do
  c_assert (list_node_sanity_check h self)
  let linked ← list_node_is_linked h self
  let s ← self
  if linked then
    -- self->prev->next = self->next;
    let p ← (h s).prev
    let h := list_set_next h p (h s).next
    -- self->next->prev = self->prev;
    let n ← (h s).next
    let h := list_set_prev h n (h s).prev
    list_node_init h (some s)
  else
    pure h

/-- Model of `list_node_next`. -/
def list_node_next (h : list_heap) (self : Option list_ptr) : Option (Option list_ptr) := do
  c_assert (list_node_sanity_check h self)
  let s ← self
  pure (h s).next

/-- Model of `list_node_prev`. -/
def list_node_prev (h : list_heap) (self : Option list_ptr) : Option (Option list_ptr) := do
  c_assert (list_node_sanity_check h self)
  let s ← self
  pure (h s).prev

/-- Model of `list_init`. -/
def list_init (h : list_heap) (self : list_ptr) : list_heap :=
  -- self->prev = self->next = self;
  let h := list_set_next h self (some self)
  list_set_prev h self (some self)

/-- Model of `list_sanity_check`. -/
def list_sanity_check (h : list_heap) (self : list_ptr) : Bool :=
  if (h self).prev = none ∨ (h self).next = none then false
  else if (h self).prev = some self ∧ (h self).next = some self then true
  else if (h self).prev = some self ∨ (h self).next = some self then false
  else true

/-- Model of `list_is_empty`. -/
def list_is_empty (h : list_heap) (self : list_ptr) : Option Bool := do
  c_assert (list_sanity_check h self)
  pure ((h self).prev == some self)

/-- Model of `list_front`. -/
def list_front (h : list_heap) (self : list_ptr) : Option (Option list_ptr) := do
  c_assert (list_sanity_check h self)
  let empty ← list_is_empty h self
  if !empty then pure (h self).next else pure none

/-- Model of `list_back`. -/
def list_back (h : list_heap) (self : list_ptr) : Option (Option list_ptr) := do
  c_assert (list_sanity_check h self)
  let empty ← list_is_empty h self
  if !empty then pure (h self).prev else pure none

/-- Model of `list_push_front`. -/
def list_push_front (h : list_heap) (self : list_ptr) (node : Option list_ptr) :
    Option list_heap := do
  c_assert (list_sanity_check h self)
  c_assert (list_node_sanity_check h node)
  let linked ← list_node_is_linked h node
  c_assert (!linked)
  let nd ← node
  -- node->prev = self;
  let h := list_set_prev h nd (some self)
  -- node->next = self->next;
  let h := list_set_next h nd (h self).next
  -- self->next = node;
  let h := list_set_next h self (some nd)
  -- node->next->prev = node;
  let n ← (h nd).next
  pure (list_set_prev h n (some nd))

/-- Model of `list_push_back`. -/
def list_push_back (h : list_heap) (self : list_ptr) (node : Option list_ptr) :
    Option list_heap := do
  c_assert (list_sanity_check h self)
  c_assert (list_node_sanity_check h node)
  let linked ← list_node_is_linked h node
  c_assert (!linked)
  let nd ← node
  -- node->next = self;
  let h := list_set_next h nd (some self)
  -- node->prev = self->prev;
  let h := list_set_prev h nd (h self).prev
  -- self->prev = node;
  let h := list_set_prev h self (some nd)
  -- node->prev->next = node;
  let p ← (h nd).prev
  pure (list_set_next h p (some nd))

/-- Model of `list_pop_front`: the heap after the call and the returned node. -/
def list_pop_front (h : list_heap) (self : list_ptr) :
    Option (list_heap × Option list_ptr) := do
  c_assert (list_sanity_check h self)
  let empty ← list_is_empty h self
  if !empty then
    let node ← list_front h self
    let h ← list_node_unlink h node
    pure (h, node)
  else
    pure (h, none)

/-- Model of `list_pop_back`: the heap after the call and the returned node. -/
def list_pop_back (h : list_heap) (self : list_ptr) :
    Option (list_heap × Option list_ptr) := do
  c_assert (list_sanity_check h self)
  let empty ← list_is_empty h self
  if !empty then
    let node ← list_back h self
    let h ← list_node_unlink h node
    pure (h, node)
  else
    pure (h, none)

/-- Following `next` from a node until the list head `s` is met again
(`list_for_each`), at most `fuel` nodes. -/
def list_walk (h : list_heap) (s : list_ptr) : Nat → Option list_ptr → List list_ptr
  | 0, _ => []
  | _ + 1, none => []
  | fuel + 1, some p => if p = s then [] else p :: list_walk h s fuel (h p).next

/-- The nodes of the list with head `s`, front to back (at most `fuel` of them). -/
def list_nodes (h : list_heap) (s : list_ptr) (fuel : Nat) : List list_ptr :=
  list_walk h s fuel (h s).next

/-! ## emsh.h: tunables and storage

Sizes and counters (`size_t`, `unsigned int`) are bounded by the tunables and
are modelled as natural numbers. The `mem` arrays of the block pool are
addressed by block index and byte index; an access outside `mem` fails. -/

/-- The compile-time tunables of `emsh.h`, with their default values.
`EMSH_S_PROMPT` and `EMSH_S_NEWLINE` are string literals, given by their bytes. -/
structure emsh_tunables where
  EMSH_MAX_HIST_SIZE : Nat := 10
  EMSH_MAX_LINE_SIZE : Nat := 80 - 1 - 2
  EMSH_S_PROMPT : List Nat := [0x3E, 0x20]
  EMSH_MAX_N_ARGS : Nat := 10
  EMSH_S_NEWLINE : List Nat := [0x0A]

/-- The `mem` members of the block pool: `mem b i` is `blocks[b].mem[i]`. -/
abbrev emsh_mem := Nat → Nat → Nat

/-- The load `blocks[b].mem[i]`; `mem` has `EMSH_MAX_LINE_SIZE+1` elements. -/
def mem_read (cfg : emsh_tunables) (m : emsh_mem) (b i : Nat) : Option Nat :=
  if i < cfg.EMSH_MAX_LINE_SIZE + 1 then some (m b i) else none

/-- The store `blocks[b].mem[i] = v`. -/
def mem_write (cfg : emsh_tunables) (m : emsh_mem) (b i v : Nat) : Option emsh_mem :=
  if i < cfg.EMSH_MAX_LINE_SIZE + 1 then
    some (fun b' i' => if b' = b ∧ i' = i then v else m b' i')
  else none

/-- The call `memmove(&mem[dst], &mem[src], n)` inside `blocks[b].mem`. -/
def mem_move (cfg : emsh_tunables) (m : emsh_mem) (b dst src n : Nat) : Option emsh_mem :=
  if dst + n ≤ cfg.EMSH_MAX_LINE_SIZE + 1 ∧ src + n ≤ cfg.EMSH_MAX_LINE_SIZE + 1 then
    some (fun b' i' => if b' = b ∧ dst ≤ i' ∧ i' < dst + n then m b (src + (i' - dst)) else m b' i')
  else none

/-- The `len` bytes `blocks[b].mem[off .. off+len-1]`, as read by a `write_strn` callback. -/
def mem_slice (cfg : emsh_tunables) (m : emsh_mem) (b off len : Nat) : Option (List Nat) :=
  if off + len ≤ cfg.EMSH_MAX_LINE_SIZE + 1 then
    some ((List.range len).map (fun i => m b (off + i)))
  else none

/-- The loop of `strlen` over an array with `fuel` elements left from index `i`. -/
def c_strlen_from (a : Nat → Nat) : Nat → Nat → Option Nat
  | 0, _ => none
  | fuel + 1, i => if a i = 0 then some (i) else c_strlen_from a fuel (i + 1)

/-- The call `strlen(blocks[b].mem)`. -/
def c_strlen (cfg : emsh_tunables) (m : emsh_mem) (b : Nat) : Option Nat :=
  c_strlen_from (m b) (cfg.EMSH_MAX_LINE_SIZE + 1) 0

/-- The bytes of the NUL-terminated string starting at index `i` of an array
with `fuel` elements left. -/
def c_string_from (a : Nat → Nat) : Nat → Nat → Option (List Nat)
  | 0, _ => none
  | fuel + 1, i =>
    if a i = 0 then some [] else (c_string_from a fuel (i + 1)).map (fun s => a i :: s)

/-- A `char *` into the block pool: `&blocks[block].mem[off]`. -/
structure char_ptr where
  block : Nat
  off : Nat
  deriving DecidableEq, Repr

/-- The NUL-terminated string a `char *` points to. -/
def c_string (cfg : emsh_tunables) (m : emsh_mem) (p : char_ptr) : Option (List Nat) :=
  c_string_from (m p.block) (cfg.EMSH_MAX_LINE_SIZE + 1 - p.off) p.off

/-- The length `strlen(str)` of a string literal given by its bytes. -/
def c_strlen_lit (str : List Nat) : Nat := (str.takeWhile (fun ch => ch != 0)).length

/-! ## bytearray.h (the functions used by emsh.c)

`data` always addresses the start of a block's `mem`; it is kept as the block
index. -/

/-- Model of `bytearray_t`. -/
structure bytearray_t where
  capacity : Nat
  offset : Nat
  size : Nat
  data : Nat
  deriving DecidableEq, Repr

/-- Model of `bytearray_init`, with `p = blocks[p].mem`. -/
def bytearray_init (n : Nat) (p : Nat) : Option bytearray_t := do
  c_assert (n != 0)
  pure { capacity := n, offset := 0, size := 0, data := p }

/-- Model of `bytearray_data`. -/
def bytearray_data (self : bytearray_t) : Nat := self.data

/-- Model of `bytearray_size`. -/
def bytearray_size (self : bytearray_t) : Nat := self.size

/-- Model of `bytearray_capacity`. -/
def bytearray_capacity (self : bytearray_t) : Nat := self.capacity

/-- Model of `bytearray_offset`. -/
def bytearray_offset (self : bytearray_t) : Nat := self.offset

/-- Model of `bytearray_effective_capacity`. -/
def bytearray_effective_capacity (self : bytearray_t) : Nat :=
  bytearray_capacity self - bytearray_offset self

/-- Model of `bytearray_room`. -/
def bytearray_room (self : bytearray_t) : Nat :=
  bytearray_effective_capacity self - bytearray_size self

/-- Model of `bytearray_resize`. -/
def bytearray_resize (self : bytearray_t) (n : Nat) : Option bytearray_t := do
  c_assert (decide (n ≤ bytearray_effective_capacity self))
  pure { self with size := n }

/-- Model of `bytearray_insert`. -/
def bytearray_insert (cfg : emsh_tunables) (self : bytearray_t) (m : emsh_mem)
    (pos val : Nat) : Option (bytearray_t × emsh_mem) := do
  c_assert (decide (bytearray_room self > 0))
  c_assert (decide (pos ≤ bytearray_size self))
  let m ← mem_move cfg m self.data (pos + 1) pos (self.size - pos)
  let m ← mem_write cfg m self.data pos val
  pure ({ self with size := self.size + 1 }, m)

/-- Model of `bytearray_erase`. -/
def bytearray_erase (cfg : emsh_tunables) (self : bytearray_t) (m : emsh_mem)
    (pos : Nat) : Option (bytearray_t × emsh_mem) := do
  c_assert (decide (bytearray_size self > 0))
  c_assert (decide (pos < bytearray_size self))
  let m ← mem_move cfg m self.data pos (pos + 1) (self.size - pos - 1)
  pure ({ self with size := self.size - 1 }, m)

/-! ## emsh.c: buffer -/

/-- Model of `emsh_buf_t`. -/
structure emsh_buf_t where
  array : bytearray_t
  pos : Nat
  deriving DecidableEq, Repr

/-- Model of `emsh_buf_init`, with `data = blocks[data].mem`. -/
def emsh_buf_init (cfg : emsh_tunables) (m : emsh_mem) (data : Nat) (capacity : Nat) :
    Option emsh_buf_t := do
  let array ← bytearray_init capacity data
  let n ← c_strlen cfg m data
  let array ← bytearray_resize array n
  pure { array := array, pos := bytearray_size array }

/-- Model of `emsh_buf_capacity`. -/
def emsh_buf_capacity (self : emsh_buf_t) : Nat := bytearray_capacity self.array

/-- Model of `emsh_buf_size`. -/
def emsh_buf_size (self : emsh_buf_t) : Nat := bytearray_size self.array

/-- Model of `emsh_buf_data` and `emsh_buf_data_const`. -/
def emsh_buf_data (self : emsh_buf_t) : Nat := bytearray_data self.array

/-- Model of `emsh_buf_pos`. -/
def emsh_buf_pos (self : emsh_buf_t) : Nat := self.pos

/-- Model of `emsh_buf_set_pos`. -/
def emsh_buf_set_pos (self : emsh_buf_t) (pos : Nat) : Option emsh_buf_t := do
  c_assert (decide (pos ≤ emsh_buf_size self))
  pure { self with pos := pos }

/-- Model of `emsh_buf_dec_pos`. -/
def emsh_buf_dec_pos (self : emsh_buf_t) : emsh_buf_t :=
  if self.pos > 0 then { self with pos := self.pos - 1 } else self

/-- Model of `emsh_buf_inc_pos`. -/
def emsh_buf_inc_pos (self : emsh_buf_t) : emsh_buf_t :=
  if self.pos < emsh_buf_size self then { self with pos := self.pos + 1 } else self

/-- Model of `emsh_buf_insert`. -/
def emsh_buf_insert (cfg : emsh_tunables) (self : emsh_buf_t) (m : emsh_mem) (ch : Nat) :
    Option (emsh_buf_t × emsh_mem) := do
  c_assert (emsh_buf_size self != emsh_buf_capacity self)
  let (array, m) ← bytearray_insert cfg self.array m self.pos ch
  let self := { self with array := array }
  let m ← mem_write cfg m (emsh_buf_data self) (emsh_buf_size self) 0
  pure ({ self with pos := self.pos + 1 }, m)

/-- Model of `emsh_buf_erase`. -/
def emsh_buf_erase (cfg : emsh_tunables) (self : emsh_buf_t) (m : emsh_mem) :
    Option (emsh_buf_t × emsh_mem) := do
  c_assert (self.pos != emsh_buf_size self)
  let (array, m) ← bytearray_erase cfg self.array m self.pos
  let self := { self with array := array }
  let m ← mem_write cfg m (emsh_buf_data self) (emsh_buf_size self) 0
  pure (self, m)

/-! ## emsh.c: history -/

/-- Model of `emsh_hist_t` together with the block pool it owns: `node` holds the two
list heads and the `node` member of every block, `mem` the `mem` members. -/
structure emsh_hist_t where
  capacity : Nat
  size : Nat
  pos : Nat
  cur : Option list_ptr
  node : list_heap
  mem : emsh_mem

/-- The loop of `emsh_hist_init` over `blocks[i]`, with `k` iterations left. -/
def emsh_hist_init_blocks (cfg : emsh_tunables) :
    Nat → Nat → list_heap → emsh_mem → Option (list_heap × emsh_mem)
  | 0, _, h, m => some (h, m)
  | k + 1, i, h, m => do
    let h ← list_node_init h (some (.block i))
    let m ← mem_write cfg m i 0 0
    let h ← list_push_back h .free_list (some (.block i))
    emsh_hist_init_blocks cfg k (i + 1) h m

/-- Model of `emsh_hist_init`; the pool `blocks` is the storage carried by `self`. -/
def emsh_hist_init (cfg : emsh_tunables) (self : emsh_hist_t) (n_blocks : Nat) :
    Option emsh_hist_t := do
  c_assert (n_blocks != 0)
  let self := { self with capacity := n_blocks }
  let self := { self with node := list_init self.node .free_list }
  let (h, m) ← emsh_hist_init_blocks cfg n_blocks 0 self.node self.mem
  let self := { self with node := h, mem := m }
  let self := { self with node := list_init self.node .list }
  let (h, nd) ← list_pop_front self.node .free_list
  let h ← list_push_front h .list nd
  let self := { self with node := h, size := 1 }
  let self := { self with pos := 0 }
  let cur ← list_front self.node .list
  pure { self with cur := cur }

/-- Model of `emsh_hist_current`: the block whose `mem` is returned
(`list_entry_of(self->cur, emsh_block_t, node)->mem`). -/
def emsh_hist_current (self : emsh_hist_t) : Option Nat :=
  match self.cur with
  | some (.block i) => some i
  | _ => none

/-- The statements of `emsh_hist_commit` from "add a new draft" to the end. -/
def emsh_hist_commit_draft (cfg : emsh_tunables) (self : emsh_hist_t) : Option emsh_hist_t := do
  -- add a new draft
  let (h, nd) ← list_pop_front self.node .free_list
  let h ← list_push_front h .list nd
  let self := { self with node := h, size := self.size + 1 }
  -- move focus to the new draft
  let self := { self with pos := 0 }
  let cur ← list_front self.node .list
  let self := { self with cur := cur }
  let b ← emsh_hist_current self
  let m ← mem_write cfg self.mem b 0 0
  pure { self with mem := m }

/-- Model of `emsh_hist_commit`. -/
def emsh_hist_commit (cfg : emsh_tunables) (self : emsh_hist_t) : Option emsh_hist_t := do
  let self ←
    if self.pos != 0 then do
      -- remove the draft
      let (h, nd) ← list_pop_front self.node .list
      let h ← list_push_back h .free_list nd
      let self := { self with node := h, size := self.size - 1 }
      -- bring the current entry to the front
      let h ← list_node_unlink self.node self.cur
      let h ← list_push_front h .list self.cur
      pure { self with node := h }
    else if self.size = self.capacity then do
      -- retire the oldest entry
      let (h, nd) ← list_pop_back self.node .list
      let h ← list_push_back h .free_list nd
      pure { self with node := h, size := self.size - 1 }
    else pure self
  emsh_hist_commit_draft cfg self

/-- Model of `emsh_hist_move_backward`. The unsigned `self->size - 1` wraps to the
largest value when `size` is 0. -/
def emsh_hist_move_backward (self : emsh_hist_t) : Option emsh_hist_t :=
  if self.size = 0 ∨ self.pos < self.size - 1 then do
    let cur ← list_node_next self.node self.cur
    pure { self with pos := self.pos + 1, cur := cur }
  else pure self

/-- Model of `emsh_hist_move_forward`. -/
def emsh_hist_move_forward (self : emsh_hist_t) : Option emsh_hist_t :=
  if self.pos > 0 then do
    let cur ← list_node_prev self.node self.cur
    pure { self with pos := self.pos - 1, cur := cur }
  else pure self

/-! ## ascii.h -/

/-- Model of `ASCII_C_BS`. -/
def ASCII_C_BS : Nat := 0x08
/-- Model of `ASCII_C_LF`. -/
def ASCII_C_LF : Nat := 0x0A
/-- Model of `ASCII_C_CR`. -/
def ASCII_C_CR : Nat := 0x0D
/-- Model of `ASCII_C_DEL`. -/
def ASCII_C_DEL : Nat := 0x7F

/-- Model of `ASCII_CNTRL(c)`. -/
def ASCII_CNTRL (c : Nat) : Nat := (c - 0x40) &&& 0x7F

/-- Model of `ascii_isprint`. -/
def ascii_isprint (c : Nat) : Bool := decide (0x20 ≤ c) && decide (c ≤ 0x7E)

/-! ## numcast10.c: string from unsigned integer -/

/-- The digit loop of `numcast10_impl_bw_*`: the bytes stored at `dst[0]`,
`dst[1]`, ... (least significant digit first). -/
def numcast10_bw_digits : Nat → Nat → List Nat
  | 0, _ => []
  | fuel + 1, src =>
    if src != 0 then (src % 10 + 0x30) :: numcast10_bw_digits fuel (src / 10) else []

/-- The swap loop of `numcast10_impl_bw_*` over `dst[0..n-1]`, from index `i`,
with `k` iterations left. -/
def numcast10_bw_swap (n : Nat) : Nat → Nat → List Nat → List Nat
  | 0, _, dst => dst
  | k + 1, i, dst =>
    let ch := dst.getD i 0
    let dst := dst.set i (dst.getD (n - i - 1) 0)
    let dst := dst.set (n - i - 1) ch
    numcast10_bw_swap n k (i + 1) dst

/-- Model of `numcast10_impl_bw_*` (and the `numcast10_from_*` wrappers, whose casts keep
the value): the bytes written to `dst`; the return value is their number. -/
def numcast10_impl_bw (src : Nat) : List Nat :=
  if src != 0 then
    let dst := numcast10_bw_digits src src
    let n := dst.length
    numcast10_bw_swap n (n / 2) 0 dst
  else [0x30]

/-! ## emsh.c: the engine -/

/-- The `ctlseq` member of `emsh_t`. -/
structure emsh_ctlseq_t where
  st : ctlseq_st_t
  param_byte : Nat
  interm_byte : Nat
  deriving DecidableEq, Repr

/-- The `cmd` member of `emsh_t`. -/
structure emsh_cmd_t where
  optpos : Nat
  argc : Nat
  argv : Nat → char_ptr

/-- Model of `emsh_t`, the process-wide option-scanner variables, and the observable
trace: `out` collects the bytes handed to `write_char` / `write_strn`, `execs`
the `(argc, argv)` of every call of `exec` (`argv` as the strings pointed to). -/
structure emsh_t where
  running : Bool
  hist : emsh_hist_t
  buf : emsh_buf_t
  ctlseq : emsh_ctlseq_t
  cmd : emsh_cmd_t
  emsh_optarg : Option (List Nat)
  emsh_opterr : Int
  emsh_optind : Int
  emsh_optopt : Int
  out : List Nat
  execs : List (Nat × List (List Nat))

/-- What an executor can reach through the public interface (`emsh_stop`,
`emsh_start`, `emsh_getopt` and the option-scanner variables). -/
structure emsh_exec_view where
  running : Bool
  optpos : Nat
  emsh_optarg : Option (List Nat)
  emsh_opterr : Int
  emsh_optind : Int
  emsh_optopt : Int

/-- The `exec` callback: from `argc`, the strings of `argv` and the reachable
engine state to that state on return and the bytes the call wrote. -/
abbrev emsh_exec_t := Nat → List (List Nat) → emsh_exec_view → emsh_exec_view × List Nat

/-- Model of `emsh_write_char`. -/
def emsh_write_char (self : emsh_t) (ch : Nat) : emsh_t :=
  { self with out := self.out ++ [ch] }

/-- Model of `emsh_write_strn`, the `len` bytes at `str` being given. -/
def emsh_write_strn (self : emsh_t) (str : List Nat) (len : Nat) : emsh_t :=
  { self with out := self.out ++ str.take len }

/-- Model of `emsh_write_str`. -/
def emsh_write_str (self : emsh_t) (str : List Nat) : emsh_t :=
  emsh_write_strn self str (c_strlen_lit str)

/-- Model of `emsh_write_prompt`. -/
def emsh_write_prompt (cfg : emsh_tunables) (self : emsh_t) : emsh_t :=
  emsh_write_str self cfg.EMSH_S_PROMPT

/-- Model of `emsh_write_cr`. -/
def emsh_write_cr (self : emsh_t) : emsh_t :=
  emsh_write_char self ASCII_C_CR

/-- Model of `emsh_write_newline`. -/
def emsh_write_newline (cfg : emsh_tunables) (self : emsh_t) : emsh_t :=
  emsh_write_str self cfg.EMSH_S_NEWLINE

/-- Model of `emsh_write_ctlseq_1`. -/
def emsh_write_ctlseq_1 (self : emsh_t) (param_val interm_byte final_byte : Nat) : emsh_t :=
  -- CSI
  let buf := [CTLSEQ_C_CSI_1, CTLSEQ_C_CSI_2]
  -- P ... P
  let buf := buf ++ numcast10_impl_bw param_val
  -- (I)
  let buf := if interm_byte != 0x00 then buf ++ [interm_byte] else buf
  -- F
  let buf := buf ++ [final_byte]
  emsh_write_strn self buf buf.length

/-- Model of `emsh_write_ctlseq_el`. -/
def emsh_write_ctlseq_el (self : emsh_t) (param : Nat) : Option emsh_t :=
  match param with
  | 0 => some (emsh_write_str self [0x1B, 0x5B, 0x4B])
  | 1 => some (emsh_write_str self [0x1B, 0x5B, 0x31, 0x4B])
  | 2 => some (emsh_write_str self [0x1B, 0x5B, 0x32, 0x4B])
  | _ => none

/-- Model of `emsh_write_ctlseq_cuf`. -/
def emsh_write_ctlseq_cuf (self : emsh_t) (n : Nat) : emsh_t :=
  if n = 0 then self
  else if n = 1 then emsh_write_str self [0x1B, 0x5B, 0x43]
  else emsh_write_ctlseq_1 self n 0x00 0x43

/-- Model of `emsh_write_ctlseq_cub`. -/
def emsh_write_ctlseq_cub (self : emsh_t) (n : Nat) : emsh_t :=
  if n = 0 then self
  else if n = 1 then emsh_write_str self [0x1B, 0x5B, 0x44]
  else emsh_write_ctlseq_1 self n 0x00 0x44

/-- Model of `emsh_disp_refresh_cur_to_eol`. -/
def emsh_disp_refresh_cur_to_eol (cfg : emsh_tunables) (self : emsh_t) : Option emsh_t := do
  let size := emsh_buf_size self.buf
  let pos := emsh_buf_pos self.buf
  let self ← emsh_write_ctlseq_el self 0
  let str ← mem_slice cfg self.hist.mem (emsh_buf_data self.buf) pos (size - pos)
  let self := emsh_write_strn self str (size - pos)
  pure (emsh_write_ctlseq_cub self (size - pos))

/-- Model of `emsh_disp_refresh_line`. -/
def emsh_disp_refresh_line (cfg : emsh_tunables) (self : emsh_t) : Option emsh_t := do
  let data ← emsh_hist_current self.hist
  let buf ← emsh_buf_init cfg self.hist.mem data cfg.EMSH_MAX_LINE_SIZE
  let self := { self with buf := buf }
  let self := emsh_write_cr self
  let self ← emsh_write_ctlseq_el self 0
  let self := emsh_write_prompt cfg self
  let str ← mem_slice cfg self.hist.mem (emsh_buf_data self.buf) 0 (emsh_buf_size self.buf)
  pure (emsh_write_strn self str (emsh_buf_size self.buf))

/-- Model of `emsh_cur_move_forward`. -/
def emsh_cur_move_forward (self : emsh_t) : Option emsh_t := do
  c_assert (decide (emsh_buf_pos self.buf < emsh_buf_size self.buf))
  let self := { self with buf := emsh_buf_inc_pos self.buf }
  pure (emsh_write_ctlseq_cuf self 1)

/-- Model of `emsh_cur_move_backward`. -/
def emsh_cur_move_backward (self : emsh_t) : Option emsh_t := do
  c_assert (decide (emsh_buf_pos self.buf > 0))
  let self := { self with buf := emsh_buf_dec_pos self.buf }
  pure (emsh_write_ctlseq_cub self 1)

/-- Model of `emsh_cur_set_pos`. -/
def emsh_cur_set_pos (cfg : emsh_tunables) (self : emsh_t) (pos : Nat) : Option emsh_t := do
  c_assert (decide (pos ≤ emsh_buf_size self.buf))
  let self := emsh_write_cr self
  let self := emsh_write_ctlseq_cuf self (c_strlen_lit cfg.EMSH_S_PROMPT + pos)
  let buf ← emsh_buf_set_pos self.buf pos
  pure { self with buf := buf }

/-- The loops `while (pos < size && data[pos] == ' ') ++pos;` (`sp = true`) and
`while (pos < size && data[pos] != ' ') ++pos;` (`sp = false`) of
`emsh_cmd_split`, with `fuel` iterations left: the final `pos`. -/
def emsh_cmd_split_scan (cfg : emsh_tunables) (m : emsh_mem) (data size : Nat) (sp : Bool) :
    Nat → Nat → Option Nat
  | 0, pos => if pos < size then none else some pos
  | fuel + 1, pos =>
    if pos < size then do
      let ch ← mem_read cfg m data pos
      if (ch == 0x20) = sp then emsh_cmd_split_scan cfg m data size sp fuel (pos + 1)
      else pure pos
    else pure pos

/-- The loop `while (pos < size) ...` of `emsh_cmd_split` ("split arguments"),
with `fuel` iterations left. -/
def emsh_cmd_split_args (cfg : emsh_tunables) (data size : Nat) :
    Nat → Nat → emsh_mem → emsh_cmd_t → Option (emsh_mem × emsh_cmd_t)
  | 0, pos, m, cmd => if pos < size then none else some (m, cmd)
  | fuel + 1, pos, m, cmd =>
    if pos < size then
      if cmd.argc = cfg.EMSH_MAX_N_ARGS then
        some (m, { cmd with argc := cmd.argc + 1 })
      else do
        let cmd := { cmd with argv := Function.update cmd.argv cmd.argc ⟨data, pos⟩ }
        let pos ← emsh_cmd_split_scan cfg m data size false size pos
        let m ← mem_write cfg m data pos 0
        let pos := pos + 1
        let pos ← emsh_cmd_split_scan cfg m data size true size pos
        let cmd := { cmd with argc := cmd.argc + 1 }
        emsh_cmd_split_args cfg data size fuel pos m cmd
    else some (m, cmd)

/-- Model of `emsh_cmd_split`. -/
def emsh_cmd_split (cfg : emsh_tunables) (self : emsh_t) : Option emsh_t := do
  let size := emsh_buf_size self.buf
  let data := emsh_buf_data self.buf
  let self := { self with cmd := { self.cmd with argc := 0 } }
  -- skip leading spaces
  let pos ← emsh_cmd_split_scan cfg self.hist.mem data size true size 0
  if pos = size then pure self
  else
    -- split arguments
    let (m, cmd) ← emsh_cmd_split_args cfg data size size pos self.hist.mem self.cmd
    pure { self with hist := { self.hist with mem := m }, cmd := cmd }

/-- The strings `argv[0]`, ..., `argv[argc-1]` seen by the executor. -/
def emsh_cmd_argv_strings (cfg : emsh_tunables) (self : emsh_t) : Option (List (List Nat)) :=
  (List.range self.cmd.argc).mapM (fun i => c_string cfg self.hist.mem (self.cmd.argv i))

/-- Model of `emsh_cmd_exec` (with `EMSH_ENABLE_GETOPT`). -/
def emsh_cmd_exec (cfg : emsh_tunables) (exec : emsh_exec_t) (self : emsh_t) :
    Option emsh_t := do
  let self := { self with cmd := { self.cmd with optpos := 1 } }
  let self := { self with emsh_optind := 1 }
  let argv ← emsh_cmd_argv_strings cfg self
  let r := exec self.cmd.argc argv
    { running := self.running, optpos := self.cmd.optpos, emsh_optarg := self.emsh_optarg,
      emsh_opterr := self.emsh_opterr, emsh_optind := self.emsh_optind,
      emsh_optopt := self.emsh_optopt }
  pure { self with
    running := r.1.running
    cmd := { self.cmd with optpos := r.1.optpos }
    emsh_optarg := r.1.emsh_optarg
    emsh_opterr := r.1.emsh_opterr
    emsh_optind := r.1.emsh_optind
    emsh_optopt := r.1.emsh_optopt
    out := self.out ++ r.2
    execs := self.execs ++ [(self.cmd.argc, argv)] }

/-- The loop of `emsh_cmd_restore` from index `i`, with `k` iterations left. -/
def emsh_cmd_restore_loop (cfg : emsh_tunables) (data : Nat) :
    Nat → Nat → emsh_mem → Option emsh_mem
  | 0, _, m => some m
  | k + 1, i, m => do
    let ch ← mem_read cfg m data i
    let m ← if ch = 0 then mem_write cfg m data i 0x20 else pure m
    emsh_cmd_restore_loop cfg data k (i + 1) m

/-- Model of `emsh_cmd_restore`. -/
def emsh_cmd_restore (cfg : emsh_tunables) (self : emsh_t) : Option emsh_t := do
  let size := emsh_buf_size self.buf
  let data := emsh_buf_data self.buf
  let m ← emsh_cmd_restore_loop cfg data size 0 self.hist.mem
  pure { self with hist := { self.hist with mem := m } }

/-- The bytes of the literal `"emsh: Argument list too long."`. -/
def emsh_s_arg_list_too_long : List Nat :=
  [0x65, 0x6d, 0x73, 0x68, 0x3a, 0x20, 0x41, 0x72, 0x67, 0x75, 0x6d, 0x65, 0x6e, 0x74, 0x20,
   0x6c, 0x69, 0x73, 0x74, 0x20, 0x74, 0x6f, 0x6f, 0x20, 0x6c, 0x6f, 0x6e, 0x67, 0x2e]

/-- Model of `emsh_cmd_run`: the engine after the call and the returned flag. -/
def emsh_cmd_run (cfg : emsh_tunables) (exec : emsh_exec_t) (self : emsh_t) :
    Option (emsh_t × Bool) := do
  let self ← emsh_cmd_split cfg self
  let self ←
    if self.cmd.argc = 0 then pure self
    else if self.cmd.argc ≤ cfg.EMSH_MAX_N_ARGS then emsh_cmd_exec cfg exec self
    else pure (emsh_write_str self (emsh_s_arg_list_too_long ++ cfg.EMSH_S_NEWLINE))
  let self ← emsh_cmd_restore cfg self
  pure (self, self.cmd.argc != 0)

/-- Model of `emsh_do_commit`. -/
def emsh_do_commit (cfg : emsh_tunables) (exec : emsh_exec_t) (self : emsh_t) :
    Option emsh_t := do
  let self := emsh_write_newline cfg self
  let (self, ran) ← emsh_cmd_run cfg exec self
  let self ←
    if ran then do
      let hist ← emsh_hist_commit cfg self.hist
      let self := { self with hist := hist }
      let data ← emsh_hist_current self.hist
      let buf ← emsh_buf_init cfg self.hist.mem data cfg.EMSH_MAX_LINE_SIZE
      pure { self with buf := buf }
    else pure self
  if self.running then pure (emsh_write_prompt cfg self) else pure self

/-- Model of `emsh_do_insert`. -/
def emsh_do_insert (cfg : emsh_tunables) (self : emsh_t) (c : Nat) : Option emsh_t :=
  if emsh_buf_size self.buf < emsh_buf_capacity self.buf then do
    let (buf, m) ← emsh_buf_insert cfg self.buf self.hist.mem c
    let self := { self with buf := buf, hist := { self.hist with mem := m } }
    let self := emsh_write_char self c
    emsh_disp_refresh_cur_to_eol cfg self
  else pure self

/-- Model of `emsh_do_erase`. -/
def emsh_do_erase (cfg : emsh_tunables) (self : emsh_t) : Option emsh_t :=
  if emsh_buf_pos self.buf != emsh_buf_size self.buf then do
    let (buf, m) ← emsh_buf_erase cfg self.buf self.hist.mem
    let self := { self with buf := buf, hist := { self.hist with mem := m } }
    emsh_disp_refresh_cur_to_eol cfg self
  else pure self

/-- Model of `emsh_do_cuu` (cursor up). -/
def emsh_do_cuu (cfg : emsh_tunables) (self : emsh_t) : Option emsh_t := do
  let hist ← emsh_hist_move_backward self.hist
  emsh_disp_refresh_line cfg { self with hist := hist }

/-- Model of `emsh_do_cud` (cursor down). -/
def emsh_do_cud (cfg : emsh_tunables) (self : emsh_t) : Option emsh_t := do
  let hist ← emsh_hist_move_forward self.hist
  emsh_disp_refresh_line cfg { self with hist := hist }

/-- Model of `emsh_do_cuf` (cursor forward). -/
def emsh_do_cuf (self : emsh_t) : Option emsh_t :=
  if emsh_buf_pos self.buf < emsh_buf_size self.buf then emsh_cur_move_forward self
  else pure self

/-- Model of `emsh_do_cub` (cursor back). -/
def emsh_do_cub (self : emsh_t) : Option emsh_t :=
  if emsh_buf_pos self.buf > 0 then emsh_cur_move_backward self else pure self

/-- Model of `emsh_do_bs` (backspace). -/
def emsh_do_bs (cfg : emsh_tunables) (self : emsh_t) : Option emsh_t :=
  if emsh_buf_pos self.buf > 0 then do
    let self ← emsh_do_cub self
    emsh_do_erase cfg self
  else pure self

/-- Model of `emsh_do_sol` (start of line). -/
def emsh_do_sol (cfg : emsh_tunables) (self : emsh_t) : Option emsh_t :=
  emsh_cur_set_pos cfg self 0

/-- Model of `emsh_do_eol` (end of line). -/
def emsh_do_eol (cfg : emsh_tunables) (self : emsh_t) : Option emsh_t :=
  emsh_cur_set_pos cfg self (emsh_buf_size self.buf)

/-- Model of `emsh_init`. The storage `self` is uninitialised on entry; the block pool
`conf->blocks` is the storage carried by `self.hist`. -/
def emsh_init (cfg : emsh_tunables) (self : emsh_t) : Option emsh_t := do
  let hist ← emsh_hist_init cfg self.hist cfg.EMSH_MAX_HIST_SIZE
  let self := { self with hist := hist }
  let data ← emsh_hist_current self.hist
  let buf ← emsh_buf_init cfg self.hist.mem data cfg.EMSH_MAX_LINE_SIZE
  let self := { self with buf := buf }
  pure { self with ctlseq := { self.ctlseq with st := .INIT, interm_byte := 0x00 } }

/-- Model of `emsh_start`. -/
def emsh_start (cfg : emsh_tunables) (self : emsh_t) : emsh_t :=
  emsh_write_prompt cfg { self with running := true }

/-- Model of `emsh_stop`. -/
def emsh_stop (self : emsh_t) : emsh_t :=
  { self with running := false }

/-- Model of `emsh_running`. -/
def emsh_running (self : emsh_t) : Bool := self.running

/-- The `switch (c)` of `emsh_task`, taken when the state machine is in `INIT`. -/
def emsh_task_key (cfg : emsh_tunables) (exec : emsh_exec_t) (self : emsh_t) (c : Nat) :
    Option emsh_t :=
  if c = ASCII_C_CR then pure self
  else if c = ASCII_C_LF then emsh_do_commit cfg exec self
  else if c = ASCII_C_BS ∨ c = ASCII_C_DEL then emsh_do_bs cfg self
  else if c = ASCII_CNTRL 0x41 then emsh_do_sol cfg self
  else if c = ASCII_CNTRL 0x42 then emsh_do_cub self
  else if c = ASCII_CNTRL 0x44 then emsh_do_erase cfg self
  else if c = ASCII_CNTRL 0x45 then emsh_do_eol cfg self
  else if c = ASCII_CNTRL 0x46 then emsh_do_cuf self
  else if c = ASCII_CNTRL 0x4E then emsh_do_cud cfg self
  else if c = ASCII_CNTRL 0x50 then emsh_do_cuu cfg self
  else if ascii_isprint c then emsh_do_insert cfg self c
  else pure self

/-- The `case CTLSEQ_EV_FINAL` of `emsh_task`. -/
def emsh_task_final (cfg : emsh_tunables) (self : emsh_t) (c : Nat) : Option emsh_t :=
  if self.ctlseq.interm_byte = 0x00 then
    if c = 0x41 then emsh_do_cuu cfg self
    else if c = 0x42 then emsh_do_cud cfg self
    else if c = 0x43 then emsh_do_cuf self
    else if c = 0x44 then emsh_do_cub self
    else if c = 0x7E then
      if self.ctlseq.param_byte = 0x31 then emsh_do_sol cfg self
      else if self.ctlseq.param_byte = 0x32 then pure self
      else if self.ctlseq.param_byte = 0x33 then emsh_do_erase cfg self
      else if self.ctlseq.param_byte = 0x34 then emsh_do_eol cfg self
      else pure self
    else pure self
  else pure self

/-- Model of `emsh_task`. -/
def emsh_task (cfg : emsh_tunables) (exec : emsh_exec_t) (self : emsh_t) (c : Nat) :
    Option emsh_t :=
  let r := ctlseq_sm self.ctlseq.st c
  let ev := r.2.1
  let self := { self with ctlseq := { self.ctlseq with st := r.1 } }
  if self.ctlseq.st = .INIT then emsh_task_key cfg exec self c
  else
    match ev with
    | .NONE =>
      if self.ctlseq.st = .PARAM then
        pure { self with ctlseq := { self.ctlseq with param_byte := 0xFF } }
      else if self.ctlseq.st = .INTERM then
        pure { self with ctlseq := { self.ctlseq with interm_byte := 0xFF } }
      else pure self
    | .ESC =>
      pure { self with ctlseq := { self.ctlseq with param_byte := 0x00, interm_byte := 0x00 } }
    | .CSI => pure self
    | .PARAM => pure { self with ctlseq := { self.ctlseq with param_byte := c } }
    | .INTERM => pure { self with ctlseq := { self.ctlseq with interm_byte := c } }
    | .FINAL => emsh_task_final cfg self c
    | .ILSEQ => pure self

/-- Feeding a byte string to the engine, one `emsh_task` call per byte. -/
def emsh_feed (cfg : emsh_tunables) (exec : emsh_exec_t) : emsh_t → List Nat → Option emsh_t
  | self, [] => some self
  | self, c :: cs => (emsh_task cfg exec self c).bind (fun s => emsh_feed cfg exec s cs)

/-! ## emsh.c: the option scanner (`EMSH_ENABLE_GETOPT`)

A string `const char *` is given by the bytes before its terminator; `argv` is the
array of these pointers, `none` being the null pointer. A `char` is its byte value
(a natural number), the `int` variables `emsh_optind`, `emsh_opterr`, `emsh_optopt`
and the returned value are unbounded integers, and `emsh_optarg` is the string it
points to. A read outside a string or outside `argv` is undefined (`none`). -/

/-- The byte `str[i]` of a NUL-terminated string; an index past the terminator is
outside the array. -/
def c_str_at (str : List Nat) (i : Nat) : Option Nat := (str ++ [0])[i]?

/-- The scan of `strchr` over the bytes from index `i` on. -/
def c_strchr_from : List Nat → Nat → Nat → Option Nat
  | [], c, i => if c = 0 then some i else none
  | x :: xs, c, i =>
    if x = c then some i else if x = 0 then none else c_strchr_from xs c (i + 1)

/-- Model of `strchr(str, c)`: the index of the first byte equal to `c`, the
terminator included; `none` is the null pointer. -/
def c_strchr (str : List Nat) (c : Nat) : Option Nat := c_strchr_from str c 0

/-- Model of `argv[i]` for an `int` index `i`; an index outside the array is
undefined. -/
def c_argv (argv : List (Option (List Nat))) (i : Int) : Option (Option (List Nat)) :=
  if 0 ≤ i then argv[i.toNat]? else none

/-- The bytes of the literal `"option requires an argument"`. -/
def emsh_s_option_requires_an_argument : List Nat :=
  [0x6f, 0x70, 0x74, 0x69, 0x6f, 0x6e, 0x20, 0x72, 0x65, 0x71, 0x75, 0x69, 0x72, 0x65, 0x73, 0x20, 0x61, 0x6e, 0x20, 0x61, 0x72, 0x67, 0x75, 0x6d, 0x65, 0x6e, 0x74]

/-- The bytes of the literal `"illegal option"`. -/
def emsh_s_illegal_option : List Nat :=
  [0x69, 0x6c, 0x6c, 0x65, 0x67, 0x61, 0x6c, 0x20, 0x6f, 0x70, 0x74, 0x69, 0x6f, 0x6e]

/-- Model of `_emsh_write_getopt_error`. -/
def emsh_write_getopt_error (cfg : emsh_tunables) (self : emsh_t) (name : Option (List Nat))
    (msg : List Nat) (msglen : Nat) : Option emsh_t :=
  if self.emsh_opterr != 0 then do
    let name ← name
    let self := emsh_write_str self name
    let self := emsh_write_str self [0x3A, 0x20]
    let self := emsh_write_strn self msg msglen
    let self := emsh_write_str self [0x20, 0x2D, 0x2D, 0x20]
    let self := emsh_write_char self self.emsh_optopt.toNat
    pure (emsh_write_newline cfg self)
  else pure self

/-- The statements of `emsh_getopt` from `if (p != NULL)` to the end, with
`p = strchr(optstring, c)`. -/
def emsh_getopt_opt (cfg : emsh_tunables) (self : emsh_t) (argc : Int)
    (argv : List (Option (List Nat))) (optstring : List Nat) (c : Nat) (last : Bool) :
    Option (emsh_t × Int) :=
  match c_strchr optstring c with
  | some i => do
    let p1 ← c_str_at optstring (i + 1)
    if p1 = 0x3A then
      if last = true ∧ self.emsh_optind < argc then do
        let a ← c_argv argv self.emsh_optind
        pure ({ self with emsh_optarg := a, emsh_optind := self.emsh_optind + 1 }, (c : Int))
      else do
        let self := { self with emsh_optopt := (c : Int) }
        let o0 ← c_str_at optstring 0
        if o0 = 0x3A then pure (self, 0x3A)
        else do
          let name ← c_argv argv 0
          let self ← emsh_write_getopt_error cfg self name emsh_s_option_requires_an_argument
            emsh_s_option_requires_an_argument.length
          pure (self, 0x3F)
    else pure (self, (c : Int))
  | none => do
    let self := { self with emsh_optopt := (c : Int) }
    let o0 ← c_str_at optstring 0
    if o0 ≠ 0x3A then do
      let name ← c_argv argv 0
      let self ← emsh_write_getopt_error cfg self name emsh_s_illegal_option
        emsh_s_illegal_option.length
      pure (self, 0x3F)
    else pure (self, 0x3F)

/-- The statements of `emsh_getopt` from `int c = argv[emsh_optind][self->cmd.optpos]`
to the end, `arg` being `argv[emsh_optind]` on entry. -/
def emsh_getopt_scan (cfg : emsh_tunables) (self : emsh_t) (argc : Int)
    (argv : List (Option (List Nat))) (optstring : List Nat) (arg : List Nat) :
    Option (emsh_t × Int) := do
  let c ← c_str_at arg self.cmd.optpos
  let self := { self with cmd := { self.cmd with optpos := self.cmd.optpos + 1 } }
  let e ← c_str_at arg self.cmd.optpos
  let last := decide (e = 0x00)
  let self :=
    if last then
      { self with emsh_optind := self.emsh_optind + 1, cmd := { self.cmd with optpos := 1 } }
    else self
  emsh_getopt_opt cfg self argc argv optstring c last

/-- Model of `emsh_getopt`: the engine after the call and the returned value. -/
def emsh_getopt (cfg : emsh_tunables) (self : emsh_t) (argc : Int)
    (argv : List (Option (List Nat))) (optstring : List Nat) : Option (emsh_t × Int) :=
  if self.emsh_optind ≥ argc then pure (self, -1)
  else do
    let a ← c_argv argv self.emsh_optind
    match a with
    | none => pure (self, -1)
    | some arg => do
      let b0 ← c_str_at arg 0
      if b0 ≠ 0x2D then pure (self, -1)
      else do
        let b1 ← c_str_at arg 1
        if b1 = 0x00 then pure (self, -1)
        else do
          let dd ←
            if b1 = 0x2D then (c_str_at arg 2).map (fun b2 => decide (b2 = 0x00))
            else some false
          if dd then pure ({ self with emsh_optind := self.emsh_optind + 1 }, -1)
          else emsh_getopt_scan cfg self argc argv optstring arg

end Emsh

namespace Emsh

/-! ## numcast10.c: unsigned integer from string

`T` is an unsigned integer type of `w` bits: its values are the naturals below `2 ^ w`
and its arithmetic is taken modulo `2 ^ w`. `src` is the array `src` points to (the
header asks `src.count >= n_src`); a read beyond it has no result (`none`). `p_dst` is
a valid pointer and `p_n_consumed` is given, so that a successful call yields both the
value and the count. -/

/-- The `errno` values set by `numcast10_impl_fw_*`. -/
inductive c_errno where
  | EINVAL
  | ERANGE
  | EILSEQ
  deriving DecidableEq, Repr

/-- What a call of `numcast10_impl_fw_*` leaves: `ok` is `return 0` with `*p_dst` and
`*p_n_consumed`, `err` is `return -1` with `errno`. -/
inductive numcast10_fw_t where
  | ok (dst : Nat) (n_consumed : Nat)
  | err (errno : c_errno)
  deriving DecidableEq, Repr

/-- The `for` loop of `numcast10_impl_fw_*` from index `i` with the value `dst`,
`k = n_src - i` being the number of bytes left below `n_src`: the `(dst, i)` on leaving
the loop, or the early `return -1`. -/
def numcast10_fw_loop (w : Nat) (src : List Nat) (max_value max_value_10 : Nat) :
    Nat → Nat → Nat → Option (numcast10_fw_t)
  | 0, i, dst => some (.ok dst i)
  | k + 1, i, dst =>
    match src[i]? with
    | none => none
    | some ch =>
      if 0x30 ≤ ch ∧ ch ≤ 0x39 then
        if dst > max_value_10 then some (.err .ERANGE)
        else
          let dst := dst * 10 % 2 ^ w
          let a_i := (ch - 0x30) % 2 ^ w
          if dst > (max_value + 2 ^ w - a_i) % 2 ^ w then some (.err .ERANGE)
          else numcast10_fw_loop w src max_value max_value_10 k (i + 1) ((dst + a_i) % 2 ^ w)
      else some (.ok dst i)

/-- Model of `numcast10_impl_fw_*` for an unsigned type of `w` bits (`src = none` is the
null pointer). -/
def numcast10_impl_fw (w : Nat) (src : Option (List Nat)) (n_src max_value max_value_10 : Nat) :
    Option (numcast10_fw_t) :=
  if src.isNone ∧ n_src ≠ 0 then some (.err .EINVAL)
  else
    match numcast10_fw_loop w (src.getD []) max_value max_value_10 n_src 0 0 with
    | some (.ok dst i) => if i = 0 then some (.err .EILSEQ) else some (.ok dst i)
    | r => r

/-- Model of `NUMCAST10_IMPL_FW_FUNC_EXEC_IF_FITS`, the body of every `numcast10_to_*`:
the call of the `w`-bit implementation with `(T)(max_value)` and `(T)(max_value) / 10`. -/
def numcast10_to (w : Nat) (src : Option (List Nat)) (n_src max_value : Nat) :
    Option (numcast10_fw_t) :=
  numcast10_impl_fw w src n_src (max_value % 2 ^ w) (max_value % 2 ^ w / 10)

end Emsh

namespace Emsh

/-! ## numcast10.h: the buffer size -/

/-- Model of `NUMCAST10_SIZE_OF(T)` for a type `T` of `bits = CHAR_BIT * sizeof(T)`
bits: `(size_t)(bits * 0.3010299956639812 + 1)`, the conversion to `size_t` dropping
the fraction. The decimal constant is taken exactly; for the widths 8, 16, 32 and 64
the product is not within 0.1 of an integer, so the rounding of the `double`
arithmetic does not change the result. -/
def NUMCAST10_SIZE_OF (bits : Nat) : Nat :=
  (bits * 3010299956639812 + 10000000000000000) / 10000000000000000

/-- The number of elements of the local `buf` of `emsh_write_ctlseq_1`,
`2+NUMCAST10_SIZE_OF(uint_fast32_t)+1+1`, for a `uint_fast32_t` of `bits` bits. -/
def emsh_write_ctlseq_1_bufsize (bits : Nat) : Nat := 2 + NUMCAST10_SIZE_OF bits + 1 + 1

/-- The local `buf` of `emsh_write_ctlseq_1` when it is handed to `emsh_write_strn`,
and `len`. -/
def emsh_write_ctlseq_1_buf (param_val interm_byte final_byte : Nat) : List Nat × Nat :=
  -- CSI
  let buf := [CTLSEQ_C_CSI_1, CTLSEQ_C_CSI_2]
  -- P ... P
  let buf := buf ++ numcast10_impl_bw param_val
  -- (I)
  let buf := if interm_byte != 0x00 then buf ++ [interm_byte] else buf
  -- F
  let buf := buf ++ [final_byte]
  (buf, buf.length)

end Emsh

namespace Emsh

/-! ## Specification predicates -/

/-- A step of the recogniser that stays inside an unfinished sequence. -/
def ctlseq_pending (x : ctlseq_st_t × ctlseq_ev_t) : Prop :=
  (x.1 = .ESC ∨ x.1 = .CSI ∨ x.1 = .PARAM ∨ x.1 = .INTERM) ∧ x.2 ≠ .ILSEQ ∧ x.2 ≠ .FINAL

/-- The nodes `a` and `b` are neighbours: `a->next == b` and `b->prev == a`. -/
def list_links (h : list_heap) (a b : list_ptr) : Prop :=
  (h a).next = some b ∧ (h b).prev = some a

/-- The nodes `a, l, b` are chained in this order, each with its neighbours. -/
def list_seg (h : list_heap) : list_ptr → List list_ptr → list_ptr → Prop
  | a, [], b => list_links h a b
  | a, x :: l, b => list_links h a x ∧ list_seg h x l b

/-- The circular list with head `s` holds exactly the nodes `l`, front to back. -/
def list_is (h : list_heap) (s : list_ptr) (l : List list_ptr) : Prop :=
  list_seg h s l s ∧ (s :: l).Nodup

/-- The history ring is well formed, with active blocks `al` (the draft first,
then the committed entries, newest first) and free blocks `fl`. -/
def emsh_hist_inv (self : emsh_hist_t) (al fl : List Nat) : Prop :=
  list_is self.node .list (al.map .block) ∧
  list_is self.node .free_list (fl.map .block) ∧
  (al ++ fl).Perm (List.range self.capacity) ∧
  self.size = al.length ∧
  self.pos < al.length ∧
  self.cur = (al[self.pos]?).map .block

/-- The nodes on the active list, front to back. -/
def emsh_hist_active (self : emsh_hist_t) : List list_ptr :=
  list_nodes self.node .list (self.capacity + 1)

/-- The nodes on the free list, front to back. -/
def emsh_hist_free (self : emsh_hist_t) : List list_ptr :=
  list_nodes self.node .free_list (self.capacity + 1)

/-- The operations on the history ring after `emsh_hist_init`. -/
inductive emsh_hist_op where
  | commit
  | move_backward
  | move_forward
  deriving DecidableEq, Repr

/-- One operation on the history ring. -/
def emsh_hist_step (cfg : emsh_tunables) (self : emsh_hist_t) : emsh_hist_op → Option emsh_hist_t
  | .commit => emsh_hist_commit cfg self
  | .move_backward => emsh_hist_move_backward self
  | .move_forward => emsh_hist_move_forward self

/-- A sequence of operations on the history ring. -/
def emsh_hist_run (cfg : emsh_tunables) : emsh_hist_t → List emsh_hist_op → Option emsh_hist_t
  | self, [] => some self
  | self, op :: ops => (emsh_hist_step cfg self op).bind (fun s => emsh_hist_run cfg s ops)

/-- The ring of scenario E4 in a pool of 5 blocks, after committing `one`,
`two`, `three` (blocks 0, 1, 2; the draft is block 3) and moving back twice. -/
def emsh_hist_E4 : emsh_hist_t where
  capacity := 5
  size := 4
  pos := 2
  cur := some (.block 1)
  node := fun p =>
    match p with
    | .list => ⟨some (.block 0), some (.block 3)⟩
    | .free_list => ⟨some (.block 4), some (.block 4)⟩
    | .block 0 => ⟨some (.block 1), some .list⟩
    | .block 1 => ⟨some (.block 2), some (.block 0)⟩
    | .block 2 => ⟨some (.block 3), some (.block 1)⟩
    | .block 3 => ⟨some .list, some (.block 2)⟩
    | .block 4 => ⟨some .free_list, some .free_list⟩
    | .block _ => ⟨none, none⟩
  mem := fun b i =>
    match b with
    | 0 => [0x6F, 0x6E, 0x65].getD i 0
    | 1 => [0x74, 0x77, 0x6F].getD i 0
    | 2 => [0x74, 0x68, 0x72, 0x65, 0x65].getD i 0
    | _ => 0

/-- A ring over a pool of 2 blocks right after `emsh_hist_init`: block 0 is the
draft, block 1 is free. -/
def emsh_hist_fresh2 : emsh_hist_t where
  capacity := 2
  size := 1
  pos := 0
  cur := some (.block 0)
  node := fun p =>
    match p with
    | .list => ⟨some (.block 0), some (.block 0)⟩
    | .free_list => ⟨some (.block 1), some (.block 1)⟩
    | .block 0 => ⟨some .list, some .list⟩
    | .block 1 => ⟨some .free_list, some .free_list⟩
    | .block _ => ⟨none, none⟩
  mem := fun b i =>
    match b with
    | 0 => [0x68, 0x69].getD i 0
    | _ => 0

/-- A full ring over a pool of 2 blocks with the cursor on the draft (block 1);
block 0 holds the committed line `hi`. -/
def emsh_hist_full2 : emsh_hist_t where
  capacity := 2
  size := 2
  pos := 0
  cur := some (.block 1)
  node := fun p =>
    match p with
    | .list => ⟨some (.block 0), some (.block 1)⟩
    | .free_list => ⟨some .free_list, some .free_list⟩
    | .block 0 => ⟨some (.block 1), some .list⟩
    | .block 1 => ⟨some .list, some (.block 0)⟩
    | .block _ => ⟨none, none⟩
  mem := fun b i =>
    match b with
    | 0 => [0x68, 0x69].getD i 0
    | 1 => [0x6C, 0x73].getD i 0
    | _ => 0

/-- The stored bytes of a line: `blocks[data].mem[0 .. size-1]`. -/
def emsh_line (m : emsh_mem) (data size : Nat) : List Nat :=
  (List.range size).map (m data)

/-- The maximal runs of non-space bytes of a line, in order. -/
def emsh_words (line : List Nat) : List (List Nat) :=
  (line.splitOn 0x20).filter (fun w => decide (w ≠ []))

/-- The bytes `a i, ..., a (j-1)` of an array. -/
def c_bytes (a : Nat → Nat) (i j : Nat) : List Nat :=
  (List.range' i (j - i)).map a

/-- The line held by the line buffer of the engine. -/
def emsh_buf_line (self : emsh_t) : List Nat :=
  emsh_line self.hist.mem self.buf.array.data self.buf.array.size

/-- An engine state whose line buffer, bound to block 0 of a pool of 2 blocks,
holds the given line (NUL-terminated, caret at the end). -/
def emsh_sample (line : List Nat) : emsh_t where
  running := true
  hist := { emsh_hist_fresh2 with mem := fun b i => if b = 0 then line.getD i 0 else 0 }
  buf := { array := { capacity := 77, offset := 0, size := line.length, data := 0 },
           pos := line.length }
  ctlseq := { st := .INIT, param_byte := 0, interm_byte := 0 }
  cmd := { optpos := 1, argc := 0, argv := fun _ => { block := 0, off := 0 } }
  emsh_optarg := none
  emsh_opterr := 1
  emsh_optind := 1
  emsh_optopt := 0
  out := []
  execs := []

/-- The array `a` holds a line of length `n`: printable bytes below `n`, NUL at
`n`, and `n` within the line capacity. -/
def emsh_text_ok (cfg : emsh_tunables) (a : Nat → Nat) (n : Nat) : Prop :=
  n ≤ cfg.EMSH_MAX_LINE_SIZE ∧ a n = 0 ∧ ∀ i, i < n → 0x20 ≤ a i ∧ a i ≤ 0x7E

/-- The engine invariant: the history ring is well formed with active blocks
`al` and free blocks `fl`, every active block holds a line, and the line buffer
is bound to the block under the cursor with its length and a caret inside it. -/
def emsh_inv (cfg : emsh_tunables) (self : emsh_t) (al fl : List Nat) : Prop :=
  emsh_hist_inv self.hist al fl ∧
  (∀ b ∈ al, ∃ n, emsh_text_ok cfg (self.hist.mem b) n) ∧
  self.hist.cur = some (.block self.buf.array.data) ∧
  self.buf.array.capacity = cfg.EMSH_MAX_LINE_SIZE ∧
  self.buf.array.offset = 0 ∧
  emsh_text_ok cfg (self.hist.mem self.buf.array.data) self.buf.array.size ∧
  self.buf.pos ≤ self.buf.array.size

/-- The engine state `s'` differs from `s` at most in the bytes written so far. -/
def emsh_only_out (s s' : emsh_t) : Prop :=
  ∃ o, s' = { s with out := o }

/-- The history `h` with the cursor moved to position `p` of the active list `al`. -/
def emsh_hist_at (h : emsh_hist_t) (al : List Nat) (p : Nat) : emsh_hist_t :=
  { h with pos := p, cur := (al[p]?).map .block }

/-- A history-backward keystroke: Ctrl-P, or the cursor-up sequence ESC [ A. -/
def emsh_key_backward (k : List Nat) : Prop :=
  k = [ASCII_CNTRL 0x50] ∨ k = [CTLSEQ_C_CSI_1, CTLSEQ_C_CSI_2, 0x41]

instance (k : List Nat) : Decidable (emsh_key_backward k) :=
  inferInstanceAs (Decidable (k = [ASCII_CNTRL 0x50] ∨ k = [CTLSEQ_C_CSI_1, CTLSEQ_C_CSI_2, 0x41]))

/-- A history-forward keystroke: Ctrl-N, or the cursor-down sequence ESC [ B. -/
def emsh_key_forward (k : List Nat) : Prop :=
  k = [ASCII_CNTRL 0x4E] ∨ k = [CTLSEQ_C_CSI_1, CTLSEQ_C_CSI_2, 0x42]

instance (k : List Nat) : Decidable (emsh_key_forward k) :=
  inferInstanceAs (Decidable (k = [ASCII_CNTRL 0x4E] ∨ k = [CTLSEQ_C_CSI_1, CTLSEQ_C_CSI_2, 0x42]))

/-- An executor that changes nothing and writes nothing. -/
def emsh_exec_none : emsh_exec_t := fun _ _ v => (v, [])

/-- An engine state over a pool of 2 blocks: the committed line `hi` in block 0,
the draft `ls` in block 1 under the cursor, the caret after the `l`. -/
def emsh_nav_sample : emsh_t :=
  { emsh_sample [] with hist := emsh_hist_full2, buf := ⟨⟨77, 0, 2, 1⟩, 1⟩ }

/-- The bytes written for a string literal: those before its first NUL. -/
def c_lit (str : List Nat) : List Nat := str.take (c_strlen_lit str)

/-- The engine state an executor finds on entry when `emsh_cmd_exec` is reached in
state `s`. -/
def emsh_exec_entry (s : emsh_t) : emsh_exec_view :=
  { running := s.running, optpos := 1, emsh_optarg := s.emsh_optarg,
    emsh_opterr := s.emsh_opterr, emsh_optind := 1, emsh_optopt := s.emsh_optopt }

/-- The option-scanner variables and the sub-position of `s'` are those of the
executor view `v`. -/
def emsh_opts_of (s' : emsh_t) (v : emsh_exec_view) : Prop :=
  s'.cmd.optpos = v.optpos ∧ s'.emsh_optarg = v.emsh_optarg ∧ s'.emsh_opterr = v.emsh_opterr ∧
  s'.emsh_optind = v.emsh_optind ∧ s'.emsh_optopt = v.emsh_optopt

/-- The option-scanner variables and the sub-position are the same in `s` and `s'`. -/
def emsh_opts_same (s s' : emsh_t) : Prop :=
  s'.cmd.optpos = s.cmd.optpos ∧ s'.emsh_optarg = s.emsh_optarg ∧
  s'.emsh_opterr = s.emsh_opterr ∧ s'.emsh_optind = s.emsh_optind ∧
  s'.emsh_optopt = s.emsh_optopt

/-- The history of `s'` is the committed history of `s` and the line buffer of `s'` is
bound to its new draft, which is empty (length 0, caret 0). -/
def emsh_committed (cfg : emsh_tunables) (s s' : emsh_t) : Prop :=
  emsh_hist_commit cfg s.hist = some s'.hist ∧
  ∃ f, s'.hist.cur = some (.block f) ∧ s'.hist.pos = 0 ∧ s'.hist.mem f 0 = 0 ∧
    s'.buf = ⟨⟨cfg.EMSH_MAX_LINE_SIZE, 0, 0, f⟩, 0⟩

/-- An executor that reports what it finds in the option-scanner variables on entry
(`opterr`, `optopt`, whether `optarg` is non-null, `optind`, the sub-position) and
leaves `opterr = 0`, `optopt = 'x'` and `optarg = "x"` behind. -/
def emsh_exec_probe : emsh_exec_t := fun _ _ v =>
  ({ v with emsh_opterr := 0, emsh_optopt := 0x78, emsh_optarg := some [0x78] },
   [v.emsh_opterr.toNat, v.emsh_optopt.toNat, if v.emsh_optarg = none then 0 else 1,
    v.emsh_optind.toNat, v.optpos])

/-- The line `a a a a a a a a a a a` of 11 words. -/
def emsh_line_11 : List Nat :=
  [0x61, 0x20, 0x61, 0x20, 0x61, 0x20, 0x61, 0x20, 0x61, 0x20, 0x61, 0x20, 0x61, 0x20, 0x61,
   0x20, 0x61, 0x20, 0x61, 0x20, 0x61]

/-! ### The option scanner -/

/-- The element of `argv` in which a call of the option scanner reads an option
character: `argv[optind]`, when `optind < argc` and the element starts with `-`
and is neither `-` nor `--`. -/
def getopt_element (optind argc : Int) (argv : List (Option (List Nat))) : Option (List Nat) :=
  if 0 ≤ optind ∧ optind < argc then
    match argv[optind.toNat]? with
    | some (some arg) =>
      if arg.head? = some 0x2D ∧ arg ≠ [0x2D] ∧ arg ≠ [0x2D, 0x2D] then some arg else none
    | _ => none
  else none

/-- The option character `c` takes an argument: it occurs in `optstring` and its
first occurrence is followed by `:`. -/
def getopt_takes_arg (optstring : List Nat) (c : Nat) : Prop :=
  c ∈ optstring ∧ ((optstring.dropWhile (fun x => x != c)).drop 1).head? = some 0x3A

instance (optstring : List Nat) (c : Nat) : Decidable (getopt_takes_arg optstring c) :=
  inferInstanceAs (Decidable (c ∈ optstring ∧
    ((optstring.dropWhile (fun x => x != c)).drop 1).head? = some 0x3A))

/-- The arguments of a call of the option scanner are well formed: `optind` is not
negative, `argv` has `argc` elements, its strings hold no NUL before their
terminator, and the sub-position is inside the element to scan. -/
def getopt_valid (self : emsh_t) (argc : Int) (argv : List (Option (List Nat))) : Prop :=
  0 ≤ self.emsh_optind ∧ argc ≤ argv.length ∧
  (∀ arg, some arg ∈ argv → ∀ x ∈ arg, x ≠ 0) ∧
  1 ≤ self.cmd.optpos ∧
  ∀ arg, getopt_element self.emsh_optind argc argv = some arg → self.cmd.optpos < arg.length

/-- The offending option character and the message when a call reports an unknown
option or a missing option argument. -/
def getopt_error (self : emsh_t) (argc : Int) (argv : List (Option (List Nat)))
    (optstring : List Nat) : Option (Nat × List Nat) :=
  match getopt_element self.emsh_optind argc argv with
  | none => none
  | some arg =>
    if arg.getD self.cmd.optpos 0 ∉ optstring then
      some (arg.getD self.cmd.optpos 0, emsh_s_illegal_option)
    else if getopt_takes_arg optstring (arg.getD self.cmd.optpos 0) ∧
        ¬ (self.cmd.optpos + 1 = arg.length ∧ self.emsh_optind + 1 < argc) then
      some (arg.getD self.cmd.optpos 0, emsh_s_option_requires_an_argument)
    else none

/-- The diagnostic a call writes: `name`, `: `, the message, ` -- `, the offending
option character and the newline string, when an error is reported, `optstring`
does not start with `:` and `opterr` is not 0; nothing otherwise. -/
def getopt_diag (cfg : emsh_tunables) (self : emsh_t) (argc : Int)
    (argv : List (Option (List Nat))) (optstring : List Nat) (name : List Nat) : List Nat :=
  match getopt_error self argc argv optstring with
  | some (c, msg) =>
    if optstring.head? ≠ some 0x3A ∧ self.emsh_opterr ≠ 0 then
      name ++ [0x3A, 0x20] ++ msg ++ [0x20, 0x2D, 0x2D, 0x20] ++ [c] ++ c_lit cfg.EMSH_S_NEWLINE
    else []
  | none => []

/-- The state of the reference option scanner. -/
structure posix_getopt_t where
  optarg : Option (List Nat)
  optind : Int
  optopt : Int
  nextchar : Nat
  deriving DecidableEq, Repr

/-- Reference: one call of `getopt` as POSIX describes it. Returns -1 without
touching `optind` when `optind >= argc`, `argv[optind]` is null, does not start
with `-` or is `-`; returns -1 after incrementing `optind` on `--`. Otherwise it
takes the next option character `c`. A `c` that is `:` or not in `optstring` gives
`?` with `optopt = c`. If `c` takes an argument and is the last character of its
element, `optind` is incremented by 2; when the result does not exceed `argc`,
`optarg` is the next element and `c` is returned, and when it exceeds `argc` the
option argument is missing: the call gives `:` (when `optstring` starts with `:`)
or `?`, with `optopt = c`. If `c` takes an argument and is not the last
character, `optarg` is the rest of the element and `optind` is incremented by 1.
A variable that a call does not set (`optarg`, `optopt`) is left as it is. -/
def posix_getopt (st : posix_getopt_t) (argc : Int) (argv : List (Option (List Nat)))
    (optstring : List Nat) : posix_getopt_t × Int :=
  match getopt_element st.optind argc argv with
  | none =>
    if 0 ≤ st.optind ∧ st.optind < argc ∧ argv[st.optind.toNat]? = some (some [0x2D, 0x2D]) then
      ({ st with optind := st.optind + 1 }, -1)
    else (st, -1)
  | some arg =>
    let c := arg.getD st.nextchar 0
    let last := decide (st.nextchar + 1 = arg.length)
    let st1 : posix_getopt_t :=
      if last then { st with optind := st.optind + 1, nextchar := 1 }
      else { st with nextchar := st.nextchar + 1 }
    if c = 0x3A ∨ c ∉ optstring then ({ st1 with optopt := (c : Int) }, 0x3F)
    else if getopt_takes_arg optstring c then
      if last then
        if st1.optind < argc then
          ({ st1 with optarg := (argv[st1.optind.toNat]?).join, optind := st1.optind + 1 },
            (c : Int))
        else
          ({ st1 with optind := st1.optind + 1, optopt := (c : Int) },
            if optstring.head? = some 0x3A then 0x3A else 0x3F)
      else
        ({ st with optarg := some (arg.drop (st.nextchar + 1)), optind := st.optind + 1,
                   nextchar := 1 }, (c : Int))
    else (st1, (c : Int))

/-- The reference call in state `st` detects a missing option argument: it reads
an option character that takes an argument as the last character of its element,
and there is no next element. -/
def posix_getopt_missing (st : posix_getopt_t) (argc : Int)
    (argv : List (Option (List Nat))) (optstring : List Nat) : Bool :=
  match getopt_element st.optind argc argv with
  | none => false
  | some arg =>
    decide (arg.getD st.nextchar 0 ≠ 0x3A ∧ getopt_takes_arg optstring (arg.getD st.nextchar 0) ∧
      st.nextchar + 1 = arg.length ∧ ¬ st.optind + 1 < argc)

/-- The reference call in state `st` reads `:` as an option character that occurs
in `optstring`, or an option character that takes an argument and is followed by
more characters in its element, or it detects a missing option argument. -/
def posix_getopt_special (st : posix_getopt_t) (argc : Int)
    (argv : List (Option (List Nat))) (optstring : List Nat) : Bool :=
  match getopt_element st.optind argc argv with
  | none => false
  | some arg =>
    decide ((arg.getD st.nextchar 0 = 0x3A ∧ 0x3A ∈ optstring) ∨
      (getopt_takes_arg optstring (arg.getD st.nextchar 0) ∧ st.nextchar + 1 ≠ arg.length) ∨
      (getopt_takes_arg optstring (arg.getD st.nextchar 0) ∧ st.nextchar + 1 = arg.length ∧
        ¬ st.optind + 1 < argc))

/-- The reference state after `n` calls from `st`. -/
def posix_getopt_run (argc : Int) (argv : List (Option (List Nat))) (optstring : List Nat) :
    Nat → posix_getopt_t → posix_getopt_t
  | 0, st => st
  | n + 1, st => posix_getopt_run argc argv optstring n (posix_getopt st argc argv optstring).1

/-- None of the first `n` reference calls from `st` is special. -/
def posix_getopt_plain (argc : Int) (argv : List (Option (List Nat))) (optstring : List Nat) :
    Nat → posix_getopt_t → Bool
  | 0, _ => true
  | n + 1, st =>
    !posix_getopt_special st argc argv optstring &&
      posix_getopt_plain argc argv optstring n (posix_getopt st argc argv optstring).1

/-- The return value and `optarg`, `optind`, `optopt` after each of the first `n`
calls of `emsh_getopt`. -/
def emsh_getopt_calls (cfg : emsh_tunables) (argc : Int) (argv : List (Option (List Nat)))
    (optstring : List Nat) : Nat → emsh_t → Option (List (Int × Option (List Nat) × Int × Int))
  | 0, _ => some []
  | n + 1, self => do
    let r ← emsh_getopt cfg self argc argv optstring
    let rest ← emsh_getopt_calls cfg argc argv optstring n r.1
    pure ((r.2, r.1.emsh_optarg, r.1.emsh_optind, r.1.emsh_optopt) :: rest)

/-- The return value and `optarg`, `optind`, `optopt` after each of the first `n`
calls of the reference. -/
def posix_getopt_calls (argc : Int) (argv : List (Option (List Nat))) (optstring : List Nat) :
    Nat → posix_getopt_t → List (Int × Option (List Nat) × Int × Int)
  | 0, _ => []
  | n + 1, st =>
    let r := posix_getopt st argc argv optstring
    (r.2, r.1.optarg, r.1.optind, r.1.optopt) :: posix_getopt_calls argc argv optstring n r.1

/-- The command line `greet -m -c Hello World` of scenario E5. -/
def emsh_argv_E5 : List (Option (List Nat)) :=
  [some [0x67, 0x72, 0x65, 0x65, 0x74], some [0x2D, 0x6D], some [0x2D, 0x63],
   some [0x48, 0x65, 0x6C, 0x6C, 0x6F], some [0x57, 0x6F, 0x72, 0x6C, 0x64]]

/-- The option string `maenc:` of scenario E5. -/
def emsh_optstring_E5 : List Nat := [0x6D, 0x61, 0x65, 0x6E, 0x63, 0x3A]

/-- The command line `p -x`. -/
def emsh_argv_px : List (Option (List Nat)) := [some [0x70], some [0x2D, 0x78]]

/-- The command line `p -c`. -/
def emsh_argv_pc : List (Option (List Nat)) := [some [0x70], some [0x2D, 0x63]]

/-- The command line `p -cHi`. -/
def emsh_argv_pcHi : List (Option (List Nat)) := [some [0x70], some [0x2D, 0x63, 0x48, 0x69]]

/-- The command line `p -:`. -/
def emsh_argv_pcolon : List (Option (List Nat)) := [some [0x70], some [0x2D, 0x3A]]

/-- The invariant of the option scanner between calls: well-formed arguments, and
the sub-position is 1 or lies inside the element being scanned. -/
def getopt_inv (self : emsh_t) (argc : Int) (argv : List (Option (List Nat))) : Prop :=
  0 ≤ self.emsh_optind ∧ argc ≤ argv.length ∧
  (∀ arg, some arg ∈ argv → ∀ x ∈ arg, x ≠ 0) ∧
  (self.cmd.optpos = 1 ∨
    ∃ arg, getopt_element self.emsh_optind argc argv = some arg ∧ 1 ≤ self.cmd.optpos ∧
      self.cmd.optpos < arg.length)

/-- The option-scanner variables of the engine `s` are those of the reference
state `p`. -/
def getopt_sim (s : emsh_t) (p : posix_getopt_t) : Prop :=
  s.emsh_optarg = p.optarg ∧ s.emsh_optind = p.optind ∧ s.emsh_optopt = p.optopt ∧
  s.cmd.optpos = p.nextchar

/-- The strings of the command line `greet -m -c Hello World` of scenario E5. -/
def emsh_args_E5 : List (List Nat) :=
  [[0x67, 0x72, 0x65, 0x65, 0x74], [0x2D, 0x6D], [0x2D, 0x63],
   [0x48, 0x65, 0x6C, 0x6C, 0x6F], [0x57, 0x6F, 0x72, 0x6C, 0x64]]

end Emsh

namespace Emsh

/-! ## Decimal strings -/

/-- A decimal digit byte, `'0'` to `'9'`. -/
def dec_digit (b : Nat) : Bool := decide (0x30 ≤ b) && decide (b ≤ 0x39)

/-- The number a string of decimal digits denotes, most significant digit first. -/
def dec_value (ds : List Nat) : Nat := ds.foldl (fun a d => a * 10 + (d - 0x30)) 0

/-- The longest prefix of a byte string that consists of decimal digits. -/
def dec_lead (src : List Nat) : List Nat := src.takeWhile dec_digit

/-- The byte string `ds` is the canonical decimal representation of `v`: not empty,
digits only, no leading zero unless it is the single digit zero, and denoting `v`. -/
def dec_canonical (v : Nat) (ds : List Nat) : Prop :=
  ds ≠ [] ∧ (∀ d ∈ ds, 0x30 ≤ d ∧ d ≤ 0x39) ∧ (ds.head? = some 0x30 → ds = [0x30]) ∧
    dec_value ds = v

/-! ## Emitted sequences -/

/-- The erase-in-line sequence `CSI K`. -/
def emsh_seq_el : List Nat := [0x1B, 0x5B, 0x4B]

/-- The cursor-back sequence for `n` columns: nothing for 0, `CSI D` for 1 (the
parameter 1 is elided), and `CSI n D` with `n` in decimal for a larger `n`. -/
def emsh_seq_cub (n : Nat) : List Nat :=
  if n = 0 then []
  else if n = 1 then [0x1B, 0x5B, 0x44]
  else [0x1B, 0x5B] ++ ((Nat.digits 10 n).map (· + 0x30)).reverse ++ [0x44]

/-- The bytes of refresh-from-caret-to-eol for a line and a caret: `CSI K`, the text
from the caret on, and the cursor-back sequence for the length of that text. -/
def emsh_seq_refresh (line : List Nat) (pos : Nat) : List Nat :=
  emsh_seq_el ++ line.drop pos ++ emsh_seq_cub (line.length - pos)

/-! ## Control sequences fed to the engine -/

/-- The completed control sequence `ESC [ P ... P I ... I F` with parameter bytes
`ps`, intermediate bytes `ints` and final byte `f`. -/
def csi_seq (ps ints : List Nat) (f : Nat) : List Nat := [0x1B, 0x5B] ++ ps ++ ints ++ [f]

/-- What the engine remembers of a string of parameter (or intermediate) bytes:
0x00 for none, the byte for exactly one, 0xFF for more than one. -/
def emsh_first_byte : List Nat → Nat
  | [] => 0x00
  | [b] => b
  | _ => 0xFF

/-- The engine state `s` on the completion of a control sequence with parameter
bytes `ps` and intermediate bytes `ints`, before the action of the final byte. -/
def emsh_at_final (s : emsh_t) (ps ints : List Nat) : emsh_t :=
  { s with ctlseq := ⟨.FINAL, emsh_first_byte ps, emsh_first_byte ints⟩ }

/-- A byte that is no keystroke in control state `INIT`: CR, or a byte that is
neither printable nor LF, BS, DEL, Ctrl-A, -B, -D, -E, -F, -N or -P. -/
def emsh_key_inert (c : Nat) : Prop :=
  c = 0x0D ∨
    (c ≠ 0x0A ∧ c ≠ 0x08 ∧ c ≠ 0x7F ∧ c ≠ 0x01 ∧ c ≠ 0x02 ∧ c ≠ 0x04 ∧ c ≠ 0x05 ∧ c ≠ 0x06 ∧
      c ≠ 0x0E ∧ c ≠ 0x10 ∧ ¬ (0x20 ≤ c ∧ c ≤ 0x7E))

instance (c : Nat) : Decidable (emsh_key_inert c) :=
  inferInstanceAs (Decidable (c = 0x0D ∨
    (c ≠ 0x0A ∧ c ≠ 0x08 ∧ c ≠ 0x7F ∧ c ≠ 0x01 ∧ c ≠ 0x02 ∧ c ≠ 0x04 ∧ c ≠ 0x05 ∧ c ≠ 0x06 ∧
      c ≠ 0x0E ∧ c ≠ 0x10 ∧ ¬ (0x20 ≤ c ∧ c ≤ 0x7E))))

end Emsh

namespace Emsh

/-! ## Cursor moves -/

/-- The cursor-forward sequence for `n` columns: nothing for 0, `CSI C` for 1 (the
parameter 1 is elided), and `CSI n C` with `n` in decimal for a larger `n`. -/
def emsh_seq_cuf (n : Nat) : List Nat :=
  if n = 0 then []
  else if n = 1 then [0x1B, 0x5B, 0x43]
  else [0x1B, 0x5B] ++ ((Nat.digits 10 n).map (· + 0x30)).reverse ++ [0x43]

/-- The bytes of refresh-entire-line for a prompt and a line: CR, `CSI K`, the
prompt literal, the line. -/
def emsh_seq_redraw (cfg : emsh_tunables) (line : List Nat) : List Nat :=
  [0x0D] ++ emsh_seq_el ++ c_lit cfg.EMSH_S_PROMPT ++ line

/-- A history-navigation keystroke: Ctrl-P, Ctrl-N, `ESC [ A` or `ESC [ B`. -/
def emsh_key_nav (k : List Nat) : Prop := emsh_key_backward k ∨ emsh_key_forward k

instance (k : List Nat) : Decidable (emsh_key_nav k) :=
  inferInstanceAs (Decidable (emsh_key_backward k ∨ emsh_key_forward k))

/-! ## Emitted sequences and the recogniser -/

/-- The byte string `bs`, fed to `ctlseq_sm` from `INIT`, is recognised as one
control sequence without parameter-free detours: the last byte gives state `FINAL`
with event `FINAL`, and every byte before it gives a state among `ESC`, `CSI`,
`PARAM` with an event that is neither `ILSEQ` nor `FINAL`. -/
def ctlseq_recognised (bs : List Nat) : Prop :=
  (ctlseq_trace .INIT bs).getLast? = some (.FINAL, .FINAL) ∧
  (∀ x ∈ (ctlseq_trace .INIT bs).dropLast,
    (x.1 = .ESC ∨ x.1 = .CSI ∨ x.1 = .PARAM) ∧ x.2 ≠ .ILSEQ ∧ x.2 ≠ .FINAL) ∧
  ctlseq_run .INIT bs = .FINAL

/-! ## list.h: well-formed nodes -/

/-- The node `n` is well linked: `n->next->prev == n` and `n->prev->next == n`. -/
def list_wf_node (h : list_heap) (n : list_ptr) : Prop :=
  ∃ p q, (h n).prev = some p ∧ (h n).next = some q ∧ (h p).next = some n ∧
    (h q).prev = some n

/-! ## Edit keystrokes -/

/-- An edit keystroke: a printable byte, BS, DEL, Ctrl-D (erase-at-caret), Ctrl-B or
`ESC [ D` (caret-left), Ctrl-F or `ESC [ C` (caret-right), Ctrl-A or `ESC [ 1 ~`
(caret-home), Ctrl-E or `ESC [ 4 ~` (caret-end), `ESC [ 3 ~` (erase-at-caret). -/
def emsh_key_edit (k : List Nat) : Prop :=
  (∃ c, (0x20 ≤ c ∧ c ≤ 0x7E) ∧ k = [c]) ∨
    k ∈ [[0x08], [0x7F], [0x04], [0x02], [0x06], [0x01], [0x05], [0x1B, 0x5B, 0x44],
      [0x1B, 0x5B, 0x43], [0x1B, 0x5B, 0x31, 0x7E], [0x1B, 0x5B, 0x34, 0x7E],
      [0x1B, 0x5B, 0x33, 0x7E]]

/-- The history of `s'` differs from that of `s` at most in the text of the block
under the cursor of `s`, to which the line buffer stays bound: the list nodes (the
active and the free list), the capacity, the size, the cursor and its position are
the same, and so is the text of every other block. -/
def emsh_edit_frame (s s' : emsh_t) : Prop :=
  s'.hist.node = s.hist.node ∧ s'.hist.capacity = s.hist.capacity ∧
  s'.hist.size = s.hist.size ∧ s'.hist.pos = s.hist.pos ∧ s'.hist.cur = s.hist.cur ∧
  s'.buf.array.data = s.buf.array.data ∧
  ∀ b, b ≠ s.buf.array.data → ∀ i, s'.hist.mem b i = s.hist.mem b i

end Emsh

namespace Emsh

/-! ## Specification: the list calls of the history ring -/

/-- The three list calls that take a block for the new draft, on the node storage
`h` ("add a new draft" and "move focus to the new draft" in `emsh_hist_commit`,
the same calls at the end of `emsh_hist_init`): `list_pop_front` on a non-empty
free list returns the node `f`, which is pushed on the active list, and
`list_front` on the then non-empty active list returns `f`. -/
def emsh_hist_draft_calls (h : list_heap) (f : list_ptr) : Prop :=
  ∃ h1 h2,
    list_is_empty h .free_list = some false ∧
    list_pop_front h .free_list = some (h1, some f) ∧
    list_push_front h1 .list (some f) = some h2 ∧
    list_is_empty h2 .list = some false ∧
    list_front h2 .list = some (some f)

/-- The list calls of `emsh_hist_commit` on `self`, branch by branch, each pop
made on a non-empty list and returning a node: `d` is the node freed by the call
(none when the ring grows) and `f` the node taken as the new draft. -/
def emsh_hist_commit_calls (self : emsh_hist_t) (d : Option list_ptr) (f : list_ptr) : Prop :=
  if self.pos != 0 then
    ∃ x c h1 h2 h3 h4,
      d = some x ∧ self.cur = some c ∧
      list_is_empty self.node .list = some false ∧
      list_pop_front self.node .list = some (h1, some x) ∧
      list_push_back h1 .free_list (some x) = some h2 ∧
      list_node_unlink h2 (some c) = some h3 ∧
      list_push_front h3 .list (some c) = some h4 ∧
      emsh_hist_draft_calls h4 f
  else if self.size = self.capacity then
    ∃ x h1 h2,
      d = some x ∧
      list_is_empty self.node .list = some false ∧
      list_pop_back self.node .list = some (h1, some x) ∧
      list_push_back h1 .free_list (some x) = some h2 ∧
      emsh_hist_draft_calls h2 f
  else d = none ∧ emsh_hist_draft_calls self.node f

/-- The list calls of `emsh_hist_init` after the loop over the pool, each made
on a non-empty list and returning a node. -/
def emsh_hist_init_calls (cfg : emsh_tunables) (self : emsh_hist_t) (n_blocks : Nat)
    (f : list_ptr) : Prop :=
  ∃ h m,
    emsh_hist_init_blocks cfg n_blocks 0 (list_init self.node .free_list) self.mem = some (h, m) ∧
    emsh_hist_draft_calls (list_init h .list) f

/-- The full ring `emsh_hist_full2` with the cursor moved back to the committed
line (block 0). -/
def emsh_hist_full2_nav : emsh_hist_t :=
  { emsh_hist_full2 with pos := 1, cur := some (.block 0) }

/-! ## Specification: the scan of the option scanner -/

/-- The number of characters in `argv[i]`, `argv[i+1]`, ..., the terminators not
counted. -/
def getopt_chars_from (argv : List (Option (List Nat))) (i : Nat) : Nat :=
  ((argv.drop i).map (fun a => (a.getD []).length)).sum

/-- The loop `while (emsh_getopt(...) != -1)` with at most `fuel` calls: the
number of calls made, the one that returns -1 included. Nothing is returned when
a call is undefined or `fuel` calls do not reach -1. -/
def emsh_getopt_loop (cfg : emsh_tunables) (argc : Int) (argv : List (Option (List Nat)))
    (optstring : List Nat) : Nat → emsh_t → Option Nat
  | 0, _ => none
  | fuel + 1, self =>
    match emsh_getopt cfg self argc argv optstring with
    | none => none
    | some r =>
      if r.2 = -1 then some 1
      else (emsh_getopt_loop cfg argc argv optstring fuel r.1).map (fun k => k + 1)

/-- The command line `p -a x`. -/
def emsh_argv_pax : List (Option (List Nat)) := [some [0x70], some [0x2D, 0x61], some [0x78]]

/-- The command line `p`. -/
def emsh_argv_p : List (Option (List Nat)) := [some [0x70]]

/-! ## Specification: the echo of a line -/

/-- A byte string with its control sequences removed: the bytes after which
`ctlseq_sm`, started in state `st`, is in `INIT` and reports no event. -/
def csi_strip : ctlseq_st_t → List Nat → List Nat
  | _, [] => []
  | st, c :: cs =>
    (if (ctlseq_sm st c).1 = .INIT ∧ (ctlseq_sm st c).2.1 = .NONE then [c] else []) ++
      csi_strip (ctlseq_sm st c).1 cs

/-- The engine is well formed, no control sequence is pending and the caret is at
the end of the line. -/
def emsh_at_eol (cfg : emsh_tunables) (s : emsh_t) : Prop :=
  (∃ al fl, emsh_inv cfg s al fl) ∧ (s.ctlseq.st = .INIT ∨ s.ctlseq.st = .FINAL) ∧
  s.buf.pos = s.buf.array.size

/-- The bytes written for the printable bytes `bs` typed at the end of the line:
each byte followed by `CSI K`. -/
def emsh_echo (bs : List Nat) : List Nat := bs.flatMap (fun c => c :: emsh_seq_el)

/-- What the commit of the line of `s` writes between the newline and the prompt:
nothing for a blank line, the bytes of the executor for a line of at most
`EMSH_MAX_N_ARGS` words, the diagnostic otherwise. -/
def emsh_commit_bytes (cfg : emsh_tunables) (exec : emsh_exec_t) (s : emsh_t) : List Nat :=
  if emsh_words (emsh_buf_line s) = [] then []
  else if (emsh_words (emsh_buf_line s)).length ≤ cfg.EMSH_MAX_N_ARGS then
    (exec (emsh_words (emsh_buf_line s)).length (emsh_words (emsh_buf_line s))
      (emsh_exec_entry s)).2
  else c_lit (emsh_s_arg_list_too_long ++ cfg.EMSH_S_NEWLINE)

/-- The bytes `l` and then LF fed to `s` are accepted and lead to `s2`; the bytes
written while `l` is fed are `l` once control sequences are removed, and LF
writes the newline, what the commit writes, and the prompt when the engine is
running. -/
def emsh_echo_line (cfg : emsh_tunables) (exec : emsh_exec_t) (s : emsh_t) (l : List Nat)
    (s2 : emsh_t) : Prop :=
  ∃ s1 E, emsh_feed cfg exec s l = some s1 ∧ s1.out = s.out ++ E ∧ csi_strip .INIT E = l ∧
    emsh_task cfg exec s1 ASCII_C_LF = some s2 ∧
    s2.out = s1.out ++ c_lit cfg.EMSH_S_NEWLINE ++ emsh_commit_bytes cfg exec s1 ++
      (if s2.running = true then c_lit cfg.EMSH_S_PROMPT else [])

/-- The lines `ls`, each followed by LF, fed to `s` one after the other are echoed
as `emsh_echo_line` says. -/
def emsh_echo_lines (cfg : emsh_tunables) (exec : emsh_exec_t) :
    emsh_t → List (List Nat) → Prop
  | _, [] => True
  | s, l :: ls => ∃ s2, emsh_echo_line cfg exec s l s2 ∧ emsh_echo_lines cfg exec s2 ls

/-- Every line of `ls` fits the line buffer that holds `line` when its first byte
arrives: a blank line stays in the buffer when it is committed, any other line
leaves an empty buffer. -/
def emsh_lines_fit (cfg : emsh_tunables) : List Nat → List (List Nat) → Prop
  | _, [] => True
  | line, l :: ls =>
    (line ++ l).length ≤ cfg.EMSH_MAX_LINE_SIZE ∧
    emsh_lines_fit cfg (if emsh_words (line ++ l) = [] then line ++ l else []) ls

end Emsh

namespace Emsh

theorem ctlseq_trace_append (st : ctlseq_st_t) (xs ys : List Nat) :
    ctlseq_trace st (xs ++ ys) = ctlseq_trace st xs ++ ctlseq_trace (ctlseq_run st xs) ys := by
  induction xs generalizing st with
  | nil => simp [ctlseq_trace, ctlseq_run]
  | cons x xs ih => simp [ctlseq_trace, ctlseq_run, ih]

theorem ctlseq_trace_length (st : ctlseq_st_t) (xs : List Nat) :
    (ctlseq_trace st xs).length = xs.length := by
  induction xs generalizing st with
  | nil => rfl
  | cons x xs ih => simp [ctlseq_trace, ih]

theorem ctlseq_run_append (st : ctlseq_st_t) (xs ys : List Nat) :
    ctlseq_run st (xs ++ ys) = ctlseq_run (ctlseq_run st xs) ys := by
  induction xs generalizing st with
  | nil => rfl
  | cons x xs ih => simp [ctlseq_run, ih]

/-- C1. `ctlseq_sm` follows the transition table of section 4.5 for every
state and every byte: the new state and event of each row, and the `psep` flag. -/
theorem ctlseq_sm_transition_table (c : Nat) :
    (∀ s, s = ctlseq_st_t.INIT ∨ s = ctlseq_st_t.FINAL →
      ((ctlseq_sm s c).1, (ctlseq_sm s c).2.1) =
        if c = 0x1B then (ctlseq_st_t.ESC, ctlseq_ev_t.ESC)
        else (ctlseq_st_t.INIT, ctlseq_ev_t.NONE)) ∧
    (((ctlseq_sm .ESC c).1, (ctlseq_sm .ESC c).2.1) =
        if c = 0x5B then (ctlseq_st_t.CSI, ctlseq_ev_t.CSI)
        else (ctlseq_st_t.INIT, ctlseq_ev_t.ILSEQ)) ∧
    (((ctlseq_sm .CSI c).1, (ctlseq_sm .CSI c).2.1) =
        if 0x30 ≤ c ∧ c ≤ 0x3F then (ctlseq_st_t.PARAM, ctlseq_ev_t.PARAM)
        else if 0x20 ≤ c ∧ c ≤ 0x2F then (ctlseq_st_t.INTERM, ctlseq_ev_t.INTERM)
        else if 0x40 ≤ c ∧ c ≤ 0x7E then (ctlseq_st_t.FINAL, ctlseq_ev_t.FINAL)
        else (ctlseq_st_t.INIT, ctlseq_ev_t.ILSEQ)) ∧
    (((ctlseq_sm .PARAM c).1, (ctlseq_sm .PARAM c).2.1) =
        if 0x30 ≤ c ∧ c ≤ 0x3F then (ctlseq_st_t.PARAM, ctlseq_ev_t.NONE)
        else if 0x20 ≤ c ∧ c ≤ 0x2F then (ctlseq_st_t.INTERM, ctlseq_ev_t.INTERM)
        else if 0x40 ≤ c ∧ c ≤ 0x7E then (ctlseq_st_t.FINAL, ctlseq_ev_t.FINAL)
        else (ctlseq_st_t.INIT, ctlseq_ev_t.ILSEQ)) ∧
    (((ctlseq_sm .INTERM c).1, (ctlseq_sm .INTERM c).2.1) =
        if 0x20 ≤ c ∧ c ≤ 0x2F then (ctlseq_st_t.INTERM, ctlseq_ev_t.NONE)
        else if 0x40 ≤ c ∧ c ≤ 0x7E then (ctlseq_st_t.FINAL, ctlseq_ev_t.FINAL)
        else (ctlseq_st_t.INIT, ctlseq_ev_t.ILSEQ)) ∧
    (∀ s, (ctlseq_sm s c).2.2 =
        if ((s = ctlseq_st_t.CSI ∨ s = ctlseq_st_t.PARAM) ∧ c = 0x3B) ∨
            (s = ctlseq_st_t.PARAM ∧ ¬ (0x30 ≤ c ∧ c ≤ 0x3F)) then 1 else 0) := by
  refine ⟨?_, ?_, ?_, ?_, ?_, ?_⟩
  · rintro s (rfl | rfl) <;>
      simp only [ctlseq_sm, ctlseq_sm_body, CTLSEQ_C_CSI_1] <;> split_ifs <;> rfl
  · simp only [ctlseq_sm, ctlseq_sm_body, CTLSEQ_C_CSI_2]; split_ifs <;> rfl
  · simp only [ctlseq_sm, ctlseq_sm_body, ctlseq_is_param_byte, ctlseq_is_interm_byte,
      ctlseq_is_final_byte, Bool.and_eq_true, decide_eq_true_eq]
    split_ifs <;> rfl
  · simp only [ctlseq_sm, ctlseq_sm_body, ctlseq_is_param_byte, ctlseq_is_interm_byte,
      ctlseq_is_final_byte, Bool.and_eq_true, decide_eq_true_eq]
    split_ifs <;> rfl
  · simp only [ctlseq_sm, ctlseq_sm_body, ctlseq_is_param_byte, ctlseq_is_interm_byte,
      ctlseq_is_final_byte, Bool.and_eq_true, decide_eq_true_eq]
    split_ifs <;> rfl
  · intro s
    cases s <;>
      simp only [ctlseq_sm, ctlseq_sm_body, ctlseq_is_param_byte, ctlseq_is_interm_byte,
        ctlseq_is_final_byte, Bool.and_eq_true, decide_eq_true_eq, CTLSEQ_C_CSI_1,
        CTLSEQ_C_CSI_2, CTLSEQ_K_PSEP] <;>
      split_ifs <;> simp_all


theorem ctlseq_trace_params (ps : List Nat) (hps : ∀ p ∈ ps, 0x30 ≤ p ∧ p ≤ 0x3F)
    (st : ctlseq_st_t) (hst : st = .CSI ∨ st = .PARAM) :
    (ctlseq_run st ps = .CSI ∨ ctlseq_run st ps = .PARAM) ∧
      ∀ x ∈ ctlseq_trace st ps, ctlseq_pending x := by
  induction ps generalizing st with
  | nil => simpa [ctlseq_run, ctlseq_trace] using hst
  | cons p ps ih =>
    have hp := hps p (List.mem_cons_self _ _)
    have hstep : ctlseq_sm st p = (.PARAM, .PARAM, if p = CTLSEQ_K_PSEP then 1 else 0) ∨
        ctlseq_sm st p = (.PARAM, .NONE, if p = CTLSEQ_K_PSEP then 1 else 0) := by
      rcases hst with rfl | rfl <;>
        simp [ctlseq_sm, ctlseq_sm_body, ctlseq_is_param_byte, hp.1, hp.2]
    have ih' := ih (fun q hq => hps q (List.mem_cons_of_mem _ hq)) .PARAM (Or.inr rfl)
    rcases hstep with h | h <;>
      simp [ctlseq_run, ctlseq_trace, h, ih'.1, ctlseq_pending] <;>
      exact fun a b hab => ih'.2 _ hab

theorem ctlseq_trace_interms (is : List Nat) (his : ∀ i ∈ is, 0x20 ≤ i ∧ i ≤ 0x2F)
    (st : ctlseq_st_t) (hst : st = .CSI ∨ st = .PARAM ∨ st = .INTERM) :
    (ctlseq_run st is = .CSI ∨ ctlseq_run st is = .PARAM ∨ ctlseq_run st is = .INTERM) ∧
      ∀ x ∈ ctlseq_trace st is, ctlseq_pending x := by
  induction is generalizing st with
  | nil => simpa [ctlseq_run, ctlseq_trace] using hst
  | cons i is ih =>
    have hi := his i (List.mem_cons_self _ _)
    have h1 : ¬ (48 ≤ i) := by omega
    have hstep : ctlseq_sm st i = (.INTERM, .INTERM, 0) ∨ ctlseq_sm st i = (.INTERM, .INTERM, 1) ∨
        ctlseq_sm st i = (.INTERM, .NONE, 0) := by
      rcases hst with rfl | rfl | rfl <;>
        simp [ctlseq_sm, ctlseq_sm_body, ctlseq_is_param_byte, ctlseq_is_interm_byte, hi.1, hi.2, h1]
    have ih' := ih (fun q hq => his q (List.mem_cons_of_mem _ hq)) .INTERM (Or.inr (Or.inr rfl))
    rcases hstep with h | h | h <;>
      simp [ctlseq_run, ctlseq_trace, h, ih'.1, ctlseq_pending] <;>
      exact fun a b hab => ih'.2 _ hab

theorem ctlseq_sm_final (f : Nat) (hf : 0x40 ≤ f ∧ f ≤ 0x7E)
    (st : ctlseq_st_t) (hst : st = .CSI ∨ st = .PARAM ∨ st = .INTERM) :
    (ctlseq_sm st f).1 = .FINAL ∧ (ctlseq_sm st f).2.1 = .FINAL := by
  have h1 : ¬ (f ≤ 63) := by omega
  have h2 : ¬ (f ≤ 47) := by omega
  rcases hst with rfl | rfl | rfl <;>
    simp [ctlseq_sm, ctlseq_sm_body, ctlseq_is_param_byte, ctlseq_is_interm_byte,
      ctlseq_is_final_byte, hf.1, hf.2, h1, h2]

/-- C2. Feeding `ESC [ P* I* F` from `INIT` or `FINAL`: every step before the
last stays in `ESC`, `CSI`, `PARAM` or `INTERM` with an event that is neither
`ILSEQ` nor `FINAL`; the last byte alone gives state `FINAL` and event `FINAL`. -/
theorem ctlseq_valid_sequence (s0 : ctlseq_st_t) (ps is : List Nat) (f : Nat)
    (hs0 : s0 = .INIT ∨ s0 = .FINAL)
    (hps : ∀ p ∈ ps, 0x30 ≤ p ∧ p ≤ 0x3F)
    (his : ∀ i ∈ is, 0x20 ≤ i ∧ i ≤ 0x2F)
    (hf : 0x40 ≤ f ∧ f ≤ 0x7E) :
    ∃ pre : List (ctlseq_st_t × ctlseq_ev_t),
      ctlseq_trace s0 (0x1B :: 0x5B :: (ps ++ is ++ [f])) = pre ++ [(.FINAL, .FINAL)] ∧
      pre.length = 2 + ps.length + is.length ∧
      (∀ x ∈ pre, (x.1 = .ESC ∨ x.1 = .CSI ∨ x.1 = .PARAM ∨ x.1 = .INTERM) ∧
        x.2 ≠ .ILSEQ ∧ x.2 ≠ .FINAL) ∧
      ctlseq_run s0 (0x1B :: 0x5B :: (ps ++ is ++ [f])) = .FINAL := by
  have hP := ctlseq_trace_params ps hps .CSI (Or.inl rfl)
  have hI := ctlseq_trace_interms is his (ctlseq_run .CSI ps)
    (by rcases hP.1 with h | h <;> simp [h])
  have hF := ctlseq_sm_final f hf (ctlseq_run (ctlseq_run .CSI ps) is) hI.1
  have he : ctlseq_sm s0 0x1B = (.ESC, .ESC, 0) := by
    rcases hs0 with rfl | rfl <;> simp [ctlseq_sm, ctlseq_sm_body, CTLSEQ_C_CSI_1]
  have hc : ctlseq_sm .ESC 0x5B = (.CSI, .CSI, 0) := by
    simp [ctlseq_sm, ctlseq_sm_body, CTLSEQ_C_CSI_2]
  refine ⟨(.ESC, .ESC) :: (.CSI, .CSI) :: (ctlseq_trace .CSI ps ++
    ctlseq_trace (ctlseq_run .CSI ps) is), ?_, ?_, ?_, ?_⟩
  · simp [ctlseq_trace, he, hc, ctlseq_trace_append, hF.1, hF.2]
  · simp [ctlseq_trace_length]; omega
  · intro x hx
    simp only [List.mem_cons, List.mem_append] at hx
    rcases hx with rfl | rfl | hx | hx
    · simp
    · simp
    · exact hP.2 x hx
    · exact hI.2 x hx
  · simp [ctlseq_run, he, hc, ctlseq_run_append, hF.1]

/-- C2 at `ESC [ 1 ; 2 SP q` fed from `INIT`. -/
theorem ctlseq_valid_sequence_witness :
    ∃ pre : List (ctlseq_st_t × ctlseq_ev_t),
      ctlseq_trace .INIT (0x1B :: 0x5B :: ([0x31, 0x3B, 0x32] ++ [0x20] ++ [0x71])) =
        pre ++ [(.FINAL, .FINAL)] ∧
      pre.length = 2 + [0x31, 0x3B, 0x32].length + [0x20].length ∧
      (∀ x ∈ pre, (x.1 = .ESC ∨ x.1 = .CSI ∨ x.1 = .PARAM ∨ x.1 = .INTERM) ∧
        x.2 ≠ .ILSEQ ∧ x.2 ≠ .FINAL) ∧
      ctlseq_run .INIT (0x1B :: 0x5B :: ([0x31, 0x3B, 0x32] ++ [0x20] ++ [0x71])) = .FINAL :=
  ctlseq_valid_sequence .INIT [0x31, 0x3B, 0x32] [0x20] 0x71 (Or.inl rfl)
    (by decide) (by decide) (by decide)

end Emsh

namespace Emsh

/-! ## list.h: the list operations on well-formed circular lists -/

theorem c_assert_true : c_assert true = some () := rfl

theorem list_seg_frame (h h' : list_heap) (a b : list_ptr) (l : List list_ptr)
    (hnext : ∀ y ∈ a :: l, (h' y).next = (h y).next)
    (hprev : ∀ y ∈ l ++ [b], (h' y).prev = (h y).prev)
    (hseg : list_seg h a l b) : list_seg h' a l b := by
  induction l generalizing a with
  | nil =>
    simp only [list_seg, list_links] at hseg ⊢
    rw [hnext a (by simp), hprev b (by simp)]
    exact hseg
  | cons x l ih =>
    simp only [list_seg, list_links] at hseg ⊢
    refine ⟨⟨?_, ?_⟩, ih x ?_ ?_ hseg.2⟩
    · rw [hnext a (by simp)]; exact hseg.1.1
    · rw [hprev x (by simp)]; exact hseg.1.2
    · intro y hy; exact hnext y (List.mem_cons_of_mem _ hy)
    · intro y hy; exact hprev y (by simp at hy ⊢; tauto)

theorem list_seg_append (h : list_heap) (a b x : list_ptr) (l1 l2 : List list_ptr) :
    list_seg h a (l1 ++ x :: l2) b ↔ list_seg h a l1 x ∧ list_seg h x l2 b := by
  induction l1 generalizing a with
  | nil => simp [list_seg]
  | cons z l1 ih => simp [list_seg, ih, and_assoc]

theorem list_seg_prev_mem (h : list_heap) (a b x p : list_ptr) (l1 l2 : List list_ptr)
    (hseg : list_seg h a (l1 ++ x :: l2) b) (hp : (h x).prev = some p) : p ∈ a :: l1 := by
  induction l1 generalizing a with
  | nil =>
    simp only [List.nil_append, list_seg, list_links] at hseg
    have := hseg.1.2
    rw [hp] at this
    simp at this
    simp [this]
  | cons z l1 ih =>
    simp only [List.cons_append, list_seg] at hseg
    exact List.mem_cons_of_mem _ (ih z hseg.2)

theorem list_seg_next_mem (h : list_heap) (a b x n : list_ptr) (l1 l2 : List list_ptr)
    (hseg : list_seg h a (l1 ++ x :: l2) b) (hn : (h x).next = some n) : n ∈ l2 ++ [b] := by
  induction l1 generalizing a with
  | nil =>
    simp only [List.nil_append, list_seg] at hseg
    cases l2 with
    | nil =>
      have := hseg.2.1
      rw [hn] at this
      simp at this
      simp [this]
    | cons y l2 =>
      have := hseg.2.1.1
      rw [hn] at this
      simp at this
      simp [this]
  | cons z l1 ih =>
    simp only [List.cons_append, list_seg] at hseg
    exact ih z hseg.2

theorem list_seg_unlink (h h' : list_heap) (a b x p n : list_ptr) (l1 l2 : List list_ptr)
    (hseg : list_seg h a (l1 ++ x :: l2) b)
    (hnd : (a :: (l1 ++ x :: l2)).Nodup) (hb : b ∉ l1 ++ x :: l2)
    (hp : (h x).prev = some p) (hn : (h x).next = some n)
    (hnext : ∀ y, y ≠ x → (h' y).next = if y = p then some n else (h y).next)
    (hprev : ∀ y, y ≠ x → (h' y).prev = if y = n then some p else (h y).prev) :
    list_seg h' a (l1 ++ l2) b := by
  induction l1 generalizing a with
  | nil =>
    have hpa : p = a := by
      have := list_seg_prev_mem h a b x p [] l2 hseg hp
      simpa using this
    subst hpa
    simp only [List.nil_append, list_seg] at hseg
    simp only [List.nil_append, List.nodup_cons, List.mem_cons, not_or] at hnd hb
    obtain ⟨⟨hax, hal2⟩, hxl2, hl2⟩ := hnd
    cases l2 with
    | nil =>
      have hnb : n = b := by
        have := hseg.2.1; rw [hn] at this; simpa using this
      subst hnb
      simp only [list_seg, list_links]
      rw [hnext p hax, hprev n (fun e => hb.1 e)]
      simp
    | cons y l2 =>
      have hny : n = y := by
        have := hseg.2.1.1; rw [hn] at this; simpa using this
      subst hny
      simp only [List.mem_cons, not_or, List.nodup_cons] at hal2 hxl2 hl2 hb
      simp only [list_seg, list_links] at hseg ⊢
      refine ⟨⟨?_, ?_⟩, ?_⟩
      · rw [hnext p hax]; simp
      · rw [hprev n (fun e => hxl2.1 e.symm)]; simp
      · refine list_seg_frame h h' n b l2 ?_ ?_ hseg.2.2
        · intro z hz
          have hzx : z ≠ x := by
            rintro rfl; simp only [List.mem_cons] at hz
            rcases hz with e | hz
            · exact hxl2.1 e
            · exact hxl2.2 hz
          have hzp : z ≠ p := by
            rintro rfl; simp only [List.mem_cons] at hz
            rcases hz with e | hz
            · exact hal2.1 e
            · exact hal2.2 hz
          rw [hnext z hzx, if_neg hzp]
        · intro z hz
          simp only [List.mem_append, List.mem_singleton] at hz
          have hzx : z ≠ x := by
            rintro rfl
            rcases hz with hz | e
            · exact hxl2.2 hz
            · exact hb.1 e.symm
          have hzn : z ≠ n := by
            rintro rfl
            rcases hz with hz | e
            · exact hl2.1 hz
            · exact hb.2.1 e.symm
          rw [hprev z hzx, if_neg hzn]
  | cons z l1 ih =>
    have hpm := list_seg_prev_mem h a b x p (z :: l1) l2 hseg hp
    have hnm := list_seg_next_mem h a b x n (z :: l1) l2 hseg hn
    simp only [List.cons_append, list_seg, list_links] at hseg ⊢
    have hnd' : (z :: (l1 ++ x :: l2)).Nodup := (List.nodup_cons.1 hnd).2
    have hb' : b ∉ l1 ++ x :: l2 := fun hm => hb (List.mem_cons_of_mem _ hm)
    have hbz : b ≠ z := fun e => hb (by simp [e])
    have ha : a ∉ z :: (l1 ++ x :: l2) := (List.nodup_cons.1 hnd).1
    have hz : z ∉ l1 ++ x :: l2 := (List.nodup_cons.1 hnd').1
    have hseg' := ih z hseg.2 hnd' hb'
    -- the step from `a` to `z`
    have hpm' : p ∈ z :: l1 := by
      have := list_seg_prev_mem h z b x p l1 l2 hseg.2 hp
      exact this
    have hax : a ≠ x := fun e => ha (by simp [e])
    have hap : a ≠ p := by
      rintro rfl
      apply ha
      simp only [List.mem_cons, List.mem_append] at hpm' ⊢
      tauto
    have hzx : z ≠ x := fun e => hz (by simp [e])
    have hzn : z ≠ n := by
      rintro rfl
      simp only [List.mem_append, List.mem_singleton] at hnm
      rcases hnm with hm | e
      · exact hz (by simp [hm])
      · exact hbz e.symm
    refine ⟨⟨?_, ?_⟩, hseg'⟩
    · rw [hnext a hax, if_neg hap]; exact hseg.1.1
    · rw [hprev z hzx, if_neg hzn]; exact hseg.1.2

end Emsh

namespace Emsh

theorem list_node_sanity_linked (h : list_heap) (x p n : list_ptr)
    (hp : (h x).prev = some p) (hn : (h x).next = some n) (hpx : p ≠ x) (hnx : n ≠ x)
    (hpn : (h p).next = some x) (hnp : (h n).prev = some x) :
    list_node_sanity_check h (some x) = true := by
  simp [list_node_sanity_check, hp, hn, hpx, hnx, hpn, hnp]

theorem list_node_sanity_unlinked (h : list_heap) (x : list_ptr)
    (hx : h x = ⟨none, none⟩) : list_node_sanity_check h (some x) = true := by
  simp [list_node_sanity_check, hx]

theorem list_node_unlink_eq (h : list_heap) (x p n : list_ptr)
    (hp : (h x).prev = some p) (hn : (h x).next = some n) (hpx : p ≠ x) (hnx : n ≠ x)
    (hpn : (h p).next = some x) (hnp : (h n).prev = some x) :
    list_node_unlink h (some x) = some (list_set_prev (list_set_next
      (list_set_prev (list_set_next h p (some n)) n (some p)) x none) x none) := by
  have hs := list_node_sanity_linked h x p n hp hn hpx hnx hpn hnp
  simp only [list_node_unlink, list_node_is_linked, hs, c_assert_true, hp, hn,
      Option.bind_eq_bind, Option.some_bind, Option.pure_def, bne_iff_ne, ne_eq,
      not_false_eq_true, reduceCtorEq, decide_True, ite_true, list_node_init]
  simp [list_set_next, list_set_prev, Function.update, hpx.symm, hnx.symm, hn, hp, c_assert]

theorem list_node_unlink_linked (h : list_heap) (x p n : list_ptr)
    (hp : (h x).prev = some p) (hn : (h x).next = some n) (hpx : p ≠ x) (hnx : n ≠ x)
    (hpn : (h p).next = some x) (hnp : (h n).prev = some x) :
    ∃ h', list_node_unlink h (some x) = some h' ∧ h' x = ⟨none, none⟩ ∧
      (∀ y, y ≠ x → (h' y).next = if y = p then some n else (h y).next) ∧
      (∀ y, y ≠ x → (h' y).prev = if y = n then some p else (h y).prev) := by
  refine ⟨_, list_node_unlink_eq h x p n hp hn hpx hnx hpn hnp, ?_, ?_, ?_⟩
  · simp [list_set_next, list_set_prev, Function.update_apply]
  · intro y hy
    simp only [list_set_next, list_set_prev, Function.update_apply]
    split_ifs <;> simp_all
  · intro y hy
    simp only [list_set_next, list_set_prev, Function.update_apply]
    split_ifs <;> simp_all

theorem list_node_ext (a b : list_node_t) (hp : a.prev = b.prev) (hn : a.next = b.next) :
    a = b := by
  cases a; cases b; simp_all

theorem list_seg_first_link (h : list_heap) (a b : list_ptr) (l : List list_ptr)
    (hseg : list_seg h a l b) : ∃ n, (l ++ [b]).head? = some n ∧ list_links h a n := by
  cases l with
  | nil => exact ⟨b, rfl, hseg⟩
  | cons x l => exact ⟨x, rfl, hseg.1⟩

theorem list_seg_last_link (h : list_heap) (a b : list_ptr) (l : List list_ptr)
    (hseg : list_seg h a l b) : ∃ p, (a :: l).getLast? = some p ∧ list_links h p b := by
  induction l generalizing a with
  | nil => exact ⟨a, rfl, hseg⟩
  | cons x l ih =>
    obtain ⟨p, hp, hl⟩ := ih x hseg.2
    refine ⟨p, ?_, hl⟩
    rw [List.getLast?_cons_cons]; exact hp

theorem list_seg_links_get (h : list_heap) (a b : list_ptr) (l : List list_ptr)
    (hseg : list_seg h a l b) (i : Nat) (u v : list_ptr)
    (hu : (a :: l)[i]? = some u) (hv : (l ++ [b])[i]? = some v) : list_links h u v := by
  induction l generalizing a i with
  | nil =>
    cases i with
    | zero => simp at hu hv; subst hu; subst hv; exact hseg
    | succ j => simp at hu
  | cons x l ih =>
    cases i with
    | zero => simp at hu hv; subst hu; subst hv; exact hseg.1
    | succ j =>
      simp only [List.getElem?_cons_succ, List.cons_append] at hu hv
      exact ih x hseg.2 j hu hv

theorem list_is_sanity (h : list_heap) (s : list_ptr) (l : List list_ptr)
    (H : list_is h s l) : list_sanity_check h s = true := by
  obtain ⟨n, hn, hln⟩ := list_seg_first_link h s s l H.1
  obtain ⟨p, hp, hlp⟩ := list_seg_last_link h s s l H.1
  have hnd := H.2
  cases l with
  | nil =>
    simp at hn hp; subst hn
    simp [list_sanity_check, hln.1, hln.2]
  | cons x l =>
    simp only [List.cons_append, List.head?_cons, Option.some.injEq] at hn
    subst hn
    have hps : p ≠ s := by
      rintro rfl
      rw [List.getLast?_cons_cons] at hp
      have hm := List.mem_of_getLast?_eq_some hp
      exact (List.nodup_cons.1 hnd).1 hm
    have hns : x ≠ s := by
      rintro rfl
      exact (List.nodup_cons.1 hnd).1 (List.mem_cons_self _ _)
    simp [list_sanity_check, hln.1, hlp.2, hps, hns]

theorem list_is_frame (h h' : list_heap) (s : list_ptr) (l : List list_ptr)
    (hf : ∀ y ∈ s :: l, h' y = h y) (H : list_is h s l) : list_is h' s l := by
  refine ⟨list_seg_frame h h' s s l ?_ ?_ H.1, H.2⟩
  · intro y hy; rw [hf y hy]
  · intro y hy; rw [hf y (by simp at hy ⊢; tauto)]

/-- Model of `list_node_unlink` on a node of a well-formed list removes that node. -/
theorem list_is_unlink (h : list_heap) (s x : list_ptr) (l1 l2 : List list_ptr)
    (H : list_is h s (l1 ++ x :: l2)) :
    ∃ h', list_node_unlink h (some x) = some h' ∧ list_is h' s (l1 ++ l2) ∧
      h' x = ⟨none, none⟩ ∧ ∀ y, y ∉ s :: (l1 ++ x :: l2) → h' y = h y := by
  obtain ⟨hseg, hnd⟩ := H
  have hsplit := (list_seg_append h s s x l1 l2).1 hseg
  obtain ⟨p, hp, hlp⟩ := list_seg_last_link h s x l1 hsplit.1
  obtain ⟨n, hn, hln⟩ := list_seg_first_link h x s l2 hsplit.2
  have hpm : p ∈ s :: l1 := List.mem_of_getLast?_eq_some hp
  have hnm : n ∈ l2 ++ [s] := List.mem_of_mem_head? hn
  have hxs : x ≠ s := by
    rintro rfl
    exact (List.nodup_cons.1 hnd).1 (by simp)
  have hnd2 : (l1 ++ x :: l2).Nodup := (List.nodup_cons.1 hnd).2
  have hx1 : x ∉ l1 := fun hm => by
    have := List.nodup_append.1 hnd2
    exact this.2.2 hm (List.mem_cons_self _ _)
  have hx2 : x ∉ l2 := fun hm => by
    have := (List.nodup_append.1 hnd2).2.1
    exact (List.nodup_cons.1 this).1 hm
  have hpx : p ≠ x := by
    rintro rfl
    simp only [List.mem_cons] at hpm
    rcases hpm with e | hm
    · exact hxs e
    · exact hx1 hm
  have hnx : n ≠ x := by
    rintro rfl
    simp only [List.mem_append, List.mem_singleton] at hnm
    rcases hnm with hm | e
    · exact hx2 hm
    · exact hxs e
  obtain ⟨h', he, hx, hnext, hprev⟩ :=
    list_node_unlink_linked h x p n hlp.2 hln.1 hpx hnx hlp.1 hln.2
  refine ⟨h', he, ⟨?_, ?_⟩, hx, ?_⟩
  · refine list_seg_unlink h h' s s x p n l1 l2 hseg hnd ?_ hlp.2 hln.1 hnext hprev
    exact (List.nodup_cons.1 hnd).1
  · have hsub : List.Sublist (s :: (l1 ++ l2)) (s :: (l1 ++ x :: l2)) := by
      apply List.Sublist.cons₂
      exact List.Sublist.append (List.Sublist.refl _) (List.sublist_cons_self _ _)
    exact hnd.sublist hsub
  · intro y hy
    have hyx : y ≠ x := fun e => hy (by simp [e])
    have hyp : y ≠ p := by
      rintro rfl; apply hy
      simp only [List.mem_cons, List.mem_append] at hpm ⊢; tauto
    have hyn : y ≠ n := by
      rintro rfl; apply hy
      simp only [List.mem_cons, List.mem_append, List.mem_singleton] at hnm ⊢; tauto
    apply list_node_ext
    · rw [hprev y hyx, if_neg hyn]
    · rw [hnext y hyx, if_neg hyp]

theorem list_node_is_linked_unlinked (h : list_heap) (x : list_ptr)
    (hx : h x = ⟨none, none⟩) : list_node_is_linked h (some x) = some false := by
  simp [list_node_is_linked, list_node_sanity_unlinked h x hx, c_assert_true, hx]

theorem list_push_front_eq (h : list_heap) (s nd f : list_ptr)
    (hs : list_sanity_check h s = true) (hnd : h nd = ⟨none, none⟩) (hne : nd ≠ s)
    (hf : (h s).next = some f) :
    ∃ h', list_push_front h s (some nd) = some h' ∧
      (∀ y, (h' y).next = if y = nd then some f else if y = s then some nd else (h y).next) ∧
      (∀ y, (h' y).prev = if y = f then some nd else if y = nd then some s else (h y).prev) := by
  refine ⟨list_set_prev (list_set_next (list_set_next (list_set_prev h nd (some s)) nd (some f))
    s (some nd)) f (some nd), ?_, ?_, ?_⟩
  · simp [list_push_front, hs, c_assert_true, list_node_sanity_unlinked h nd hnd,
      list_node_is_linked_unlinked h nd hnd, list_set_prev, list_set_next,
      Function.update_apply, hne, hne.symm, hf]
  · intro y
    simp only [list_set_next, list_set_prev, Function.update_apply]
    split_ifs <;> simp_all
  · intro y
    simp only [list_set_next, list_set_prev, Function.update_apply]
    split_ifs <;> simp_all

theorem list_push_back_eq (h : list_heap) (s nd t : list_ptr)
    (hs : list_sanity_check h s = true) (hnd : h nd = ⟨none, none⟩) (hne : nd ≠ s)
    (ht : (h s).prev = some t) :
    ∃ h', list_push_back h s (some nd) = some h' ∧
      (∀ y, (h' y).prev = if y = nd then some t else if y = s then some nd else (h y).prev) ∧
      (∀ y, (h' y).next = if y = t then some nd else if y = nd then some s else (h y).next) := by
  refine ⟨list_set_next (list_set_prev (list_set_prev (list_set_next h nd (some s)) nd (some t))
    s (some nd)) t (some nd), ?_, ?_, ?_⟩
  · simp [list_push_back, hs, c_assert_true, list_node_sanity_unlinked h nd hnd,
      list_node_is_linked_unlinked h nd hnd, list_set_prev, list_set_next,
      Function.update_apply, hne, hne.symm, ht]
  · intro y
    simp only [list_set_next, list_set_prev, Function.update_apply]
    split_ifs <;> simp_all
  · intro y
    simp only [list_set_next, list_set_prev, Function.update_apply]
    split_ifs <;> simp_all

/-- Model of `list_push_front` of an unlinked node prepends it. -/
theorem list_is_push_front (h : list_heap) (s nd : list_ptr) (l : List list_ptr)
    (H : list_is h s l) (hnd : h nd = ⟨none, none⟩) (hne : nd ∉ s :: l) :
    ∃ h', list_push_front h s (some nd) = some h' ∧ list_is h' s (nd :: l) ∧
      ∀ y, y ∉ nd :: s :: l → h' y = h y := by
  have hns : nd ≠ s := fun e => hne (by simp [e])
  have hnl : nd ∉ l := fun hm => hne (List.mem_cons_of_mem _ hm)
  obtain ⟨f, hf, hlf⟩ := list_seg_first_link h s s l H.1
  obtain ⟨h', he, hnext, hprev⟩ :=
    list_push_front_eq h s nd f (list_is_sanity h s l H) hnd hns hlf.1
  have hfm : f ∈ l ++ [s] := List.mem_of_mem_head? hf
  have hfn : f ≠ nd := by
    rintro rfl
    simp only [List.mem_append, List.mem_singleton] at hfm
    rcases hfm with hm | e
    · exact hnl hm
    · exact hns e
  have hsl : s ∉ l := (List.nodup_cons.1 H.2).1
  refine ⟨h', he, ⟨?_, ?_⟩, ?_⟩
  · refine ⟨⟨?_, ?_⟩, ?_⟩
    · rw [hnext s, if_neg hns.symm, if_pos rfl]
    · rw [hprev nd, if_neg hfn.symm, if_pos rfl]
    · cases l with
      | nil =>
        simp at hf; subst hf
        refine ⟨?_, ?_⟩
        · rw [hnext nd, if_pos rfl]
        · rw [hprev, if_pos rfl]
      | cons x l =>
        simp at hf; subst hf
        have hnd2 := H.2
        simp only [List.nodup_cons, List.mem_cons, not_or] at hnd2 hnl
        refine ⟨⟨?_, ?_⟩, ?_⟩
        · rw [hnext nd, if_pos rfl]
        · rw [hprev, if_pos rfl]
        · refine list_seg_frame h h' _ s l ?_ ?_ H.1.2
          · intro y hy
            have h1 : y ≠ nd := by
              rintro rfl; simp only [List.mem_cons] at hy; tauto
            have h2 : y ≠ s := by
              rintro rfl; simp only [List.mem_cons] at hy
              rcases hy with e | hm
              · exact hnd2.1.1 e
              · exact hnd2.1.2 hm
            rw [hnext y, if_neg h1, if_neg h2]
          · intro y hy
            simp only [List.mem_append, List.mem_singleton] at hy
            have h1 : y ≠ x := by
              rintro rfl
              rcases hy with hm | e
              · exact hnd2.2.1 hm
              · exact hnd2.1.1 e.symm
            have h2 : y ≠ nd := by
              rintro rfl
              rcases hy with hm | e
              · exact hnl.2 hm
              · exact hns e
            rw [hprev y, if_neg h1, if_neg h2]
  · have : (nd :: s :: l).Nodup := List.nodup_cons.2 ⟨hne, H.2⟩
    exact (List.Perm.nodup_iff (List.Perm.swap s nd l)).1 this
  · intro y hy
    simp only [List.mem_cons, not_or] at hy
    have hyf : y ≠ f := by
      rintro rfl
      simp only [List.mem_append, List.mem_singleton] at hfm
      tauto
    apply list_node_ext
    · rw [hprev y, if_neg hyf, if_neg hy.1]
    · rw [hnext y, if_neg hy.1, if_neg hy.2.1]

theorem list_seg_retarget (h h' : list_heap) (a b b' t : list_ptr) (l : List list_ptr)
    (hseg : list_seg h a l b) (hnd : (a :: l).Nodup) (ht : (h b).prev = some t)
    (hnext : ∀ y ∈ a :: l, y ≠ t → (h' y).next = (h y).next)
    (hprev : ∀ y ∈ l, (h' y).prev = (h y).prev)
    (ht1 : (h' t).next = some b') (ht2 : (h' b').prev = some t) :
    list_seg h' a l b' := by
  induction l generalizing a with
  | nil =>
    have : t = a := by
      have := hseg.2; rw [ht] at this; simpa using this
    subst this
    exact ⟨ht1, ht2⟩
  | cons x l ih =>
    obtain ⟨p, hp, hlp⟩ := list_seg_last_link h x b l hseg.2
    have hpt : p = t := by
      have := hlp.2; rw [ht] at this; simpa using this.symm
    subst hpt
    have hpm : p ∈ x :: l := List.mem_of_getLast?_eq_some hp
    have hap : a ≠ p := by
      rintro rfl; exact (List.nodup_cons.1 hnd).1 hpm
    refine ⟨⟨?_, ?_⟩, ih x hseg.2 (List.nodup_cons.1 hnd).2 ?_ ?_⟩
    · rw [hnext a (by simp) hap]; exact hseg.1.1
    · rw [hprev x (by simp)]; exact hseg.1.2
    · intro y hy; exact hnext y (List.mem_cons_of_mem _ hy)
    · intro y hy; exact hprev y (List.mem_cons_of_mem _ hy)

/-- Model of `list_push_back` of an unlinked node appends it. -/
theorem list_is_push_back (h : list_heap) (s nd : list_ptr) (l : List list_ptr)
    (H : list_is h s l) (hnd : h nd = ⟨none, none⟩) (hne : nd ∉ s :: l) :
    ∃ h', list_push_back h s (some nd) = some h' ∧ list_is h' s (l ++ [nd]) ∧
      ∀ y, y ∉ nd :: s :: l → h' y = h y := by
  have hns : nd ≠ s := fun e => hne (by simp [e])
  have hnl : nd ∉ l := fun hm => hne (List.mem_cons_of_mem _ hm)
  obtain ⟨t, ht, hlt⟩ := list_seg_last_link h s s l H.1
  obtain ⟨h', he, hprev, hnext⟩ :=
    list_push_back_eq h s nd t (list_is_sanity h s l H) hnd hns hlt.2
  have htm : t ∈ s :: l := List.mem_of_getLast?_eq_some ht
  have htn : t ≠ nd := by
    rintro rfl; exact hne htm
  have hsl : s ∉ l := (List.nodup_cons.1 H.2).1
  refine ⟨h', he, ⟨?_, ?_⟩, ?_⟩
  · rw [list_seg_append]
    refine ⟨?_, ⟨?_, ?_⟩⟩
    · refine list_seg_retarget h h' s s nd t l H.1 H.2 hlt.2 ?_ ?_ ?_ ?_
      · intro y hy hyt
        have h1 : y ≠ nd := by rintro rfl; exact hne hy
        rw [hnext y, if_neg hyt, if_neg h1]
      · intro y hy
        have h1 : y ≠ nd := by rintro rfl; exact hnl hy
        have h2 : y ≠ s := by rintro rfl; exact hsl hy
        rw [hprev y, if_neg h1, if_neg h2]
      · rw [hnext t, if_pos rfl]
      · rw [hprev nd, if_pos rfl]
    · rw [hnext nd, if_neg htn.symm, if_pos rfl]
    · rw [hprev s, if_neg hns.symm, if_pos rfl]
  · have : (s :: l).Nodup := H.2
    rw [List.nodup_cons] at this ⊢
    refine ⟨?_, ?_⟩
    · simp only [List.mem_append, List.mem_singleton, not_or]
      exact ⟨this.1, hns.symm⟩
    · rw [List.nodup_append]
      refine ⟨this.2, by simp, ?_⟩
      intro a ha hb
      simp only [List.mem_singleton] at hb
      subst hb; exact hnl ha
  · intro y hy
    simp only [List.mem_cons, not_or] at hy
    have hyt : y ≠ t := by
      rintro rfl
      simp only [List.mem_cons] at htm
      tauto
    apply list_node_ext
    · rw [hprev y, if_neg hy.1, if_neg hy.2.1]
    · rw [hnext y, if_neg hyt, if_neg hy.1]

theorem list_is_empty_eq (h : list_heap) (s : list_ptr) (l : List list_ptr)
    (H : list_is h s l) : list_is_empty h s = some l.isEmpty := by
  obtain ⟨p, hp, hlp⟩ := list_seg_last_link h s s l H.1
  simp only [list_is_empty, list_is_sanity h s l H, c_assert_true, Option.bind_eq_bind,
    Option.some_bind, Option.pure_def, hlp.2, Option.some.injEq]
  cases l with
  | nil => simp at hp; simp [hp]
  | cons x l =>
    rw [List.getLast?_cons_cons] at hp
    have hm := List.mem_of_getLast?_eq_some hp
    have : p ≠ s := by rintro rfl; exact (List.nodup_cons.1 H.2).1 hm
    simp [this]

theorem list_front_eq (h : list_heap) (s : list_ptr) (l : List list_ptr)
    (H : list_is h s l) : list_front h s = some l.head? := by
  obtain ⟨n, hn, hln⟩ := list_seg_first_link h s s l H.1
  simp only [list_front, list_is_sanity h s l H, c_assert_true, list_is_empty_eq h s l H,
    Option.bind_eq_bind, Option.some_bind, Option.pure_def, hln.1]
  cases l with
  | nil => simp
  | cons x l => simpa using hn.symm

theorem list_back_eq (h : list_heap) (s : list_ptr) (l : List list_ptr)
    (H : list_is h s l) : list_back h s = some l.getLast? := by
  obtain ⟨p, hp, hlp⟩ := list_seg_last_link h s s l H.1
  simp only [list_back, list_is_sanity h s l H, c_assert_true, list_is_empty_eq h s l H,
    Option.bind_eq_bind, Option.some_bind, Option.pure_def, hlp.2]
  cases l with
  | nil => simp
  | cons x l =>
    rw [List.getLast?_cons_cons] at hp
    simp [hp]

/-- Model of `list_pop_front` on a non-empty list removes and returns the first node. -/
theorem list_is_pop_front (h : list_heap) (s x : list_ptr) (l : List list_ptr)
    (H : list_is h s (x :: l)) :
    ∃ h', list_pop_front h s = some (h', some x) ∧ list_is h' s l ∧
      h' x = ⟨none, none⟩ ∧ ∀ y, y ∉ s :: x :: l → h' y = h y := by
  obtain ⟨h', he, hl, hx, hfr⟩ := list_is_unlink h s x [] l H
  refine ⟨h', ?_, hl, hx, hfr⟩
  simp [list_pop_front, list_is_sanity h s _ H, c_assert_true, list_is_empty_eq h s _ H,
    list_front_eq h s _ H, he]

/-- Model of `list_pop_front` on an empty list returns `NULL` and changes nothing. -/
theorem list_is_pop_front_nil (h : list_heap) (s : list_ptr)
    (H : list_is h s []) : list_pop_front h s = some (h, none) := by
  simp [list_pop_front, list_is_sanity h s _ H, c_assert_true, list_is_empty_eq h s _ H]

/-- Model of `list_pop_back` on a non-empty list removes and returns the last node. -/
theorem list_is_pop_back (h : list_heap) (s x : list_ptr) (l : List list_ptr)
    (H : list_is h s (l ++ [x])) :
    ∃ h', list_pop_back h s = some (h', some x) ∧ list_is h' s l ∧
      h' x = ⟨none, none⟩ ∧ ∀ y, y ∉ s :: (l ++ [x]) → h' y = h y := by
  obtain ⟨h', he, hl, hx, hfr⟩ := list_is_unlink h s x l [] H
  refine ⟨h', ?_, by simpa using hl, hx, hfr⟩
  have hne : (l ++ [x]).isEmpty = false := by cases l <;> rfl
  simp [list_pop_back, list_is_sanity h s _ H, c_assert_true, list_is_empty_eq h s _ H,
    list_back_eq h s _ H, he, hne]

theorem list_is_node_sanity (h : list_heap) (s x : list_ptr) (l : List list_ptr)
    (H : list_is h s l) (hx : x ∈ l) : list_node_sanity_check h (some x) = true := by
  obtain ⟨l1, l2, rfl⟩ := List.append_of_mem hx
  obtain ⟨hseg, hnd⟩ := H
  have hsplit := (list_seg_append h s s x l1 l2).1 hseg
  obtain ⟨p, hp, hlp⟩ := list_seg_last_link h s x l1 hsplit.1
  obtain ⟨n, hn, hln⟩ := list_seg_first_link h x s l2 hsplit.2
  have hpm : p ∈ s :: l1 := List.mem_of_getLast?_eq_some hp
  have hnm : n ∈ l2 ++ [s] := List.mem_of_mem_head? hn
  have hxs : x ≠ s := by
    rintro rfl
    exact (List.nodup_cons.1 hnd).1 (by simp)
  have hnd2 : (l1 ++ x :: l2).Nodup := (List.nodup_cons.1 hnd).2
  have hx1 : x ∉ l1 := fun hm => by
    have := List.nodup_append.1 hnd2
    exact this.2.2 hm (List.mem_cons_self _ _)
  have hx2 : x ∉ l2 := fun hm => by
    have := (List.nodup_append.1 hnd2).2.1
    exact (List.nodup_cons.1 this).1 hm
  have hpx : p ≠ x := by
    rintro rfl
    simp only [List.mem_cons] at hpm
    rcases hpm with e | hm
    · exact hxs e
    · exact hx1 hm
  have hnx : n ≠ x := by
    rintro rfl
    simp only [List.mem_append, List.mem_singleton] at hnm
    rcases hnm with hm | e
    · exact hx2 hm
    · exact hxs e
  exact list_node_sanity_linked h x p n hlp.2 hln.1 hpx hnx hlp.1 hln.2

/-- Model of `list_node_next` on the `i`-th node of a well-formed list. -/
theorem list_is_node_next (h : list_heap) (s x : list_ptr) (l : List list_ptr)
    (H : list_is h s l) (i : Nat) (hx : l[i]? = some x) :
    list_node_next h (some x) = some ((l ++ [s])[i + 1]?) := by
  have hm : x ∈ l := List.getElem?_mem hx
  have hlt : i < l.length := by
    by_contra hc
    rw [List.getElem?_eq_none (by omega)] at hx; simp at hx
  have hv : ∃ v, (l ++ [s])[i + 1]? = some v := by
    have : i + 1 < (l ++ [s]).length := by simp; omega
    exact ⟨_, List.getElem?_eq_getElem this⟩
  obtain ⟨v, hv⟩ := hv
  have hu : (l ++ [s])[i]? = some x := by
    rw [List.getElem?_append_left hlt]; exact hx
  have := list_seg_links_get h s s l H.1 (i + 1) x v (by simpa using hx) hv
  simp [list_node_next, list_is_node_sanity h s x l H hm, c_assert_true, this.1, hv]

/-- Model of `list_node_prev` on the `i`-th node of a well-formed list. -/
theorem list_is_node_prev (h : list_heap) (s x : list_ptr) (l : List list_ptr)
    (H : list_is h s l) (i : Nat) (hx : l[i]? = some x) :
    list_node_prev h (some x) = some ((s :: l)[i]?) := by
  have hm : x ∈ l := List.getElem?_mem hx
  have hlt : i < l.length := by
    by_contra hc
    rw [List.getElem?_eq_none (by omega)] at hx; simp at hx
  have hu : ∃ u, (s :: l)[i]? = some u := by
    have : i < (s :: l).length := by simp; omega
    exact ⟨_, List.getElem?_eq_getElem this⟩
  obtain ⟨u, hu⟩ := hu
  have hv : (l ++ [s])[i]? = some x := by
    rw [List.getElem?_append_left hlt]; exact hx
  have := list_seg_links_get h s s l H.1 i u x hu hv
  simp [list_node_prev, list_is_node_sanity h s x l H hm, c_assert_true, this.2, hu]

theorem list_walk_seg (h : list_heap) (s a : list_ptr) (l : List list_ptr)
    (hseg : list_seg h a l s) (hs : s ∉ l) (fuel : Nat) (hfuel : l.length < fuel) :
    list_walk h s fuel (h a).next = l := by
  induction l generalizing a fuel with
  | nil =>
    cases fuel with
    | zero => omega
    | succ k => simp [list_walk, hseg.1]
  | cons x l ih =>
    cases fuel with
    | zero => omega
    | succ k =>
      simp only [List.mem_cons, not_or] at hs
      simp only [List.length_cons] at hfuel
      rw [hseg.1.1]
      simp only [list_walk, if_neg (Ne.symm hs.1)]
      rw [ih x hseg.2 hs.2 k (by omega)]

/-- Walking a well-formed list from its head yields exactly its nodes. -/
theorem list_is_nodes (h : list_heap) (s : list_ptr) (l : List list_ptr)
    (H : list_is h s l) (fuel : Nat) (hfuel : l.length < fuel) :
    list_nodes h s fuel = l :=
  list_walk_seg h s s l H.1 (List.nodup_cons.1 H.2).1 fuel hfuel

end Emsh

namespace Emsh

/-! ## emsh.c: the history ring -/

theorem list_block_mem (i : Nat) (l : List Nat) :
    list_ptr.block i ∈ l.map list_ptr.block ↔ i ∈ l := by
  simp

theorem list_head_not_block (l : List Nat) :
    list_ptr.list ∉ l.map list_ptr.block ∧ list_ptr.free_list ∉ l.map list_ptr.block := by
  simp

/-- A step on the active list keeps a disjoint free list, and conversely. -/
theorem list_is_frame_blocks (h h' : list_heap) (s s' : list_ptr) (l' : List Nat)
    (touched : List Nat)
    (hf : ∀ y, y ∉ s :: touched.map list_ptr.block → h' y = h y)
    (hss : s' ≠ s) (hs : s = .list ∨ s = .free_list) (hs' : s' = .list ∨ s' = .free_list)
    (hd : ∀ i ∈ l', i ∉ touched)
    (H : list_is h s' (l'.map .block)) : list_is h' s' (l'.map .block) := by
  refine list_is_frame h h' s' _ ?_ H
  intro y hy
  apply hf
  simp only [List.mem_cons, List.mem_map, not_or, not_exists, not_and] at hy ⊢
  rcases hy with rfl | ⟨i, hi, rfl⟩
  · refine ⟨hss, ?_⟩
    intro j _ e
    rcases hs' with e' | e' <;> rw [e'] at e <;> cases e
  · refine ⟨?_, ?_⟩
    · rintro rfl
      rcases hs with e' | e' <;> cases e'
    · intro j hj e
      cases e
      exact hd i hi hj

theorem hist_pop_front (h : list_heap) (s s' : list_ptr) (x : Nat) (l l' : List Nat)
    (hss : s' ≠ s) (hs : s = .list ∨ s = .free_list) (hs' : s' = .list ∨ s' = .free_list)
    (H : list_is h s ((x :: l).map .block)) (H' : list_is h s' (l'.map .block))
    (hd : ∀ i ∈ l', i ∉ x :: l) :
    ∃ h', list_pop_front h s = some (h', some (.block x)) ∧ list_is h' s (l.map .block) ∧
      list_is h' s' (l'.map .block) ∧ h' (.block x) = ⟨none, none⟩ ∧
      ∀ y, y ∉ s :: (x :: l).map list_ptr.block → h' y = h y := by
  obtain ⟨h', he, hl, hx, hfr⟩ := list_is_pop_front h s (.block x) (l.map .block) H
  exact ⟨h', he, hl, list_is_frame_blocks h h' s s' l' (x :: l) hfr hss hs hs' hd H', hx, hfr⟩

theorem hist_pop_back (h : list_heap) (s s' : list_ptr) (x : Nat) (l l' : List Nat)
    (hss : s' ≠ s) (hs : s = .list ∨ s = .free_list) (hs' : s' = .list ∨ s' = .free_list)
    (H : list_is h s ((l ++ [x]).map .block)) (H' : list_is h s' (l'.map .block))
    (hd : ∀ i ∈ l', i ∉ l ++ [x]) :
    ∃ h', list_pop_back h s = some (h', some (.block x)) ∧ list_is h' s (l.map .block) ∧
      list_is h' s' (l'.map .block) ∧ h' (.block x) = ⟨none, none⟩ ∧
      ∀ y, y ∉ s :: (l ++ [x]).map list_ptr.block → h' y = h y := by
  have H2 : list_is h s (l.map .block ++ [.block x]) := by simpa using H
  obtain ⟨h', he, hl, hx, hfr⟩ := list_is_pop_back h s (.block x) (l.map .block) H2
  have hfr' : ∀ y, y ∉ s :: (l ++ [x]).map list_ptr.block → h' y = h y := by
    intro y hy; apply hfr; simpa using hy
  exact ⟨h', he, hl, list_is_frame_blocks h h' s s' l' (l ++ [x]) hfr' hss hs hs' hd H', hx, hfr'⟩

theorem hist_unlink (h : list_heap) (s s' : list_ptr) (x : Nat) (l1 l2 l' : List Nat)
    (hss : s' ≠ s) (hs : s = .list ∨ s = .free_list) (hs' : s' = .list ∨ s' = .free_list)
    (H : list_is h s ((l1 ++ x :: l2).map .block)) (H' : list_is h s' (l'.map .block))
    (hd : ∀ i ∈ l', i ∉ l1 ++ x :: l2) :
    ∃ h', list_node_unlink h (some (.block x)) = some h' ∧
      list_is h' s ((l1 ++ l2).map .block) ∧
      list_is h' s' (l'.map .block) ∧ h' (.block x) = ⟨none, none⟩ ∧
      ∀ y, y ∉ s :: (l1 ++ x :: l2).map list_ptr.block → h' y = h y := by
  have H2 : list_is h s (l1.map .block ++ .block x :: l2.map .block) := by simpa using H
  obtain ⟨h', he, hl, hx, hfr⟩ := list_is_unlink h s (.block x) (l1.map .block) (l2.map .block) H2
  have hfr' : ∀ y, y ∉ s :: (l1 ++ x :: l2).map list_ptr.block → h' y = h y := by
    intro y hy; apply hfr; simpa using hy
  exact ⟨h', he, by simpa using hl,
    list_is_frame_blocks h h' s s' l' (l1 ++ x :: l2) hfr' hss hs hs' hd H', hx, hfr'⟩

theorem hist_push_front (h : list_heap) (s s' : list_ptr) (x : Nat) (l l' : List Nat)
    (hss : s' ≠ s) (hs : s = .list ∨ s = .free_list) (hs' : s' = .list ∨ s' = .free_list)
    (H : list_is h s (l.map .block)) (H' : list_is h s' (l'.map .block))
    (hx : h (.block x) = ⟨none, none⟩) (hxl : x ∉ l) (hd : ∀ i ∈ l', i ∉ x :: l) :
    ∃ h', list_push_front h s (some (.block x)) = some h' ∧
      list_is h' s ((x :: l).map .block) ∧ list_is h' s' (l'.map .block) ∧
      ∀ y, y ∉ s :: (x :: l).map list_ptr.block → h' y = h y := by
  have hne : list_ptr.block x ∉ s :: l.map list_ptr.block := by
    simp only [List.mem_cons, List.mem_map, not_or, not_exists, not_and]
    refine ⟨?_, ?_⟩
    · rintro rfl; rcases hs with e | e <;> cases e
    · intro j hj e; cases e; exact hxl hj
  obtain ⟨h', he, hl, hfr⟩ := list_is_push_front h s (.block x) (l.map .block) H hx hne
  have hfr' : ∀ y, y ∉ s :: (x :: l).map list_ptr.block → h' y = h y := by
    intro y hy; apply hfr
    simp only [List.map_cons, List.mem_cons, not_or] at hy ⊢
    tauto
  exact ⟨h', he, by simpa using hl,
    list_is_frame_blocks h h' s s' l' (x :: l) hfr' hss hs hs' hd H', hfr'⟩

theorem hist_push_back (h : list_heap) (s s' : list_ptr) (x : Nat) (l l' : List Nat)
    (hss : s' ≠ s) (hs : s = .list ∨ s = .free_list) (hs' : s' = .list ∨ s' = .free_list)
    (H : list_is h s (l.map .block)) (H' : list_is h s' (l'.map .block))
    (hx : h (.block x) = ⟨none, none⟩) (hxl : x ∉ l) (hd : ∀ i ∈ l', i ∉ x :: l) :
    ∃ h', list_push_back h s (some (.block x)) = some h' ∧
      list_is h' s ((l ++ [x]).map .block) ∧ list_is h' s' (l'.map .block) ∧
      ∀ y, y ∉ s :: (x :: l).map list_ptr.block → h' y = h y := by
  have hne : list_ptr.block x ∉ s :: l.map list_ptr.block := by
    simp only [List.mem_cons, List.mem_map, not_or, not_exists, not_and]
    refine ⟨?_, ?_⟩
    · rintro rfl; rcases hs with e | e <;> cases e
    · intro j hj e; cases e; exact hxl hj
  obtain ⟨h', he, hl, hfr⟩ := list_is_push_back h s (.block x) (l.map .block) H hx hne
  have hfr' : ∀ y, y ∉ s :: (x :: l).map list_ptr.block → h' y = h y := by
    intro y hy; apply hfr
    simp only [List.map_cons, List.mem_cons, not_or] at hy ⊢
    tauto
  exact ⟨h', he, by simpa using hl,
    list_is_frame_blocks h h' s s' l' (x :: l) hfr' hss hs hs' hd H', hfr'⟩

theorem emsh_hist_inv_cur (self : emsh_hist_t) (al fl : List Nat)
    (H : emsh_hist_inv self al fl) :
    ∃ c, al[self.pos]? = some c ∧ self.cur = some (.block c) := by
  obtain ⟨_, _, _, _, hpos, hcur⟩ := H
  refine ⟨al[self.pos], List.getElem?_eq_getElem hpos, ?_⟩
  rw [hcur, List.getElem?_eq_getElem hpos]; rfl

/-- Model of `emsh_hist_move_backward` on a well-formed ring. -/
theorem emsh_hist_move_backward_spec (self : emsh_hist_t) (al fl : List Nat)
    (H : emsh_hist_inv self al fl) :
    emsh_hist_move_backward self =
      some (if self.pos + 1 < self.size then
        { self with pos := self.pos + 1, cur := (al[self.pos + 1]?).map .block }
      else self) := by
  obtain ⟨c, hc, hcur⟩ := emsh_hist_inv_cur self al fl H
  obtain ⟨hl, _, _, hsize, hpos, _⟩ := H
  have hsz : self.size ≠ 0 := by omega
  by_cases hlt : self.pos + 1 < self.size
  · have h1 : self.pos < self.size - 1 := by omega
    have hx : (al.map list_ptr.block)[self.pos]? = some (.block c) := by
      rw [List.getElem?_map, hc]; rfl
    have hn := list_is_node_next self.node .list (.block c) _ hl self.pos hx
    have hidx : (List.map list_ptr.block al ++ [list_ptr.list])[self.pos + 1]? =
        (al[self.pos + 1]?).map .block := by
      rw [List.getElem?_append_left (by simp; omega), List.getElem?_map]
    simp [emsh_hist_move_backward, hsz, h1, hlt, hcur, hn, hidx]
  · have h1 : ¬ (self.pos < self.size - 1) := by omega
    simp [emsh_hist_move_backward, hsz, h1, hlt]

/-- Model of `emsh_hist_move_forward` on a well-formed ring. -/
theorem emsh_hist_move_forward_spec (self : emsh_hist_t) (al fl : List Nat)
    (H : emsh_hist_inv self al fl) :
    emsh_hist_move_forward self =
      some (if 0 < self.pos then
        { self with pos := self.pos - 1, cur := (al[self.pos - 1]?).map .block }
      else self) := by
  obtain ⟨c, hc, hcur⟩ := emsh_hist_inv_cur self al fl H
  obtain ⟨hl, _, _, hsize, hpos, _⟩ := H
  by_cases hlt : 0 < self.pos
  · have hx : (al.map list_ptr.block)[self.pos]? = some (.block c) := by
      rw [List.getElem?_map, hc]; rfl
    have hn := list_is_node_prev self.node .list (.block c) _ hl self.pos hx
    have hidx : (list_ptr.list :: List.map list_ptr.block al)[self.pos]? =
        (al[self.pos - 1]?).map .block := by
      obtain ⟨k, hk⟩ : ∃ k, self.pos = k + 1 := ⟨self.pos - 1, by omega⟩
      rw [hk, List.getElem?_cons_succ, List.getElem?_map]; simp
    simp [emsh_hist_move_forward, hlt, hcur, hn, hidx]
  · simp [emsh_hist_move_forward, hlt]

theorem emsh_hist_move_backward_inv (self : emsh_hist_t) (al fl : List Nat)
    (H : emsh_hist_inv self al fl) :
    ∃ self', emsh_hist_move_backward self = some self' ∧ emsh_hist_inv self' al fl ∧
      self'.mem = self.mem ∧ self'.capacity = self.capacity := by
  refine ⟨_, emsh_hist_move_backward_spec self al fl H, ?_, ?_, ?_⟩
  · obtain ⟨hl, hf, hp, hsize, hpos, hcur⟩ := H
    split_ifs with hlt
    · exact ⟨hl, hf, hp, hsize, by simp only; omega, rfl⟩
    · exact ⟨hl, hf, hp, hsize, hpos, hcur⟩
  · split_ifs <;> rfl
  · split_ifs <;> rfl

theorem emsh_hist_move_forward_inv (self : emsh_hist_t) (al fl : List Nat)
    (H : emsh_hist_inv self al fl) :
    ∃ self', emsh_hist_move_forward self = some self' ∧ emsh_hist_inv self' al fl ∧
      self'.mem = self.mem ∧ self'.capacity = self.capacity := by
  refine ⟨_, emsh_hist_move_forward_spec self al fl H, ?_, ?_, ?_⟩
  · obtain ⟨hl, hf, hp, hsize, hpos, hcur⟩ := H
    split_ifs with hlt
    · exact ⟨hl, hf, hp, hsize, by simp only; omega, rfl⟩
    · exact ⟨hl, hf, hp, hsize, hpos, hcur⟩
  · split_ifs <;> rfl
  · split_ifs <;> rfl

theorem mem_write_zero (cfg : emsh_tunables) (m : emsh_mem) (b v : Nat) :
    mem_write cfg m b 0 v = some (fun b' i' => if b' = b ∧ i' = 0 then v else m b' i') := by
  simp [mem_write]

theorem emsh_hist_commit_draft_spec (cfg : emsh_tunables) (self : emsh_hist_t)
    (al fl' : List Nat) (f : Nat)
    (hl : list_is self.node .list (al.map .block))
    (hf : list_is self.node .free_list ((f :: fl').map .block))
    (hnd : (al ++ f :: fl').Nodup) :
    ∃ h', list_is h' .list ((f :: al).map .block) ∧ list_is h' .free_list (fl'.map .block) ∧
      emsh_hist_commit_draft cfg self = some
        { self with node := h', size := self.size + 1, pos := 0, cur := some (.block f),
                    mem := fun b i => if b = f ∧ i = 0 then 0 else self.mem b i } := by
  have hnd' := hnd
  simp only [List.nodup_append, List.nodup_cons, List.mem_cons] at hnd'
  obtain ⟨hal, ⟨hffl, hfl'⟩, hdisj⟩ := hnd'
  have hfal : f ∉ al := fun hm => hdisj hm (List.mem_cons_self _ _)
  obtain ⟨h1, he1, hf1, hl1, hx1, _⟩ :=
    hist_pop_front self.node .free_list .list f fl' al (by decide) (Or.inr rfl) (Or.inl rfl) hf hl
      (by
        intro i hi hm
        simp only [List.mem_cons] at hm
        rcases hm with rfl | hm
        · exact hfal hi
        · exact hdisj hi (List.mem_cons_of_mem _ hm))
  obtain ⟨h2, he2, hl2, hf2, _⟩ :=
    hist_push_front h1 .list .free_list f al fl' (by decide) (Or.inl rfl) (Or.inr rfl) hl1 hf1 hx1
      hfal
      (by
        intro i hi hm
        simp only [List.mem_cons] at hm
        rcases hm with rfl | hm
        · exact hffl hi
        · exact hdisj hm (List.mem_cons_of_mem _ hi))
  refine ⟨h2, hl2, hf2, ?_⟩
  have hfront := list_front_eq h2 .list _ hl2
  simp [emsh_hist_commit_draft, he1, he2, hfront, emsh_hist_current, mem_write_zero]

end Emsh

namespace Emsh

theorem emsh_hist_inv_nodup (self : emsh_hist_t) (al fl : List Nat)
    (H : emsh_hist_inv self al fl) : (al ++ fl).Nodup :=
  (List.Perm.nodup_iff H.2.2.1).2 (List.nodup_range _)

theorem emsh_hist_inv_length (self : emsh_hist_t) (al fl : List Nat)
    (H : emsh_hist_inv self al fl) : al.length + fl.length = self.capacity := by
  have := H.2.2.1.length_eq
  simpa using this

/-- Model of `emsh_hist_commit` with the cursor on a committed entry `c`. -/
theorem emsh_hist_commit_nav (cfg : emsh_tunables) (self : emsh_hist_t)
    (d c : Nat) (r1 r2 fl : List Nat)
    (H : emsh_hist_inv self (d :: (r1 ++ c :: r2)) fl) (hpos : self.pos = r1.length + 1) :
    ∃ self' f ft, fl ++ [d] = f :: ft ∧ emsh_hist_commit cfg self = some self' ∧
      emsh_hist_inv self' (f :: c :: (r1 ++ r2)) ft ∧ self'.pos = 0 ∧
      self'.capacity = self.capacity ∧ self'.size = self.size ∧
      self'.mem = fun b i => if b = f ∧ i = 0 then 0 else self.mem b i := by
  have hnd := emsh_hist_inv_nodup self _ _ H
  obtain ⟨c', hc', hcur⟩ := emsh_hist_inv_cur self _ _ H
  have hcc : c' = c := by
    rw [hpos, List.getElem?_cons_succ, List.getElem?_append_right (le_refl _)] at hc'
    simp at hc'
    exact hc'.symm
  subst hcc
  obtain ⟨hl, hf, hperm, hsize, hposlt, _⟩ := H
  simp only [List.cons_append, List.nodup_cons, List.mem_append, List.mem_cons, not_or,
    List.nodup_append, List.append_assoc] at hnd
  obtain ⟨⟨hd1, hdc, hd2, hdfl⟩, hr1, ⟨⟨hc2, hcfl⟩, hr2, hfl, hdis2⟩, hdis1⟩ := hnd
  have hr1c : c' ∉ r1 := fun hm => hdis1 hm (List.mem_cons_self _ _)
  have hr1r2 : ∀ i ∈ r1, i ∉ r2 := fun i hi hm =>
    hdis1 hi (List.mem_cons_of_mem _ (List.mem_append_left _ hm))
  have hr1fl : ∀ i ∈ r1, i ∉ fl := fun i hi hm =>
    hdis1 hi (List.mem_cons_of_mem _ (List.mem_append_right _ hm))
  have hr2fl : ∀ i ∈ r2, i ∉ fl := fun i hi hm => hdis2 hi hm
  clear hdis1 hdis2
  -- remove the draft
  obtain ⟨h1, he1, hl1, hf1, hx1, _⟩ :=
    hist_pop_front self.node .list .free_list d (r1 ++ c' :: r2) fl (by decide) (Or.inl rfl)
      (Or.inr rfl) hl hf (by
        intro i hi hm
        simp only [List.mem_cons, List.mem_append] at hm
        rcases hm with rfl | hm | rfl | hm
        · exact hdfl hi
        · exact hr1fl i hm hi
        · exact hcfl hi
        · exact hr2fl i hm hi)
  obtain ⟨h2, he2, hf2, hl2, _⟩ :=
    hist_push_back h1 .free_list .list d fl (r1 ++ c' :: r2) (by decide) (Or.inr rfl)
      (Or.inl rfl) hf1 hl1 hx1 hdfl (by
        intro i hi hm
        simp only [List.mem_cons, List.mem_append] at hi hm
        rcases hm with rfl | hm
        · rcases hi with hi | rfl | hi
          · exact hd1 hi
          · exact hdc rfl
          · exact hd2 hi
        · rcases hi with hi | rfl | hi
          · exact hr1fl i hi hm
          · exact hcfl hm
          · exact hr2fl i hi hm)
  -- bring the current entry to the front
  obtain ⟨h3, he3, hl3, hf3, hx3, _⟩ :=
    hist_unlink h2 .list .free_list c' r1 r2 (fl ++ [d]) (by decide) (Or.inl rfl)
      (Or.inr rfl) hl2 hf2 (by
        intro i hi hm
        simp only [List.mem_cons, List.mem_append, List.not_mem_nil, or_false] at hi hm
        rcases hi with hi | rfl
        · rcases hm with hm | rfl | hm
          · exact hr1fl i hm hi
          · exact hcfl hi
          · exact hr2fl i hm hi
        · rcases hm with hm | rfl | hm
          · exact hd1 hm
          · exact hdc rfl
          · exact hd2 hm)
  obtain ⟨h4, he4, hl4, hf4, _⟩ :=
    hist_push_front h3 .list .free_list c' (r1 ++ r2) (fl ++ [d]) (by decide) (Or.inl rfl)
      (Or.inr rfl) hl3 hf3 hx3 (by
        simp only [List.mem_append, not_or]
        exact ⟨hr1c, hc2⟩) (by
        intro i hi hm
        simp only [List.mem_cons, List.mem_append, List.not_mem_nil, or_false] at hi hm
        rcases hi with hi | rfl
        · rcases hm with rfl | hm | hm
          · exact hcfl hi
          · exact hr1fl i hm hi
          · exact hr2fl i hm hi
        · rcases hm with rfl | hm | hm
          · exact hdc rfl
          · exact hd1 hm
          · exact hd2 hm)
  -- add a new draft
  obtain ⟨f, ft, hfl2⟩ : ∃ f ft, fl ++ [d] = f :: ft := by
    cases fl with
    | nil => exact ⟨d, [], rfl⟩
    | cons a t => exact ⟨a, t ++ [d], rfl⟩
  have hpm : ((f :: c' :: (r1 ++ r2)) ++ ft).Perm (List.range self.capacity) := by
    refine List.Perm.trans ?_ hperm
    have e1 : ((f :: c' :: (r1 ++ r2)) ++ ft).Perm ((c' :: (r1 ++ r2)) ++ (f :: ft)) := by
      simpa using (@List.perm_middle _ f (c' :: (r1 ++ r2)) ft).symm
    refine e1.trans ?_
    rw [← hfl2]
    rw [List.perm_iff_count]
    intro a
    simp only [List.count_append, List.count_cons, List.count_nil]
    omega
  have hnd5 : ((c' :: (r1 ++ r2)) ++ f :: ft).Nodup := by
    have : ((f :: c' :: (r1 ++ r2)) ++ ft).Nodup :=
      (List.Perm.nodup_iff hpm).2 (List.nodup_range _)
    exact (List.Perm.nodup_iff (@List.perm_middle _ f (c' :: (r1 ++ r2)) ft)).2
      (by simpa using this)
  have hl4' : list_is
      ({ self with node := h4, size := self.size - 1 } : emsh_hist_t).node .list
      ((c' :: (r1 ++ r2)).map .block) := hl4
  have hf4' : list_is
      ({ self with node := h4, size := self.size - 1 } : emsh_hist_t).node .free_list
      ((f :: ft).map .block) := by rw [← hfl2]; exact hf4
  obtain ⟨h5, hl5, hf5, he5⟩ := emsh_hist_commit_draft_spec cfg
    { self with node := h4, size := self.size - 1 } (c' :: (r1 ++ r2)) ft f hl4' hf4' hnd5
  have hp0 : self.pos ≠ 0 := by omega
  have hcommit : emsh_hist_commit cfg self =
      emsh_hist_commit_draft cfg { self with node := h4, size := self.size - 1 } := by
    simp only [emsh_hist_commit, bne_iff_ne, ne_eq, hp0, not_false_eq_true, ite_true,
      he1, he2, hcur, he3, he4, Option.bind_eq_bind, Option.some_bind, Option.pure_def]
  rw [he5] at hcommit
  refine ⟨_, f, ft, hfl2, hcommit, ⟨hl5, hf5, hpm, ?_, ?_, ?_⟩, rfl, rfl, ?_, rfl⟩
  · simp only [List.length_cons, List.length_append] at hsize ⊢
    omega
  · simp
  · simp
  · simp only [List.length_cons, List.length_append] at hsize ⊢
    omega

/-- Model of `emsh_hist_commit` with the cursor on the draft and a full ring. -/
theorem emsh_hist_commit_full (cfg : emsh_tunables) (self : emsh_hist_t)
    (t : Nat) (al' : List Nat)
    (H : emsh_hist_inv self (al' ++ [t]) []) (hpos : self.pos = 0)
    (hfull : self.size = self.capacity) :
    ∃ self', emsh_hist_commit cfg self = some self' ∧
      emsh_hist_inv self' (t :: al') [] ∧ self'.pos = 0 ∧
      self'.capacity = self.capacity ∧ self'.size = self.size ∧
      self'.mem = fun b i => if b = t ∧ i = 0 then 0 else self.mem b i := by
  have hnd := emsh_hist_inv_nodup self _ _ H
  obtain ⟨hl, hf, hperm, hsize, hposlt, _⟩ := H
  simp only [List.append_nil, List.nodup_append, List.nodup_cons, List.not_mem_nil,
    not_false_eq_true, List.nodup_nil, and_self, true_and] at hnd
  obtain ⟨hal', hdis⟩ := hnd
  have htal : t ∉ al' := fun hm => hdis hm (List.mem_singleton_self _)
  -- retire the oldest entry
  obtain ⟨h1, he1, hl1, hf1, hx1, _⟩ :=
    hist_pop_back self.node .list .free_list t al' [] (by decide) (Or.inl rfl)
      (Or.inr rfl) hl hf (by simp)
  obtain ⟨h2, he2, hf2, hl2, _⟩ :=
    hist_push_back h1 .free_list .list t [] al' (by decide) (Or.inr rfl)
      (Or.inl rfl) hf1 hl1 hx1 (by simp) (by
        intro i hi hm
        simp only [List.mem_cons, List.not_mem_nil, or_false] at hm
        subst hm; exact htal hi)
  have hnd5 : (al' ++ t :: []).Nodup := by
    rw [List.nodup_append]
    refine ⟨hal', by simp, ?_⟩
    exact hdis
  have hl2' : list_is
      ({ self with node := h2, size := self.size - 1 } : emsh_hist_t).node .list
      (al'.map .block) := hl2
  have hf2' : list_is
      ({ self with node := h2, size := self.size - 1 } : emsh_hist_t).node .free_list
      ((t :: []).map .block) := hf2
  obtain ⟨h5, hl5, hf5, he5⟩ := emsh_hist_commit_draft_spec cfg
    { self with node := h2, size := self.size - 1 } al' [] t hl2' hf2' hnd5
  have hcommit : emsh_hist_commit cfg self =
      emsh_hist_commit_draft cfg { self with node := h2, size := self.size - 1 } := by
    simp only [emsh_hist_commit, bne_iff_ne, ne_eq, hpos, not_true_eq_false, ite_false,
      hfull, ite_true, he1, he2, Option.bind_eq_bind, Option.some_bind, Option.pure_def]
  rw [he5] at hcommit
  have hpm : ((t :: al') ++ []).Perm (List.range self.capacity) := by
    refine List.Perm.trans ?_ hperm
    simp only [List.append_nil]
    exact (List.perm_append_singleton t al').symm
  refine ⟨_, hcommit, ⟨hl5, hf5, hpm, ?_, ?_, ?_⟩, rfl, rfl, ?_, rfl⟩
  · simp only [List.length_cons, List.length_append, List.length_nil] at hsize ⊢
    omega
  · simp
  · simp
  · simp only [List.length_cons, List.length_append, List.length_nil] at hsize ⊢
    omega

/-- Model of `emsh_hist_commit` with the cursor on the draft and a ring that is not full. -/
theorem emsh_hist_commit_grow (cfg : emsh_tunables) (self : emsh_hist_t)
    (f : Nat) (al fl' : List Nat)
    (H : emsh_hist_inv self al (f :: fl')) (hpos : self.pos = 0) :
    ∃ self', emsh_hist_commit cfg self = some self' ∧
      emsh_hist_inv self' (f :: al) fl' ∧ self'.pos = 0 ∧
      self'.capacity = self.capacity ∧ self'.size = self.size + 1 ∧
      self'.mem = fun b i => if b = f ∧ i = 0 then 0 else self.mem b i := by
  have hnd := emsh_hist_inv_nodup self _ _ H
  have hlen := emsh_hist_inv_length self _ _ H
  obtain ⟨hl, hf, hperm, hsize, hposlt, _⟩ := H
  obtain ⟨h5, hl5, hf5, he5⟩ := emsh_hist_commit_draft_spec cfg self al fl' f hl hf hnd
  have hne : self.size ≠ self.capacity := by
    simp only [List.length_cons] at hlen; omega
  have hcommit : emsh_hist_commit cfg self = emsh_hist_commit_draft cfg self := by
    simp only [emsh_hist_commit, bne_iff_ne, ne_eq, hpos, not_true_eq_false, ite_false,
      hne, Option.bind_eq_bind, Option.some_bind, Option.pure_def]
  rw [he5] at hcommit
  have hpm : ((f :: al) ++ fl').Perm (List.range self.capacity) := by
    refine List.Perm.trans ?_ hperm
    simpa using (@List.perm_middle _ f al fl').symm
  refine ⟨_, hcommit, ⟨hl5, hf5, hpm, ?_, ?_, ?_⟩, rfl, rfl, rfl, rfl⟩
  · simp only [List.length_cons]; omega
  · simp
  · simp

end Emsh

namespace Emsh

/-- Model of `emsh_hist_commit` keeps the ring well formed; only byte 0 of the new
draft's block is written. -/
theorem emsh_hist_commit_inv (cfg : emsh_tunables) (self : emsh_hist_t) (al fl : List Nat)
    (H : emsh_hist_inv self al fl) :
    ∃ self' f al' fl', emsh_hist_commit cfg self = some self' ∧
      emsh_hist_inv self' (f :: al') fl' ∧ self'.pos = 0 ∧
      self'.capacity = self.capacity ∧
      (self'.mem = fun b i => if b = f ∧ i = 0 then 0 else self.mem b i) ∧
      (∀ b ∈ al', b ∈ al) := by
  have hlen := emsh_hist_inv_length self _ _ H
  have hposlt := H.2.2.2.2.1
  have hsize := H.2.2.2.1
  by_cases hpos : self.pos = 0
  · by_cases hfull : self.size = self.capacity
    · have hfl : fl = [] := by
        apply List.eq_nil_of_length_eq_zero; omega
      subst hfl
      have hne : al ≠ [] := by
        intro e; subst e; simp at hposlt
      obtain ⟨al', t, rfl⟩ : ∃ al' t, al = al' ++ [t] :=
        ⟨al.dropLast, al.getLast hne, (List.dropLast_append_getLast hne).symm⟩
      obtain ⟨self', he, hinv, hp, hc, _, hm⟩ :=
        emsh_hist_commit_full cfg self t al' H hpos hfull
      exact ⟨self', t, al', [], he, hinv, hp, hc, hm, fun b hb => List.mem_append_left _ hb⟩
    · cases fl with
      | nil => simp at hlen; omega
      | cons f fl' =>
        obtain ⟨self', he, hinv, hp, hc, _, hm⟩ :=
          emsh_hist_commit_grow cfg self f al fl' H hpos
        exact ⟨self', f, al, fl', he, hinv, hp, hc, hm, fun b hb => hb⟩
  · cases al with
    | nil => simp at hposlt
    | cons d rest =>
      simp only [List.length_cons] at hposlt
      have hk : self.pos - 1 < rest.length := by omega
      have hrest : rest = rest.take (self.pos - 1) ++ rest[self.pos - 1] :: rest.drop self.pos := by
        have h1 := List.take_append_drop (self.pos - 1) rest
        have h2 : rest.drop (self.pos - 1) = rest[self.pos - 1] :: rest.drop self.pos := by
          rw [List.drop_eq_getElem_cons hk]
          congr 2; omega
        rw [← h2]; exact h1.symm
      have hl1 : (rest.take (self.pos - 1)).length + 1 = self.pos := by
        rw [List.length_take]; omega
      rw [hrest] at H
      obtain ⟨self', f, ft, _, he, hinv, hp, hc, _, hm⟩ :=
        emsh_hist_commit_nav cfg self d rest[self.pos - 1] (rest.take (self.pos - 1))
          (rest.drop self.pos) fl H hl1.symm
      refine ⟨self', f, _, ft, he, hinv, hp, hc, hm, ?_⟩
      intro b hb
      rw [hrest]
      simp only [List.mem_cons, List.mem_append] at hb ⊢
      tauto

theorem emsh_hist_init_blocks_spec (cfg : emsh_tunables) (k i : Nat) (h : list_heap)
    (m : emsh_mem) (H : list_is h .free_list ((List.range i).map .block)) :
    ∃ h', emsh_hist_init_blocks cfg k i h m =
        some (h', fun b j => if (i ≤ b ∧ b < i + k) ∧ j = 0 then 0 else m b j) ∧
      list_is h' .free_list ((List.range (i + k)).map .block) := by
  induction k generalizing i h m with
  | zero =>
    refine ⟨h, ?_, H⟩
    simp only [emsh_hist_init_blocks, Option.some.injEq, Prod.mk.injEq, true_and]
    funext b j
    have : ¬ ((i ≤ b ∧ b < i + 0) ∧ j = 0) := by omega
    rw [if_neg this]
  | succ k ih =>
    -- list_node_init(&blocks[i].node)
    have hinit : list_node_init h (some (.block i)) =
        some (list_set_prev (list_set_next h (.block i) none) (.block i) none) := by
      simp [list_node_init, c_assert]
    have hx1 : (list_set_prev (list_set_next h (.block i) none) (.block i) none) (.block i) =
        ⟨none, none⟩ := by
      simp [list_set_prev, list_set_next, Function.update_apply]
    have hf1 : list_is (list_set_prev (list_set_next h (.block i) none) (.block i) none)
        .free_list ((List.range i).map .block) := by
      refine list_is_frame _ _ _ _ ?_ H
      intro y hy
      have hyi : y ≠ .block i := by
        rintro rfl
        simp at hy
      simp [list_set_prev, list_set_next, Function.update_apply, hyi]
    have hne : list_ptr.block i ∉ list_ptr.free_list :: (List.range i).map list_ptr.block := by
      simp
    obtain ⟨h2, he2, hf2, _⟩ := list_is_push_back _ .free_list (.block i) _ hf1 hx1 hne
    have hf2' : list_is h2 .free_list ((List.range (i + 1)).map .block) := by
      rw [List.range_succ]; simpa using hf2
    obtain ⟨h3, he3, hf3⟩ := ih (i + 1) h2
      (fun b j => if b = i ∧ j = 0 then 0 else m b j) hf2'
    refine ⟨h3, ?_, ?_⟩
    · simp only [emsh_hist_init_blocks, hinit, mem_write_zero, he2, Option.bind_eq_bind,
        Option.some_bind, he3, Option.some.injEq, Prod.mk.injEq, true_and]
      funext b j
      by_cases hj : j = 0
      · by_cases hb : b = i
        · subst hb; simp [hj]
        · by_cases hb2 : i + 1 ≤ b ∧ b < i + 1 + k
          · have : i ≤ b ∧ b < i + (k + 1) := by omega
            simp [hj, hb2, this]
          · have : ¬ (i ≤ b ∧ b < i + (k + 1)) := by omega
            simp [hj, hb, hb2, this]
      · simp [hj]
    · have : i + 1 + k = i + (k + 1) := by omega
      rw [← this]; exact hf3

/-- Model of `emsh_hist_init` builds a well-formed ring: block 0 is the draft, the
other blocks are free, and byte 0 of every block is NUL. -/
theorem emsh_hist_init_spec (cfg : emsh_tunables) (self0 : emsh_hist_t) (n : Nat)
    (hn : 1 ≤ n) :
    ∃ self, emsh_hist_init cfg self0 n = some self ∧
      emsh_hist_inv self [0] ((List.range (n - 1)).map Nat.succ) ∧
      self.capacity = n ∧ self.pos = 0 ∧
      self.mem = fun b j => if b < n ∧ j = 0 then 0 else self0.mem b j := by
  have hfree0 : list_is (list_init self0.node .free_list) .free_list
      ((List.range 0).map .block) := by
    refine ⟨?_, by simp⟩
    simp [list_seg, list_links, list_init, list_set_prev, list_set_next, Function.update_apply]
  obtain ⟨h1, he1, hf1⟩ := emsh_hist_init_blocks_spec cfg n 0 _ self0.mem hfree0
  have hrange : List.range (0 + n) = 0 :: (List.range (n - 1)).map Nat.succ := by
    obtain ⟨k, rfl⟩ : ∃ k, n = k + 1 := ⟨n - 1, by omega⟩
    simp [List.range_succ_eq_map]
  rw [hrange] at hf1
  have hf2 : list_is (list_init h1 .list) .free_list
      ((0 :: (List.range (n - 1)).map Nat.succ).map .block) := by
    refine list_is_frame _ _ _ _ ?_ hf1
    intro y hy
    have hyl : y ≠ .list := by
      rintro rfl
      simp at hy
    simp [list_init, list_set_prev, list_set_next, Function.update_apply, hyl]
  have hl2 : list_is (list_init h1 .list) .list (([] : List Nat).map .block) := by
    refine ⟨?_, by simp⟩
    simp [list_seg, list_links, list_init, list_set_prev, list_set_next, Function.update_apply]
  have hnd : (List.range (0 + n)).Nodup := List.nodup_range _
  rw [hrange] at hnd
  obtain ⟨h3, he3, hf3, hl3, hx3, _⟩ :=
    hist_pop_front (list_init h1 .list) .free_list .list 0 _ [] (by decide) (Or.inr rfl)
      (Or.inl rfl) hf2 hl2 (by simp)
  obtain ⟨h4, he4, hl4, hf4, _⟩ :=
    hist_push_front h3 .list .free_list 0 [] _ (by decide) (Or.inl rfl)
      (Or.inr rfl) hl3 hf3 hx3 (by simp) (by
        intro i hi hm
        simp only [List.mem_cons, List.not_mem_nil, or_false] at hm
        subst hm
        exact (List.nodup_cons.1 hnd).1 hi)
  have hfront := list_front_eq h4 .list _ hl4
  have hn0 : n ≠ 0 := by omega
  refine ⟨⟨n, 1, 0, some (.block 0), h4,
    fun b j => if b < n ∧ j = 0 then 0 else self0.mem b j⟩, ?_, ?_, rfl, rfl, rfl⟩
  · simp only [emsh_hist_init, c_assert, bne_iff_ne, ne_eq, hn0, not_false_eq_true, ite_true,
      decide_True, he1, he3, he4, hfront, Option.bind_eq_bind, Option.some_bind,
      Option.pure_def, List.map_cons, List.map_nil, List.head?_cons, Option.some.injEq]
    congr 1
    funext b j
    simp
  · refine ⟨hl4, hf4, ?_, rfl, by simp, by simp⟩
    have : ([0] ++ (List.range (n - 1)).map Nat.succ) = List.range n := by
      rw [← Nat.zero_add n, hrange]; simp
    rw [this]

end Emsh

namespace Emsh

/-! ## The claims on the history ring -/

theorem emsh_hist_inv_active (self : emsh_hist_t) (al fl : List Nat)
    (H : emsh_hist_inv self al fl) :
    emsh_hist_active self = al.map .block ∧ emsh_hist_free self = fl.map .block := by
  have hlen := emsh_hist_inv_length self al fl H
  refine ⟨list_is_nodes _ _ _ H.1 _ ?_, list_is_nodes _ _ _ H.2.1 _ ?_⟩
  · simp only [List.length_map]; omega
  · simp only [List.length_map]; omega

theorem emsh_hist_step_inv (cfg : emsh_tunables) (self : emsh_hist_t) (al fl : List Nat)
    (H : emsh_hist_inv self al fl) (op : emsh_hist_op) :
    ∃ self' al' fl', emsh_hist_step cfg self op = some self' ∧
      emsh_hist_inv self' al' fl' ∧ self'.capacity = self.capacity := by
  cases op with
  | commit =>
    obtain ⟨self', f, al', fl', he, hinv, _, hc, _⟩ := emsh_hist_commit_inv cfg self al fl H
    exact ⟨self', f :: al', fl', he, hinv, hc⟩
  | move_backward =>
    obtain ⟨self', he, hinv, _, hc⟩ := emsh_hist_move_backward_inv self al fl H
    exact ⟨self', al, fl, he, hinv, hc⟩
  | move_forward =>
    obtain ⟨self', he, hinv, _, hc⟩ := emsh_hist_move_forward_inv self al fl H
    exact ⟨self', al, fl, he, hinv, hc⟩

theorem emsh_hist_run_inv (cfg : emsh_tunables) (ops : List emsh_hist_op)
    (self : emsh_hist_t) (al fl : List Nat) (H : emsh_hist_inv self al fl) :
    ∃ self' al' fl', emsh_hist_run cfg self ops = some self' ∧
      emsh_hist_inv self' al' fl' ∧ self'.capacity = self.capacity := by
  induction ops generalizing self al fl with
  | nil => exact ⟨self, al, fl, rfl, H, rfl⟩
  | cons op ops ih =>
    obtain ⟨s1, al1, fl1, he1, h1, hc1⟩ := emsh_hist_step_inv cfg self al fl H op
    obtain ⟨s2, al2, fl2, he2, h2, hc2⟩ := ih s1 al1 fl1 h1
    refine ⟨s2, al2, fl2, ?_, h2, hc2.trans hc1⟩
    simp [emsh_hist_run, he1, he2]

/-- C4. After `emsh_hist_init` with `n ≥ 1` blocks and any sequence of commits
and cursor moves, the ring satisfies `1 ≤ size ≤ capacity`, `size` is the
number of nodes on the active list, the active and the free list together hold
every block of the pool exactly once, `pos < size`, and `cur` is the `pos`-th
node of the active list counted from its head. -/
theorem emsh_hist_ring_invariant (cfg : emsh_tunables) (self0 : emsh_hist_t) (n : Nat)
    (hn : 1 ≤ n) (ops : List emsh_hist_op) :
    ∃ self, (emsh_hist_init cfg self0 n).bind (fun s => emsh_hist_run cfg s ops) = some self ∧
      self.capacity = n ∧ 1 ≤ self.size ∧ self.size ≤ self.capacity ∧
      self.size = (emsh_hist_active self).length ∧
      (emsh_hist_active self ++ emsh_hist_free self).Perm
        ((List.range n).map list_ptr.block) ∧
      (∀ i, i < n →
        (list_ptr.block i ∈ emsh_hist_active self ∧ list_ptr.block i ∉ emsh_hist_free self) ∨
        (list_ptr.block i ∉ emsh_hist_active self ∧ list_ptr.block i ∈ emsh_hist_free self)) ∧
      self.pos < self.size ∧
      (∃ c, self.cur = some c ∧ (emsh_hist_active self)[self.pos]? = some c) := by
  obtain ⟨s0, he0, h0, hc0, _, _⟩ := emsh_hist_init_spec cfg self0 n hn
  obtain ⟨self, al, fl, he, H, hc⟩ := emsh_hist_run_inv cfg ops s0 _ _ h0
  have hcap : self.capacity = n := hc.trans hc0
  obtain ⟨ha, hf⟩ := emsh_hist_inv_active self al fl H
  have hlen := emsh_hist_inv_length self al fl H
  have hnd := emsh_hist_inv_nodup self al fl H
  obtain ⟨c, hc1, hc2⟩ := emsh_hist_inv_cur self al fl H
  obtain ⟨_, _, hperm, hsize, hpos, _⟩ := H
  refine ⟨self, by simp [he0, he], hcap, by omega, by omega, by simp [ha, hsize], ?_, ?_,
    by omega, ⟨.block c, hc2, by simp [ha, hc1]⟩⟩
  · rw [ha, hf, ← List.map_append, ← hcap]
    exact hperm.map _
  · intro i hi
    have hmem : i ∈ al ++ fl := hperm.mem_iff.2 (by simp [hcap, hi])
    rw [ha, hf]
    simp only [list_block_mem]
    rw [List.nodup_append] at hnd
    rcases List.mem_append.1 hmem with h | h
    · exact Or.inl ⟨h, fun h' => hnd.2.2 h h'⟩
    · exact Or.inr ⟨fun h' => hnd.2.2 h' h, h⟩

/-- C4 for the default pool of 10 blocks and a run of commits and cursor moves. -/
theorem emsh_hist_ring_invariant_witness :
    ∃ self, (emsh_hist_init {} emsh_hist_E4 10).bind (fun s => emsh_hist_run {} s
        [.commit, .commit, .commit, .move_backward, .move_backward, .commit, .move_forward]) =
          some self ∧
      self.capacity = 10 ∧ 1 ≤ self.size ∧ self.size ≤ self.capacity ∧
      self.size = (emsh_hist_active self).length ∧
      (emsh_hist_active self ++ emsh_hist_free self).Perm
        ((List.range 10).map list_ptr.block) ∧
      (∀ i, i < 10 →
        (list_ptr.block i ∈ emsh_hist_active self ∧ list_ptr.block i ∉ emsh_hist_free self) ∨
        (list_ptr.block i ∉ emsh_hist_active self ∧ list_ptr.block i ∈ emsh_hist_free self)) ∧
      self.pos < self.size ∧
      (∃ c, self.cur = some c ∧ (emsh_hist_active self)[self.pos]? = some c) :=
  emsh_hist_ring_invariant {} emsh_hist_E4 10 (by decide) _

end Emsh

namespace Emsh

theorem emsh_hist_inv_split (self : emsh_hist_t) (al fl : List Nat)
    (H : emsh_hist_inv self al fl) (hp : 1 ≤ self.pos) :
    ∃ d c r1 r2, al = d :: (r1 ++ c :: r2) ∧ self.pos = r1.length + 1 ∧
      al[self.pos]? = some c ∧ (al.eraseIdx self.pos).tail = r1 ++ r2 := by
  have hposlt := H.2.2.2.2.1
  cases al with
  | nil => simp at hposlt
  | cons d rest =>
    simp only [List.length_cons] at hposlt
    obtain ⟨k, hk1⟩ : ∃ k, self.pos = k + 1 := ⟨self.pos - 1, by omega⟩
    have hk : k < rest.length := by omega
    have hrest : rest = rest.take k ++ rest[k] :: rest.drop (k + 1) := by
      have h1 := List.take_append_drop k rest
      rw [List.drop_eq_getElem_cons hk] at h1
      exact h1.symm
    have hlen : (rest.take k).length = k := by
      rw [List.length_take]; omega
    refine ⟨d, rest[k], rest.take k, rest.drop (k + 1), ?_, ?_, ?_, ?_⟩
    · rw [← hrest]
    · rw [hlen, hk1]
    · rw [hk1, List.getElem?_cons_succ]
      exact List.getElem?_eq_getElem hk
    · rw [hk1, List.eraseIdx_cons_succ, List.tail_cons]
      conv_lhs => rw [hrest]
      rw [List.eraseIdx_append_of_length_le (by omega)]
      simp [hlen]

theorem c_strlen_zero (cfg : emsh_tunables) (m : emsh_mem) (b : Nat) (h : m b 0 = 0) :
    c_strlen cfg m b = some 0 := by
  simp [c_strlen, c_strlen_from, h]

/-- C5. On a well-formed ring whose cursor is at a position `p ≥ 1`,
`emsh_hist_commit` appends the old draft's block `d` to the free list, takes
the new draft `f` from the front of the free list and clears its text; the
active list becomes the new draft, then the entry that was at position `p`,
then the other committed entries in their previous order. The size is
unchanged, the cursor is on the new draft, and no other block's text changes. -/
theorem emsh_hist_commit_navigated (cfg : emsh_tunables) (self : emsh_hist_t)
    (al fl : List Nat) (H : emsh_hist_inv self al fl) (hp : 1 ≤ self.pos) :
    ∃ self' d c f, al.head? = some d ∧ al[self.pos]? = some c ∧
      (fl ++ [d]).head? = some f ∧
      emsh_hist_commit cfg self = some self' ∧
      emsh_hist_inv self' (f :: c :: (al.eraseIdx self.pos).tail) (fl ++ [d]).tail ∧
      c_strlen cfg self'.mem f = some 0 ∧
      (∀ b, b ≠ f → self'.mem b = self.mem b) ∧
      self'.size = self.size ∧ self'.pos = 0 ∧ self'.cur = some (.block f) := by
  obtain ⟨d, c, r1, r2, hal, hpos, hc, herase⟩ := emsh_hist_inv_split self al fl H hp
  subst hal
  obtain ⟨self', f, ft, hfl, he, hinv, hp0, _, hsz, hm⟩ :=
    emsh_hist_commit_nav cfg self d c r1 r2 fl H hpos
  have hcur := hinv.2.2.2.2.2
  refine ⟨self', d, c, f, rfl, hc, by rw [hfl]; rfl, he, ?_, ?_, ?_, hsz, hp0, ?_⟩
  · rw [herase, hfl]; exact hinv
  · apply c_strlen_zero; rw [hm]; simp
  · intro b hb
    rw [hm]; funext i; simp [hb]
  · rw [hcur, hp0]; rfl

/-- C5 on scenario E4: the history reads draft, two, three, one after the commit. -/
theorem emsh_hist_commit_navigated_witness :
    emsh_hist_inv emsh_hist_E4 [3, 2, 1, 0] [4] ∧ 1 ≤ emsh_hist_E4.pos ∧
    ∃ self' d c f, [3, 2, 1, 0].head? = some d ∧ [3, 2, 1, 0][emsh_hist_E4.pos]? = some c ∧
      ([4] ++ [d]).head? = some f ∧
      emsh_hist_commit {} emsh_hist_E4 = some self' ∧
      emsh_hist_inv self' (f :: c :: ([3, 2, 1, 0].eraseIdx emsh_hist_E4.pos).tail)
        ([4] ++ [d]).tail ∧
      c_strlen {} self'.mem f = some 0 ∧
      (∀ b, b ≠ f → self'.mem b = emsh_hist_E4.mem b) ∧
      self'.size = emsh_hist_E4.size ∧ self'.pos = 0 ∧ self'.cur = some (.block f) :=
  have h : emsh_hist_inv emsh_hist_E4 [3, 2, 1, 0] [4] :=
    ⟨⟨by simp [list_seg, list_links, emsh_hist_E4], by decide⟩,
     ⟨by simp [list_seg, list_links, emsh_hist_E4], by decide⟩, by decide, rfl, by decide, rfl⟩
  ⟨h, by decide, emsh_hist_commit_navigated {} emsh_hist_E4 [3, 2, 1, 0] [4] h (by decide)⟩

/-- C6. `emsh_hist_commit` on a well-formed ring yields the active list
`f :: al'` with a cleared new draft `f`. With the cursor on the draft and
`size < capacity`, `f` is the first free block, `al'` is the whole previous
active list and the size grows by one; with the cursor on the draft and
`size = capacity`, the tail entry `t` is retired first (`al'` is the previous
list without it, `f` is its block) and the size stays `capacity`. Over all
commits the previous tail entry `t` is absent from the committed entries `al'`
exactly when the cursor is at position 0 and `size = capacity`. -/
theorem emsh_hist_commit_at_draft (cfg : emsh_tunables) (self : emsh_hist_t)
    (al fl : List Nat) (H : emsh_hist_inv self al fl) :
    ∃ self' f al' fl' t, emsh_hist_commit cfg self = some self' ∧
      emsh_hist_inv self' (f :: al') fl' ∧ al.getLast? = some t ∧
      c_strlen cfg self'.mem f = some 0 ∧ (∀ b, b ≠ f → self'.mem b = self.mem b) ∧
      (self.pos = 0 → self.size < self.capacity →
        fl = f :: fl' ∧ al' = al ∧ (∀ i, (f :: al')[i + 1]? = al[i]?) ∧
        self'.size = self.size + 1) ∧
      (self.pos = 0 → self.size = self.capacity →
        fl = [] ∧ fl' = [] ∧ f = t ∧ al' = al.dropLast ∧ self'.size = self.capacity) ∧
      (t ∉ al' ↔ (self.pos = 0 ∧ self.size = self.capacity)) := by
  have hlen := emsh_hist_inv_length self _ _ H
  have hnd := emsh_hist_inv_nodup self _ _ H
  have hposlt := H.2.2.2.2.1
  have hsize := H.2.2.2.1
  have hne : al ≠ [] := by
    intro e; subst e; simp at hposlt
  have hmemf : ∀ (s' : emsh_hist_t) (f : Nat),
      (s'.mem = fun b i => if b = f ∧ i = 0 then 0 else self.mem b i) →
      c_strlen cfg s'.mem f = some 0 ∧ (∀ b, b ≠ f → s'.mem b = self.mem b) := by
    intro s' f hm
    refine ⟨?_, ?_⟩
    · apply c_strlen_zero; rw [hm]; simp
    · intro b hb; rw [hm]; funext i; simp [hb]
  by_cases hpos : self.pos = 0
  · by_cases hfull : self.size = self.capacity
    · have hfl : fl = [] := by
        apply List.eq_nil_of_length_eq_zero; omega
      subst hfl
      obtain ⟨al', t, rfl⟩ : ∃ al' t, al = al' ++ [t] :=
        ⟨al.dropLast, al.getLast hne, (List.dropLast_append_getLast hne).symm⟩
      obtain ⟨self', he, hinv, _, _, hsz, hm⟩ :=
        emsh_hist_commit_full cfg self t al' H hpos hfull
      have htal : t ∉ al' := by
        simp only [List.append_nil] at hnd
        intro hm'
        exact (List.nodup_append.1 hnd).2.2 hm' (List.mem_singleton_self _)
      refine ⟨self', t, al', [], t, he, hinv, List.getLast?_concat _, (hmemf self' t hm).1,
        (hmemf self' t hm).2, ?_, ?_, ?_⟩
      · intro _ hlt; omega
      · intro _ _
        exact ⟨rfl, rfl, rfl, by simp, by rw [hsz, hfull]⟩
      · exact ⟨fun _ => ⟨hpos, hfull⟩, fun _ => htal⟩
    · cases fl with
      | nil => simp at hlen; omega
      | cons f fl' =>
        obtain ⟨self', he, hinv, _, _, hsz, hm⟩ :=
          emsh_hist_commit_grow cfg self f al fl' H hpos
        refine ⟨self', f, al, fl', al.getLast hne, he, hinv, List.getLast?_eq_getLast _ _,
          (hmemf self' f hm).1, (hmemf self' f hm).2, ?_, ?_, ?_⟩
        · intro _ _
          exact ⟨rfl, rfl, fun i => by simp, hsz⟩
        · intro _ hc; exact absurd hc hfull
        · constructor
          · intro hn; exact absurd (List.getLast_mem hne) hn
          · intro hc; exact absurd hc.2 hfull
  · obtain ⟨d, c, r1, r2, hal, hp1, _, _⟩ := emsh_hist_inv_split self al fl H (by omega)
    subst hal
    obtain ⟨self', f, ft, _, he, hinv, _, _, _, hm⟩ :=
      emsh_hist_commit_nav cfg self d c r1 r2 fl H hp1
    have hne2 : r1 ++ c :: r2 ≠ [] := by simp
    have hlast : (d :: (r1 ++ c :: r2)).getLast? = some ((r1 ++ c :: r2).getLast hne2) := by
      rw [List.getLast?_eq_getLast _ (by simp)]
      congr 1
      exact List.getLast_cons hne2
    have hmem : (r1 ++ c :: r2).getLast hne2 ∈ c :: (r1 ++ r2) := by
      have := List.getLast_mem hne2
      simp only [List.mem_append, List.mem_cons] at this ⊢
      tauto
    refine ⟨self', f, c :: (r1 ++ r2), ft, _, he, hinv, hlast, (hmemf self' f hm).1,
      (hmemf self' f hm).2, ?_, ?_, ?_⟩
    · intro h0; exact absurd h0 hpos
    · intro h0; exact absurd h0 hpos
    · constructor
      · intro hn; exact absurd hmem hn
      · intro hc; exact absurd hc.1 hpos

/-- C6 on a fresh ring (cursor on the draft, not full) and on a full ring
(cursor on the draft), both over a pool of 2 blocks. -/
theorem emsh_hist_commit_at_draft_witness :
    (emsh_hist_inv emsh_hist_fresh2 [0] [1] ∧
     ∃ self' f al' fl' t, emsh_hist_commit {} emsh_hist_fresh2 = some self' ∧
      emsh_hist_inv self' (f :: al') fl' ∧ [0].getLast? = some t ∧
      c_strlen {} self'.mem f = some 0 ∧ (∀ b, b ≠ f → self'.mem b = emsh_hist_fresh2.mem b) ∧
      (emsh_hist_fresh2.pos = 0 → emsh_hist_fresh2.size < emsh_hist_fresh2.capacity →
        [1] = f :: fl' ∧ al' = [0] ∧ (∀ i, (f :: al')[i + 1]? = [0][i]?) ∧
        self'.size = emsh_hist_fresh2.size + 1) ∧
      (emsh_hist_fresh2.pos = 0 → emsh_hist_fresh2.size = emsh_hist_fresh2.capacity →
        [1] = [] ∧ fl' = [] ∧ f = t ∧ al' = [0].dropLast ∧
        self'.size = emsh_hist_fresh2.capacity) ∧
      (t ∉ al' ↔ (emsh_hist_fresh2.pos = 0 ∧
        emsh_hist_fresh2.size = emsh_hist_fresh2.capacity))) ∧
    (emsh_hist_inv emsh_hist_full2 [1, 0] [] ∧
     ∃ self' f al' fl' t, emsh_hist_commit {} emsh_hist_full2 = some self' ∧
      emsh_hist_inv self' (f :: al') fl' ∧ [1, 0].getLast? = some t ∧
      c_strlen {} self'.mem f = some 0 ∧ (∀ b, b ≠ f → self'.mem b = emsh_hist_full2.mem b) ∧
      (emsh_hist_full2.pos = 0 → emsh_hist_full2.size < emsh_hist_full2.capacity →
        [] = f :: fl' ∧ al' = [1, 0] ∧ (∀ i, (f :: al')[i + 1]? = [1, 0][i]?) ∧
        self'.size = emsh_hist_full2.size + 1) ∧
      (emsh_hist_full2.pos = 0 → emsh_hist_full2.size = emsh_hist_full2.capacity →
        ([] : List Nat) = [] ∧ fl' = [] ∧ f = t ∧ al' = [1, 0].dropLast ∧
        self'.size = emsh_hist_full2.capacity) ∧
      (t ∉ al' ↔ (emsh_hist_full2.pos = 0 ∧
        emsh_hist_full2.size = emsh_hist_full2.capacity))) :=
  have h1 : emsh_hist_inv emsh_hist_fresh2 [0] [1] :=
    ⟨⟨by simp [list_seg, list_links, emsh_hist_fresh2], by decide⟩,
     ⟨by simp [list_seg, list_links, emsh_hist_fresh2], by decide⟩, by decide, rfl, by decide,
     rfl⟩
  have h2 : emsh_hist_inv emsh_hist_full2 [1, 0] [] :=
    ⟨⟨by simp [list_seg, list_links, emsh_hist_full2], by decide⟩,
     ⟨by simp [list_seg, list_links, emsh_hist_full2], by decide⟩, by decide, rfl, by decide,
     rfl⟩
  ⟨⟨h1, emsh_hist_commit_at_draft {} emsh_hist_fresh2 [0] [1] h1⟩,
   ⟨h2, emsh_hist_commit_at_draft {} emsh_hist_full2 [1, 0] [] h2⟩⟩

theorem list_is_next_get (h : list_heap) (s x : list_ptr) (l : List list_ptr)
    (H : list_is h s l) (i : Nat) (hx : l[i]? = some x) :
    (h x).next = (l ++ [s])[i + 1]? ∧ (h x).prev = (s :: l)[i]? := by
  have h1 := list_is_node_next h s x l H i hx
  have h2 := list_is_node_prev h s x l H i hx
  have hs := list_is_node_sanity h s x l H (List.getElem?_mem hx)
  simp only [list_node_next, list_node_prev, hs, c_assert_true, Option.bind_eq_bind,
    Option.some_bind, Option.pure_def, Option.some.injEq] at h1 h2
  exact ⟨h1, h2⟩

/-- C7. On a well-formed ring, `emsh_hist_move_backward` adds one to `pos` and
moves `cur` to `cur->next` (the next older entry) if `pos < size - 1` and
returns the ring unchanged otherwise; `emsh_hist_move_forward` subtracts one
from `pos` and moves `cur` to `cur->prev` if `pos > 0` and returns the ring
unchanged otherwise. Neither touches the node links, the size, the capacity or
the stored text. -/
theorem emsh_hist_move_cursor (self : emsh_hist_t) (al fl : List Nat)
    (H : emsh_hist_inv self al fl) :
    ∃ c, self.cur = some c ∧
      emsh_hist_move_backward self = some (if self.pos < self.size - 1 then
        { self with pos := self.pos + 1, cur := (self.node c).next } else self) ∧
      emsh_hist_move_forward self = some (if self.pos > 0 then
        { self with pos := self.pos - 1, cur := (self.node c).prev } else self) ∧
      (self.pos < self.size - 1 →
        (self.node c).next = (al[self.pos + 1]?).map list_ptr.block) ∧
      (self.pos > 0 → (self.node c).prev = (al[self.pos - 1]?).map list_ptr.block) ∧
      (∀ self', emsh_hist_move_backward self = some self' ∨
          emsh_hist_move_forward self = some self' →
        self'.node = self.node ∧ self'.mem = self.mem ∧ self'.size = self.size ∧
        self'.capacity = self.capacity) := by
  obtain ⟨c, hc, hcur⟩ := emsh_hist_inv_cur self al fl H
  have hb := emsh_hist_move_backward_spec self al fl H
  have hf := emsh_hist_move_forward_spec self al fl H
  obtain ⟨hl, _, _, hsize, hpos, _⟩ := H
  have hx : (al.map list_ptr.block)[self.pos]? = some (.block c) := by
    rw [List.getElem?_map, hc]; rfl
  obtain ⟨hnext, hprev⟩ := list_is_next_get self.node .list (.block c) _ hl self.pos hx
  have hn1 : self.pos < self.size - 1 →
      (self.node (.block c)).next = (al[self.pos + 1]?).map list_ptr.block := by
    intro hlt
    rw [hnext, List.getElem?_append_left (by simp; omega), List.getElem?_map]
  have hp1 : self.pos > 0 →
      (self.node (.block c)).prev = (al[self.pos - 1]?).map list_ptr.block := by
    intro hlt
    obtain ⟨k, hk⟩ : ∃ k, self.pos = k + 1 := ⟨self.pos - 1, by omega⟩
    rw [hprev, hk, List.getElem?_cons_succ, List.getElem?_map]; simp
  refine ⟨.block c, hcur, ?_, ?_, hn1, hp1, ?_⟩
  · rw [hb]
    by_cases hlt : self.pos < self.size - 1
    · have : self.pos + 1 < self.size := by omega
      rw [if_pos hlt, if_pos this, hn1 hlt]
    · have : ¬ (self.pos + 1 < self.size) := by omega
      rw [if_neg hlt, if_neg this]
  · rw [hf]
    by_cases hlt : self.pos > 0
    · have : 0 < self.pos := hlt
      rw [if_pos hlt, if_pos this, hp1 hlt]
    · have : ¬ (0 < self.pos) := hlt
      rw [if_neg hlt, if_neg this]
  · intro self' he
    rw [hb, hf] at he
    rcases he with he | he
    · simp only [Option.some.injEq] at he
      subst he
      split_ifs <;> exact ⟨rfl, rfl, rfl, rfl⟩
    · simp only [Option.some.injEq] at he
      subst he
      split_ifs <;> exact ⟨rfl, rfl, rfl, rfl⟩

/-- C7 on the ring of scenario E4 (cursor at position 2 of 4 entries). -/
theorem emsh_hist_move_cursor_witness :
    emsh_hist_inv emsh_hist_E4 [3, 2, 1, 0] [4] ∧
    ∃ c, emsh_hist_E4.cur = some c ∧
      emsh_hist_move_backward emsh_hist_E4 = some
        (if emsh_hist_E4.pos < emsh_hist_E4.size - 1 then
          { emsh_hist_E4 with pos := emsh_hist_E4.pos + 1, cur := (emsh_hist_E4.node c).next }
        else emsh_hist_E4) ∧
      emsh_hist_move_forward emsh_hist_E4 = some (if emsh_hist_E4.pos > 0 then
        { emsh_hist_E4 with pos := emsh_hist_E4.pos - 1, cur := (emsh_hist_E4.node c).prev }
        else emsh_hist_E4) ∧
      (emsh_hist_E4.pos < emsh_hist_E4.size - 1 →
        (emsh_hist_E4.node c).next =
          ([3, 2, 1, 0][emsh_hist_E4.pos + 1]?).map list_ptr.block) ∧
      (emsh_hist_E4.pos > 0 →
        (emsh_hist_E4.node c).prev =
          ([3, 2, 1, 0][emsh_hist_E4.pos - 1]?).map list_ptr.block) ∧
      (∀ self', emsh_hist_move_backward emsh_hist_E4 = some self' ∨
          emsh_hist_move_forward emsh_hist_E4 = some self' →
        self'.node = emsh_hist_E4.node ∧ self'.mem = emsh_hist_E4.mem ∧
        self'.size = emsh_hist_E4.size ∧ self'.capacity = emsh_hist_E4.capacity) :=
  have h : emsh_hist_inv emsh_hist_E4 [3, 2, 1, 0] [4] :=
    ⟨⟨by simp [list_seg, list_links, emsh_hist_E4], by decide⟩,
     ⟨by simp [list_seg, list_links, emsh_hist_E4], by decide⟩, by decide, rfl, by decide, rfl⟩
  ⟨h, emsh_hist_move_cursor emsh_hist_E4 [3, 2, 1, 0] [4] h⟩

end Emsh

namespace Emsh

/-! ## emsh.c: the command tokenizer -/

theorem c_bytes_nil (a : Nat → Nat) (i j : Nat) (h : j ≤ i) : c_bytes a i j = [] := by
  have : j - i = 0 := by omega
  simp [c_bytes, this]

theorem c_bytes_cons (a : Nat → Nat) (i j : Nat) (h : i < j) :
    c_bytes a i j = a i :: c_bytes a (i + 1) j := by
  have : j - i = (j - (i + 1)) + 1 := by omega
  simp [c_bytes, this, List.range'_succ]

theorem c_bytes_append (a : Nat → Nat) (i j k : Nat) (hij : i ≤ j) (hjk : j ≤ k) :
    c_bytes a i k = c_bytes a i j ++ c_bytes a j k := by
  induction' hn : j - i with n ih generalizing i
  · have : i = j := by omega
    subst this
    simp [c_bytes_nil a i i (le_refl _)]
  · rw [c_bytes_cons a i k (by omega), c_bytes_cons a i j (by omega), ih (i + 1) (by omega) (by omega)]
    rfl

theorem c_bytes_length (a : Nat → Nat) (i j : Nat) : (c_bytes a i j).length = j - i := by
  simp [c_bytes]

theorem c_bytes_mem (a : Nat → Nat) (i j x : Nat) (hx : x ∈ c_bytes a i j) :
    ∃ k, i ≤ k ∧ k < j ∧ a k = x := by
  simp only [c_bytes, List.mem_map, List.mem_range'_1] at hx
  obtain ⟨k, ⟨h1, h2⟩, h3⟩ := hx
  exact ⟨k, h1, by omega, h3⟩

theorem emsh_line_eq (m : emsh_mem) (data size : Nat) :
    emsh_line m data size = c_bytes (m data) 0 size := by
  simp [emsh_line, c_bytes, List.range_eq_range']

theorem emsh_words_nil : emsh_words [] = [] := by
  simp [emsh_words, List.splitOn, List.splitOnP_nil]

theorem emsh_words_space (l : List Nat) : emsh_words (0x20 :: l) = emsh_words l := by
  simp [emsh_words, List.splitOn, List.splitOnP_cons]

theorem emsh_words_word (w l : List Nat) (hw : w ≠ []) (hsp : ∀ x ∈ w, x ≠ 0x20) :
    emsh_words (w ++ 0x20 :: l) = w :: emsh_words l := by
  have h : (w ++ 0x20 :: l).splitOnP (fun x => x == 0x20) =
      w :: l.splitOnP (fun x => x == 0x20) :=
    List.splitOnP_first (fun x => x == 0x20) w (by intro x hx; simpa using hsp x hx) 0x20
      (by simp) l
  simp only [emsh_words, List.splitOn]
  rw [h]
  simp [hw]

theorem emsh_words_single (w : List Nat) (hw : w ≠ []) (hsp : ∀ x ∈ w, x ≠ 0x20) :
    emsh_words w = [w] := by
  have h : w.splitOnP (fun x => x == 0x20) = [w] :=
    List.splitOnP_eq_single (fun x => x == 0x20) w (by intro x hx; simpa using hsp x hx)
  simp only [emsh_words, List.splitOn]
  rw [h]
  simp [hw]

theorem emsh_words_skip (a : Nat → Nat) (p q size : Nat) (hpq : p ≤ q) (hq : q ≤ size)
    (hsp : ∀ i, p ≤ i → i < q → a i = 0x20) :
    emsh_words (c_bytes a p size) = emsh_words (c_bytes a q size) := by
  induction' hn : q - p with n ih generalizing p
  · have : p = q := by omega
    rw [this]
  · rw [c_bytes_cons a p size (by omega), hsp p (le_refl _) (by omega), emsh_words_space]
    exact ih (p + 1) (by omega) (fun i h1 h2 => hsp i (by omega) h2) (by omega)

theorem emsh_words_run (a : Nat → Nat) (p e size : Nat) (hpe : p < e) (he : e ≤ size)
    (hns : ∀ i, p ≤ i → i < e → a i ≠ 0x20) (hend : e < size → a e = 0x20) :
    emsh_words (c_bytes a p size) = c_bytes a p e :: emsh_words (c_bytes a (e + 1) size) := by
  have hw : c_bytes a p e ≠ [] := by
    rw [c_bytes_cons a p e hpe]; simp
  have hsp : ∀ x ∈ c_bytes a p e, x ≠ 0x20 := by
    intro x hx
    obtain ⟨k, h1, h2, rfl⟩ := c_bytes_mem a p e x hx
    exact hns k h1 h2
  rw [c_bytes_append a p e size (by omega) he]
  by_cases hlt : e < size
  · rw [c_bytes_cons a e size hlt, hend hlt]
    exact emsh_words_word _ _ hw hsp
  · have : e = size := by omega
    subst this
    rw [c_bytes_nil a e e (le_refl _), c_bytes_nil a (e + 1) e (by omega), List.append_nil,
      emsh_words_nil]
    exact emsh_words_single _ hw hsp

theorem mem_read_some (cfg : emsh_tunables) (m : emsh_mem) (b i : Nat)
    (h : i ≤ cfg.EMSH_MAX_LINE_SIZE) : mem_read cfg m b i = some (m b i) := by
  simp [mem_read]; omega

theorem mem_write_some (cfg : emsh_tunables) (m : emsh_mem) (b i v : Nat)
    (h : i ≤ cfg.EMSH_MAX_LINE_SIZE) :
    mem_write cfg m b i v = some (fun b' i' => if b' = b ∧ i' = i then v else m b' i') := by
  simp [mem_write]; omega

theorem emsh_cmd_split_scan_spec (cfg : emsh_tunables) (m : emsh_mem) (data size : Nat)
    (sp : Bool) (hsz : size ≤ cfg.EMSH_MAX_LINE_SIZE) (fuel pos : Nat)
    (hfuel : size ≤ pos + fuel) :
    ∃ q, emsh_cmd_split_scan cfg m data size sp fuel pos = some q ∧ pos ≤ q ∧
      (pos ≤ size → q ≤ size) ∧ (size ≤ pos → q = pos) ∧
      (∀ i, pos ≤ i → i < q → (m data i == 0x20) = sp) ∧
      (q < size → (m data q == 0x20) ≠ sp) := by
  induction fuel generalizing pos with
  | zero =>
    have : ¬ pos < size := by omega
    exact ⟨pos, by simp [emsh_cmd_split_scan, this], le_refl _, fun _ => by omega,
      fun _ => rfl, fun i h1 h2 => by omega, fun h => by omega⟩
  | succ fuel ih =>
    by_cases hlt : pos < size
    · by_cases hc : (m data pos == 0x20) = sp
      · obtain ⟨q, hq, h1, h2, h3, h4, h5⟩ := ih (pos + 1) (by omega)
        refine ⟨q, ?_, by omega, fun _ => h2 (by omega), fun h => by omega, ?_, h5⟩
        · simp only [emsh_cmd_split_scan, hlt, ite_true, mem_read_some cfg m data pos (by omega),
            Option.bind_eq_bind, Option.some_bind, hc, hq]
        · intro i hi1 hi2
          by_cases hip : i = pos
          · rw [hip]; exact hc
          · exact h4 i (by omega) hi2
      · refine ⟨pos, ?_, le_refl _, fun _ => by omega, fun _ => rfl, fun i h1 h2 => by omega,
          fun _ => hc⟩
        simp only [emsh_cmd_split_scan, hlt, ite_true, mem_read_some cfg m data pos (by omega),
          Option.bind_eq_bind, Option.some_bind, hc, ite_false, Option.pure_def]
    · exact ⟨pos, by simp [emsh_cmd_split_scan, hlt], le_refl _, fun _ => by omega,
        fun _ => rfl, fun i h1 h2 => by omega, fun h => by omega⟩

theorem c_string_from_spec (a : Nat → Nat) (w : List Nat) (fuel off : Nat)
    (hfuel : w.length < fuel) (hw : ∀ k, (hk : k < w.length) → a (off + k) = w[k])
    (hnz : ∀ x ∈ w, x ≠ 0) (hend : a (off + w.length) = 0) :
    c_string_from a fuel off = some w := by
  induction w generalizing fuel off with
  | nil =>
    cases fuel with
    | zero => simp at hfuel
    | succ f => simpa [c_string_from] using hend
  | cons x w ih =>
    cases fuel with
    | zero => simp at hfuel
    | succ f =>
      have hx : a off = x := by simpa using hw 0 (by simp)
      have hx0 : x ≠ 0 := hnz x (List.mem_cons_self _ _)
      have hrec := ih f (off + 1) (by simp at hfuel; omega)
        (fun k hk => by
          have := hw (k + 1) (by simp; omega)
          simpa [Nat.add_assoc, Nat.add_comm 1 k] using this)
        (fun y hy => hnz y (List.mem_cons_of_mem _ hy))
        (by simpa [Nat.add_assoc, Nat.add_comm 1 w.length] using hend)
      simp [c_string_from, hx, hx0, hrec]

theorem c_bytes_getElem (a : Nat → Nat) (i j k : Nat) (hk : k < (c_bytes a i j).length) :
    (c_bytes a i j)[k] = a (i + k) := by
  simp [c_bytes]

end Emsh

namespace Emsh

theorem emsh_cmd_split_args_spec (cfg : emsh_tunables) (a : Nat → Nat) (data size : Nat)
    (hsz : size ≤ cfg.EMSH_MAX_LINE_SIZE) (ha : ∀ i, i < size → a i ≠ 0) (fuel : Nat) :
    ∀ (pos : Nat) (m : emsh_mem) (cmd : emsh_cmd_t),
      size ≤ pos + fuel → (∀ i, pos ≤ i → m data i = a i) → (pos < size → a pos ≠ 0x20) →
      cmd.argc ≤ cfg.EMSH_MAX_N_ARGS →
      ∃ m' cmd', emsh_cmd_split_args cfg data size fuel pos m cmd = some (m', cmd') ∧
        cmd'.argc = min (cmd.argc + (emsh_words (c_bytes a pos size)).length)
          (cfg.EMSH_MAX_N_ARGS + 1) ∧
        cmd'.optpos = cmd.optpos ∧
        (∀ j, j < cmd.argc → cmd'.argv j = cmd.argv j) ∧
        (∀ j w, (emsh_words (c_bytes a pos size))[j]? = some w →
          cmd.argc + j < cfg.EMSH_MAX_N_ARGS →
          c_string cfg m' (cmd'.argv (cmd.argc + j)) = some w) ∧
        (∀ b i, (b ≠ data ∨ i < pos ∨ size < i) → m' b i = m b i) ∧
        (∀ i, pos ≤ i → i ≤ size →
          m' data i = a i ∨ (m' data i = 0 ∧ (i = size ∨ a i = 0x20))) := by
  induction fuel with
  | zero =>
    intro pos m cmd hfuel hm hstart hargc
    have hge : ¬ pos < size := by omega
    refine ⟨m, cmd, by simp [emsh_cmd_split_args, hge], ?_, rfl, fun _ _ => rfl, ?_,
      fun _ _ _ => rfl, fun i h1 _ => Or.inl (hm i h1)⟩
    · rw [c_bytes_nil a pos size (by omega), emsh_words_nil]; simp; omega
    · intro j w hj
      rw [c_bytes_nil a pos size (by omega), emsh_words_nil] at hj
      simp at hj
  | succ fuel ih =>
    intro pos m cmd hfuel hm hstart hargc
    by_cases hlt : pos < size
    · -- the scan over the argument
      obtain ⟨e, he, hpe, he1, _, he3, he4⟩ :=
        emsh_cmd_split_scan_spec cfg m data size false hsz size pos (by omega)
      have hesz : e ≤ size := he1 (by omega)
      have hpe' : pos < e := by
        rcases Nat.lt_or_ge pos e with h | h
        · exact h
        · have hpe2 : e = pos := by omega
          have := he4 (by omega)
          rw [hpe2, hm pos (le_refl _)] at this
          have h2 := hstart hlt
          simp [h2] at this
      have hns : ∀ i, pos ≤ i → i < e → a i ≠ 0x20 := by
        intro i h1 h2
        have := he3 i h1 h2
        rw [hm i h1] at this
        simpa using this
      have hend : e < size → a e = 0x20 := by
        intro h
        have := he4 h
        rw [hm e (by omega)] at this
        simpa using this
      have hwords := emsh_words_run a pos e size hpe' hesz hns hend
      by_cases hfull : cmd.argc = cfg.EMSH_MAX_N_ARGS
      · refine ⟨m, { cmd with argc := cmd.argc + 1 }, ?_, ?_, rfl, fun _ _ => rfl, ?_,
          fun _ _ _ => rfl, fun i h1 _ => Or.inl (hm i h1)⟩
        · simp [emsh_cmd_split_args, hlt, hfull]
        · rw [hwords]; simp only [List.length_cons]; omega
        · intro j w _ hj; omega
      · -- the memory after `data[pos] = '\0'`
        obtain ⟨m1, hw1, hm1v⟩ : ∃ m1, mem_write cfg m data e 0 = some m1 ∧
            ∀ b i, m1 b i = if b = data ∧ i = e then 0 else m b i :=
          ⟨_, mem_write_some cfg m data e 0 (by omega), fun _ _ => rfl⟩
        obtain ⟨p2, hp2, hp2a, hp2b, hp2c, hp2d, hp2e⟩ :=
          emsh_cmd_split_scan_spec cfg m1 data size true hsz size (e + 1) (by omega)
        have hm1 : ∀ i, e + 1 ≤ i → m1 data i = a i := by
          intro i hi
          have : i ≠ e := by omega
          rw [hm1v]
          simp only [this, and_false, ite_false]
          exact hm i (by omega)
        have hsp2 : ∀ i, e + 1 ≤ i → i < p2 → a i = 0x20 := by
          intro i h1 h2
          have := hp2d i h1 h2
          rw [hm1 i h1] at this
          simpa using this
        have hstart2 : p2 < size → a p2 ≠ 0x20 := by
          intro h
          have := hp2e h
          rw [hm1 p2 hp2a] at this
          simpa using this
        have hwords2 : emsh_words (c_bytes a (e + 1) size) = emsh_words (c_bytes a p2 size) := by
          by_cases hes : e + 1 ≤ size
          · exact emsh_words_skip a (e + 1) p2 size hp2a (hp2b hes) hsp2
          · rw [c_bytes_nil a (e + 1) size (by omega), c_bytes_nil a p2 size (by omega)]
        obtain ⟨m', cmd', hrec, hargc', hopt', hargv', hstr', hfr', hch'⟩ :=
          ih p2 m1
            { cmd with argv := Function.update cmd.argv cmd.argc ⟨data, pos⟩,
                       argc := cmd.argc + 1 }
            (by omega) (fun i hi => hm1 i (by omega)) hstart2 (by
              have : cmd.argc < cfg.EMSH_MAX_N_ARGS := by omega
              exact this)
        refine ⟨m', cmd', ?_, ?_, hopt', ?_, ?_, ?_, ?_⟩
        · simp only [emsh_cmd_split_args, hlt, ite_true, hfull, ite_false, he, hw1, hp2,
            Option.bind_eq_bind, Option.some_bind]
          exact hrec
        · rw [hargc', hwords, hwords2]
          simp only [List.length_cons]
          congr 1; omega
        · intro j hj
          rw [hargv' j (by simp only; omega)]
          simp only [Function.update_apply]
          rw [if_neg (by omega)]
        · intro j w hj hjlt
          rw [hwords, hwords2] at hj
          cases j with
          | zero =>
            simp only [List.getElem?_cons_zero, Option.some.injEq] at hj
            subst hj
            rw [Nat.add_zero, hargv' cmd.argc (by simp)]
            simp only [Function.update_same, c_string]
            apply c_string_from_spec
            · rw [c_bytes_length]; omega
            · intro k hk
              rw [c_bytes_length] at hk
              rw [c_bytes_getElem, hfr' data (pos + k) (Or.inr (Or.inl (by omega))), hm1v]
              have : pos + k ≠ e := by omega
              simp only [this, and_false, ite_false]
              exact hm (pos + k) (by omega)
            · intro x hx
              obtain ⟨k, h1, h2, rfl⟩ := c_bytes_mem a pos e x hx
              exact ha k (by omega)
            · rw [c_bytes_length, hfr' data _ (Or.inr (Or.inl (by omega))), hm1v]
              have : pos + (e - pos) = e := by omega
              simp [this]
          | succ j =>
            simp only [List.getElem?_cons_succ] at hj
            have := hstr' j w hj (by simp only; omega)
            simp only at this
            rw [← this]
            congr 2; omega
        · intro b i hbi
          rw [hfr' b i (by
            rcases hbi with h | h | h
            · exact Or.inl h
            · exact Or.inr (Or.inl (by omega))
            · exact Or.inr (Or.inr h))]
          have : ¬ (b = data ∧ i = e) := by
            rintro ⟨rfl, rfl⟩
            rcases hbi with h | h | h
            · exact h rfl
            · omega
            · omega
          rw [hm1v]
          simp only [this, ite_false]
        · intro i h1 h2
          by_cases hip : i < p2
          · rw [hfr' data i (Or.inr (Or.inl hip)), hm1v]
            by_cases hie : i = e
            · subst hie
              right
              refine ⟨by simp, ?_⟩
              by_cases hes : i < size
              · exact Or.inr (hend hes)
              · exact Or.inl (by omega)
            · left
              simp only [hie, and_false, ite_false]
              exact hm i h1
          · exact hch' i (by omega) h2
    · refine ⟨m, cmd, by simp [emsh_cmd_split_args, hlt], ?_, rfl, fun _ _ => rfl, ?_,
        fun _ _ _ => rfl, fun i h1 _ => Or.inl (hm i h1)⟩
      · rw [c_bytes_nil a pos size (by omega), emsh_words_nil]; simp; omega
      · intro j w hj
        rw [c_bytes_nil a pos size (by omega), emsh_words_nil] at hj
        simp at hj

end Emsh

namespace Emsh

theorem emsh_cmd_split_spec (cfg : emsh_tunables) (self : emsh_t)
    (hsz : self.buf.array.size ≤ cfg.EMSH_MAX_LINE_SIZE)
    (hnz : ∀ i, i < self.buf.array.size → self.hist.mem self.buf.array.data i ≠ 0) :
    ∃ m' cmd', emsh_cmd_split cfg self =
        some { self with hist := { self.hist with mem := m' }, cmd := cmd' } ∧
      cmd'.argc = min (emsh_words (emsh_line self.hist.mem self.buf.array.data
        self.buf.array.size)).length (cfg.EMSH_MAX_N_ARGS + 1) ∧
      cmd'.optpos = self.cmd.optpos ∧
      (∀ j w, (emsh_words (emsh_line self.hist.mem self.buf.array.data
          self.buf.array.size))[j]? = some w → j < cfg.EMSH_MAX_N_ARGS →
        c_string cfg m' (cmd'.argv j) = some w) ∧
      (∀ b i, (b ≠ self.buf.array.data ∨ self.buf.array.size < i) →
        m' b i = self.hist.mem b i) ∧
      (∀ i, i ≤ self.buf.array.size →
        m' self.buf.array.data i = self.hist.mem self.buf.array.data i ∨
        (m' self.buf.array.data i = 0 ∧
          (i = self.buf.array.size ∨ self.hist.mem self.buf.array.data i = 0x20))) := by
  obtain ⟨p0, hp0, _, hp0b, _, hp0d, hp0e⟩ :=
    emsh_cmd_split_scan_spec cfg self.hist.mem self.buf.array.data self.buf.array.size true hsz
      self.buf.array.size 0 (by omega)
  have hp0sz : p0 ≤ self.buf.array.size := hp0b (Nat.zero_le _)
  have hskip : emsh_words (emsh_line self.hist.mem self.buf.array.data self.buf.array.size) =
      emsh_words (c_bytes (self.hist.mem self.buf.array.data) p0 self.buf.array.size) := by
    rw [emsh_line_eq]
    exact emsh_words_skip _ 0 p0 _ (Nat.zero_le _) hp0sz
      (fun i h1 h2 => by simpa using hp0d i h1 h2)
  by_cases hp : p0 = self.buf.array.size
  · refine ⟨self.hist.mem, { self.cmd with argc := 0 }, ?_, ?_, rfl, ?_, fun _ _ _ => rfl,
      fun _ _ => Or.inl rfl⟩
    · simp [emsh_cmd_split, emsh_buf_size, emsh_buf_data, bytearray_size, bytearray_data, hp0, hp]
    · rw [hskip, hp, c_bytes_nil _ _ _ (le_refl _), emsh_words_nil]; simp
    · intro j w hj
      rw [hskip, hp, c_bytes_nil _ _ _ (le_refl _), emsh_words_nil] at hj
      simp at hj
  · obtain ⟨m', cmd', hrec, hargc, hopt, _, hstr, hfr, hch⟩ :=
      emsh_cmd_split_args_spec cfg (self.hist.mem self.buf.array.data) self.buf.array.data
        self.buf.array.size hsz hnz self.buf.array.size p0 self.hist.mem
        { self.cmd with argc := 0 } (by omega) (fun _ _ => rfl)
        (fun h => by simpa using hp0e h) (Nat.zero_le _)
    refine ⟨m', cmd', ?_, ?_, hopt, ?_, ?_, ?_⟩
    · simp [emsh_cmd_split, emsh_buf_size, emsh_buf_data, bytearray_size, bytearray_data, hp0, hp,
        hrec]
    · rw [hargc, hskip]; simp
    · intro j w hj hjlt
      rw [hskip] at hj
      have := hstr j w hj (by simpa using hjlt)
      simpa using this
    · intro b i hbi
      exact hfr b i (by tauto)
    · intro i hi
      by_cases hip : p0 ≤ i
      · exact hch i hip hi
      · exact Or.inl (hfr _ i (Or.inr (Or.inl (by omega))))

theorem emsh_cmd_restore_loop_spec (cfg : emsh_tunables) (data : Nat) (k : Nat) :
    ∀ (i : Nat) (m : emsh_mem), i + k ≤ cfg.EMSH_MAX_LINE_SIZE + 1 →
      emsh_cmd_restore_loop cfg data k i m =
        some (fun b j => if b = data ∧ i ≤ j ∧ j < i + k ∧ m data j = 0 then 0x20 else m b j) := by
  induction k with
  | zero =>
    intro i m _
    simp only [emsh_cmd_restore_loop, Option.some.injEq]
    funext b j
    have : ¬ (b = data ∧ i ≤ j ∧ j < i + 0 ∧ m data j = 0) := by omega
    rw [if_neg this]
  | succ k ih =>
    intro i m hik
    by_cases h0 : m data i = 0
    · simp only [emsh_cmd_restore_loop, mem_read_some cfg m data i (by omega), h0,
        Option.bind_eq_bind, Option.some_bind, ite_true, mem_write_some cfg m data i 0x20 (by omega)]
      rw [ih (i + 1) _ (by omega)]
      simp only [Option.some.injEq]
      funext b j
      by_cases hb : b = data
      · subst hb
        by_cases hj : j = i
        · subst hj
          have : ¬ (j + 1 ≤ j) := by omega
          simp [this, h0]
        · by_cases hz : m b j = 0
          · by_cases hr : i + 1 ≤ j ∧ j < i + 1 + k
            · have : i ≤ j ∧ j < i + (k + 1) := by omega
              simp [hj, hz, hr, this]
            · have : ¬ (i ≤ j ∧ j < i + (k + 1)) := by omega
              have hr' : ¬ (i + 1 ≤ j ∧ j < i + 1 + k ∧ True) := by simpa using hr
              simp only [hj, and_false, ite_false, hz, and_true, true_and]
              rw [if_neg hr, if_neg this]
          · simp [hj, hz]
      · simp [hb]
    · simp only [emsh_cmd_restore_loop, mem_read_some cfg m data i (by omega), h0,
        Option.bind_eq_bind, Option.some_bind, ite_false, Option.pure_def]
      rw [ih (i + 1) _ (by omega)]
      simp only [Option.some.injEq]
      funext b j
      by_cases hb : b = data
      · subst hb
        by_cases hz : m b j = 0
        · have hj : j ≠ i := by rintro rfl; exact h0 hz
          by_cases hr : i + 1 ≤ j ∧ j < i + 1 + k
          · have : i ≤ j ∧ j < i + (k + 1) := by omega
            simp [hz, hr, this]
          · have : ¬ (i ≤ j ∧ j < i + (k + 1)) := by omega
            simp only [hz, and_true, true_and]
            rw [if_neg hr, if_neg this]
        · simp [hz]
      · simp [hb]

theorem emsh_cmd_restore_spec (cfg : emsh_tunables) (self : emsh_t)
    (hsz : self.buf.array.size ≤ cfg.EMSH_MAX_LINE_SIZE) :
    ∃ m', emsh_cmd_restore cfg self = some { self with hist := { self.hist with mem := m' } } ∧
      ∀ b j, m' b j = if b = self.buf.array.data ∧ j < self.buf.array.size ∧
        self.hist.mem self.buf.array.data j = 0 then 0x20 else self.hist.mem b j := by
  have hloop := emsh_cmd_restore_loop_spec cfg self.buf.array.data self.buf.array.size 0
    self.hist.mem (by omega)
  refine ⟨fun b j => if b = self.buf.array.data ∧ 0 ≤ j ∧ j < 0 + self.buf.array.size ∧
    self.hist.mem self.buf.array.data j = 0 then 0x20 else self.hist.mem b j, ?_, ?_⟩
  · simp only [emsh_cmd_restore, emsh_buf_size, emsh_buf_data, bytearray_size, bytearray_data,
      hloop, Option.bind_eq_bind, Option.some_bind, Option.pure_def]
  · intro b j
    simp

theorem emsh_restore_mem_eq (data size : Nat) (m m1 m2 : emsh_mem)
    (hnz : ∀ i, i < size → m data i ≠ 0) (hnul : m data size = 0)
    (hfr : ∀ b i, (b ≠ data ∨ size < i) → m1 b i = m b i)
    (hch : ∀ i, i ≤ size → m1 data i = m data i ∨ (m1 data i = 0 ∧ (i = size ∨ m data i = 0x20)))
    (hm2 : ∀ b j, m2 b j = if b = data ∧ j < size ∧ m1 data j = 0 then 0x20 else m1 b j) :
    m2 = m := by
  funext b j
  rw [hm2]
  by_cases hb : b = data
  · subst hb
    by_cases hj : j < size
    · rcases hch j (by omega) with h | ⟨h0, h1⟩
      · have : m1 b j ≠ 0 := by rw [h]; exact hnz j hj
        rw [if_neg (fun hc => this hc.2.2)]
        exact h
      · rcases h1 with h1 | h1
        · omega
        · simp [hj, h0, h1]
    · have : ¬ (b = b ∧ j < size ∧ m1 b j = 0) := by tauto
      rw [if_neg this]
      by_cases hjs : j = size
      · subst hjs
        rcases hch _ (le_refl _) with h | ⟨h0, _⟩
        · exact h
        · rw [h0, hnul]
      · exact hfr _ j (Or.inr (by omega))
  · have : ¬ (b = data ∧ j < size ∧ m1 data j = 0) := by tauto
    rw [if_neg this]
    exact hfr b j (Or.inl hb)

end Emsh

namespace Emsh

theorem splitOnP_no_sep (p : Nat → Bool) (l : List Nat) :
    ∀ w ∈ l.splitOnP p, ∀ x ∈ w, p x = false := by
  induction l with
  | nil => simp [List.splitOnP_nil]
  | cons y l ih =>
    rw [List.splitOnP_cons]
    by_cases hy : p y = true
    · rw [if_pos hy]
      intro w hw
      simp only [List.mem_cons] at hw
      rcases hw with rfl | hw
      · simp
      · exact ih w hw
    · rw [if_neg hy]
      have hne := List.splitOnP_ne_nil p l
      cases hs : l.splitOnP p with
      | nil => exact absurd hs hne
      | cons h t =>
        rw [hs] at ih
        intro w hw
        simp only [List.modifyHead_cons, List.mem_cons] at hw
        rcases hw with rfl | hw
        · intro x hx
          simp only [List.mem_cons] at hx
          rcases hx with rfl | hx
          · simpa using hy
          · exact ih h (List.mem_cons_self _ _) x hx
        · exact ih w (List.mem_cons_of_mem _ hw)

/-- The words of a line are non-empty and contain no space. -/
theorem emsh_words_sound (line : List Nat) :
    ∀ w ∈ emsh_words line, w ≠ [] ∧ 0x20 ∉ w := by
  intro w hw
  simp only [emsh_words, List.splitOn, List.mem_filter, decide_eq_true_eq] at hw
  refine ⟨hw.2, ?_⟩
  intro hm
  have := splitOnP_no_sep (fun x => x == 0x20) line w hw.1 0x20 hm
  simp at this

/-- C9. For a line buffer holding printable bytes only, `emsh_cmd_split` sets
`argc = min(w, ARG_MAX + 1)` where `w` is the number of maximal runs of
non-space bytes of the line; for every `i < min(w, ARG_MAX)` the string
`argv[i]` is the `i`-th run, NUL-terminated; no run is empty or contains a
space; and `argc = ARG_MAX + 1` exactly when there are more than `ARG_MAX` runs. -/
theorem emsh_cmd_split_argv (cfg : emsh_tunables) (self : emsh_t)
    (hsz : self.buf.array.size ≤ cfg.EMSH_MAX_LINE_SIZE)
    (hpr : ∀ i, i < self.buf.array.size →
      0x20 ≤ self.hist.mem self.buf.array.data i ∧ self.hist.mem self.buf.array.data i ≤ 0x7E) :
    ∃ s, emsh_cmd_split cfg self = some s ∧
      s.cmd.argc = min (emsh_words (emsh_buf_line self)).length (cfg.EMSH_MAX_N_ARGS + 1) ∧
      (∀ i, i < min (emsh_words (emsh_buf_line self)).length cfg.EMSH_MAX_N_ARGS →
        ∃ w, (emsh_words (emsh_buf_line self))[i]? = some w ∧
          c_string cfg s.hist.mem (s.cmd.argv i) = some w) ∧
      (∀ w ∈ emsh_words (emsh_buf_line self), w ≠ [] ∧ 0x20 ∉ w) ∧
      (s.cmd.argc = cfg.EMSH_MAX_N_ARGS + 1 ↔
        cfg.EMSH_MAX_N_ARGS < (emsh_words (emsh_buf_line self)).length) := by
  have hnz : ∀ i, i < self.buf.array.size → self.hist.mem self.buf.array.data i ≠ 0 := by
    intro i hi; have := (hpr i hi).1; omega
  obtain ⟨m', cmd', he, hargc, _, hstr, _, _⟩ := emsh_cmd_split_spec cfg self hsz hnz
  refine ⟨_, he, hargc, ?_, emsh_words_sound _, ?_⟩
  · intro i hi
    have hlt : i < (emsh_words (emsh_buf_line self)).length := by omega
    exact ⟨_, List.getElem?_eq_getElem hlt,
      hstr i _ (List.getElem?_eq_getElem hlt) (by omega)⟩
  · simp only [hargc, emsh_buf_line]
    omega

/-- C9 on the line ` ab  c ` with the default `ARG_MAX = 10`. -/
theorem emsh_cmd_split_argv_witness :
    ∃ s, emsh_cmd_split {} (emsh_sample [0x20, 0x61, 0x62, 0x20, 0x20, 0x63, 0x20]) = some s ∧
      s.cmd.argc = min (emsh_words (emsh_buf_line
        (emsh_sample [0x20, 0x61, 0x62, 0x20, 0x20, 0x63, 0x20]))).length (10 + 1) ∧
      (∀ i, i < min (emsh_words (emsh_buf_line
          (emsh_sample [0x20, 0x61, 0x62, 0x20, 0x20, 0x63, 0x20]))).length 10 →
        ∃ w, (emsh_words (emsh_buf_line
            (emsh_sample [0x20, 0x61, 0x62, 0x20, 0x20, 0x63, 0x20])))[i]? = some w ∧
          c_string {} s.hist.mem (s.cmd.argv i) = some w) ∧
      (∀ w ∈ emsh_words (emsh_buf_line (emsh_sample [0x20, 0x61, 0x62, 0x20, 0x20, 0x63, 0x20])),
        w ≠ [] ∧ 0x20 ∉ w) ∧
      (s.cmd.argc = 10 + 1 ↔
        10 < (emsh_words (emsh_buf_line
          (emsh_sample [0x20, 0x61, 0x62, 0x20, 0x20, 0x63, 0x20]))).length) :=
  emsh_cmd_split_argv {} (emsh_sample [0x20, 0x61, 0x62, 0x20, 0x20, 0x63, 0x20])
    (by decide) (by decide)

/-- C10. For a line buffer (NUL at `length`) with no NUL below `length`,
`emsh_cmd_split` followed by `emsh_cmd_restore` leaves every stored byte as it
was before the split, in particular those at indices `0..length`; the buffer
itself is untouched. -/
theorem emsh_cmd_split_restore (cfg : emsh_tunables) (self : emsh_t)
    (hsz : self.buf.array.size ≤ cfg.EMSH_MAX_LINE_SIZE)
    (hnz : ∀ i, i < self.buf.array.size → self.hist.mem self.buf.array.data i ≠ 0)
    (hnul : self.hist.mem self.buf.array.data self.buf.array.size = 0) :
    ∃ s1 s2, emsh_cmd_split cfg self = some s1 ∧ emsh_cmd_restore cfg s1 = some s2 ∧
      (∀ i, i ≤ self.buf.array.size →
        s2.hist.mem self.buf.array.data i = self.hist.mem self.buf.array.data i) ∧
      s2.hist.mem = self.hist.mem ∧ s2.buf = self.buf := by
  obtain ⟨m1, cmd1, he1, _, _, _, hfr, hch⟩ := emsh_cmd_split_spec cfg self hsz hnz
  obtain ⟨m2, he2, hm2⟩ := emsh_cmd_restore_spec cfg
    { self with hist := { self.hist with mem := m1 }, cmd := cmd1 } hsz
  have hmem : m2 = self.hist.mem :=
    emsh_restore_mem_eq _ _ _ m1 m2 hnz hnul hfr hch hm2
  refine ⟨_, _, he1, he2, ?_, hmem, rfl⟩
  intro i _
  show m2 self.buf.array.data i = _
  rw [hmem]

/-- C10 on the line ` ab  c `, in the normal case (`ARG_MAX = 10`) and in the
overflow case (`ARG_MAX = 1`). -/
theorem emsh_cmd_split_restore_witness :
    (∃ s1 s2, emsh_cmd_split {} (emsh_sample [0x20, 0x61, 0x62, 0x20, 0x20, 0x63, 0x20]) =
        some s1 ∧ emsh_cmd_restore {} s1 = some s2 ∧
      (∀ i, i ≤ 7 → s2.hist.mem 0 i =
        (emsh_sample [0x20, 0x61, 0x62, 0x20, 0x20, 0x63, 0x20]).hist.mem 0 i) ∧
      s2.hist.mem = (emsh_sample [0x20, 0x61, 0x62, 0x20, 0x20, 0x63, 0x20]).hist.mem ∧
      s2.buf = (emsh_sample [0x20, 0x61, 0x62, 0x20, 0x20, 0x63, 0x20]).buf) ∧
    (∃ s1 s2, emsh_cmd_split { EMSH_MAX_N_ARGS := 1 }
        (emsh_sample [0x20, 0x61, 0x62, 0x20, 0x20, 0x63, 0x20]) = some s1 ∧
      emsh_cmd_restore { EMSH_MAX_N_ARGS := 1 } s1 = some s2 ∧
      (∀ i, i ≤ 7 → s2.hist.mem 0 i =
        (emsh_sample [0x20, 0x61, 0x62, 0x20, 0x20, 0x63, 0x20]).hist.mem 0 i) ∧
      s2.hist.mem = (emsh_sample [0x20, 0x61, 0x62, 0x20, 0x20, 0x63, 0x20]).hist.mem ∧
      s2.buf = (emsh_sample [0x20, 0x61, 0x62, 0x20, 0x20, 0x63, 0x20]).buf) :=
  ⟨emsh_cmd_split_restore {} (emsh_sample [0x20, 0x61, 0x62, 0x20, 0x20, 0x63, 0x20])
      (by decide) (by decide) (by decide),
   emsh_cmd_split_restore { EMSH_MAX_N_ARGS := 1 }
      (emsh_sample [0x20, 0x61, 0x62, 0x20, 0x20, 0x63, 0x20])
      (by decide) (by decide) (by decide)⟩

/-- Evaluation of `emsh_cmd_split` on the line ` ab  c `: two arguments at
offsets 1 and 5, NUL written over the space after each. -/
theorem emsh_cmd_split_eval :
    (emsh_cmd_split {} (emsh_sample [0x20, 0x61, 0x62, 0x20, 0x20, 0x63, 0x20])).map
    (fun s => (s.cmd.argc, (s.cmd.argv 0).off, (s.cmd.argv 1).off,
      (List.range 8).map (s.hist.mem 0))) =
    some (2, 1, 5, [0x20, 0x61, 0x62, 0, 0x20, 0x63, 0, 0]) := by decide

/-- Evaluation of `emsh_cmd_split` on the line ` ab  c ` with `ARG_MAX = 1`:
the overflow value `argc = 2` and one recorded argument. -/
theorem emsh_cmd_split_eval_overflow :
    (emsh_cmd_split { EMSH_MAX_N_ARGS := 1 }
    (emsh_sample [0x20, 0x61, 0x62, 0x20, 0x20, 0x63, 0x20])).map
    (fun s => (s.cmd.argc, (s.cmd.argv 0).off, (List.range 8).map (s.hist.mem 0))) =
    some (2, 1, [0x20, 0x61, 0x62, 0, 0x20, 0x63, 0x20, 0]) := by decide

end Emsh

namespace Emsh

/-! ## emsh.c: the line buffer -/

theorem c_strlen_from_spec (a : Nat → Nat) (n : Nat) :
    ∀ (fuel off : Nat), n < fuel → (∀ i, i < n → a (off + i) ≠ 0) → a (off + n) = 0 →
      c_strlen_from a fuel off = some (off + n) := by
  induction n with
  | zero =>
    intro fuel off hf _ hend
    cases fuel with
    | zero => omega
    | succ f =>
      rw [Nat.add_zero] at hend
      simp [c_strlen_from, hend]
  | succ n ih =>
    intro fuel off hf hnz hend
    cases fuel with
    | zero => omega
    | succ f =>
      have h0 : a off ≠ 0 := by simpa using hnz 0 (by omega)
      have := ih f (off + 1) (by omega)
        (fun i hi => by
          have := hnz (i + 1) (by omega)
          rwa [show off + (i + 1) = off + 1 + i by omega] at this)
        (by rwa [show off + (n + 1) = off + 1 + n by omega] at hend)
      simp only [c_strlen_from, h0, ite_false, this]
      congr 1; omega

theorem c_strlen_text_ok (cfg : emsh_tunables) (m : emsh_mem) (b n : Nat)
    (h : emsh_text_ok cfg (m b) n) : c_strlen cfg m b = some n := by
  have := c_strlen_from_spec (m b) n (cfg.EMSH_MAX_LINE_SIZE + 1) 0 (by have := h.1; omega)
    (fun i hi => by have := (h.2.2 i hi).1; rw [Nat.zero_add]; omega)
    (by rw [Nat.zero_add]; exact h.2.1)
  simpa [c_strlen] using this

theorem emsh_buf_init_spec (cfg : emsh_tunables) (m : emsh_mem) (data n : Nat)
    (hL : 1 ≤ cfg.EMSH_MAX_LINE_SIZE) (h : emsh_text_ok cfg (m data) n) :
    emsh_buf_init cfg m data cfg.EMSH_MAX_LINE_SIZE =
      some { array := { capacity := cfg.EMSH_MAX_LINE_SIZE, offset := 0, size := n, data := data },
             pos := n } := by
  have hne : cfg.EMSH_MAX_LINE_SIZE ≠ 0 := by omega
  simp [emsh_buf_init, bytearray_init, c_assert, hne, c_strlen_text_ok cfg m data n h,
    bytearray_resize, bytearray_effective_capacity, bytearray_capacity, bytearray_offset,
    bytearray_size, h.1]

theorem emsh_buf_insert_spec (cfg : emsh_tunables) (buf : emsh_buf_t) (m : emsh_mem) (ch : Nat)
    (hcap : buf.array.capacity = cfg.EMSH_MAX_LINE_SIZE) (hoff : buf.array.offset = 0)
    (htext : emsh_text_ok cfg (m buf.array.data) buf.array.size)
    (hpos : buf.pos ≤ buf.array.size) (hroom : buf.array.size < cfg.EMSH_MAX_LINE_SIZE)
    (hch : 0x20 ≤ ch ∧ ch ≤ 0x7E) :
    ∃ m', emsh_buf_insert cfg buf m ch =
        some ({ array := { buf.array with size := buf.array.size + 1 }, pos := buf.pos + 1 }, m') ∧
      (∀ b i, b ≠ buf.array.data → m' b i = m b i) ∧
      (∀ i, m' buf.array.data i =
        if i < buf.pos then m buf.array.data i
        else if i = buf.pos then ch
        else if i ≤ buf.array.size then m buf.array.data (i - 1)
        else if i = buf.array.size + 1 then 0
        else m buf.array.data i) ∧
      emsh_text_ok cfg (m' buf.array.data) (buf.array.size + 1) := by
  have hmv : mem_move cfg m buf.array.data (buf.pos + 1) buf.pos (buf.array.size - buf.pos) =
      some (fun b' i' => if b' = buf.array.data ∧ buf.pos + 1 ≤ i' ∧
        i' < buf.pos + 1 + (buf.array.size - buf.pos)
        then m buf.array.data (buf.pos + (i' - (buf.pos + 1))) else m b' i') := by
    simp only [mem_move]
    rw [if_pos (by omega)]
  have hsz : buf.array.size ≠ cfg.EMSH_MAX_LINE_SIZE := by omega
  have hroom2 : 0 < cfg.EMSH_MAX_LINE_SIZE - buf.array.size := by omega
  obtain ⟨m', he, hv⟩ : ∃ m', emsh_buf_insert cfg buf m ch =
        some ({ array := { buf.array with size := buf.array.size + 1 }, pos := buf.pos + 1 }, m') ∧
      ∀ b i, m' b i = if b = buf.array.data ∧ i = buf.array.size + 1 then 0
        else if b = buf.array.data ∧ i = buf.pos then ch
        else if b = buf.array.data ∧ buf.pos + 1 ≤ i ∧
          i < buf.pos + 1 + (buf.array.size - buf.pos)
          then m buf.array.data (buf.pos + (i - (buf.pos + 1))) else m b i := by
    refine ⟨_, ?_, fun _ _ => rfl⟩
    simp only [emsh_buf_insert, emsh_buf_size, emsh_buf_capacity, emsh_buf_data, bytearray_size,
      bytearray_capacity, bytearray_data, hcap, c_assert, bne_iff_ne, ne_eq, hsz,
      not_false_eq_true, decide_True, ite_true, bytearray_insert, bytearray_room,
      bytearray_effective_capacity, bytearray_offset, hoff, Nat.sub_zero, gt_iff_lt, hroom2, hpos,
      hmv, Option.bind_eq_bind, Option.some_bind, Option.pure_def,
      mem_write_some cfg _ buf.array.data buf.pos ch (by omega),
      mem_write_some cfg _ buf.array.data (buf.array.size + 1) 0 (by omega)]
  have key : ∀ i, m' buf.array.data i =
      (if i < buf.pos then m buf.array.data i
        else if i = buf.pos then ch
        else if i ≤ buf.array.size then m buf.array.data (i - 1)
        else if i = buf.array.size + 1 then 0
        else m buf.array.data i) := by
    intro i
    rw [hv]
    split_ifs <;> first | rfl | (exfalso; omega) | (congr 1; omega)
  refine ⟨m', he, ?_, key, ?_⟩
  · intro b i hb
    rw [hv]
    simp [hb]
  · obtain ⟨h1, h2, h3⟩ := htext
    refine ⟨by omega, ?_, ?_⟩
    · rw [key]
      split_ifs <;> first | rfl | (exfalso; omega)
    · intro i hi
      rw [key]
      split_ifs with a1 a2 a3
      · exact h3 i (by omega)
      · exact hch
      · exact h3 (i - 1) (by omega)
      · omega
      · omega

theorem emsh_buf_erase_spec (cfg : emsh_tunables) (buf : emsh_buf_t) (m : emsh_mem)
    (htext : emsh_text_ok cfg (m buf.array.data) buf.array.size)
    (hpos : buf.pos < buf.array.size) :
    ∃ m', emsh_buf_erase cfg buf m =
        some ({ array := { buf.array with size := buf.array.size - 1 }, pos := buf.pos }, m') ∧
      (∀ b i, b ≠ buf.array.data → m' b i = m b i) ∧
      (∀ i, m' buf.array.data i =
        if i = buf.array.size - 1 then 0
        else if buf.pos ≤ i ∧ i < buf.array.size - 1 then m buf.array.data (i + 1)
        else m buf.array.data i) ∧
      emsh_text_ok cfg (m' buf.array.data) (buf.array.size - 1) := by
  obtain ⟨h1, h2, h3⟩ := htext
  have hmv : mem_move cfg m buf.array.data buf.pos (buf.pos + 1) (buf.array.size - buf.pos - 1) =
      some (fun b' i' => if b' = buf.array.data ∧ buf.pos ≤ i' ∧
        i' < buf.pos + (buf.array.size - buf.pos - 1)
        then m buf.array.data (buf.pos + 1 + (i' - buf.pos)) else m b' i') := by
    simp only [mem_move]
    rw [if_pos (by omega)]
  have hne : buf.pos ≠ buf.array.size := by omega
  have hsz : 0 < buf.array.size := by omega
  obtain ⟨m', he, hv⟩ : ∃ m', emsh_buf_erase cfg buf m =
        some ({ array := { buf.array with size := buf.array.size - 1 }, pos := buf.pos }, m') ∧
      ∀ b i, m' b i = if b = buf.array.data ∧ i = buf.array.size - 1 then 0
        else if b = buf.array.data ∧ buf.pos ≤ i ∧
          i < buf.pos + (buf.array.size - buf.pos - 1)
          then m buf.array.data (buf.pos + 1 + (i - buf.pos)) else m b i := by
    refine ⟨_, ?_, fun _ _ => rfl⟩
    simp only [emsh_buf_erase, emsh_buf_size, emsh_buf_data, bytearray_size,
      bytearray_data, c_assert, bne_iff_ne, ne_eq, hne, not_false_eq_true, decide_True, ite_true,
      bytearray_erase, gt_iff_lt, hsz, hpos, hmv, Option.bind_eq_bind, Option.some_bind,
      Option.pure_def, mem_write_some cfg _ buf.array.data (buf.array.size - 1) 0 (by omega)]
  have key : ∀ i, m' buf.array.data i =
      (if i = buf.array.size - 1 then 0
        else if buf.pos ≤ i ∧ i < buf.array.size - 1 then m buf.array.data (i + 1)
        else m buf.array.data i) := by
    intro i
    rw [hv]
    split_ifs <;> first | rfl | (exfalso; omega) | (congr 1; omega)
  refine ⟨m', he, ?_, key, ?_⟩
  · intro b i hb
    rw [hv]
    simp [hb]
  · refine ⟨by omega, ?_, ?_⟩
    · rw [key]; simp
    · intro i hi
      rw [key]
      split_ifs with a1 a2
      · omega
      · exact h3 (i + 1) (by omega)
      · exact h3 i (by omega)

end Emsh

namespace Emsh

/-! ## emsh.c: the actions preserve the engine invariant -/

theorem emsh_only_out_refl (s : emsh_t) : emsh_only_out s s := ⟨s.out, rfl⟩

theorem emsh_only_out_trans (s1 s2 s3 : emsh_t) (h12 : emsh_only_out s1 s2)
    (h23 : emsh_only_out s2 s3) : emsh_only_out s1 s3 := by
  obtain ⟨o1, rfl⟩ := h12
  obtain ⟨o2, rfl⟩ := h23
  exact ⟨o2, rfl⟩

theorem emsh_only_out_fields (s s' : emsh_t) (h : emsh_only_out s s') :
    s'.hist = s.hist ∧ s'.buf = s.buf ∧ s'.ctlseq = s.ctlseq ∧ s'.running = s.running ∧
      s'.cmd = s.cmd ∧ s'.execs = s.execs := by
  obtain ⟨o, rfl⟩ := h
  exact ⟨rfl, rfl, rfl, rfl, rfl, rfl⟩

theorem emsh_write_char_out (s : emsh_t) (ch : Nat) : emsh_only_out s (emsh_write_char s ch) :=
  ⟨_, rfl⟩

theorem emsh_write_strn_out (s : emsh_t) (str : List Nat) (n : Nat) :
    emsh_only_out s (emsh_write_strn s str n) := ⟨_, rfl⟩

theorem emsh_write_str_out (s : emsh_t) (str : List Nat) :
    emsh_only_out s (emsh_write_str s str) := ⟨_, rfl⟩

theorem emsh_write_prompt_out (cfg : emsh_tunables) (s : emsh_t) :
    emsh_only_out s (emsh_write_prompt cfg s) := ⟨_, rfl⟩

theorem emsh_write_cr_out (s : emsh_t) : emsh_only_out s (emsh_write_cr s) := ⟨_, rfl⟩

theorem emsh_write_newline_out (cfg : emsh_tunables) (s : emsh_t) :
    emsh_only_out s (emsh_write_newline cfg s) := ⟨_, rfl⟩

theorem emsh_write_ctlseq_1_out (s : emsh_t) (p i f : Nat) :
    emsh_only_out s (emsh_write_ctlseq_1 s p i f) := ⟨_, rfl⟩

theorem emsh_write_ctlseq_cuf_out (s : emsh_t) (n : Nat) :
    emsh_only_out s (emsh_write_ctlseq_cuf s n) := by
  unfold emsh_write_ctlseq_cuf
  split_ifs
  · exact emsh_only_out_refl s
  · exact emsh_write_str_out s _
  · exact emsh_write_ctlseq_1_out s _ _ _

theorem emsh_write_ctlseq_cub_out (s : emsh_t) (n : Nat) :
    emsh_only_out s (emsh_write_ctlseq_cub s n) := by
  unfold emsh_write_ctlseq_cub
  split_ifs
  · exact emsh_only_out_refl s
  · exact emsh_write_str_out s _
  · exact emsh_write_ctlseq_1_out s _ _ _

theorem emsh_inv_frame (cfg : emsh_tunables) (s s' : emsh_t) (al fl : List Nat)
    (H : emsh_inv cfg s al fl) (hh : s'.hist = s.hist) (ha : s'.buf.array = s.buf.array)
    (hp : s'.buf.pos ≤ s.buf.array.size) : emsh_inv cfg s' al fl := by
  obtain ⟨h1, h2, h3, h4, h5, h6, _⟩ := H
  refine ⟨?_, ?_, ?_, ?_, ?_, ?_, ?_⟩
  · rw [hh]; exact h1
  · rw [hh]; exact h2
  · rw [hh, ha]; exact h3
  · rw [ha]; exact h4
  · rw [ha]; exact h5
  · rw [hh, ha]; exact h6
  · rw [ha]; exact hp

theorem emsh_inv_only_out (cfg : emsh_tunables) (s s' : emsh_t) (al fl : List Nat)
    (H : emsh_inv cfg s al fl) (h : emsh_only_out s s') : emsh_inv cfg s' al fl := by
  obtain ⟨hh, hb, _⟩ := emsh_only_out_fields s s' h
  exact emsh_inv_frame cfg s s' al fl H hh (by rw [hb]) (by rw [hb]; exact H.2.2.2.2.2.2)

theorem emsh_disp_refresh_cur_to_eol_spec (cfg : emsh_tunables) (s : emsh_t)
    (hp : s.buf.pos ≤ s.buf.array.size) (hs : s.buf.array.size ≤ cfg.EMSH_MAX_LINE_SIZE) :
    ∃ s', emsh_disp_refresh_cur_to_eol cfg s = some s' ∧ emsh_only_out s s' := by
  have hsl : mem_slice cfg s.hist.mem s.buf.array.data s.buf.pos (s.buf.array.size - s.buf.pos) =
      some ((List.range (s.buf.array.size - s.buf.pos)).map
        (fun i => s.hist.mem s.buf.array.data (s.buf.pos + i))) := by
    simp only [mem_slice]
    rw [if_pos (by omega)]
  have he : emsh_disp_refresh_cur_to_eol cfg s =
      some (emsh_write_ctlseq_cub (emsh_write_strn (emsh_write_str s [0x1B, 0x5B, 0x4B])
        ((List.range (s.buf.array.size - s.buf.pos)).map
          (fun i => s.hist.mem s.buf.array.data (s.buf.pos + i)))
        (s.buf.array.size - s.buf.pos)) (s.buf.array.size - s.buf.pos)) := by
    simp only [emsh_disp_refresh_cur_to_eol, emsh_write_ctlseq_el, emsh_buf_size, emsh_buf_pos,
      emsh_buf_data, bytearray_size, bytearray_data, Option.bind_eq_bind, Option.some_bind,
      Option.pure_def]
    have e1 : (emsh_write_str s [0x1B, 0x5B, 0x4B]).hist = s.hist := rfl
    have e2 : (emsh_write_str s [0x1B, 0x5B, 0x4B]).buf = s.buf := rfl
    rw [e1, e2, hsl]
    rfl
  exact ⟨_, he, emsh_only_out_trans _ _ _ (emsh_write_str_out s _)
      (emsh_only_out_trans _ _ _ (emsh_write_strn_out _ _ _) (emsh_write_ctlseq_cub_out _ _))⟩

theorem emsh_disp_refresh_line_spec (cfg : emsh_tunables) (s : emsh_t) (c n : Nat)
    (hL : 1 ≤ cfg.EMSH_MAX_LINE_SIZE) (hcur : s.hist.cur = some (.block c))
    (ht : emsh_text_ok cfg (s.hist.mem c) n) :
    ∃ s', emsh_disp_refresh_line cfg s = some s' ∧
      emsh_only_out { s with buf := ⟨⟨cfg.EMSH_MAX_LINE_SIZE, 0, n, c⟩, n⟩ } s' := by
  have hsl : mem_slice cfg s.hist.mem c 0 n =
      some ((List.range n).map (fun i => s.hist.mem c (0 + i))) := by
    simp only [mem_slice]
    rw [if_pos (by have := ht.1; omega)]
  have he : emsh_disp_refresh_line cfg s =
      some (emsh_write_strn (emsh_write_prompt cfg (emsh_write_str (emsh_write_cr
        { s with buf := ⟨⟨cfg.EMSH_MAX_LINE_SIZE, 0, n, c⟩, n⟩ }) [0x1B, 0x5B, 0x4B]))
        ((List.range n).map (fun i => s.hist.mem c (0 + i))) n) := by
    simp only [emsh_disp_refresh_line, emsh_hist_current, hcur,
      emsh_buf_init_spec cfg s.hist.mem c n hL ht, emsh_write_ctlseq_el, emsh_buf_size,
      emsh_buf_data, bytearray_size, bytearray_data, Option.bind_eq_bind, Option.some_bind,
      Option.pure_def]
    have e1 : (emsh_write_prompt cfg (emsh_write_str (emsh_write_cr
        { s with buf := ⟨⟨cfg.EMSH_MAX_LINE_SIZE, 0, n, c⟩, n⟩ }) [0x1B, 0x5B, 0x4B])).hist =
        s.hist := rfl
    have e2 : (emsh_write_prompt cfg (emsh_write_str (emsh_write_cr
        { s with buf := ⟨⟨cfg.EMSH_MAX_LINE_SIZE, 0, n, c⟩, n⟩ }) [0x1B, 0x5B, 0x4B])).buf =
        ⟨⟨cfg.EMSH_MAX_LINE_SIZE, 0, n, c⟩, n⟩ := rfl
    rw [e1, e2, hsl]
    rfl
  exact ⟨_, he, emsh_only_out_trans _ _ _ (emsh_write_cr_out _)
    (emsh_only_out_trans _ _ _ (emsh_write_str_out _ _)
      (emsh_only_out_trans _ _ _ (emsh_write_prompt_out cfg _) (emsh_write_strn_out _ _ _)))⟩

theorem emsh_inv_text (cfg : emsh_tunables) (s : emsh_t) (al fl : List Nat)
    (H : emsh_inv cfg s al fl) :
    s.buf.pos ≤ s.buf.array.size ∧ s.buf.array.size ≤ cfg.EMSH_MAX_LINE_SIZE ∧
      s.hist.mem s.buf.array.data s.buf.array.size = 0 ∧
      ∀ i, i < s.buf.array.size → 0x20 ≤ s.hist.mem s.buf.array.data i ∧
        s.hist.mem s.buf.array.data i ≤ 0x7E :=
  ⟨H.2.2.2.2.2.2, H.2.2.2.2.2.1.1, H.2.2.2.2.2.1.2.1, H.2.2.2.2.2.1.2.2⟩

/-- Moving the history cursor and redrawing the line keeps the invariant and the block
texts; the line buffer is rebound to the block under the cursor. -/
theorem emsh_inv_refresh_line (cfg : emsh_tunables) (s : emsh_t) (hist : emsh_hist_t)
    (al fl : List Nat) (hL : 1 ≤ cfg.EMSH_MAX_LINE_SIZE) (H : emsh_inv cfg s al fl)
    (Hh : emsh_hist_inv hist al fl) (hm : hist.mem = s.hist.mem) :
    ∃ s' c, emsh_disp_refresh_line cfg { s with hist := hist } = some s' ∧
      emsh_inv cfg s' al fl ∧ s'.hist = hist ∧ s'.ctlseq = s.ctlseq ∧
      hist.cur = some (.block c) ∧ s'.buf.array.data = c := by
  obtain ⟨c, hc, hcur⟩ := emsh_hist_inv_cur hist al fl Hh
  have hcm : c ∈ al := List.getElem?_mem hc
  obtain ⟨n, hn⟩ := H.2.1 c hcm
  have hn2 : emsh_text_ok cfg (({ s with hist := hist } : emsh_t).hist.mem c) n := by
    show emsh_text_ok cfg (hist.mem c) n
    rw [hm]; exact hn
  obtain ⟨s', he, ho⟩ := emsh_disp_refresh_line_spec cfg { s with hist := hist } c n hL hcur hn2
  obtain ⟨hh, hb, hcs, _⟩ := emsh_only_out_fields _ _ ho
  refine ⟨s', c, he, ?_, hh, hcs, hcur, ?_⟩
  · refine ⟨?_, ?_, ?_, ?_, ?_, ?_, ?_⟩
    · rw [hh]; exact Hh
    · rw [hh]; show ∀ b ∈ al, ∃ n, emsh_text_ok cfg (hist.mem b) n
      rw [hm]; exact H.2.1
    · rw [hh, hb]; exact hcur
    · rw [hb]
    · rw [hb]
    · rw [hh, hb]; exact hn2
    · rw [hb]
  · rw [hb]

theorem emsh_do_cuu_inv (cfg : emsh_tunables) (s : emsh_t) (al fl : List Nat)
    (hL : 1 ≤ cfg.EMSH_MAX_LINE_SIZE) (H : emsh_inv cfg s al fl) :
    ∃ s', emsh_do_cuu cfg s = some s' ∧ emsh_inv cfg s' al fl ∧ s'.ctlseq = s.ctlseq ∧
      s'.hist = (if s.hist.pos + 1 < s.hist.size then
        { s.hist with pos := s.hist.pos + 1, cur := (al[s.hist.pos + 1]?).map .block }
      else s.hist) := by
  have hsp := emsh_hist_move_backward_spec s.hist al fl H.1
  obtain ⟨h', he', Hh, hm, _⟩ := emsh_hist_move_backward_inv s.hist al fl H.1
  rw [hsp] at he'
  obtain ⟨s', c, he, hinv, hh, hcs, _, _⟩ := emsh_inv_refresh_line cfg s h' al fl hL H Hh hm
  refine ⟨s', ?_, hinv, hcs, ?_⟩
  · simp only [emsh_do_cuu, hsp, Option.bind_eq_bind, Option.some_bind]
    rw [Option.some.inj he']; exact he
  · rw [hh]; exact (Option.some.inj he').symm

theorem emsh_do_cud_inv (cfg : emsh_tunables) (s : emsh_t) (al fl : List Nat)
    (hL : 1 ≤ cfg.EMSH_MAX_LINE_SIZE) (H : emsh_inv cfg s al fl) :
    ∃ s', emsh_do_cud cfg s = some s' ∧ emsh_inv cfg s' al fl ∧ s'.ctlseq = s.ctlseq ∧
      s'.hist = (if 0 < s.hist.pos then
        { s.hist with pos := s.hist.pos - 1, cur := (al[s.hist.pos - 1]?).map .block }
      else s.hist) := by
  have hsp := emsh_hist_move_forward_spec s.hist al fl H.1
  obtain ⟨h', he', Hh, hm, _⟩ := emsh_hist_move_forward_inv s.hist al fl H.1
  rw [hsp] at he'
  obtain ⟨s', c, he, hinv, hh, hcs, _, _⟩ := emsh_inv_refresh_line cfg s h' al fl hL H Hh hm
  refine ⟨s', ?_, hinv, hcs, ?_⟩
  · simp only [emsh_do_cud, hsp, Option.bind_eq_bind, Option.some_bind]
    rw [Option.some.inj he']; exact he
  · rw [hh]; exact (Option.some.inj he').symm

theorem emsh_do_cuf_inv (cfg : emsh_tunables) (s : emsh_t) (al fl : List Nat)
    (H : emsh_inv cfg s al fl) :
    ∃ s', emsh_do_cuf s = some s' ∧ emsh_inv cfg s' al fl ∧ s'.hist = s.hist ∧
      s'.buf.array = s.buf.array ∧ s'.ctlseq = s.ctlseq := by
  by_cases h : s.buf.pos < s.buf.array.size
  · have he : emsh_do_cuf s = some (emsh_write_ctlseq_cuf
        { s with buf := { s.buf with pos := s.buf.pos + 1 } } 1) := by
      simp [emsh_do_cuf, emsh_cur_move_forward, c_assert, emsh_buf_inc_pos, emsh_buf_pos,
        emsh_buf_size, bytearray_size, h]
    obtain ⟨hh, hb, hc, _⟩ := emsh_only_out_fields _ _
      (emsh_write_ctlseq_cuf_out { s with buf := { s.buf with pos := s.buf.pos + 1 } } 1)
    refine ⟨_, he, emsh_inv_frame cfg s _ al fl H hh (by rw [hb]) (by rw [hb]; exact h),
      hh, by rw [hb], hc⟩
  · have he : emsh_do_cuf s = some s := by
      simp [emsh_do_cuf, emsh_buf_pos, emsh_buf_size, bytearray_size, h]
    exact ⟨_, he, H, rfl, rfl, rfl⟩

theorem emsh_do_cub_spec (s : emsh_t) :
    ∃ s', emsh_do_cub s = some s' ∧
      emsh_only_out { s with buf := { s.buf with pos := s.buf.pos - 1 } } s' := by
  by_cases h : 0 < s.buf.pos
  · have he : emsh_do_cub s = some (emsh_write_ctlseq_cub
        { s with buf := { s.buf with pos := s.buf.pos - 1 } } 1) := by
      simp [emsh_do_cub, emsh_cur_move_backward, c_assert, emsh_buf_dec_pos, emsh_buf_pos, h]
    exact ⟨_, he, emsh_write_ctlseq_cub_out _ 1⟩
  · have hz : s.buf.pos = 0 := by omega
    have he : emsh_do_cub s = some s := by
      simp [emsh_do_cub, emsh_buf_pos, hz]
    have hs : ({ s with buf := { s.buf with pos := s.buf.pos - 1 } } : emsh_t) = s := by
      cases s with
      | mk r hi b c cm a1 a2 a3 a4 o e =>
        cases b with
        | mk arr p =>
          simp only at hz
          subst hz
          rfl
    rw [hs]
    exact ⟨_, he, emsh_only_out_refl s⟩

theorem emsh_do_cub_inv (cfg : emsh_tunables) (s : emsh_t) (al fl : List Nat)
    (H : emsh_inv cfg s al fl) :
    ∃ s', emsh_do_cub s = some s' ∧ emsh_inv cfg s' al fl ∧ s'.hist = s.hist ∧
      s'.buf.array = s.buf.array ∧ s'.ctlseq = s.ctlseq := by
  obtain ⟨s', he, ho⟩ := emsh_do_cub_spec s
  obtain ⟨hh, hb, hc, _⟩ := emsh_only_out_fields _ _ ho
  have hp := H.2.2.2.2.2.2
  refine ⟨s', he, emsh_inv_frame cfg s s' al fl H hh (by rw [hb]) ?_, hh, by rw [hb], hc⟩
  rw [hb]
  show s.buf.pos - 1 ≤ s.buf.array.size
  omega

theorem emsh_cur_set_pos_inv (cfg : emsh_tunables) (s : emsh_t) (al fl : List Nat) (pos : Nat)
    (H : emsh_inv cfg s al fl) (hpos : pos ≤ s.buf.array.size) :
    ∃ s', emsh_cur_set_pos cfg s pos = some s' ∧ emsh_inv cfg s' al fl ∧ s'.hist = s.hist ∧
      s'.buf.array = s.buf.array ∧ s'.ctlseq = s.ctlseq := by
  have he : emsh_cur_set_pos cfg s pos =
      some { emsh_write_ctlseq_cuf (emsh_write_cr s) (c_strlen_lit cfg.EMSH_S_PROMPT + pos) with
        buf := { s.buf with pos := pos } } := by
    obtain ⟨_, hb, _⟩ := emsh_only_out_fields _ _ (emsh_only_out_trans _ _ _
      (emsh_write_cr_out s)
      (emsh_write_ctlseq_cuf_out (emsh_write_cr s) (c_strlen_lit cfg.EMSH_S_PROMPT + pos)))
    simp [emsh_cur_set_pos, emsh_buf_set_pos, c_assert, emsh_buf_size, bytearray_size, hpos, hb]
  obtain ⟨hh, hb, hc, _⟩ := emsh_only_out_fields _ _ (emsh_only_out_trans _ _ _
      (emsh_write_cr_out s)
      (emsh_write_ctlseq_cuf_out (emsh_write_cr s) (c_strlen_lit cfg.EMSH_S_PROMPT + pos)))
  exact ⟨_, he, emsh_inv_frame cfg s _ al fl H hh rfl hpos, hh, rfl, hc⟩

theorem emsh_do_sol_inv (cfg : emsh_tunables) (s : emsh_t) (al fl : List Nat)
    (H : emsh_inv cfg s al fl) :
    ∃ s', emsh_do_sol cfg s = some s' ∧ emsh_inv cfg s' al fl ∧ s'.hist = s.hist ∧
      s'.buf.array = s.buf.array ∧ s'.ctlseq = s.ctlseq :=
  emsh_cur_set_pos_inv cfg s al fl 0 H (Nat.zero_le _)

theorem emsh_do_eol_inv (cfg : emsh_tunables) (s : emsh_t) (al fl : List Nat)
    (H : emsh_inv cfg s al fl) :
    ∃ s', emsh_do_eol cfg s = some s' ∧ emsh_inv cfg s' al fl ∧ s'.hist = s.hist ∧
      s'.buf.array = s.buf.array ∧ s'.ctlseq = s.ctlseq :=
  emsh_cur_set_pos_inv cfg s al fl s.buf.array.size H (Nat.le_refl _)

theorem emsh_inv_mem_update (cfg : emsh_tunables) (s s' : emsh_t) (al fl : List Nat)
    (m' : emsh_mem) (n p : Nat) (H : emsh_inv cfg s al fl)
    (hfr : ∀ b i, b ≠ s.buf.array.data → m' b i = s.hist.mem b i)
    (htx : emsh_text_ok cfg (m' s.buf.array.data) n) (hp : p ≤ n)
    (hh : s'.hist = { s.hist with mem := m' })
    (hb : s'.buf = ⟨{ s.buf.array with size := n }, p⟩) : emsh_inv cfg s' al fl := by
  obtain ⟨h1, h2, h3, h4, h5, _, _⟩ := H
  refine ⟨?_, ?_, ?_, ?_, ?_, ?_, ?_⟩
  · rw [hh]; exact h1
  · rw [hh]
    intro b hbm
    by_cases hbd : b = s.buf.array.data
    · subst hbd; exact ⟨n, htx⟩
    · obtain ⟨k, hk⟩ := h2 b hbm
      refine ⟨k, ?_⟩
      have : m' b = s.hist.mem b := funext (fun i => hfr b i hbd)
      show emsh_text_ok cfg (m' b) k
      rw [this]; exact hk
  · rw [hh, hb]; exact h3
  · rw [hb]; exact h4
  · rw [hb]; exact h5
  · rw [hh, hb]; exact htx
  · rw [hb]; exact hp

theorem emsh_do_insert_inv (cfg : emsh_tunables) (s : emsh_t) (al fl : List Nat) (c : Nat)
    (H : emsh_inv cfg s al fl) (hch : 0x20 ≤ c ∧ c ≤ 0x7E) :
    ∃ s', emsh_do_insert cfg s c = some s' ∧ emsh_inv cfg s' al fl ∧ s'.ctlseq = s.ctlseq := by
  obtain ⟨_, _, _, hcap, hoff, htext, hpos⟩ := id H
  by_cases hroom : s.buf.array.size < cfg.EMSH_MAX_LINE_SIZE
  · obtain ⟨m', hi, hfr, _, htx⟩ :=
      emsh_buf_insert_spec cfg s.buf s.hist.mem c hcap hoff htext hpos hroom hch
    obtain ⟨s', he, ho⟩ := emsh_disp_refresh_cur_to_eol_spec cfg
      (emsh_write_char { s with
        buf := ⟨{ s.buf.array with size := s.buf.array.size + 1 }, s.buf.pos + 1⟩,
        hist := { s.hist with mem := m' } } c)
      (Nat.succ_le_succ hpos) (Nat.succ_le_of_lt hroom)
    obtain ⟨hh, hb, hc, _⟩ := emsh_only_out_fields _ _ ho
    refine ⟨s', ?_, emsh_inv_mem_update cfg s s' al fl m' (s.buf.array.size + 1)
      (s.buf.pos + 1) H hfr htx (Nat.succ_le_succ hpos) hh hb, hc⟩
    have hroom' : s.buf.array.size < s.buf.array.capacity := by rw [hcap]; exact hroom
    simp only [emsh_do_insert, emsh_buf_size, emsh_buf_capacity, bytearray_size,
      bytearray_capacity, hroom', if_true, hi, Option.bind_eq_bind, Option.some_bind]
    exact he
  · have he : emsh_do_insert cfg s c = some s := by
      have hroom' : ¬ s.buf.array.size < s.buf.array.capacity := by rw [hcap]; exact hroom
      simp only [emsh_do_insert, emsh_buf_size, emsh_buf_capacity, bytearray_size,
        bytearray_capacity, hroom', if_false]
      rfl
    exact ⟨s, he, H, rfl⟩

theorem emsh_do_erase_inv (cfg : emsh_tunables) (s : emsh_t) (al fl : List Nat)
    (H : emsh_inv cfg s al fl) :
    ∃ s', emsh_do_erase cfg s = some s' ∧ emsh_inv cfg s' al fl ∧ s'.ctlseq = s.ctlseq := by
  obtain ⟨_, _, _, hcap, hoff, htext, hpos⟩ := id H
  by_cases hlt : s.buf.pos < s.buf.array.size
  · obtain ⟨m', hi, hfr, _, htx⟩ := emsh_buf_erase_spec cfg s.buf s.hist.mem htext hlt
    obtain ⟨s', he, ho⟩ := emsh_disp_refresh_cur_to_eol_spec cfg
      { s with
        buf := ⟨{ s.buf.array with size := s.buf.array.size - 1 }, s.buf.pos⟩,
        hist := { s.hist with mem := m' } }
      (Nat.le_sub_one_of_lt hlt) (le_trans (Nat.sub_le _ _) htext.1)
    obtain ⟨hh, hb, hc, _⟩ := emsh_only_out_fields _ _ ho
    refine ⟨s', ?_, emsh_inv_mem_update cfg s s' al fl m' (s.buf.array.size - 1)
      s.buf.pos H hfr htx (Nat.le_sub_one_of_lt hlt) hh hb, hc⟩
    have hne : (s.buf.pos != s.buf.array.size) = true := by
      simp only [bne_iff_ne]; omega
    simp only [emsh_do_erase, emsh_buf_size, emsh_buf_pos, bytearray_size, hne, if_true, hi,
      Option.bind_eq_bind, Option.some_bind]
    exact he
  · have heq : s.buf.pos = s.buf.array.size := by omega
    have he : emsh_do_erase cfg s = some s := by
      simp [emsh_do_erase, emsh_buf_size, emsh_buf_pos, bytearray_size, heq]
    exact ⟨s, he, H, rfl⟩

theorem emsh_do_bs_inv (cfg : emsh_tunables) (s : emsh_t) (al fl : List Nat)
    (H : emsh_inv cfg s al fl) :
    ∃ s', emsh_do_bs cfg s = some s' ∧ emsh_inv cfg s' al fl ∧ s'.ctlseq = s.ctlseq := by
  by_cases h : 0 < s.buf.pos
  · obtain ⟨s1, he1, H1, _, _, hc1⟩ := emsh_do_cub_inv cfg s al fl H
    obtain ⟨s2, he2, H2, hc2⟩ := emsh_do_erase_inv cfg s1 al fl H1
    refine ⟨s2, ?_, H2, hc2.trans hc1⟩
    simp only [emsh_do_bs, emsh_buf_pos, gt_iff_lt, h, if_true, he1, Option.bind_eq_bind,
      Option.some_bind]
    exact he2
  · have he : emsh_do_bs cfg s = some s := by
      simp only [emsh_do_bs, emsh_buf_pos, gt_iff_lt, h, if_false]
      rfl
    exact ⟨s, he, H, rfl⟩

theorem option_mapM_some {α β : Type} (f : α → Option β) :
    ∀ l : List α, (∀ x ∈ l, ∃ y, f x = some y) → ∃ r, l.mapM f = some r
  | [], _ => ⟨[], rfl⟩
  | x :: l, h => by
    obtain ⟨y, hy⟩ := h x (List.mem_cons_self _ _)
    obtain ⟨r, hr⟩ := option_mapM_some f l (fun z hz => h z (List.mem_cons_of_mem _ hz))
    refine ⟨y :: r, ?_⟩
    rw [List.mapM_cons, hy, hr]
    rfl

theorem emsh_cmd_exec_spec (cfg : emsh_tunables) (exec : emsh_exec_t) (s : emsh_t)
    (hstr : ∀ i, i < s.cmd.argc → ∃ w, c_string cfg s.hist.mem (s.cmd.argv i) = some w) :
    ∃ s', emsh_cmd_exec cfg exec s = some s' ∧ s'.hist = s.hist ∧ s'.buf = s.buf ∧
      s'.ctlseq = s.ctlseq ∧ s'.cmd.argc = s.cmd.argc := by
  obtain ⟨argv, ha⟩ := option_mapM_some
    (fun i => c_string cfg s.hist.mem (s.cmd.argv i)) (List.range s.cmd.argc)
    (fun i hi => hstr i (List.mem_range.mp hi))
  have ha' : emsh_cmd_argv_strings cfg
      { { s with cmd := { s.cmd with optpos := 1 } } with emsh_optind := 1 } = some argv := ha
  simp only [emsh_cmd_exec, ha', Option.bind_eq_bind, Option.some_bind, Option.pure_def]
  exact ⟨_, rfl, rfl, rfl, rfl, rfl⟩

theorem emsh_cmd_run_spec (cfg : emsh_tunables) (exec : emsh_exec_t) (s : emsh_t)
    (ht : emsh_text_ok cfg (s.hist.mem s.buf.array.data) s.buf.array.size) :
    ∃ s' ran, emsh_cmd_run cfg exec s = some (s', ran) ∧ s'.hist = s.hist ∧ s'.buf = s.buf ∧
      s'.ctlseq = s.ctlseq ∧
      s'.cmd.argc = min (emsh_words (emsh_line s.hist.mem s.buf.array.data
        s.buf.array.size)).length (cfg.EMSH_MAX_N_ARGS + 1) ∧
      ran = (s'.cmd.argc != 0) := by
  have hnz : ∀ i, i < s.buf.array.size → s.hist.mem s.buf.array.data i ≠ 0 := by
    intro i hi; have := (ht.2.2 i hi).1; omega
  obtain ⟨m1, cmd1, he, hargc, _, hstr, hfr, hch⟩ := emsh_cmd_split_spec cfg s ht.1 hnz
  have hrest : ∀ s2 : emsh_t, s2.hist = { s.hist with mem := m1 } → s2.buf = s.buf →
      s2.ctlseq = s.ctlseq → s2.cmd.argc = cmd1.argc →
      ∃ s3, (emsh_cmd_restore cfg s2).bind (fun self => some (self, self.cmd.argc != 0)) =
          some (s3, s3.cmd.argc != 0) ∧
        s3.hist = s.hist ∧ s3.buf = s.buf ∧ s3.ctlseq = s.ctlseq ∧ s3.cmd.argc = cmd1.argc := by
    intro s2 hh2 hb2 hc2 ha2
    obtain ⟨m2, he3, hm2⟩ := emsh_cmd_restore_spec cfg s2 (by rw [hb2]; exact ht.1)
    rw [hb2, hh2] at hm2
    have hmem : m2 = s.hist.mem :=
      emsh_restore_mem_eq _ _ _ m1 m2 hnz ht.2.1 hfr hch hm2
    refine ⟨{ s2 with hist := { s2.hist with mem := m2 } }, ?_, ?_, hb2, hc2, ha2⟩
    · rw [he3]; rfl
    · show ({ s2.hist with mem := m2 } : emsh_hist_t) = s.hist
      rw [hh2, hmem]
  simp only [emsh_cmd_run, he, Option.bind_eq_bind, Option.some_bind]
  split_ifs with h0 hle
  · obtain ⟨s3, h3, a, b, c, d⟩ := hrest
      { s with hist := { s.hist with mem := m1 }, cmd := cmd1 } rfl rfl rfl rfl
    exact ⟨s3, _, h3, a, b, c, d.trans hargc, rfl⟩
  · obtain ⟨s2, he2, a2, b2, c2, d2⟩ := emsh_cmd_exec_spec cfg exec
      { s with hist := { s.hist with mem := m1 }, cmd := cmd1 } (by
        intro i hi
        have hi1 : i < cmd1.argc := hi
        have hlt : i < (emsh_words (emsh_line s.hist.mem s.buf.array.data
            s.buf.array.size)).length := by
          rw [hargc] at hi1; exact lt_of_lt_of_le hi1 (Nat.min_le_left _ _)
        exact ⟨_, hstr i _ (List.getElem?_eq_getElem hlt) (lt_of_lt_of_le hi1 hle)⟩)
    obtain ⟨s3, h3, a, b, c, d⟩ := hrest s2 a2 b2 c2 d2
    rw [he2]
    exact ⟨s3, _, h3, a, b, c, d.trans hargc, rfl⟩
  · obtain ⟨s3, h3, a, b, c, d⟩ := hrest (emsh_write_str
      { s with hist := { s.hist with mem := m1 }, cmd := cmd1 }
      (emsh_s_arg_list_too_long ++ cfg.EMSH_S_NEWLINE)) rfl rfl rfl rfl
    exact ⟨s3, _, h3, a, b, c, d.trans hargc, rfl⟩

/-- Committing the history and rebinding the line buffer to the new draft. -/
theorem emsh_inv_commit (cfg : emsh_tunables) (s : emsh_t) (al fl : List Nat)
    (hL : 1 ≤ cfg.EMSH_MAX_LINE_SIZE) (H : emsh_inv cfg s al fl) :
    ∃ hist f al' fl', emsh_hist_commit cfg s.hist = some hist ∧
      emsh_hist_current hist = some f ∧
      emsh_buf_init cfg hist.mem f cfg.EMSH_MAX_LINE_SIZE =
        some ⟨⟨cfg.EMSH_MAX_LINE_SIZE, 0, 0, f⟩, 0⟩ ∧
      ∀ s' : emsh_t, s'.hist = hist → s'.buf = ⟨⟨cfg.EMSH_MAX_LINE_SIZE, 0, 0, f⟩, 0⟩ →
        emsh_inv cfg s' (f :: al') fl' := by
  obtain ⟨hist, f, al', fl', hc, Hh, hp, _, hm, hsub⟩ := emsh_hist_commit_inv cfg s.hist al fl H.1
  have hcur : hist.cur = some (.block f) := by
    have := Hh.2.2.2.2.2
    rw [hp] at this
    simpa using this
  have hmf : hist.mem f 0 = 0 := by rw [hm]; simp
  have ht0 : emsh_text_ok cfg (hist.mem f) 0 :=
    ⟨Nat.zero_le _, hmf, fun i hi => absurd hi (Nat.not_lt_zero i)⟩
  have hnd : (f :: al').Nodup := (List.nodup_append.mp (emsh_hist_inv_nodup hist _ _ Hh)).1
  refine ⟨hist, f, al', fl', hc, ?_, emsh_buf_init_spec cfg hist.mem f 0 hL ht0, ?_⟩
  · simp [emsh_hist_current, hcur]
  · intro s' hh hb
    refine ⟨?_, ?_, ?_, ?_, ?_, ?_, ?_⟩
    · rw [hh]; exact Hh
    · rw [hh]
      intro b hbm
      rcases List.mem_cons.mp hbm with rfl | hb2
      · exact ⟨0, ht0⟩
      · have hne : b ≠ f := by
          rintro rfl
          exact (List.nodup_cons.mp hnd).1 hb2
        obtain ⟨k, hk⟩ := H.2.1 b (hsub b hb2)
        refine ⟨k, ?_⟩
        have : hist.mem b = s.hist.mem b := by
          rw [hm]; funext i; simp [hne]
        rw [this]; exact hk
    · rw [hh, hb]; exact hcur
    · rw [hb]
    · rw [hb]
    · rw [hh, hb]; exact ht0
    · rw [hb]

theorem emsh_do_commit_inv (cfg : emsh_tunables) (exec : emsh_exec_t) (s : emsh_t)
    (al fl : List Nat) (hL : 1 ≤ cfg.EMSH_MAX_LINE_SIZE) (H : emsh_inv cfg s al fl) :
    ∃ s' al' fl', emsh_do_commit cfg exec s = some s' ∧ emsh_inv cfg s' al' fl' ∧
      s'.ctlseq = s.ctlseq := by
  have H0 := emsh_inv_only_out cfg s _ al fl H (emsh_write_newline_out cfg s)
  obtain ⟨s1, ran, hrun, hh1, hb1, hc1, _, _⟩ :=
    emsh_cmd_run_spec cfg exec (emsh_write_newline cfg s) H0.2.2.2.2.2.1
  have H1 : emsh_inv cfg s1 al fl :=
    emsh_inv_frame cfg _ s1 al fl H0 hh1 (by rw [hb1]) (by rw [hb1]; exact H0.2.2.2.2.2.2)
  have hc1' : s1.ctlseq = s.ctlseq := hc1
  simp only [emsh_do_commit, hrun, Option.bind_eq_bind, Option.some_bind]
  cases ran with
  | false =>
    simp only [Bool.false_eq_true, if_false, Option.pure_def, Option.some_bind]
    by_cases hr : s1.running = true
    · rw [if_pos hr]
      exact ⟨_, al, fl, rfl,
        emsh_inv_only_out cfg s1 _ al fl H1 (emsh_write_prompt_out cfg s1), hc1'⟩
    · rw [if_neg hr]
      exact ⟨_, al, fl, rfl, H1, hc1'⟩
  | true =>
    obtain ⟨hist, f, al', fl', hc, hcu, hbi, hinv⟩ := emsh_inv_commit cfg s1 al fl hL H1
    simp only [if_true, hc, Option.some_bind, hcu, hbi, Option.pure_def]
    have H2 := hinv { { s1 with hist := hist } with
      buf := ⟨⟨cfg.EMSH_MAX_LINE_SIZE, 0, 0, f⟩, 0⟩ } rfl rfl
    by_cases hr : s1.running = true
    · rw [if_pos hr]
      exact ⟨_, f :: al', fl', rfl,
        emsh_inv_only_out cfg _ _ _ _ H2 (emsh_write_prompt_out cfg _), hc1'⟩
    · rw [if_neg hr]
      exact ⟨_, f :: al', fl', rfl, H2, hc1'⟩

end Emsh

namespace Emsh

/-! ## emsh.c: `emsh_task` keeps the engine invariant -/

theorem emsh_task_key_inv (cfg : emsh_tunables) (exec : emsh_exec_t) (s : emsh_t) (c : Nat)
    (al fl : List Nat) (hL : 1 ≤ cfg.EMSH_MAX_LINE_SIZE) (H : emsh_inv cfg s al fl) :
    ∃ s' al' fl', emsh_task_key cfg exec s c = some s' ∧ emsh_inv cfg s' al' fl' ∧
      s'.ctlseq = s.ctlseq := by
  unfold emsh_task_key
  by_cases h1 : c = ASCII_C_CR
  · rw [if_pos h1]; exact ⟨s, al, fl, rfl, H, rfl⟩
  rw [if_neg h1]
  by_cases h2 : c = ASCII_C_LF
  · rw [if_pos h2]; exact emsh_do_commit_inv cfg exec s al fl hL H
  rw [if_neg h2]
  by_cases h3 : c = ASCII_C_BS ∨ c = ASCII_C_DEL
  · rw [if_pos h3]
    obtain ⟨s', he, hi, hc⟩ := emsh_do_bs_inv cfg s al fl H
    exact ⟨s', al, fl, he, hi, hc⟩
  rw [if_neg h3]
  by_cases h4 : c = ASCII_CNTRL 0x41
  · rw [if_pos h4]
    obtain ⟨s', he, hi, _, _, hc⟩ := emsh_do_sol_inv cfg s al fl H
    exact ⟨s', al, fl, he, hi, hc⟩
  rw [if_neg h4]
  by_cases h5 : c = ASCII_CNTRL 0x42
  · rw [if_pos h5]
    obtain ⟨s', he, hi, _, _, hc⟩ := emsh_do_cub_inv cfg s al fl H
    exact ⟨s', al, fl, he, hi, hc⟩
  rw [if_neg h5]
  by_cases h6 : c = ASCII_CNTRL 0x44
  · rw [if_pos h6]
    obtain ⟨s', he, hi, hc⟩ := emsh_do_erase_inv cfg s al fl H
    exact ⟨s', al, fl, he, hi, hc⟩
  rw [if_neg h6]
  by_cases h7 : c = ASCII_CNTRL 0x45
  · rw [if_pos h7]
    obtain ⟨s', he, hi, _, _, hc⟩ := emsh_do_eol_inv cfg s al fl H
    exact ⟨s', al, fl, he, hi, hc⟩
  rw [if_neg h7]
  by_cases h8 : c = ASCII_CNTRL 0x46
  · rw [if_pos h8]
    obtain ⟨s', he, hi, _, _, hc⟩ := emsh_do_cuf_inv cfg s al fl H
    exact ⟨s', al, fl, he, hi, hc⟩
  rw [if_neg h8]
  by_cases h9 : c = ASCII_CNTRL 0x4E
  · rw [if_pos h9]
    obtain ⟨s', he, hi, hc, _⟩ := emsh_do_cud_inv cfg s al fl hL H
    exact ⟨s', al, fl, he, hi, hc⟩
  rw [if_neg h9]
  by_cases h10 : c = ASCII_CNTRL 0x50
  · rw [if_pos h10]
    obtain ⟨s', he, hi, hc, _⟩ := emsh_do_cuu_inv cfg s al fl hL H
    exact ⟨s', al, fl, he, hi, hc⟩
  rw [if_neg h10]
  by_cases h11 : ascii_isprint c = true
  · rw [if_pos h11]
    have hp : 0x20 ≤ c ∧ c ≤ 0x7E := by
      simpa [ascii_isprint] using h11
    obtain ⟨s', he, hi, hc⟩ := emsh_do_insert_inv cfg s al fl c H hp
    exact ⟨s', al, fl, he, hi, hc⟩
  rw [if_neg h11]
  exact ⟨s, al, fl, rfl, H, rfl⟩

theorem emsh_task_final_inv (cfg : emsh_tunables) (s : emsh_t) (c : Nat)
    (al fl : List Nat) (hL : 1 ≤ cfg.EMSH_MAX_LINE_SIZE) (H : emsh_inv cfg s al fl) :
    ∃ s', emsh_task_final cfg s c = some s' ∧ emsh_inv cfg s' al fl ∧
      s'.ctlseq = s.ctlseq := by
  unfold emsh_task_final
  by_cases h0 : s.ctlseq.interm_byte = 0x00
  swap
  · rw [if_neg h0]; exact ⟨s, rfl, H, rfl⟩
  rw [if_pos h0]
  by_cases h1 : c = 0x41
  · rw [if_pos h1]
    obtain ⟨s', he, hi, hc, _⟩ := emsh_do_cuu_inv cfg s al fl hL H
    exact ⟨s', he, hi, hc⟩
  rw [if_neg h1]
  by_cases h2 : c = 0x42
  · rw [if_pos h2]
    obtain ⟨s', he, hi, hc, _⟩ := emsh_do_cud_inv cfg s al fl hL H
    exact ⟨s', he, hi, hc⟩
  rw [if_neg h2]
  by_cases h3 : c = 0x43
  · rw [if_pos h3]
    obtain ⟨s', he, hi, _, _, hc⟩ := emsh_do_cuf_inv cfg s al fl H
    exact ⟨s', he, hi, hc⟩
  rw [if_neg h3]
  by_cases h4 : c = 0x44
  · rw [if_pos h4]
    obtain ⟨s', he, hi, _, _, hc⟩ := emsh_do_cub_inv cfg s al fl H
    exact ⟨s', he, hi, hc⟩
  rw [if_neg h4]
  by_cases h5 : c = 0x7E
  swap
  · rw [if_neg h5]; exact ⟨s, rfl, H, rfl⟩
  rw [if_pos h5]
  by_cases p1 : s.ctlseq.param_byte = 0x31
  · rw [if_pos p1]
    obtain ⟨s', he, hi, _, _, hc⟩ := emsh_do_sol_inv cfg s al fl H
    exact ⟨s', he, hi, hc⟩
  rw [if_neg p1]
  by_cases p2 : s.ctlseq.param_byte = 0x32
  · rw [if_pos p2]; exact ⟨s, rfl, H, rfl⟩
  rw [if_neg p2]
  by_cases p3 : s.ctlseq.param_byte = 0x33
  · rw [if_pos p3]; exact emsh_do_erase_inv cfg s al fl H
  rw [if_neg p3]
  by_cases p4 : s.ctlseq.param_byte = 0x34
  · rw [if_pos p4]
    obtain ⟨s', he, hi, _, _, hc⟩ := emsh_do_eol_inv cfg s al fl H
    exact ⟨s', he, hi, hc⟩
  rw [if_neg p4]
  exact ⟨s, rfl, H, rfl⟩

theorem emsh_inv_ctlseq (cfg : emsh_tunables) (s : emsh_t) (cs : emsh_ctlseq_t)
    (al fl : List Nat) (H : emsh_inv cfg s al fl) :
    emsh_inv cfg { s with ctlseq := cs } al fl :=
  emsh_inv_frame cfg s _ al fl H rfl rfl H.2.2.2.2.2.2

theorem emsh_task_inv (cfg : emsh_tunables) (exec : emsh_exec_t) (s : emsh_t) (c : Nat)
    (al fl : List Nat) (hL : 1 ≤ cfg.EMSH_MAX_LINE_SIZE) (H : emsh_inv cfg s al fl) :
    ∃ s' al' fl', emsh_task cfg exec s c = some s' ∧ emsh_inv cfg s' al' fl' := by
  have H1 := emsh_inv_ctlseq cfg s { s.ctlseq with st := (ctlseq_sm s.ctlseq.st c).1 } al fl H
  unfold emsh_task
  simp only []
  by_cases hst : (ctlseq_sm s.ctlseq.st c).1 = .INIT
  · rw [if_pos hst]
    obtain ⟨s', al', fl', he, hi, _⟩ := emsh_task_key_inv cfg exec _ c al fl hL H1
    exact ⟨s', al', fl', he, hi⟩
  rw [if_neg hst]
  cases (ctlseq_sm s.ctlseq.st c).2.1 with
  | NONE =>
    simp only []
    split_ifs
    · exact ⟨_, al, fl, rfl, emsh_inv_ctlseq cfg _ _ al fl H1⟩
    · exact ⟨_, al, fl, rfl, emsh_inv_ctlseq cfg _ _ al fl H1⟩
    · exact ⟨_, al, fl, rfl, H1⟩
  | ESC => exact ⟨_, al, fl, rfl, emsh_inv_ctlseq cfg _ _ al fl H1⟩
  | CSI => exact ⟨_, al, fl, rfl, H1⟩
  | PARAM => exact ⟨_, al, fl, rfl, emsh_inv_ctlseq cfg _ _ al fl H1⟩
  | INTERM => exact ⟨_, al, fl, rfl, emsh_inv_ctlseq cfg _ _ al fl H1⟩
  | FINAL =>
    obtain ⟨s', he, hi, _⟩ := emsh_task_final_inv cfg _ c al fl hL H1
    exact ⟨s', al, fl, he, hi⟩
  | ILSEQ => exact ⟨_, al, fl, rfl, H1⟩

theorem emsh_feed_inv (cfg : emsh_tunables) (exec : emsh_exec_t)
    (hL : 1 ≤ cfg.EMSH_MAX_LINE_SIZE) :
    ∀ (cs : List Nat) (s : emsh_t) (al fl : List Nat), emsh_inv cfg s al fl →
      ∃ s' al' fl', emsh_feed cfg exec s cs = some s' ∧ emsh_inv cfg s' al' fl'
  | [], s, al, fl, H => ⟨s, al, fl, rfl, H⟩
  | c :: cs, s, al, fl, H => by
    obtain ⟨s1, al1, fl1, he1, H1⟩ := emsh_task_inv cfg exec s c al fl hL H
    obtain ⟨s2, al2, fl2, he2, H2⟩ := emsh_feed_inv cfg exec hL cs s1 al1 fl1 H1
    refine ⟨s2, al2, fl2, ?_, H2⟩
    simp only [emsh_feed, he1, Option.some_bind]
    exact he2

theorem emsh_init_inv (cfg : emsh_tunables) (self0 : emsh_t)
    (hL : 1 ≤ cfg.EMSH_MAX_LINE_SIZE) (hH : 1 ≤ cfg.EMSH_MAX_HIST_SIZE) :
    ∃ s, emsh_init cfg self0 = some s ∧
      emsh_inv cfg s [0] ((List.range (cfg.EMSH_MAX_HIST_SIZE - 1)).map Nat.succ) ∧
      s.hist.pos = 0 ∧ s.ctlseq.st = .INIT ∧ s.ctlseq.interm_byte = 0 ∧
      s.buf = ⟨⟨cfg.EMSH_MAX_LINE_SIZE, 0, 0, 0⟩, 0⟩ := by
  obtain ⟨hist, he, Hh, _, hp, hm⟩ :=
    emsh_hist_init_spec cfg self0.hist cfg.EMSH_MAX_HIST_SIZE hH
  have hcur : hist.cur = some (.block 0) := by
    have := Hh.2.2.2.2.2
    rw [hp] at this
    simpa using this
  have hm0 : hist.mem 0 0 = 0 := by
    rw [hm]; simp; omega
  have ht0 : emsh_text_ok cfg (hist.mem 0) 0 :=
    ⟨Nat.zero_le _, hm0, fun i hi => absurd hi (Nat.not_lt_zero i)⟩
  have hb := emsh_buf_init_spec cfg hist.mem 0 0 hL ht0
  have hcu : emsh_hist_current hist = some 0 := by simp [emsh_hist_current, hcur]
  simp only [emsh_init, he, Option.bind_eq_bind, Option.some_bind, hcu, hb, Option.pure_def]
  refine ⟨_, rfl, ⟨Hh, ?_, hcur, rfl, rfl, ht0, Nat.le_refl _⟩, hp, rfl, rfl, rfl⟩
  intro b hb
  rw [List.mem_singleton] at hb
  subst hb
  exact ⟨0, ht0⟩

/-- C3. After `emsh_init` and after every further `emsh_task` call, whatever the bytes
fed and whatever the executor (which has no access to the line storage), the engine
has not failed and its line buffer, bound to the block under the history cursor,
satisfies caret ≤ length ≤ `EMSH_MAX_LINE_SIZE`, holds NUL at index length and
printable bytes (0x20-0x7E) below it. -/
theorem emsh_line_buffer_invariant (cfg : emsh_tunables) (exec : emsh_exec_t)
    (self0 : emsh_t) (hL : 1 ≤ cfg.EMSH_MAX_LINE_SIZE) (hH : 1 ≤ cfg.EMSH_MAX_HIST_SIZE)
    (cs : List Nat) :
    ∃ s, (emsh_init cfg self0).bind (fun s0 => emsh_feed cfg exec s0 cs) = some s ∧
      s.hist.cur = some (.block (emsh_buf_data s.buf)) ∧
      emsh_buf_pos s.buf ≤ emsh_buf_size s.buf ∧
      emsh_buf_size s.buf ≤ cfg.EMSH_MAX_LINE_SIZE ∧
      emsh_buf_capacity s.buf = cfg.EMSH_MAX_LINE_SIZE ∧
      s.hist.mem (emsh_buf_data s.buf) (emsh_buf_size s.buf) = 0 ∧
      ∀ i, i < emsh_buf_size s.buf →
        0x20 ≤ s.hist.mem (emsh_buf_data s.buf) i ∧ s.hist.mem (emsh_buf_data s.buf) i ≤ 0x7E := by
  obtain ⟨s0, he0, H0, _⟩ := emsh_init_inv cfg self0 hL hH
  obtain ⟨s, al, fl, he, H⟩ := emsh_feed_inv cfg exec hL cs s0 _ _ H0
  obtain ⟨h1, h2, h3, h4⟩ := emsh_inv_text cfg s al fl H
  refine ⟨s, ?_, H.2.2.1, h1, h2, H.2.2.2.1, h3, h4⟩
  rw [he0]
  exact he

/-- C3 with the default tunables: the line `ls` is typed and committed, recalled from
the history and edited. -/
theorem emsh_line_buffer_invariant_witness :
    1 ≤ ({} : emsh_tunables).EMSH_MAX_LINE_SIZE ∧ 1 ≤ ({} : emsh_tunables).EMSH_MAX_HIST_SIZE ∧
    ∃ s, (emsh_init {} (emsh_sample [])).bind
        (fun s0 => emsh_feed {} emsh_exec_none s0 [0x6C, 0x73, 0x0A, 0x10, 0x08, 0x78]) = some s ∧
      s.hist.cur = some (.block (emsh_buf_data s.buf)) ∧
      emsh_buf_pos s.buf ≤ emsh_buf_size s.buf ∧
      emsh_buf_size s.buf ≤ ({} : emsh_tunables).EMSH_MAX_LINE_SIZE ∧
      emsh_buf_capacity s.buf = ({} : emsh_tunables).EMSH_MAX_LINE_SIZE ∧
      s.hist.mem (emsh_buf_data s.buf) (emsh_buf_size s.buf) = 0 ∧
      ∀ i, i < emsh_buf_size s.buf →
        0x20 ≤ s.hist.mem (emsh_buf_data s.buf) i ∧ s.hist.mem (emsh_buf_data s.buf) i ≤ 0x7E :=
  ⟨by decide, by decide,
    emsh_line_buffer_invariant {} emsh_exec_none (emsh_sample []) (by decide) (by decide)
      [0x6C, 0x73, 0x0A, 0x10, 0x08, 0x78]⟩

/-! ## emsh.c: navigation through the history -/

theorem emsh_feed_append (cfg : emsh_tunables) (exec : emsh_exec_t) :
    ∀ (a b : List Nat) (s : emsh_t), emsh_feed cfg exec s (a ++ b) =
      (emsh_feed cfg exec s a).bind (fun s1 => emsh_feed cfg exec s1 b)
  | [], b, s => rfl
  | c :: a, b, s => by
    simp only [List.cons_append, emsh_feed]
    cases emsh_task cfg exec s c with
    | none => rfl
    | some s1 => exact emsh_feed_append cfg exec a b s1

theorem emsh_feed_single (cfg : emsh_tunables) (exec : emsh_exec_t) (s : emsh_t) (c : Nat) :
    emsh_feed cfg exec s [c] = emsh_task cfg exec s c := by
  simp only [emsh_feed]
  cases emsh_task cfg exec s c <;> rfl

theorem emsh_feed_key_backward (cfg : emsh_tunables) (exec : emsh_exec_t) (s : emsh_t)
    (k : List Nat) (hk : emsh_key_backward k)
    (hst : s.ctlseq.st = .INIT ∨ s.ctlseq.st = .FINAL) :
    ∃ cs : emsh_ctlseq_t, (cs.st = .INIT ∨ cs.st = .FINAL) ∧
      emsh_feed cfg exec s k = emsh_do_cuu cfg { s with ctlseq := cs } := by
  obtain ⟨r, hi, b, ⟨st, pb, ib⟩, cm, a1, a2, a3, a4, o, e⟩ := s
  simp only at hst
  rcases hk with rfl | rfl
  · refine ⟨⟨.INIT, pb, ib⟩, Or.inl rfl, ?_⟩
    rw [emsh_feed_single]
    rcases hst with rfl | rfl <;> rfl
  · refine ⟨⟨.FINAL, 0, 0⟩, Or.inr rfl, ?_⟩
    show emsh_feed cfg exec _ ([0x1B, 0x5B] ++ [0x41]) = _
    rw [emsh_feed_append]
    rcases hst with rfl | rfl
    · show emsh_feed cfg exec _ [0x41] = _
      rw [emsh_feed_single]
      rfl
    · show emsh_feed cfg exec _ [0x41] = _
      rw [emsh_feed_single]
      rfl

theorem emsh_feed_key_forward (cfg : emsh_tunables) (exec : emsh_exec_t) (s : emsh_t)
    (k : List Nat) (hk : emsh_key_forward k)
    (hst : s.ctlseq.st = .INIT ∨ s.ctlseq.st = .FINAL) :
    ∃ cs : emsh_ctlseq_t, (cs.st = .INIT ∨ cs.st = .FINAL) ∧
      emsh_feed cfg exec s k = emsh_do_cud cfg { s with ctlseq := cs } := by
  obtain ⟨r, hi, b, ⟨st, pb, ib⟩, cm, a1, a2, a3, a4, o, e⟩ := s
  simp only at hst
  rcases hk with rfl | rfl
  · refine ⟨⟨.INIT, pb, ib⟩, Or.inl rfl, ?_⟩
    rw [emsh_feed_single]
    rcases hst with rfl | rfl <;> rfl
  · refine ⟨⟨.FINAL, 0, 0⟩, Or.inr rfl, ?_⟩
    show emsh_feed cfg exec _ ([0x1B, 0x5B] ++ [0x42]) = _
    rw [emsh_feed_append]
    rcases hst with rfl | rfl
    · show emsh_feed cfg exec _ [0x42] = _
      rw [emsh_feed_single]
      rfl
    · show emsh_feed cfg exec _ [0x42] = _
      rw [emsh_feed_single]
      rfl

theorem emsh_hist_at_self (h : emsh_hist_t) (al fl : List Nat) (H : emsh_hist_inv h al fl) :
    emsh_hist_at h al h.pos = h := by
  have hc := H.2.2.2.2.2
  cases h with
  | mk capacity size pos cur node mem =>
    simp only at hc
    simp only [emsh_hist_at, hc]

theorem emsh_do_cuu_at (cfg : emsh_tunables) (s : emsh_t) (al fl : List Nat)
    (hL : 1 ≤ cfg.EMSH_MAX_LINE_SIZE) (H : emsh_inv cfg s al fl) :
    ∃ s', emsh_do_cuu cfg s = some s' ∧ emsh_inv cfg s' al fl ∧ s'.ctlseq = s.ctlseq ∧
      s'.hist = emsh_hist_at s.hist al (min (s.hist.pos + 1) (al.length - 1)) := by
  obtain ⟨s', he, hi, hc, hh⟩ := emsh_do_cuu_inv cfg s al fl hL H
  refine ⟨s', he, hi, hc, ?_⟩
  have hsz := H.1.2.2.2.1
  have hp := H.1.2.2.2.2.1
  rw [hh]
  split_ifs with hlt
  · have : min (s.hist.pos + 1) (al.length - 1) = s.hist.pos + 1 := by omega
    rw [this]; rfl
  · have : min (s.hist.pos + 1) (al.length - 1) = s.hist.pos := by omega
    rw [this]; exact (emsh_hist_at_self s.hist al fl H.1).symm

theorem emsh_do_cud_at (cfg : emsh_tunables) (s : emsh_t) (al fl : List Nat)
    (hL : 1 ≤ cfg.EMSH_MAX_LINE_SIZE) (H : emsh_inv cfg s al fl) :
    ∃ s', emsh_do_cud cfg s = some s' ∧ emsh_inv cfg s' al fl ∧ s'.ctlseq = s.ctlseq ∧
      s'.hist = emsh_hist_at s.hist al (s.hist.pos - 1) := by
  obtain ⟨s', he, hi, hc, hh⟩ := emsh_do_cud_inv cfg s al fl hL H
  refine ⟨s', he, hi, hc, ?_⟩
  rw [hh]
  split_ifs with hlt
  · rfl
  · have : s.hist.pos - 1 = s.hist.pos := by omega
    rw [this]; exact (emsh_hist_at_self s.hist al fl H.1).symm

theorem emsh_feed_backward (cfg : emsh_tunables) (exec : emsh_exec_t) (al fl : List Nat)
    (hL : 1 ≤ cfg.EMSH_MAX_LINE_SIZE) :
    ∀ (bs : List (List Nat)) (s : emsh_t), (∀ k ∈ bs, emsh_key_backward k) →
      emsh_inv cfg s al fl → (s.ctlseq.st = .INIT ∨ s.ctlseq.st = .FINAL) →
      ∃ s', emsh_feed cfg exec s bs.flatten = some s' ∧ emsh_inv cfg s' al fl ∧
        (s'.ctlseq.st = .INIT ∨ s'.ctlseq.st = .FINAL) ∧
        s'.hist = emsh_hist_at s.hist al (min (s.hist.pos + bs.length) (al.length - 1))
  | [], s, _, H, hst => by
    have hp := H.1.2.2.2.2.1
    refine ⟨s, rfl, H, hst, ?_⟩
    have : min (s.hist.pos + ([] : List (List Nat)).length) (al.length - 1) = s.hist.pos := by
      simp only [List.length_nil, Nat.add_zero]; omega
    rw [this]; exact (emsh_hist_at_self s.hist al fl H.1).symm
  | k :: bs, s, hk, H, hst => by
    obtain ⟨cs, hcs, hfk⟩ := emsh_feed_key_backward cfg exec s k
      (hk k (List.mem_cons_self _ _)) hst
    obtain ⟨s1, he1, H1, hc1, hh1⟩ :=
      emsh_do_cuu_at cfg _ al fl hL (emsh_inv_ctlseq cfg s cs al fl H)
    have hst1 : s1.ctlseq.st = .INIT ∨ s1.ctlseq.st = .FINAL := by rw [hc1]; exact hcs
    obtain ⟨s2, he2, H2, hst2, hh2⟩ := emsh_feed_backward cfg exec al fl hL bs s1
      (fun k hkm => hk k (List.mem_cons_of_mem _ hkm)) H1 hst1
    refine ⟨s2, ?_, H2, hst2, ?_⟩
    · rw [List.flatten_cons, emsh_feed_append, hfk, he1]
      exact he2
    · rw [hh2, hh1]
      have hp := H.1.2.2.2.2.1
      have : min ((emsh_hist_at ({ s with ctlseq := cs } : emsh_t).hist al
            (min (({ s with ctlseq := cs } : emsh_t).hist.pos + 1) (al.length - 1))).pos +
            bs.length) (al.length - 1) =
          min (s.hist.pos + (k :: bs).length) (al.length - 1) := by
        show min (min (s.hist.pos + 1) (al.length - 1) + bs.length) (al.length - 1) = _
        simp only [List.length_cons]
        omega
      rw [this]; rfl

theorem emsh_feed_forward (cfg : emsh_tunables) (exec : emsh_exec_t) (al fl : List Nat)
    (hL : 1 ≤ cfg.EMSH_MAX_LINE_SIZE) :
    ∀ (fs : List (List Nat)) (s : emsh_t), (∀ k ∈ fs, emsh_key_forward k) →
      emsh_inv cfg s al fl → (s.ctlseq.st = .INIT ∨ s.ctlseq.st = .FINAL) →
      ∃ s', emsh_feed cfg exec s fs.flatten = some s' ∧ emsh_inv cfg s' al fl ∧
        (s'.ctlseq.st = .INIT ∨ s'.ctlseq.st = .FINAL) ∧
        s'.hist = emsh_hist_at s.hist al (s.hist.pos - fs.length)
  | [], s, _, H, hst => by
    refine ⟨s, rfl, H, hst, ?_⟩
    exact (emsh_hist_at_self s.hist al fl H.1).symm
  | k :: fs, s, hk, H, hst => by
    obtain ⟨cs, hcs, hfk⟩ := emsh_feed_key_forward cfg exec s k
      (hk k (List.mem_cons_self _ _)) hst
    obtain ⟨s1, he1, H1, hc1, hh1⟩ :=
      emsh_do_cud_at cfg _ al fl hL (emsh_inv_ctlseq cfg s cs al fl H)
    have hst1 : s1.ctlseq.st = .INIT ∨ s1.ctlseq.st = .FINAL := by rw [hc1]; exact hcs
    obtain ⟨s2, he2, H2, hst2, hh2⟩ := emsh_feed_forward cfg exec al fl hL fs s1
      (fun k hkm => hk k (List.mem_cons_of_mem _ hkm)) H1 hst1
    refine ⟨s2, ?_, H2, hst2, ?_⟩
    · rw [List.flatten_cons, emsh_feed_append, hfk, he1]
      exact he2
    · rw [hh2, hh1]
      have : (emsh_hist_at ({ s with ctlseq := cs } : emsh_t).hist al
            (({ s with ctlseq := cs } : emsh_t).hist.pos - 1)).pos - fs.length =
          s.hist.pos - (k :: fs).length := by
        show s.hist.pos - 1 - fs.length = _
        simp only [List.length_cons]
        omega
      rw [this]; rfl

theorem emsh_text_ok_unique (cfg : emsh_tunables) (a : Nat → Nat) (n k : Nat)
    (hn : emsh_text_ok cfg a n) (hk : emsh_text_ok cfg a k) : n = k := by
  rcases Nat.lt_trichotomy n k with h | h | h
  · have := (hk.2.2 n h).1
    rw [hn.2.1] at this
    omega
  · exact h
  · have := (hn.2.2 k h).1
    rw [hk.2.1] at this
    omega

/-- The line buffer is determined by the history it is bound to. -/
theorem emsh_inv_buf_unique (cfg : emsh_tunables) (s s' : emsh_t) (al fl al' fl' : List Nat)
    (H : emsh_inv cfg s al fl) (H' : emsh_inv cfg s' al' fl') (hh : s'.hist = s.hist) :
    s'.buf.array = s.buf.array := by
  obtain ⟨_, _, hc, hcap, hoff, ht, _⟩ := H
  obtain ⟨_, _, hc', hcap', hoff', ht', _⟩ := H'
  rw [hh] at hc' ht'
  have hd : s'.buf.array.data = s.buf.array.data := by
    rw [hc] at hc'
    injection hc' with h1
    injection h1 with h2
    exact h2.symm
  rw [hd] at ht'
  have hs := emsh_text_ok_unique cfg _ _ _ ht' ht
  cases hs' : s'.buf.array with
  | mk c1 o1 z1 d1 =>
    cases hs0 : s.buf.array with
    | mk c0 o0 z0 d0 =>
      rw [hs'] at hcap' hoff' hd hs
      rw [hs0] at hcap hoff hd hs
      simp only at hcap hoff hcap' hoff' hd hs
      rw [hcap, hoff, hcap', hoff', hd, hs]

theorem emsh_nav_sample_inv : emsh_inv {} emsh_nav_sample [1, 0] [] := by
  refine ⟨⟨⟨by simp [list_seg, list_links, emsh_nav_sample, emsh_hist_full2], by decide⟩,
    ⟨by simp [list_seg, list_links, emsh_nav_sample, emsh_hist_full2], by decide⟩,
    by decide, rfl, by decide, rfl⟩, ?_, rfl, rfl, rfl, ⟨by decide, rfl, by decide⟩, by decide⟩
  intro b hb
  simp only [List.mem_cons, List.mem_singleton, List.not_mem_nil, or_false] at hb
  rcases hb with rfl | rfl
  · exact ⟨2, by decide, rfl, by decide⟩
  · exact ⟨2, by decide, rfl, by decide⟩

/-- C8. From a well-formed engine state with the history cursor on the draft and no
control sequence pending, `k` history-backward keystrokes (Ctrl-P or ESC [ A)
followed by `k` history-forward keystrokes (Ctrl-N or ESC [ B) are all accepted and
leave the whole history as it was: the cursor is on the draft again, the text of
the draft and of every committed entry is byte for byte what it was, and the line
buffer is bound to the draft with its previous length. -/
theorem emsh_navigation_round_trip (cfg : emsh_tunables) (exec : emsh_exec_t) (s : emsh_t)
    (al fl : List Nat) (bs fs : List (List Nat)) (hL : 1 ≤ cfg.EMSH_MAX_LINE_SIZE)
    (H : emsh_inv cfg s al fl) (hpos : s.hist.pos = 0)
    (hst : s.ctlseq.st = .INIT ∨ s.ctlseq.st = .FINAL)
    (hb : ∀ k ∈ bs, emsh_key_backward k) (hf : ∀ k ∈ fs, emsh_key_forward k)
    (hlen : bs.length = fs.length) :
    ∃ s', emsh_feed cfg exec s (bs.flatten ++ fs.flatten) = some s' ∧
      s'.hist.pos = 0 ∧ s'.hist.cur = s.hist.cur ∧
      emsh_hist_current s'.hist = emsh_hist_current s.hist ∧
      (∀ b i, s'.hist.mem b i = s.hist.mem b i) ∧
      s'.hist = s.hist ∧ s'.buf.array = s.buf.array := by
  obtain ⟨s1, he1, H1, hst1, hh1⟩ := emsh_feed_backward cfg exec al fl hL bs s hb H hst
  obtain ⟨s2, he2, H2, _, hh2⟩ := emsh_feed_forward cfg exec al fl hL fs s1 hf H1 hst1
  have hh : s2.hist = s.hist := by
    rw [hh2, hh1]
    have : (emsh_hist_at s.hist al (min (s.hist.pos + bs.length) (al.length - 1))).pos -
        fs.length = s.hist.pos := by
      show min (s.hist.pos + bs.length) (al.length - 1) - fs.length = s.hist.pos
      omega
    rw [this]
    exact emsh_hist_at_self s.hist al fl H.1
  refine ⟨s2, ?_, ?_, ?_, ?_, ?_, hh, emsh_inv_buf_unique cfg s s2 al fl al fl H H2 hh⟩
  · rw [emsh_feed_append, he1]
    exact he2
  · rw [hh]; exact hpos
  · rw [hh]
  · rw [hh]
  · intro b i; rw [hh]

/-- C8 on a ring holding the committed line `hi` and the draft `ls`: Ctrl-P and
ESC [ A, then ESC [ B and Ctrl-N. -/
theorem emsh_navigation_round_trip_witness :
    1 ≤ ({} : emsh_tunables).EMSH_MAX_LINE_SIZE ∧ emsh_inv {} emsh_nav_sample [1, 0] [] ∧
    emsh_nav_sample.hist.pos = 0 ∧
    ∃ s', emsh_feed {} emsh_exec_none emsh_nav_sample
        ([[0x10], [0x1B, 0x5B, 0x41]].flatten ++ [[0x1B, 0x5B, 0x42], [0x0E]].flatten) = some s' ∧
      s'.hist.pos = 0 ∧ s'.hist.cur = emsh_nav_sample.hist.cur ∧
      emsh_hist_current s'.hist = emsh_hist_current emsh_nav_sample.hist ∧
      (∀ b i, s'.hist.mem b i = emsh_nav_sample.hist.mem b i) ∧
      s'.hist = emsh_nav_sample.hist ∧ s'.buf.array = emsh_nav_sample.buf.array :=
  ⟨by decide, emsh_nav_sample_inv, rfl,
    emsh_navigation_round_trip {} emsh_exec_none emsh_nav_sample [1, 0] []
      [[0x10], [0x1B, 0x5B, 0x41]] [[0x1B, 0x5B, 0x42], [0x0E]] (by decide)
      emsh_nav_sample_inv rfl (Or.inl rfl) (by decide) (by decide) rfl⟩

end Emsh

namespace Emsh

/-! ## emsh.c: committing a line -/

theorem option_mapM_range' {β : Type} (f : Nat → Option β) :
    ∀ (l : List β) (s : Nat), (∀ i, (hi : i < l.length) → f (s + i) = some l[i]) →
      (List.range' s l.length).mapM f = some l
  | [], _, _ => rfl
  | x :: l, s, h => by
    have h0 : f s = some x := by simpa using h 0 (Nat.zero_lt_succ _)
    have ih := option_mapM_range' f l (s + 1) (fun i hi => by
      have := h (i + 1) (Nat.succ_lt_succ hi)
      simpa [Nat.add_assoc, Nat.add_comm 1 i] using this)
    simp only [List.length_cons, List.range'_succ, List.mapM_cons, h0, ih]
    rfl

theorem option_mapM_range {β : Type} (f : Nat → Option β) (l : List β)
    (h : ∀ i, (hi : i < l.length) → f i = some l[i]) :
    (List.range l.length).mapM f = some l := by
  rw [List.range_eq_range']
  exact option_mapM_range' f l 0 (fun i hi => by simpa using h i hi)

theorem emsh_write_str_eq (s : emsh_t) (str : List Nat) :
    emsh_write_str s str = { s with out := s.out ++ c_lit str } := rfl

theorem emsh_write_newline_eq (cfg : emsh_tunables) (s : emsh_t) :
    emsh_write_newline cfg s = { s with out := s.out ++ c_lit cfg.EMSH_S_NEWLINE } := rfl

theorem emsh_write_prompt_eq (cfg : emsh_tunables) (s : emsh_t) :
    emsh_write_prompt cfg s = { s with out := s.out ++ c_lit cfg.EMSH_S_PROMPT } := rfl

/-- Model of `emsh_cmd_exec` when the strings of `argv` are `w`. -/
theorem emsh_cmd_exec_eq (cfg : emsh_tunables) (exec : emsh_exec_t) (s : emsh_t)
    (w : List (List Nat)) (hargc : s.cmd.argc = w.length)
    (hstr : ∀ i, (hi : i < w.length) → c_string cfg s.hist.mem (s.cmd.argv i) = some w[i]) :
    ∃ s', emsh_cmd_exec cfg exec s = some s' ∧ s'.hist = s.hist ∧ s'.buf = s.buf ∧
      s'.ctlseq = s.ctlseq ∧ s'.cmd.argc = s.cmd.argc ∧
      s'.running = (exec w.length w (emsh_exec_entry s)).1.running ∧
      emsh_opts_of s' (exec w.length w (emsh_exec_entry s)).1 ∧
      s'.out = s.out ++ (exec w.length w (emsh_exec_entry s)).2 ∧
      s'.execs = s.execs ++ [(w.length, w)] := by
  have ha : emsh_cmd_argv_strings cfg
      { { s with cmd := { s.cmd with optpos := 1 } } with emsh_optind := 1 } = some w := by
    show (List.range s.cmd.argc).mapM (fun i => c_string cfg s.hist.mem (s.cmd.argv i)) = some w
    rw [hargc]
    exact option_mapM_range _ w hstr
  simp only [emsh_cmd_exec, ha, Option.bind_eq_bind, Option.some_bind, Option.pure_def]
  refine ⟨_, rfl, rfl, rfl, rfl, rfl, ?_, ⟨?_, ?_, ?_, ?_, ?_⟩, ?_, ?_⟩ <;>
    simp only [emsh_exec_entry, hargc]

/-- Model of `emsh_cmd_run` on a line buffer holding a line with words `w`: the engine
after the call in the three cases no word, at most `EMSH_MAX_N_ARGS` words, and more. -/
theorem emsh_cmd_run_full (cfg : emsh_tunables) (exec : emsh_exec_t) (s : emsh_t)
    (ht : emsh_text_ok cfg (s.hist.mem s.buf.array.data) s.buf.array.size) :
    ∃ s', emsh_cmd_run cfg exec s = some (s', decide (emsh_words (emsh_buf_line s) ≠ [])) ∧
      s'.hist = s.hist ∧ s'.buf = s.buf ∧ s'.ctlseq = s.ctlseq ∧
      (emsh_words (emsh_buf_line s) = [] →
        s'.running = s.running ∧ emsh_opts_same s s' ∧ s'.out = s.out ∧ s'.execs = s.execs) ∧
      (emsh_words (emsh_buf_line s) ≠ [] →
        (emsh_words (emsh_buf_line s)).length ≤ cfg.EMSH_MAX_N_ARGS →
        s'.running = (exec (emsh_words (emsh_buf_line s)).length (emsh_words (emsh_buf_line s))
          (emsh_exec_entry s)).1.running ∧
        emsh_opts_of s' (exec (emsh_words (emsh_buf_line s)).length
          (emsh_words (emsh_buf_line s)) (emsh_exec_entry s)).1 ∧
        s'.out = s.out ++ (exec (emsh_words (emsh_buf_line s)).length
          (emsh_words (emsh_buf_line s)) (emsh_exec_entry s)).2 ∧
        s'.execs = s.execs ++
          [((emsh_words (emsh_buf_line s)).length, emsh_words (emsh_buf_line s))]) ∧
      (cfg.EMSH_MAX_N_ARGS < (emsh_words (emsh_buf_line s)).length →
        s'.running = s.running ∧ emsh_opts_same s s' ∧
        s'.out = s.out ++ c_lit (emsh_s_arg_list_too_long ++ cfg.EMSH_S_NEWLINE) ∧
        s'.execs = s.execs) := by
  have hnz : ∀ i, i < s.buf.array.size → s.hist.mem s.buf.array.data i ≠ 0 := by
    intro i hi; have := (ht.2.2 i hi).1; omega
  obtain ⟨m1, cmd1, he, hargc, hopt, hstr, hfr, hch⟩ := emsh_cmd_split_spec cfg s ht.1 hnz
  have hargc' : cmd1.argc = min (emsh_words (emsh_buf_line s)).length
      (cfg.EMSH_MAX_N_ARGS + 1) := hargc
  have hrest : ∀ s2 : emsh_t, s2.hist = { s.hist with mem := m1 } → s2.buf = s.buf →
      s2.cmd.argc = cmd1.argc →
      (emsh_cmd_restore cfg s2).bind (fun self => some (self, self.cmd.argc != 0)) =
          some ({ s2 with hist := s.hist }, decide (emsh_words (emsh_buf_line s) ≠ [])) := by
    intro s2 hh2 hb2 ha2
    obtain ⟨m2, he3, hm2⟩ := emsh_cmd_restore_spec cfg s2 (by rw [hb2]; exact ht.1)
    rw [hb2, hh2] at hm2
    have hmem : m2 = s.hist.mem :=
      emsh_restore_mem_eq _ _ _ m1 m2 hnz ht.2.1 hfr hch hm2
    have hh3 : ({ s2.hist with mem := m2 } : emsh_hist_t) = s.hist := by rw [hh2, hmem]
    rw [he3, Option.some_bind, hh3]
    congr 2
    show (s2.cmd.argc != 0) = _
    rw [ha2, hargc']
    cases hw : emsh_words (emsh_buf_line s) with
    | nil => simp
    | cons x l => simp
  simp only [emsh_cmd_run, he, Option.bind_eq_bind, Option.some_bind]
  split_ifs with h0 hle
  · have hw : emsh_words (emsh_buf_line s) = [] := by
      have h0' : cmd1.argc = 0 := h0
      rw [hargc'] at h0'
      apply List.eq_nil_of_length_eq_zero
      omega
    refine ⟨_, hrest { s with hist := { s.hist with mem := m1 }, cmd := cmd1 } rfl rfl rfl,
      rfl, rfl, rfl, ?_, ?_, ?_⟩
    · intro _
      exact ⟨rfl, ⟨hopt, rfl, rfl, rfl, rfl⟩, rfl, rfl⟩
    · intro hne; exact absurd hw hne
    · intro hlt; rw [hw] at hlt; exact absurd hlt (Nat.not_lt_zero _)
  · have h0' : cmd1.argc ≠ 0 := h0
    have hle' : cmd1.argc ≤ cfg.EMSH_MAX_N_ARGS := hle
    have hlen : cmd1.argc = (emsh_words (emsh_buf_line s)).length := by
      rw [hargc'] at hle' ⊢; omega
    obtain ⟨s2, he2, a2, b2, c2, d2, r2, o2, u2, x2⟩ := emsh_cmd_exec_eq cfg exec
      { s with hist := { s.hist with mem := m1 }, cmd := cmd1 } (emsh_words (emsh_buf_line s))
      hlen (by
        intro i hi
        exact hstr i _ (List.getElem?_eq_getElem hi) (by rw [← hlen] at hi; omega))
    rw [he2]
    refine ⟨_, hrest s2 a2 b2 d2, rfl, b2, c2, ?_, ?_, ?_⟩
    · intro hw; rw [hw] at hlen; exact absurd hlen h0'
    · intro _ _
      exact ⟨r2, o2, u2, x2⟩
    · intro hlt; omega
  · have h0' : cmd1.argc ≠ 0 := h0
    have hle' : ¬ cmd1.argc ≤ cfg.EMSH_MAX_N_ARGS := hle
    refine ⟨_, hrest (emsh_write_str { s with hist := { s.hist with mem := m1 }, cmd := cmd1 }
      (emsh_s_arg_list_too_long ++ cfg.EMSH_S_NEWLINE)) rfl rfl rfl, rfl, rfl, rfl, ?_, ?_, ?_⟩
    · intro hw; rw [hargc', hw] at h0'; simp at h0'
    · intro _ hlen; rw [hargc'] at hle'; omega
    · intro _
      exact ⟨rfl, ⟨hopt, rfl, rfl, rfl, rfl⟩, rfl, rfl⟩

theorem emsh_words_blank : ∀ line : List Nat, (∀ x ∈ line, x = 0x20) → emsh_words line = []
  | [], _ => emsh_words_nil
  | x :: line, h => by
    have hx : x = 0x20 := h x (List.mem_cons_self _ _)
    subst hx
    rw [emsh_words_space]
    exact emsh_words_blank line (fun y hy => h y (List.mem_cons_of_mem _ hy))

theorem emsh_task_lf (cfg : emsh_tunables) (exec : emsh_exec_t) (s : emsh_t) :
    emsh_task cfg exec s ASCII_C_LF =
      emsh_do_commit cfg exec { s with ctlseq := { s.ctlseq with st := .INIT } } := by
  obtain ⟨r, hi, b, ⟨st, pb, ib⟩, cm, a1, a2, a3, a4, o, e⟩ := s
  cases st <;> rfl

theorem emsh_hist_commit_pos (cfg : emsh_tunables) (h h' : emsh_hist_t) (al fl : List Nat)
    (H : emsh_hist_inv h al fl) (he : emsh_hist_commit cfg h = some h') : h'.pos = 0 := by
  obtain ⟨h2, _, _, _, he2, _, hp, _⟩ := emsh_hist_commit_inv cfg h al fl H
  rw [he] at he2
  rw [Option.some.inj he2]
  exact hp

/-- Model of `emsh_do_commit` on a line without words. -/
theorem emsh_do_commit_blank (cfg : emsh_tunables) (exec : emsh_exec_t) (s : emsh_t)
    (al fl : List Nat) (H : emsh_inv cfg s al fl) (hw : emsh_words (emsh_buf_line s) = []) :
    ∃ s', emsh_do_commit cfg exec s = some s' ∧ s'.ctlseq = s.ctlseq ∧
      s'.hist = s.hist ∧ s'.buf = s.buf ∧ s'.running = s.running ∧ emsh_opts_same s s' ∧
      s'.execs = s.execs ∧
      s'.out = s.out ++ c_lit cfg.EMSH_S_NEWLINE ++
        (if s.running = true then c_lit cfg.EMSH_S_PROMPT else []) := by
  obtain ⟨s1, hrun, hh1, hb1, hc1, hblank, _, _⟩ :=
    emsh_cmd_run_full cfg exec (emsh_write_newline cfg s) H.2.2.2.2.2.1
  have hw' : emsh_words (emsh_buf_line (emsh_write_newline cfg s)) = [] := hw
  obtain ⟨hr, hopts, hout, hex⟩ := hblank hw'
  have hr' : s1.running = s.running := hr
  have hout' : s1.out = s.out ++ c_lit cfg.EMSH_S_NEWLINE := hout
  have hex' : s1.execs = s.execs := hex
  have hopts' : emsh_opts_same s s1 := hopts
  have hh1' : s1.hist = s.hist := hh1
  have hb1' : s1.buf = s.buf := hb1
  have hc1' : s1.ctlseq = s.ctlseq := hc1
  rw [hw'] at hrun
  simp only [emsh_do_commit, hrun, Option.bind_eq_bind, Option.some_bind, ne_eq,
    not_true_eq_false, decide_False, Bool.false_eq_true, if_false, Option.pure_def]
  by_cases hrn : s.running = true
  · have h1 : s1.running = true := by rw [hr']; exact hrn
    rw [if_pos h1, if_pos hrn]
    refine ⟨_, rfl, hc1', hh1', hb1', hr', hopts', hex', ?_⟩
    show s1.out ++ c_lit cfg.EMSH_S_PROMPT = _
    rw [hout']
  · have h1 : ¬ s1.running = true := by rw [hr']; exact hrn
    rw [if_neg h1, if_neg hrn]
    refine ⟨_, rfl, hc1', hh1', hb1', hr', hopts', hex', ?_⟩
    rw [hout', List.append_nil]

/-- Model of `emsh_do_commit` on a line with at least one word. -/
theorem emsh_do_commit_run (cfg : emsh_tunables) (exec : emsh_exec_t) (s : emsh_t)
    (al fl : List Nat) (hL : 1 ≤ cfg.EMSH_MAX_LINE_SIZE) (H : emsh_inv cfg s al fl)
    (hw : emsh_words (emsh_buf_line s) ≠ []) :
    ∃ s' f al' fl', emsh_do_commit cfg exec s = some s' ∧ s'.ctlseq = s.ctlseq ∧
      emsh_committed cfg s s' ∧ emsh_inv cfg s' (f :: al') fl' ∧
      ((emsh_words (emsh_buf_line s)).length ≤ cfg.EMSH_MAX_N_ARGS →
        s'.running = (exec (emsh_words (emsh_buf_line s)).length (emsh_words (emsh_buf_line s))
          (emsh_exec_entry s)).1.running ∧
        emsh_opts_of s' (exec (emsh_words (emsh_buf_line s)).length
          (emsh_words (emsh_buf_line s)) (emsh_exec_entry s)).1 ∧
        s'.execs = s.execs ++
          [((emsh_words (emsh_buf_line s)).length, emsh_words (emsh_buf_line s))] ∧
        s'.out = s.out ++ c_lit cfg.EMSH_S_NEWLINE ++
          (exec (emsh_words (emsh_buf_line s)).length (emsh_words (emsh_buf_line s))
            (emsh_exec_entry s)).2 ++
          (if (exec (emsh_words (emsh_buf_line s)).length (emsh_words (emsh_buf_line s))
            (emsh_exec_entry s)).1.running = true then c_lit cfg.EMSH_S_PROMPT else [])) ∧
      (cfg.EMSH_MAX_N_ARGS < (emsh_words (emsh_buf_line s)).length →
        s'.running = s.running ∧ emsh_opts_same s s' ∧ s'.execs = s.execs ∧
        s'.out = s.out ++ c_lit cfg.EMSH_S_NEWLINE ++
          c_lit (emsh_s_arg_list_too_long ++ cfg.EMSH_S_NEWLINE) ++
          (if s.running = true then c_lit cfg.EMSH_S_PROMPT else [])) := by
  have H0 := emsh_inv_only_out cfg s _ al fl H (emsh_write_newline_out cfg s)
  obtain ⟨s1, hrun, hh1, hb1, hc1, _, hexec, hover⟩ :=
    emsh_cmd_run_full cfg exec (emsh_write_newline cfg s) H0.2.2.2.2.2.1
  have hw' : emsh_words (emsh_buf_line (emsh_write_newline cfg s)) ≠ [] := hw
  have H1 : emsh_inv cfg s1 al fl :=
    emsh_inv_frame cfg _ s1 al fl H0 hh1 (by rw [hb1]) (by rw [hb1]; exact H0.2.2.2.2.2.2)
  have hh1' : s1.hist = s.hist := hh1
  have hc1' : s1.ctlseq = s.ctlseq := hc1
  obtain ⟨hist, f, al', fl', hc, hcu, hbi, hinv⟩ := emsh_inv_commit cfg s1 al fl hL H1
  have hpos : hist.pos = 0 := emsh_hist_commit_pos cfg s1.hist hist al fl H1.1 hc
  have hdec : decide (emsh_words (emsh_buf_line (emsh_write_newline cfg s)) ≠ []) = true :=
    decide_eq_true hw'
  rw [hdec] at hrun
  have H2 := hinv { { s1 with hist := hist } with
    buf := ⟨⟨cfg.EMSH_MAX_LINE_SIZE, 0, 0, f⟩, 0⟩ } rfl rfl
  have hcm : ∀ s' : emsh_t, s'.hist = hist → s'.buf = ⟨⟨cfg.EMSH_MAX_LINE_SIZE, 0, 0, f⟩, 0⟩ →
      emsh_committed cfg s s' := by
    intro s' e1 e2
    have Hs := hinv s' e1 e2
    refine ⟨by rw [e1, ← hh1']; exact hc, f, ?_, by rw [e1]; exact hpos, ?_, e2⟩
    · have := Hs.2.2.1
      rw [e2] at this
      exact this
    · have := Hs.2.2.2.2.2.1.2.1
      rw [e2] at this
      exact this
  have hfin : ∃ s', emsh_do_commit cfg exec s = some s' ∧ s'.ctlseq = s.ctlseq ∧
      emsh_committed cfg s s' ∧ emsh_inv cfg s' (f :: al') fl' ∧ s'.running = s1.running ∧
      emsh_opts_same s1 s' ∧ s'.execs = s1.execs ∧
      s'.out = s1.out ++ (if s1.running = true then c_lit cfg.EMSH_S_PROMPT else []) := by
    simp only [emsh_do_commit, hrun, Option.bind_eq_bind, Option.some_bind, if_true, hc, hcu,
      hbi, Option.pure_def]
    by_cases hr : s1.running = true
    · rw [if_pos hr, if_pos hr]
      exact ⟨_, rfl, hc1', hcm _ rfl rfl,
        emsh_inv_only_out cfg _ _ _ _ H2 (emsh_write_prompt_out cfg _), rfl,
        ⟨rfl, rfl, rfl, rfl, rfl⟩, rfl, rfl⟩
    · rw [if_neg hr, if_neg hr]
      exact ⟨_, rfl, hc1', hcm _ rfl rfl, H2, rfl, ⟨rfl, rfl, rfl, rfl, rfl⟩, rfl,
        (List.append_nil _).symm⟩
  obtain ⟨s', he, hcs, hco, hiv, hrn, hop, hxs, hou⟩ := hfin
  refine ⟨s', f, al', fl', he, hcs, hco, hiv, ?_, ?_⟩
  · intro hle
    obtain ⟨r1, o1, u1, x1⟩ := hexec hw' hle
    have r1' : s1.running = (exec (emsh_words (emsh_buf_line s)).length
        (emsh_words (emsh_buf_line s)) (emsh_exec_entry s)).1.running := r1
    have u1' : s1.out = s.out ++ c_lit cfg.EMSH_S_NEWLINE ++
        (exec (emsh_words (emsh_buf_line s)).length (emsh_words (emsh_buf_line s))
          (emsh_exec_entry s)).2 := u1
    refine ⟨hrn.trans r1', ?_, hxs.trans x1, ?_⟩
    · obtain ⟨p1, p2, p3, p4, p5⟩ := hop
      obtain ⟨q1, q2, q3, q4, q5⟩ := o1
      exact ⟨p1.trans q1, p2.trans q2, p3.trans q3, p4.trans q4, p5.trans q5⟩
    · rw [hou, u1', r1']
  · intro hlt
    obtain ⟨r1, o1, u1, x1⟩ := hover hlt
    have r1' : s1.running = s.running := r1
    have u1' : s1.out = s.out ++ c_lit cfg.EMSH_S_NEWLINE ++
        c_lit (emsh_s_arg_list_too_long ++ cfg.EMSH_S_NEWLINE) := u1
    refine ⟨hrn.trans r1', ?_, hxs.trans x1, ?_⟩
    · obtain ⟨p1, p2, p3, p4, p5⟩ := hop
      obtain ⟨q1, q2, q3, q4, q5⟩ := o1
      exact ⟨p1.trans q1, p2.trans q2, p3.trans q3, p4.trans q4, p5.trans q5⟩
    · rw [hou, u1', r1']

theorem c_lit_eq_takeWhile : ∀ str : List Nat, c_lit str = str.takeWhile (fun ch => ch != 0)
  | [] => rfl
  | x :: str => by
    have ih := c_lit_eq_takeWhile str
    unfold c_lit c_strlen_lit at ih ⊢
    by_cases hx : (x != 0) = true
    · simp only [List.takeWhile_cons, hx, if_true, List.length_cons, List.take_succ_cons, ih]
    · simp only [List.takeWhile_cons, hx, if_false, List.length_nil, List.take_zero]
      rfl

theorem c_lit_append (a b : List Nat) (ha : ∀ x ∈ a, x ≠ 0) : c_lit (a ++ b) = a ++ c_lit b := by
  rw [c_lit_eq_takeWhile, c_lit_eq_takeWhile]
  induction a with
  | nil => rfl
  | cons x a ih =>
    have hx : (x != 0) = true := by simpa using ha x (List.mem_cons_self _ _)
    simp only [List.cons_append, List.takeWhile_cons, hx, if_true]
    rw [ih (fun y hy => ha y (List.mem_cons_of_mem _ hy))]

theorem emsh_sample_inv (cfg : emsh_tunables) (line : List Nat)
    (hcfg : cfg.EMSH_MAX_LINE_SIZE = 77) (hlen : line.length ≤ 77)
    (hpr : ∀ x ∈ line, 0x20 ≤ x ∧ x ≤ 0x7E) : emsh_inv cfg (emsh_sample line) [0] [1] := by
  have ht : emsh_text_ok cfg ((emsh_sample line).hist.mem 0) line.length := by
    refine ⟨by rw [hcfg]; exact hlen, ?_, ?_⟩
    · show (if (0 : Nat) = 0 then line.getD line.length 0 else 0) = 0
      simp
    · intro i hi
      show 0x20 ≤ (if (0 : Nat) = 0 then line.getD i 0 else 0) ∧
        (if (0 : Nat) = 0 then line.getD i 0 else 0) ≤ 0x7E
      rw [if_pos rfl, List.getD_eq_getElem _ _ hi]
      exact hpr _ (List.getElem_mem _)
  refine ⟨⟨⟨by simp [list_seg, list_links, emsh_sample, emsh_hist_fresh2], by decide⟩,
    ⟨by simp [list_seg, list_links, emsh_sample, emsh_hist_fresh2], by decide⟩,
    (by decide : ([0] ++ [1]).Perm (List.range 2)), rfl, (by decide : 0 < [0].length), rfl⟩,
    ?_, rfl, hcfg.symm, rfl, ht, Nat.le_refl _⟩
  intro b hb
  rw [List.mem_singleton] at hb
  subst hb
  exact ⟨_, ht⟩

end Emsh

namespace Emsh

/-! ## emsh.c: what a line feed does -/

/-- C11. In a well-formed engine state whose line has between 1 and `EMSH_MAX_N_ARGS`
words, feeding LF is accepted and: the newline is emitted; the executor is invoked
once, with `argc` the number of words and `argv` the words; the history is
committed and the line buffer is bound to the new, empty draft (length 0,
caret 0); the prompt is emitted last exactly when the engine is still running
after the executor returned. With the cursor on the draft and a ring that is
not full the active size grows by one. -/
theorem emsh_commit_executes (cfg : emsh_tunables) (exec : emsh_exec_t) (s : emsh_t)
    (al fl : List Nat) (hL : 1 ≤ cfg.EMSH_MAX_LINE_SIZE) (H : emsh_inv cfg s al fl)
    (hw1 : 1 ≤ (emsh_words (emsh_buf_line s)).length)
    (hw2 : (emsh_words (emsh_buf_line s)).length ≤ cfg.EMSH_MAX_N_ARGS) :
    ∃ s', emsh_task cfg exec s ASCII_C_LF = some s' ∧
      s'.execs = s.execs ++
        [((emsh_words (emsh_buf_line s)).length, emsh_words (emsh_buf_line s))] ∧
      s'.running = (exec (emsh_words (emsh_buf_line s)).length (emsh_words (emsh_buf_line s))
        (emsh_exec_entry s)).1.running ∧
      s'.out = s.out ++ c_lit cfg.EMSH_S_NEWLINE ++
        (exec (emsh_words (emsh_buf_line s)).length (emsh_words (emsh_buf_line s))
          (emsh_exec_entry s)).2 ++
        (if s'.running = true then c_lit cfg.EMSH_S_PROMPT else []) ∧
      emsh_committed cfg s s' ∧ emsh_buf_size s'.buf = 0 ∧ emsh_buf_pos s'.buf = 0 ∧
      (s.hist.pos = 0 → s.hist.size < s.hist.capacity → s'.hist.size = s.hist.size + 1) := by
  have hw : emsh_words (emsh_buf_line s) ≠ [] := by
    intro h; rw [h] at hw1; exact absurd hw1 (by decide)
  obtain ⟨s', f, al', fl', he, _, hco, _, hex, _⟩ := emsh_do_commit_run cfg exec
    { s with ctlseq := { s.ctlseq with st := .INIT } } al fl hL
    (emsh_inv_ctlseq cfg s _ al fl H) hw
  obtain ⟨hr, _, hx, ho⟩ := hex hw2
  have hco' : emsh_committed cfg s s' := hco
  obtain ⟨hc1, f1, _, _, _, hbuf⟩ := id hco'
  refine ⟨s', ?_, hx, hr, ?_, hco', ?_, ?_, ?_⟩
  · rw [emsh_task_lf]; exact he
  · rw [hr]; exact ho
  · rw [hbuf]; rfl
  · rw [hbuf]; rfl
  · intro hp hlt
    have hlen := emsh_hist_inv_length s.hist al fl H.1
    have hsz := H.1.2.2.2.1
    cases fl with
    | nil => simp only [List.length_nil, Nat.add_zero] at hlen; omega
    | cons g fl2 =>
      obtain ⟨h2, he2, _, _, _, hs2, _⟩ := emsh_hist_commit_grow cfg s.hist g al fl2 H.1 hp
      rw [hc1] at he2
      rw [Option.some.inj he2]
      exact hs2

/-- C11 on scenario E1: the line `hi` and LF give `argc = 1`, `argv = ["hi"]` and an
active size of 2. -/
theorem emsh_commit_executes_witness :
    emsh_words (emsh_buf_line (emsh_sample [0x68, 0x69])) = [[0x68, 0x69]] ∧
    ∃ s', emsh_task {} emsh_exec_none (emsh_sample [0x68, 0x69]) ASCII_C_LF = some s' ∧
      s'.execs = (emsh_sample [0x68, 0x69]).execs ++
        [((emsh_words (emsh_buf_line (emsh_sample [0x68, 0x69]))).length,
          emsh_words (emsh_buf_line (emsh_sample [0x68, 0x69])))] ∧
      s'.running = (emsh_exec_none (emsh_words (emsh_buf_line (emsh_sample [0x68, 0x69]))).length
        (emsh_words (emsh_buf_line (emsh_sample [0x68, 0x69])))
        (emsh_exec_entry (emsh_sample [0x68, 0x69]))).1.running ∧
      s'.out = (emsh_sample [0x68, 0x69]).out ++ c_lit ({} : emsh_tunables).EMSH_S_NEWLINE ++
        (emsh_exec_none (emsh_words (emsh_buf_line (emsh_sample [0x68, 0x69]))).length
          (emsh_words (emsh_buf_line (emsh_sample [0x68, 0x69])))
          (emsh_exec_entry (emsh_sample [0x68, 0x69]))).2 ++
        (if s'.running = true then c_lit ({} : emsh_tunables).EMSH_S_PROMPT else []) ∧
      emsh_committed {} (emsh_sample [0x68, 0x69]) s' ∧
      emsh_buf_size s'.buf = 0 ∧ emsh_buf_pos s'.buf = 0 ∧
      ((emsh_sample [0x68, 0x69]).hist.pos = 0 →
        (emsh_sample [0x68, 0x69]).hist.size < (emsh_sample [0x68, 0x69]).hist.capacity →
        s'.hist.size = (emsh_sample [0x68, 0x69]).hist.size + 1) :=
  ⟨by decide, emsh_commit_executes {} emsh_exec_none (emsh_sample [0x68, 0x69]) [0] [1]
    (by decide) (emsh_sample_inv {} [0x68, 0x69] rfl (by decide) (by decide))
    (by decide) (by decide)⟩

/-- C12. In a well-formed engine state whose line is empty or holds only spaces,
feeding LF is accepted, does not invoke the executor and leaves the history
(both lists, size, cursor, every stored text) and the line buffer as they were;
the bytes emitted are the newline, followed by the prompt when the engine is
running. -/
theorem emsh_commit_blank_line (cfg : emsh_tunables) (exec : emsh_exec_t) (s : emsh_t)
    (al fl : List Nat) (H : emsh_inv cfg s al fl)
    (hb : ∀ x ∈ emsh_buf_line s, x = 0x20) :
    ∃ s', emsh_task cfg exec s ASCII_C_LF = some s' ∧ s'.execs = s.execs ∧
      s'.hist = s.hist ∧ emsh_hist_active s'.hist = emsh_hist_active s.hist ∧
      emsh_hist_free s'.hist = emsh_hist_free s.hist ∧ s'.buf = s.buf ∧
      emsh_buf_line s' = emsh_buf_line s ∧ s'.running = s.running ∧
      s'.out = s.out ++ c_lit cfg.EMSH_S_NEWLINE ++
        (if s.running = true then c_lit cfg.EMSH_S_PROMPT else []) := by
  obtain ⟨s', he, _, hh, hbf, hr, _, hx, ho⟩ := emsh_do_commit_blank cfg exec
    { s with ctlseq := { s.ctlseq with st := .INIT } } al fl
    (emsh_inv_ctlseq cfg s _ al fl H) (emsh_words_blank _ hb)
  have hh' : s'.hist = s.hist := hh
  have hbf' : s'.buf = s.buf := hbf
  refine ⟨s', ?_, hx, hh', by rw [hh'], by rw [hh'], hbf', ?_, hr, ho⟩
  · rw [emsh_task_lf]; exact he
  · unfold emsh_buf_line; rw [hh', hbf']

/-- C12 on a line of two spaces. -/
theorem emsh_commit_blank_line_witness :
    ∃ s', emsh_task {} emsh_exec_none (emsh_sample [0x20, 0x20]) ASCII_C_LF = some s' ∧
      s'.execs = (emsh_sample [0x20, 0x20]).execs ∧
      s'.hist = (emsh_sample [0x20, 0x20]).hist ∧
      emsh_hist_active s'.hist = emsh_hist_active (emsh_sample [0x20, 0x20]).hist ∧
      emsh_hist_free s'.hist = emsh_hist_free (emsh_sample [0x20, 0x20]).hist ∧
      s'.buf = (emsh_sample [0x20, 0x20]).buf ∧
      emsh_buf_line s' = emsh_buf_line (emsh_sample [0x20, 0x20]) ∧
      s'.running = (emsh_sample [0x20, 0x20]).running ∧
      s'.out = (emsh_sample [0x20, 0x20]).out ++ c_lit ({} : emsh_tunables).EMSH_S_NEWLINE ++
        (if (emsh_sample [0x20, 0x20]).running = true
          then c_lit ({} : emsh_tunables).EMSH_S_PROMPT else []) :=
  emsh_commit_blank_line {} emsh_exec_none (emsh_sample [0x20, 0x20]) [0] [1]
    (emsh_sample_inv {} [0x20, 0x20] rfl (by decide) (by decide)) (by decide)

/-- C13. In a well-formed engine state whose line has more than `EMSH_MAX_N_ARGS`
words, feeding LF is accepted and does not invoke the executor; after the echoed
newline the engine writes exactly the bytes of `emsh: Argument list too long.`
and the newline string, and then the prompt when it is running. -/
theorem emsh_commit_overflow_output (cfg : emsh_tunables) (exec : emsh_exec_t) (s : emsh_t)
    (al fl : List Nat) (hL : 1 ≤ cfg.EMSH_MAX_LINE_SIZE) (H : emsh_inv cfg s al fl)
    (hov : cfg.EMSH_MAX_N_ARGS < (emsh_words (emsh_buf_line s)).length) :
    ∃ s', emsh_task cfg exec s ASCII_C_LF = some s' ∧ s'.execs = s.execs ∧
      s'.running = s.running ∧
      s'.out = s.out ++ c_lit cfg.EMSH_S_NEWLINE ++
        (emsh_s_arg_list_too_long ++ c_lit cfg.EMSH_S_NEWLINE) ++
        (if s.running = true then c_lit cfg.EMSH_S_PROMPT else []) := by
  have hw : emsh_words (emsh_buf_line s) ≠ [] := by
    intro h; rw [h] at hov; exact absurd hov (Nat.not_lt_zero _)
  obtain ⟨s', f, al', fl', he, _, _, _, _, hover⟩ := emsh_do_commit_run cfg exec
    { s with ctlseq := { s.ctlseq with st := .INIT } } al fl hL
    (emsh_inv_ctlseq cfg s _ al fl H) hw
  obtain ⟨hr, _, hx, ho⟩ := hover hov
  refine ⟨s', ?_, hx, hr, ?_⟩
  · rw [emsh_task_lf]; exact he
  · rw [c_lit_append emsh_s_arg_list_too_long cfg.EMSH_S_NEWLINE (by decide)] at ho
    exact ho

/-- C13 on a line of 11 words with the default `EMSH_MAX_N_ARGS = 10`. -/
theorem emsh_commit_overflow_output_witness :
    ∃ s', emsh_task {} emsh_exec_none (emsh_sample emsh_line_11) ASCII_C_LF = some s' ∧
      s'.execs = (emsh_sample emsh_line_11).execs ∧
      s'.running = (emsh_sample emsh_line_11).running ∧
      s'.out = (emsh_sample emsh_line_11).out ++ c_lit ({} : emsh_tunables).EMSH_S_NEWLINE ++
        (emsh_s_arg_list_too_long ++ c_lit ({} : emsh_tunables).EMSH_S_NEWLINE) ++
        (if (emsh_sample emsh_line_11).running = true
          then c_lit ({} : emsh_tunables).EMSH_S_PROMPT else []) :=
  emsh_commit_overflow_output {} emsh_exec_none (emsh_sample emsh_line_11) [0] [1]
    (by decide) (emsh_sample_inv {} emsh_line_11 rfl (by decide) (by decide)) (by decide)

/-- C14, as stated, fails: on a line of 11 words (default `EMSH_MAX_N_ARGS = 10`) in a
ring holding only the draft, LF leaves an active list of two entries with the
cursor on a new draft (block 1), and the overflowing line is the committed entry
in block 0; the executor was not called. -/
theorem emsh_commit_overflow_counterexample :
    ({} : emsh_tunables).EMSH_MAX_N_ARGS <
      (emsh_words (emsh_buf_line (emsh_sample emsh_line_11))).length ∧
    (emsh_sample emsh_line_11).hist.size = 1 ∧
    emsh_hist_active (emsh_sample emsh_line_11).hist = [.block 0] ∧
    (emsh_task {} emsh_exec_none (emsh_sample emsh_line_11) ASCII_C_LF).map
      (fun s => (s.hist.size, s.hist.pos, s.execs)) = some (2, 0, []) ∧
    (emsh_task {} emsh_exec_none (emsh_sample emsh_line_11) ASCII_C_LF).map
      (fun s => emsh_hist_active s.hist) = some [.block 1, .block 0] ∧
    (emsh_task {} emsh_exec_none (emsh_sample emsh_line_11) ASCII_C_LF).bind
      (fun s => c_string {} s.hist.mem ⟨0, 0⟩) = some emsh_line_11 := by
  refine ⟨by decide, rfl, by decide, by decide, by decide, by decide⟩

/-- C14, amended. In a well-formed engine state whose line has more than
`EMSH_MAX_N_ARGS` words, feeding LF commits the history as for an executed line:
`emsh_hist_commit` runs and the line buffer is bound to the new, empty draft. With
the cursor on the draft and a ring that is not full the active list becomes the
new draft followed by the previous list (whose first entry holds the overflowing
line), the size grows by one and no stored line changes. -/
theorem emsh_commit_overflow_history (cfg : emsh_tunables) (exec : emsh_exec_t) (s : emsh_t)
    (al fl : List Nat) (hL : 1 ≤ cfg.EMSH_MAX_LINE_SIZE) (H : emsh_inv cfg s al fl)
    (hov : cfg.EMSH_MAX_N_ARGS < (emsh_words (emsh_buf_line s)).length) :
    ∃ s', emsh_task cfg exec s ASCII_C_LF = some s' ∧ s'.execs = s.execs ∧
      emsh_committed cfg s s' ∧ emsh_buf_size s'.buf = 0 ∧ emsh_buf_pos s'.buf = 0 ∧
      (s.hist.pos = 0 → s.hist.size < s.hist.capacity →
        ∃ f fl', fl = f :: fl' ∧ emsh_hist_inv s'.hist (f :: al) fl' ∧
          s'.hist.cur = some (.block f) ∧ al.head? = some s.buf.array.data ∧
          s'.hist.size = s.hist.size + 1 ∧ ∀ b ∈ al, s'.hist.mem b = s.hist.mem b) := by
  have hw : emsh_words (emsh_buf_line s) ≠ [] := by
    intro h; rw [h] at hov; exact absurd hov (Nat.not_lt_zero _)
  obtain ⟨s', f, al', fl', he, _, hco, _, _, hover⟩ := emsh_do_commit_run cfg exec
    { s with ctlseq := { s.ctlseq with st := .INIT } } al fl hL
    (emsh_inv_ctlseq cfg s _ al fl H) hw
  obtain ⟨_, _, hx, _⟩ := hover hov
  have hco' : emsh_committed cfg s s' := hco
  obtain ⟨hc1, f1, _, _, _, hbuf⟩ := id hco'
  refine ⟨s', ?_, hx, hco', ?_, ?_, ?_⟩
  · rw [emsh_task_lf]; exact he
  · rw [hbuf]; rfl
  · rw [hbuf]; rfl
  · intro hp hlt
    have hlen := emsh_hist_inv_length s.hist al fl H.1
    have hsz := H.1.2.2.2.1
    have hnd := emsh_hist_inv_nodup s.hist al fl H.1
    cases fl with
    | nil => simp only [List.length_nil, Nat.add_zero] at hlen; omega
    | cons g fl2 =>
      obtain ⟨h2, he2, hi2, hp2, _, hs2, hm2⟩ :=
        emsh_hist_commit_grow cfg s.hist g al fl2 H.1 hp
      rw [hc1] at he2
      have heq : s'.hist = h2 := Option.some.inj he2
      refine ⟨g, fl2, rfl, by rw [heq]; exact hi2, ?_, ?_, by rw [heq]; exact hs2, ?_⟩
      · rw [heq]
        have := hi2.2.2.2.2.2
        rw [hp2] at this
        simpa using this
      · have hcur := H.1.2.2.2.2.2
        rw [hp, H.2.2.1] at hcur
        cases al with
        | nil => simp at hcur
        | cons a al2 =>
          simp only [List.getElem?_cons_zero, Option.map_some'] at hcur
          injection hcur with h1
          injection h1 with h2
          rw [h2]; rfl
      · intro b hb
        rw [heq, hm2]
        funext i
        have hne : b ≠ g := by
          rintro rfl
          exact (List.nodup_append.mp hnd).2.2 hb (List.mem_cons_self _ _)
        simp [hne]

/-- C14, amended, on a line of 11 words in a ring holding only the draft. -/
theorem emsh_commit_overflow_history_witness :
    ∃ s', emsh_task {} emsh_exec_none (emsh_sample emsh_line_11) ASCII_C_LF = some s' ∧
      s'.execs = (emsh_sample emsh_line_11).execs ∧
      emsh_committed {} (emsh_sample emsh_line_11) s' ∧
      emsh_buf_size s'.buf = 0 ∧ emsh_buf_pos s'.buf = 0 ∧
      ((emsh_sample emsh_line_11).hist.pos = 0 →
        (emsh_sample emsh_line_11).hist.size < (emsh_sample emsh_line_11).hist.capacity →
        ∃ f fl', [1] = f :: fl' ∧ emsh_hist_inv s'.hist (f :: [0]) fl' ∧
          s'.hist.cur = some (.block f) ∧
          [0].head? = some (emsh_sample emsh_line_11).buf.array.data ∧
          s'.hist.size = (emsh_sample emsh_line_11).hist.size + 1 ∧
          ∀ b ∈ [0], s'.hist.mem b = (emsh_sample emsh_line_11).hist.mem b) :=
  emsh_commit_overflow_history {} emsh_exec_none (emsh_sample emsh_line_11) [0] [1]
    (by decide) (emsh_sample_inv {} emsh_line_11 rfl (by decide) (by decide)) (by decide)

/-- C20, as stated, fails: two commands `a` are run from a state holding the initial
values (`optarg` null, `opterr = 1`, `optopt = 0`) with an executor that reports
the option-scanner variables it finds and leaves `opterr = 0`, `optopt = 'x'`
and a non-null `optarg`. The first call reports `opterr = 1`, `optopt = 0`, a
null `optarg`, `optind = 1`, sub-position 1; the second reports `opterr = 0`,
`optopt = 'x'`, a non-null `optarg`, `optind = 1`, sub-position 1. -/
theorem emsh_exec_reset_counterexample :
    (emsh_sample []).emsh_optarg = none ∧ (emsh_sample []).emsh_opterr = 1 ∧
    (emsh_sample []).emsh_optopt = 0 ∧
    (emsh_feed {} emsh_exec_probe (emsh_sample []) [0x61, 0x0A, 0x61, 0x0A]).map
      (fun s => s.out) =
      some ([0x61, 0x1B, 0x5B, 0x4B] ++ [0x0A] ++ [1, 0, 0, 1, 1] ++ [0x3E, 0x20] ++
        [0x61, 0x1B, 0x5B, 0x4B] ++ [0x0A] ++ [0, 0x78, 1, 1, 1] ++ [0x3E, 0x20]) := by
  refine ⟨rfl, rfl, rfl, by decide⟩

/-- C20, amended. In a well-formed engine state whose line has between 1 and
`EMSH_MAX_N_ARGS` words, the executor invoked by LF starts with `optind = 1` and
sub-position 1, and with `optarg`, `opterr` and `optopt` as they were before the
LF (they are not reset); what the executor leaves in the option-scanner variables
is what the engine holds afterwards. -/
theorem emsh_exec_entry_state (cfg : emsh_tunables) (exec : emsh_exec_t) (s : emsh_t)
    (al fl : List Nat) (hL : 1 ≤ cfg.EMSH_MAX_LINE_SIZE) (H : emsh_inv cfg s al fl)
    (hw1 : 1 ≤ (emsh_words (emsh_buf_line s)).length)
    (hw2 : (emsh_words (emsh_buf_line s)).length ≤ cfg.EMSH_MAX_N_ARGS) :
    ∃ s' v, emsh_task cfg exec s ASCII_C_LF = some s' ∧
      v.emsh_optind = 1 ∧ v.optpos = 1 ∧ v.emsh_optarg = s.emsh_optarg ∧
      v.emsh_opterr = s.emsh_opterr ∧ v.emsh_optopt = s.emsh_optopt ∧
      v.running = s.running ∧
      s'.execs = s.execs ++
        [((emsh_words (emsh_buf_line s)).length, emsh_words (emsh_buf_line s))] ∧
      s'.running = (exec (emsh_words (emsh_buf_line s)).length
        (emsh_words (emsh_buf_line s)) v).1.running ∧
      emsh_opts_of s' (exec (emsh_words (emsh_buf_line s)).length
        (emsh_words (emsh_buf_line s)) v).1 ∧
      s'.out = s.out ++ c_lit cfg.EMSH_S_NEWLINE ++
        (exec (emsh_words (emsh_buf_line s)).length (emsh_words (emsh_buf_line s)) v).2 ++
        (if s'.running = true then c_lit cfg.EMSH_S_PROMPT else []) := by
  have hw : emsh_words (emsh_buf_line s) ≠ [] := by
    intro h; rw [h] at hw1; exact absurd hw1 (by decide)
  obtain ⟨s', f, al', fl', he, _, _, _, hex, _⟩ := emsh_do_commit_run cfg exec
    { s with ctlseq := { s.ctlseq with st := .INIT } } al fl hL
    (emsh_inv_ctlseq cfg s _ al fl H) hw
  obtain ⟨hr, hop, hx, ho⟩ := hex hw2
  refine ⟨s', emsh_exec_entry s, ?_, rfl, rfl, rfl, rfl, rfl, rfl, hx, hr, hop, ?_⟩
  · rw [emsh_task_lf]; exact he
  · rw [hr]; exact ho

/-- C20, amended, on the line `hi` with the reporting executor. -/
theorem emsh_exec_entry_state_witness :
    ∃ s' v, emsh_task {} emsh_exec_probe (emsh_sample [0x68, 0x69]) ASCII_C_LF = some s' ∧
      v.emsh_optind = 1 ∧ v.optpos = 1 ∧
      v.emsh_optarg = (emsh_sample [0x68, 0x69]).emsh_optarg ∧
      v.emsh_opterr = (emsh_sample [0x68, 0x69]).emsh_opterr ∧
      v.emsh_optopt = (emsh_sample [0x68, 0x69]).emsh_optopt ∧
      v.running = (emsh_sample [0x68, 0x69]).running ∧
      s'.execs = (emsh_sample [0x68, 0x69]).execs ++
        [((emsh_words (emsh_buf_line (emsh_sample [0x68, 0x69]))).length,
          emsh_words (emsh_buf_line (emsh_sample [0x68, 0x69])))] ∧
      s'.running = (emsh_exec_probe (emsh_words (emsh_buf_line (emsh_sample [0x68, 0x69]))).length
        (emsh_words (emsh_buf_line (emsh_sample [0x68, 0x69]))) v).1.running ∧
      emsh_opts_of s' (emsh_exec_probe
        (emsh_words (emsh_buf_line (emsh_sample [0x68, 0x69]))).length
        (emsh_words (emsh_buf_line (emsh_sample [0x68, 0x69]))) v).1 ∧
      s'.out = (emsh_sample [0x68, 0x69]).out ++ c_lit ({} : emsh_tunables).EMSH_S_NEWLINE ++
        (emsh_exec_probe (emsh_words (emsh_buf_line (emsh_sample [0x68, 0x69]))).length
          (emsh_words (emsh_buf_line (emsh_sample [0x68, 0x69]))) v).2 ++
        (if s'.running = true then c_lit ({} : emsh_tunables).EMSH_S_PROMPT else []) :=
  emsh_exec_entry_state {} emsh_exec_probe (emsh_sample [0x68, 0x69]) [0] [1]
    (by decide) (emsh_sample_inv {} [0x68, 0x69] rfl (by decide) (by decide))
    (by decide) (by decide)

end Emsh

namespace Emsh

/-! ## emsh.c: the option scanner -/

theorem c_str_at_lt (str : List Nat) (i : Nat) (h : i < str.length) :
    c_str_at str i = some (str.getD i 0) := by
  unfold c_str_at
  rw [List.getElem?_append_left h, List.getD_eq_getElem?_getD, List.getElem?_eq_getElem h]
  rfl

theorem c_str_at_length (str : List Nat) : c_str_at str str.length = some 0 := by
  unfold c_str_at
  rw [List.getElem?_append_right (Nat.le_refl _)]
  simp

theorem c_str_at_head (str : List Nat) : c_str_at str 0 = some (str.headD 0) := by
  cases str <;> simp [c_str_at]

theorem c_str_at_nz (str : List Nat) (i : Nat) (hnz : ∀ x ∈ str, x ≠ 0) (h : i < str.length) :
    str.getD i 0 ≠ 0 := by
  rw [List.getD_eq_getElem _ _ h]
  exact hnz _ (List.getElem_mem _)

/-- Model of `strchr` followed by the read of `p[1]`, on a string without NUL and a
byte `c` that is not NUL: `pre` is the part of the string before the scan. -/
theorem c_strchr_from_spec (c : Nat) (hc : c ≠ 0) :
    ∀ (l pre : List Nat), (∀ x ∈ l, x ≠ 0) →
      (c ∉ l → c_strchr_from l c pre.length = none) ∧
      (c ∈ l → ∃ j p1, c_strchr_from l c pre.length = some j ∧
        c_str_at (pre ++ l) (j + 1) = some p1 ∧
        (p1 = 0x3A ↔ ((l.dropWhile (fun x => x != c)).drop 1).head? = some 0x3A))
  | [], pre, _ => by
    refine ⟨fun _ => ?_, fun h => absurd h (List.not_mem_nil _)⟩
    simp [c_strchr_from, hc]
  | x :: xs, pre, hnz => by
    have hx0 : x ≠ 0 := hnz x (List.mem_cons_self _ _)
    by_cases hxc : x = c
    · subst hxc
      refine ⟨fun h => absurd (List.mem_cons_self _ _) h, fun _ => ?_⟩
      refine ⟨pre.length, xs.headD 0, by simp [c_strchr_from], ?_, ?_⟩
      · unfold c_str_at
        have : pre ++ x :: xs ++ [0] = (pre ++ [x]) ++ (xs ++ [0]) := by simp
        rw [this, List.getElem?_append_right (by simp)]
        cases xs <;> simp
      · have hd : (x :: xs).dropWhile (fun y => y != x) = x :: xs := by
          simp [List.dropWhile_cons]
        rw [hd]
        cases xs with
        | nil => simp
        | cons y ys => simp
    · have ih := c_strchr_from_spec c hc xs (pre ++ [x])
        (fun y hy => hnz y (List.mem_cons_of_mem _ hy))
      have hlen : (pre ++ [x]).length = pre.length + 1 := by simp
      rw [hlen] at ih
      have hstep : c_strchr_from (x :: xs) c pre.length = c_strchr_from xs c (pre.length + 1) := by
        simp [c_strchr_from, hxc, hx0]
      have happ : pre ++ [x] ++ xs = pre ++ x :: xs := by simp
      rw [happ] at ih
      have hd : (x :: xs).dropWhile (fun y => y != c) = xs.dropWhile (fun y => y != c) := by
        simp [List.dropWhile_cons, hxc]
      refine ⟨fun h => ?_, fun h => ?_⟩
      · rw [hstep]
        exact ih.1 (fun hm => h (List.mem_cons_of_mem _ hm))
      · have hm : c ∈ xs := by
          rcases List.mem_cons.mp h with h1 | h1
          · exact absurd h1.symm hxc
          · exact h1
        rw [hstep, hd]
        exact ih.2 hm

theorem c_strchr_not_mem (optstring : List Nat) (c : Nat) (hc : c ≠ 0)
    (hnz : ∀ x ∈ optstring, x ≠ 0) (h : c ∉ optstring) : c_strchr optstring c = none :=
  (c_strchr_from_spec c hc optstring [] hnz).1 h

theorem c_strchr_mem (optstring : List Nat) (c : Nat) (hc : c ≠ 0)
    (hnz : ∀ x ∈ optstring, x ≠ 0) (h : c ∈ optstring) :
    ∃ j p1, c_strchr optstring c = some j ∧ c_str_at optstring (j + 1) = some p1 ∧
      (p1 = 0x3A ↔ getopt_takes_arg optstring c) := by
  obtain ⟨j, p1, h1, h2, h3⟩ := (c_strchr_from_spec c hc optstring [] hnz).2 h
  refine ⟨j, p1, h1, h2, ?_⟩
  rw [h3]
  unfold getopt_takes_arg
  exact ⟨fun hh => ⟨h, hh⟩, fun hh => hh.2⟩

theorem getopt_element_some (optind argc : Int) (argv : List (Option (List Nat)))
    (arg : List Nat) (h : getopt_element optind argc argv = some arg) :
    0 ≤ optind ∧ optind < argc ∧ argv[optind.toNat]? = some (some arg) ∧
      arg.head? = some 0x2D ∧ arg ≠ [0x2D] ∧ arg ≠ [0x2D, 0x2D] := by
  unfold getopt_element at h
  split_ifs at h with h1
  cases ha : argv[optind.toNat]? with
  | none => rw [ha] at h; simp at h
  | some a =>
    cases a with
    | none => rw [ha] at h; simp at h
    | some arg2 =>
      rw [ha] at h
      simp only at h
      split_ifs at h with h2
      have : arg2 = arg := Option.some.inj h
      subst this
      exact ⟨h1.1, h1.2, rfl, h2.1, h2.2.1, h2.2.2⟩

theorem c_argv_eq (argv : List (Option (List Nat))) (i : Int) (h : 0 ≤ i) :
    c_argv argv i = argv[i.toNat]? := by
  unfold c_argv
  rw [if_pos h]

/-- The guards of `emsh_getopt` let the call through to the scan of `arg`. -/
theorem emsh_getopt_enter (cfg : emsh_tunables) (self : emsh_t) (argc : Int)
    (argv : List (Option (List Nat))) (optstring arg : List Nat)
    (he : getopt_element self.emsh_optind argc argv = some arg) (hnz : ∀ x ∈ arg, x ≠ 0) :
    emsh_getopt cfg self argc argv optstring =
      emsh_getopt_scan cfg self argc argv optstring arg := by
  obtain ⟨h0, hlt, ha, hh, h1, h2⟩ := getopt_element_some _ _ _ _ he
  have hge : ¬ self.emsh_optind ≥ argc := not_le.mpr hlt
  cases arg with
  | nil => simp at hh
  | cons b0 t =>
    simp only [List.head?_cons, Option.some.injEq] at hh
    subst hh
    cases t with
    | nil => exact absurd rfl h1
    | cons b1 t2 =>
      have hb1 : b1 ≠ 0 := hnz b1 (by simp)
      have hdd : (if b1 = 0x2D then (c_str_at (0x2D :: b1 :: t2) 2).map
          (fun b2 => decide (b2 = 0x00)) else some false) = some false := by
        split_ifs with hb
        · subst hb
          cases t2 with
          | nil => exact absurd rfl h2
          | cons b2 t3 =>
            have hb2 : b2 ≠ 0 := hnz b2 (by simp)
            simp [c_str_at, hb2]
        · rfl
      unfold emsh_getopt
      rw [if_neg hge, c_argv_eq argv _ h0, ha]
      simp only [Option.bind_eq_bind, Option.some_bind, c_str_at_head, List.headD_cons,
        ne_eq, not_true_eq_false, if_false]
      have hc1 : c_str_at (0x2D :: b1 :: t2) 1 = some b1 := by simp [c_str_at]
      rw [hc1]
      simp only [Option.some_bind, hb1, if_false]
      by_cases hb : b1 = 0x2D
      · rw [if_pos hb] at hdd
        rw [if_pos hb, hdd]
        rfl
      · rw [if_neg hb]
        rfl

theorem emsh_getopt_scan_eq (cfg : emsh_tunables) (self : emsh_t) (argc : Int)
    (argv : List (Option (List Nat))) (optstring arg : List Nat)
    (hnz : ∀ x ∈ arg, x ≠ 0) (hpos : self.cmd.optpos < arg.length) :
    emsh_getopt_scan cfg self argc argv optstring arg =
      emsh_getopt_opt cfg
        (if self.cmd.optpos + 1 = arg.length then
          { self with emsh_optind := self.emsh_optind + 1, cmd := { self.cmd with optpos := 1 } }
        else { self with cmd := { self.cmd with optpos := self.cmd.optpos + 1 } })
        argc argv optstring (arg.getD self.cmd.optpos 0)
        (decide (self.cmd.optpos + 1 = arg.length)) := by
  unfold emsh_getopt_scan
  rw [c_str_at_lt arg _ hpos]
  simp only [Option.bind_eq_bind, Option.some_bind]
  by_cases hl : self.cmd.optpos + 1 = arg.length
  · rw [hl, c_str_at_length]
    simp only [Option.some_bind, decide_True, if_true]
  · have hlt : self.cmd.optpos + 1 < arg.length := by omega
    rw [c_str_at_lt arg _ hlt]
    have hne := c_str_at_nz arg _ hnz hlt
    simp only [Option.some_bind, hne, decide_False, Bool.false_eq_true, if_false, hl]

theorem c_lit_nz (l : List Nat) (h : ∀ x ∈ l, x ≠ 0) : c_lit l = l := by
  have := c_lit_append l [] h
  rw [List.append_nil] at this
  rw [this]
  show l ++ [] = l
  exact List.append_nil l

theorem emsh_write_getopt_error_eq (cfg : emsh_tunables) (s : emsh_t) (name msg : List Nat) :
    ∃ s', emsh_write_getopt_error cfg s (some name) msg msg.length = some s' ∧
      emsh_only_out s s' ∧
      s'.out = s.out ++ (if s.emsh_opterr ≠ 0 then
        c_lit name ++ [0x3A, 0x20] ++ msg ++ [0x20, 0x2D, 0x2D, 0x20] ++ [s.emsh_optopt.toNat] ++
          c_lit cfg.EMSH_S_NEWLINE else []) := by
  by_cases he : s.emsh_opterr = 0
  · have hb : (s.emsh_opterr != 0) = false := by simp [he]
    have e1 : emsh_write_getopt_error cfg s (some name) msg msg.length = some s := by
      unfold emsh_write_getopt_error
      rw [hb]
      rfl
    refine ⟨s, e1, emsh_only_out_refl s, ?_⟩
    simp [he]
  · have hb : (s.emsh_opterr != 0) = true := by simp [he]
    have e1 : emsh_write_getopt_error cfg s (some name) msg msg.length =
        some (emsh_write_newline cfg (emsh_write_char (emsh_write_str (emsh_write_strn
          (emsh_write_str (emsh_write_str s name) [0x3A, 0x20]) msg msg.length)
          [0x20, 0x2D, 0x2D, 0x20]) s.emsh_optopt.toNat)) := by
      unfold emsh_write_getopt_error
      rw [hb]
      rfl
    refine ⟨_, e1, ?_, ?_⟩
    · exact emsh_only_out_trans _ _ _ (emsh_write_str_out s name)
        (emsh_only_out_trans _ _ _ (emsh_write_str_out _ _)
          (emsh_only_out_trans _ _ _ (emsh_write_strn_out _ _ _)
            (emsh_only_out_trans _ _ _ (emsh_write_str_out _ _)
              (emsh_only_out_trans _ _ _ (emsh_write_char_out _ _)
                (emsh_write_newline_out cfg _)))))
    · rw [if_pos he]
      show s.out ++ c_lit name ++ c_lit [0x3A, 0x20] ++ msg.take msg.length ++
        c_lit [0x20, 0x2D, 0x2D, 0x20] ++ [s.emsh_optopt.toNat] ++ c_lit cfg.EMSH_S_NEWLINE = _
      have h1 : c_lit [0x3A, 0x20] = [0x3A, 0x20] := by decide
      have h2 : c_lit [0x20, 0x2D, 0x2D, 0x20] = [0x20, 0x2D, 0x2D, 0x20] := by decide
      rw [h1, h2, List.take_length]
      simp only [List.append_assoc]

/-- The variables of the option scanner in `s'` are those of `s` but for `optopt`,
which is `c`, and `s'` has written `d` more. -/
theorem emsh_getopt_opt_unknown (cfg : emsh_tunables) (s : emsh_t) (argc : Int)
    (argv : List (Option (List Nat))) (optstring name : List Nat) (c : Nat) (last : Bool)
    (hc : c ≠ 0) (hnz : ∀ x ∈ optstring, x ≠ 0) (hname : c_argv argv 0 = some (some name))
    (hu : c ∉ optstring) :
    ∃ s', emsh_getopt_opt cfg s argc argv optstring c last = some (s', 0x3F) ∧
      s'.emsh_optopt = c ∧ s'.emsh_optarg = s.emsh_optarg ∧ s'.emsh_optind = s.emsh_optind ∧
      s'.cmd = s.cmd ∧ s'.emsh_opterr = s.emsh_opterr ∧
      s'.out = s.out ++ (if optstring.head? ≠ some 0x3A ∧ s.emsh_opterr ≠ 0 then
        c_lit name ++ [0x3A, 0x20] ++ emsh_s_illegal_option ++ [0x20, 0x2D, 0x2D, 0x20] ++ [c] ++
          c_lit cfg.EMSH_S_NEWLINE else []) := by
  unfold emsh_getopt_opt
  rw [c_strchr_not_mem optstring c hc hnz hu]
  simp only [Option.bind_eq_bind, c_str_at_head, Option.some_bind]
  by_cases ho : optstring.head? = some 0x3A
  · have ho' : optstring.headD 0 = 0x3A := by
      cases optstring with
      | nil => simp at ho
      | cons x xs => simpa using ho
    simp only [ho', ne_eq, not_true_eq_false, if_false, ho, false_and]
    exact ⟨_, rfl, rfl, rfl, rfl, rfl, rfl, (List.append_nil _).symm⟩
  · have ho' : optstring.headD 0 ≠ 0x3A := by
      cases optstring with
      | nil => simp
      | cons x xs => simpa using ho
    obtain ⟨s', he, hoo, hout⟩ := emsh_write_getopt_error_eq cfg
      { s with emsh_optopt := (c : Int) } name emsh_s_illegal_option
    obtain ⟨a1, a2, a3, a4, a5, a6⟩ := emsh_only_out_fields _ _ hoo
    obtain ⟨o, rfl⟩ := hoo
    simp only [ho', ne_eq, not_false_eq_true, if_true, hname, Option.some_bind, he,
      Option.pure_def]
    refine ⟨_, rfl, rfl, rfl, rfl, rfl, rfl, ?_⟩
    rw [hout]
    simp only [ho, not_false_eq_true, true_and, Int.toNat_ofNat, ne_eq]

theorem emsh_getopt_opt_missing (cfg : emsh_tunables) (s : emsh_t) (argc : Int)
    (argv : List (Option (List Nat))) (optstring name : List Nat) (c : Nat) (last : Bool)
    (hc : c ≠ 0) (hnz : ∀ x ∈ optstring, x ≠ 0) (hname : c_argv argv 0 = some (some name))
    (ht : getopt_takes_arg optstring c) (hm : ¬ (last = true ∧ s.emsh_optind < argc)) :
    ∃ s', emsh_getopt_opt cfg s argc argv optstring c last =
        some (s', if optstring.head? = some 0x3A then 0x3A else 0x3F) ∧
      s'.emsh_optopt = c ∧ s'.emsh_optarg = s.emsh_optarg ∧ s'.emsh_optind = s.emsh_optind ∧
      s'.cmd = s.cmd ∧ s'.emsh_opterr = s.emsh_opterr ∧
      s'.out = s.out ++ (if optstring.head? ≠ some 0x3A ∧ s.emsh_opterr ≠ 0 then
        c_lit name ++ [0x3A, 0x20] ++ emsh_s_option_requires_an_argument ++
          [0x20, 0x2D, 0x2D, 0x20] ++ [c] ++ c_lit cfg.EMSH_S_NEWLINE else []) := by
  obtain ⟨j, p1, h1, h2, h3⟩ := c_strchr_mem optstring c hc hnz ht.1
  have hp1 : p1 = 0x3A := h3.mpr ht
  unfold emsh_getopt_opt
  rw [h1]
  simp only [Option.bind_eq_bind, h2, Option.some_bind, hp1, if_true, hm, if_false,
    c_str_at_head]
  by_cases ho : optstring.head? = some 0x3A
  · have ho' : optstring.headD 0 = 0x3A := by
      cases optstring with
      | nil => simp at ho
      | cons x xs => simpa using ho
    simp only [ho', if_true, ho, ne_eq, not_true_eq_false, false_and, if_false]
    exact ⟨_, rfl, rfl, rfl, rfl, rfl, rfl, (List.append_nil _).symm⟩
  · have ho' : optstring.headD 0 ≠ 0x3A := by
      cases optstring with
      | nil => simp
      | cons x xs => simpa using ho
    obtain ⟨s', he, hoo, hout⟩ := emsh_write_getopt_error_eq cfg
      { s with emsh_optopt := (c : Int) } name emsh_s_option_requires_an_argument
    obtain ⟨o, rfl⟩ := hoo
    simp only [ho', if_false, hname, Option.some_bind, he, Option.pure_def, ho]
    refine ⟨_, rfl, rfl, rfl, rfl, rfl, rfl, ?_⟩
    rw [hout]
    simp only [ho, not_false_eq_true, true_and, Int.toNat_ofNat, ne_eq]

theorem emsh_getopt_opt_consumed (cfg : emsh_tunables) (s : emsh_t) (argc : Int)
    (argv : List (Option (List Nat))) (optstring : List Nat) (c : Nat) (last : Bool)
    (a : Option (List Nat))
    (hc : c ≠ 0) (hnz : ∀ x ∈ optstring, x ≠ 0)
    (ht : getopt_takes_arg optstring c) (hl : last = true) (hlt : s.emsh_optind < argc)
    (ha : c_argv argv s.emsh_optind = some a) :
    emsh_getopt_opt cfg s argc argv optstring c last =
      some ({ s with emsh_optarg := a, emsh_optind := s.emsh_optind + 1 }, (c : Int)) := by
  obtain ⟨j, p1, h1, h2, h3⟩ := c_strchr_mem optstring c hc hnz ht.1
  have hp1 : p1 = 0x3A := h3.mpr ht
  unfold emsh_getopt_opt
  rw [h1]
  simp only [Option.bind_eq_bind, h2, Option.some_bind, hp1, if_true, hl, hlt, and_self, ha,
    Option.pure_def]

theorem emsh_getopt_opt_flag (cfg : emsh_tunables) (s : emsh_t) (argc : Int)
    (argv : List (Option (List Nat))) (optstring : List Nat) (c : Nat) (last : Bool)
    (hc : c ≠ 0) (hnz : ∀ x ∈ optstring, x ≠ 0)
    (hm : c ∈ optstring) (ht : ¬ getopt_takes_arg optstring c) :
    emsh_getopt_opt cfg s argc argv optstring c last = some (s, (c : Int)) := by
  obtain ⟨j, p1, h1, h2, h3⟩ := c_strchr_mem optstring c hc hnz hm
  have hp1 : ¬ p1 = 0x3A := fun h => ht (h3.mp h)
  unfold emsh_getopt_opt
  rw [h1]
  simp only [Option.bind_eq_bind, h2, Option.some_bind, hp1, if_false, Option.pure_def]

end Emsh

namespace Emsh

/-! ## emsh.c: what a call of `emsh_getopt` does -/

theorem getopt_valid_of_pos_one (self : emsh_t) (argc : Int) (argv : List (Option (List Nat)))
    (h0 : 0 ≤ self.emsh_optind) (hlen : argc ≤ argv.length)
    (hnz : ∀ arg, some arg ∈ argv → ∀ x ∈ arg, x ≠ 0) (hp : self.cmd.optpos = 1) :
    getopt_valid self argc argv := by
  refine ⟨h0, hlen, hnz, by rw [hp], ?_⟩
  intro arg he
  obtain ⟨_, _, _, hh, h1, _⟩ := getopt_element_some _ _ _ _ he
  rw [hp]
  cases arg with
  | nil => simp at hh
  | cons b t =>
    cases t with
    | nil =>
      simp only [List.head?_cons, Option.some.injEq] at hh
      subst hh
      exact absurd rfl h1
    | cons b1 t2 => simp

theorem getopt_argv_get (argc : Int) (argv : List (Option (List Nat))) (i : Int)
    (h0 : 0 ≤ i) (hlt : i < argc) (hlen : argc ≤ argv.length) :
    ∃ a, argv[i.toNat]? = some a ∧ c_argv argv i = some a := by
  have hi : i.toNat < argv.length := by omega
  exact ⟨argv[i.toNat], List.getElem?_eq_getElem hi, by
    rw [c_argv_eq argv i h0]; exact List.getElem?_eq_getElem hi⟩

/-- A call that finds no element to scan returns -1; it moves `optind` by one over
`--` and changes nothing else. -/
theorem emsh_getopt_none (cfg : emsh_tunables) (self : emsh_t) (argc : Int)
    (argv : List (Option (List Nat))) (optstring : List Nat)
    (hv : getopt_valid self argc argv)
    (he : getopt_element self.emsh_optind argc argv = none) :
    emsh_getopt cfg self argc argv optstring =
      some (if self.emsh_optind < argc ∧
          argv[self.emsh_optind.toNat]? = some (some [0x2D, 0x2D]) then
        { self with emsh_optind := self.emsh_optind + 1 } else self, -1) := by
  obtain ⟨h0, hlen, hnz, _, _⟩ := hv
  by_cases hlt : self.emsh_optind < argc
  swap
  · have hge : self.emsh_optind ≥ argc := not_lt.mp hlt
    unfold emsh_getopt
    rw [if_pos hge, if_neg (fun h => hlt h.1)]
    rfl
  obtain ⟨a, ha, hca⟩ := getopt_argv_get argc argv _ h0 hlt hlen
  have hge : ¬ self.emsh_optind ≥ argc := not_le.mpr hlt
  unfold emsh_getopt
  rw [if_neg hge, hca, ha]
  cases a with
  | none =>
    rw [if_neg (by simp :
      ¬ (self.emsh_optind < argc ∧ (some none : Option (Option (List Nat))) =
        some (some [0x2D, 0x2D])))]
    rfl
  | some arg =>
    have hnza : ∀ x ∈ arg, x ≠ 0 := hnz arg (List.getElem?_mem ha)
    unfold getopt_element at he
    rw [if_pos ⟨h0, hlt⟩, ha] at he
    simp only [ite_eq_right_iff, imp_false, not_and, not_not] at he
    simp only [Option.bind_eq_bind, Option.some_bind, c_str_at_head]
    cases arg with
    | nil =>
      rw [if_neg (by simp :
        ¬ (self.emsh_optind < argc ∧ some (some ([] : List Nat)) = some (some [0x2D, 0x2D])))]
      simp
    | cons b0 t =>
      by_cases hb0 : b0 = 0x2D
      swap
      · rw [if_neg (by simp [hb0] :
          ¬ (self.emsh_optind < argc ∧ some (some (b0 :: t)) = some (some [0x2D, 0x2D])))]
        simp [hb0]
      subst hb0
      cases t with
      | nil =>
        rw [if_neg (by simp :
          ¬ (self.emsh_optind < argc ∧ some (some [0x2D]) = some (some [0x2D, 0x2D])))]
        simp [c_str_at]
      | cons b1 t2 =>
        have hb1 : b1 ≠ 0 := hnza b1 (by simp)
        have hdd : (0x2D :: b1 :: t2 : List Nat) = [0x2D, 0x2D] := by
          by_contra hne
          have := he ⟨rfl, by simp, hne⟩
          simp at this
        simp only [List.cons.injEq, true_and, and_true] at hdd
        obtain ⟨hb, ht⟩ := hdd
        subst hb
        subst ht
        rw [if_pos (⟨hlt, rfl⟩ : self.emsh_optind < argc ∧
          some (some ([0x2D, 0x2D] : List Nat)) = some (some [0x2D, 0x2D]))]
        simp [c_str_at]

/-- A call that finds the element `arg` to scan reads the option character at the
sub-position, moves the position on and goes on with `emsh_getopt_opt`. -/
theorem emsh_getopt_some (cfg : emsh_tunables) (self : emsh_t) (argc : Int)
    (argv : List (Option (List Nat))) (optstring arg : List Nat)
    (hv : getopt_valid self argc argv)
    (he : getopt_element self.emsh_optind argc argv = some arg) :
    emsh_getopt cfg self argc argv optstring =
      emsh_getopt_opt cfg
        (if self.cmd.optpos + 1 = arg.length then
          { self with emsh_optind := self.emsh_optind + 1, cmd := { self.cmd with optpos := 1 } }
        else { self with cmd := { self.cmd with optpos := self.cmd.optpos + 1 } })
        argc argv optstring (arg.getD self.cmd.optpos 0)
        (decide (self.cmd.optpos + 1 = arg.length)) ∧
      arg.getD self.cmd.optpos 0 ≠ 0 := by
  obtain ⟨_, _, ha, _, _, _⟩ := getopt_element_some _ _ _ _ he
  have hnz : ∀ x ∈ arg, x ≠ 0 := hv.2.2.1 arg (List.getElem?_mem ha)
  have hpos := hv.2.2.2.2 arg he
  refine ⟨?_, c_str_at_nz arg _ hnz hpos⟩
  rw [emsh_getopt_enter cfg self argc argv optstring arg he hnz,
    emsh_getopt_scan_eq cfg self argc argv optstring arg hnz hpos]

/-- C15. `emsh_getopt` returns -1 and leaves the engine (so `optind`, `optarg`,
`optopt`, the sub-position and the output) as it is when `optind >= argc`, when
`argv[optind]` is null, when it does not start with `-` and when it is `-`; when
it is `--` the call returns -1 and only `optind` changes, by one. -/
theorem emsh_getopt_end_of_options (cfg : emsh_tunables) (self : emsh_t) (argc : Int)
    (argv : List (Option (List Nat))) (optstring : List Nat) :
    (argc ≤ self.emsh_optind → emsh_getopt cfg self argc argv optstring = some (self, -1)) ∧
    (self.emsh_optind < argc → c_argv argv self.emsh_optind = some none →
      emsh_getopt cfg self argc argv optstring = some (self, -1)) ∧
    (∀ arg, self.emsh_optind < argc → c_argv argv self.emsh_optind = some (some arg) →
      (arg.head? ≠ some 0x2D ∨ arg = [0x2D]) →
      emsh_getopt cfg self argc argv optstring = some (self, -1)) ∧
    (∀ arg, self.emsh_optind < argc → c_argv argv self.emsh_optind = some (some arg) →
      arg = [0x2D, 0x2D] →
      emsh_getopt cfg self argc argv optstring =
        some ({ self with emsh_optind := self.emsh_optind + 1 }, -1)) := by
  refine ⟨?_, ?_, ?_, ?_⟩
  · intro h
    unfold emsh_getopt
    rw [if_pos h]
    rfl
  · intro h ha
    unfold emsh_getopt
    rw [if_neg (not_le.mpr h), ha]
    rfl
  · intro arg h ha hc
    unfold emsh_getopt
    rw [if_neg (not_le.mpr h), ha]
    simp only [Option.bind_eq_bind, Option.some_bind, c_str_at_head]
    rcases hc with hc | hc
    · have : arg.headD 0 ≠ 0x2D := by
        cases arg with
        | nil => simp
        | cons x xs => simpa using hc
      rw [if_pos this]
      rfl
    · subst hc
      simp [c_str_at]
  · intro arg h ha hc
    subst hc
    unfold emsh_getopt
    rw [if_neg (not_le.mpr h), ha]
    simp [c_str_at]

/-- C15 on the command lines `p`, `p` with a null element, `p x`, `p -` and `p --`. -/
theorem emsh_getopt_end_of_options_witness :
    emsh_getopt {} (emsh_sample []) 1 [some [0x70]] [0x61] = some (emsh_sample [], -1) ∧
    emsh_getopt {} (emsh_sample []) 2 [some [0x70], none] [0x61] = some (emsh_sample [], -1) ∧
    emsh_getopt {} (emsh_sample []) 2 [some [0x70], some [0x78]] [0x61] =
      some (emsh_sample [], -1) ∧
    emsh_getopt {} (emsh_sample []) 2 [some [0x70], some [0x2D]] [0x61] =
      some (emsh_sample [], -1) ∧
    emsh_getopt {} (emsh_sample []) 2 [some [0x70], some [0x2D, 0x2D]] [0x61] =
      some ({ emsh_sample [] with emsh_optind := (emsh_sample []).emsh_optind + 1 }, -1) :=
  ⟨(emsh_getopt_end_of_options {} (emsh_sample []) 1 [some [0x70]] [0x61]).1 (by decide),
   (emsh_getopt_end_of_options {} (emsh_sample []) 2 [some [0x70], none] [0x61]).2.1
     (by decide) rfl,
   (emsh_getopt_end_of_options {} (emsh_sample []) 2 [some [0x70], some [0x78]] [0x61]).2.2.1
     [0x78] (by decide) rfl (Or.inl (by decide)),
   (emsh_getopt_end_of_options {} (emsh_sample []) 2 [some [0x70], some [0x2D]] [0x61]).2.2.1
     [0x2D] (by decide) rfl (Or.inr rfl),
   (emsh_getopt_end_of_options {} (emsh_sample []) 2 [some [0x70], some [0x2D, 0x2D]]
     [0x61]).2.2.2 [0x2D, 0x2D] (by decide) rfl rfl⟩

/-- The four outcomes of a call of `emsh_getopt` that scans the element `arg`:
unknown option, missing option argument, option with its argument, plain option. -/
theorem emsh_getopt_scan_cases (cfg : emsh_tunables) (self : emsh_t) (argc : Int)
    (argv : List (Option (List Nat))) (optstring arg name : List Nat)
    (hv : getopt_valid self argc argv)
    (he : getopt_element self.emsh_optind argc argv = some arg)
    (hnz : ∀ x ∈ optstring, x ≠ 0) (hname : c_argv argv 0 = some (some name)) :
    ∃ s' r, emsh_getopt cfg self argc argv optstring = some (s', r) ∧
      s'.emsh_opterr = self.emsh_opterr ∧
      s'.cmd.optpos = (if self.cmd.optpos + 1 = arg.length then 1 else self.cmd.optpos + 1) ∧
      ((arg.getD self.cmd.optpos 0 ∉ optstring ∧ r = 0x3F ∧
          s'.emsh_optopt = (arg.getD self.cmd.optpos 0 : Nat) ∧
          s'.emsh_optarg = self.emsh_optarg ∧
          s'.emsh_optind = (if self.cmd.optpos + 1 = arg.length then self.emsh_optind + 1
            else self.emsh_optind) ∧
          s'.out = self.out ++ (if optstring.head? ≠ some 0x3A ∧ self.emsh_opterr ≠ 0 then
            name ++ [0x3A, 0x20] ++ emsh_s_illegal_option ++ [0x20, 0x2D, 0x2D, 0x20] ++
              [arg.getD self.cmd.optpos 0] ++ c_lit cfg.EMSH_S_NEWLINE else [])) ∨
       (getopt_takes_arg optstring (arg.getD self.cmd.optpos 0) ∧
          ¬ (self.cmd.optpos + 1 = arg.length ∧ self.emsh_optind + 1 < argc) ∧
          r = (if optstring.head? = some 0x3A then 0x3A else 0x3F) ∧
          s'.emsh_optopt = (arg.getD self.cmd.optpos 0 : Nat) ∧
          s'.emsh_optarg = self.emsh_optarg ∧
          s'.emsh_optind = (if self.cmd.optpos + 1 = arg.length then self.emsh_optind + 1
            else self.emsh_optind) ∧
          s'.out = self.out ++ (if optstring.head? ≠ some 0x3A ∧ self.emsh_opterr ≠ 0 then
            name ++ [0x3A, 0x20] ++ emsh_s_option_requires_an_argument ++
              [0x20, 0x2D, 0x2D, 0x20] ++ [arg.getD self.cmd.optpos 0] ++
              c_lit cfg.EMSH_S_NEWLINE else [])) ∨
       (getopt_takes_arg optstring (arg.getD self.cmd.optpos 0) ∧
          self.cmd.optpos + 1 = arg.length ∧ self.emsh_optind + 1 < argc ∧
          r = (arg.getD self.cmd.optpos 0 : Nat) ∧
          s'.emsh_optarg = (argv[(self.emsh_optind + 1).toNat]?).join ∧
          s'.emsh_optind = self.emsh_optind + 2 ∧ s'.emsh_optopt = self.emsh_optopt ∧
          s'.out = self.out) ∨
       (arg.getD self.cmd.optpos 0 ∈ optstring ∧
          ¬ getopt_takes_arg optstring (arg.getD self.cmd.optpos 0) ∧
          r = (arg.getD self.cmd.optpos 0 : Nat) ∧
          s'.emsh_optarg = self.emsh_optarg ∧ s'.emsh_optopt = self.emsh_optopt ∧
          s'.emsh_optind = (if self.cmd.optpos + 1 = arg.length then self.emsh_optind + 1
            else self.emsh_optind) ∧
          s'.out = self.out)) := by
  obtain ⟨hopt, hc⟩ := emsh_getopt_some cfg self argc argv optstring arg hv he
  obtain ⟨h0, hlen, hnza, _, _⟩ := id hv
  have hnn : c_lit name = name := by
    have hm : some name ∈ argv := by
      rw [c_argv_eq argv 0 (le_refl _)] at hname
      exact List.getElem?_mem hname
    exact c_lit_nz name (hnza name hm)
  rw [hopt]
  by_cases hl : self.cmd.optpos + 1 = arg.length
  · simp only [if_pos hl, decide_eq_true hl]
    by_cases hu : arg.getD self.cmd.optpos 0 ∈ optstring
    · by_cases ht : getopt_takes_arg optstring (arg.getD self.cmd.optpos 0)
      · by_cases hn : self.emsh_optind + 1 < argc
        · obtain ⟨a, ha1, ha2⟩ := getopt_argv_get argc argv (self.emsh_optind + 1)
            (by omega) hn hlen
          rw [emsh_getopt_opt_consumed cfg _ argc argv optstring _ true a hc hnz ht rfl hn ha2]
          refine ⟨_, _, rfl, rfl, rfl, Or.inr (Or.inr (Or.inl
            ⟨ht, hl, hn, rfl, ?_, ?_, rfl, rfl⟩))⟩
          · show a = _
            rw [ha1]; rfl
          · show self.emsh_optind + 1 + 1 = self.emsh_optind + 2
            omega
        · obtain ⟨s', e1, e2, e3, e4, e5, e6, e7⟩ := emsh_getopt_opt_missing cfg
            { self with emsh_optind := self.emsh_optind + 1, cmd := { self.cmd with optpos := 1 } }
            argc argv optstring name (arg.getD self.cmd.optpos 0) true hc hnz hname ht
            (fun h => hn h.2)
          rw [e1]
          refine ⟨_, _, rfl, e6, by rw [e5], Or.inr (Or.inl
            ⟨ht, fun h => hn h.2, rfl, e2, e3, e4, ?_⟩)⟩
          rw [e7, hnn]
      · rw [emsh_getopt_opt_flag cfg _ argc argv optstring _ true hc hnz hu ht]
        exact ⟨_, _, rfl, rfl, rfl, Or.inr (Or.inr (Or.inr ⟨hu, ht, rfl, rfl, rfl, rfl, rfl⟩))⟩
    · obtain ⟨s', e1, e2, e3, e4, e5, e6, e7⟩ := emsh_getopt_opt_unknown cfg
        { self with emsh_optind := self.emsh_optind + 1, cmd := { self.cmd with optpos := 1 } }
        argc argv optstring name (arg.getD self.cmd.optpos 0) true hc hnz hname hu
      rw [e1]
      refine ⟨_, _, rfl, e6, by rw [e5], Or.inl ⟨hu, rfl, e2, e3, e4, ?_⟩⟩
      rw [e7, hnn]
  · simp only [if_neg hl, decide_eq_false hl]
    by_cases hu : arg.getD self.cmd.optpos 0 ∈ optstring
    · by_cases ht : getopt_takes_arg optstring (arg.getD self.cmd.optpos 0)
      · obtain ⟨s', e1, e2, e3, e4, e5, e6, e7⟩ := emsh_getopt_opt_missing cfg
          { self with cmd := { self.cmd with optpos := self.cmd.optpos + 1 } }
          argc argv optstring name (arg.getD self.cmd.optpos 0) false hc hnz hname ht
          (fun h => Bool.false_ne_true h.1)
        rw [e1]
        refine ⟨_, _, rfl, e6, by rw [e5], Or.inr (Or.inl
          ⟨ht, fun h => hl h.1, rfl, e2, e3, e4, ?_⟩)⟩
        rw [e7, hnn]
      · rw [emsh_getopt_opt_flag cfg _ argc argv optstring _ false hc hnz hu ht]
        exact ⟨_, _, rfl, rfl, rfl, Or.inr (Or.inr (Or.inr ⟨hu, ht, rfl, rfl, rfl, rfl, rfl⟩))⟩
    · obtain ⟨s', e1, e2, e3, e4, e5, e6, e7⟩ := emsh_getopt_opt_unknown cfg
        { self with cmd := { self.cmd with optpos := self.cmd.optpos + 1 } }
        argc argv optstring name (arg.getD self.cmd.optpos 0) false hc hnz hname hu
      rw [e1]
      refine ⟨_, _, rfl, e6, by rw [e5], Or.inl ⟨hu, rfl, e2, e3, e4, ?_⟩⟩
      rw [e7, hnn]

theorem emsh_argv_E5_nz : ∀ arg, some arg ∈ emsh_argv_E5 → ∀ x ∈ arg, x ≠ 0 := by
  intro arg h
  simp only [emsh_argv_E5, List.mem_cons, Option.some.injEq, List.mem_singleton,
    List.not_mem_nil, or_false] at h
  rcases h with h | h | h | h | h <;> subst h <;> decide

/-- C16. In a call that reads the option character `c` from the element `arg`:
if `c` takes an argument (its first occurrence in `optstring` is followed by
`:`), is the last character of `arg` and a following element exists, the call
returns `c`, `optarg` is that following element and `optind` has moved past both
elements, with nothing written; if `c` occurs in `optstring` without a following
`:`, the call returns `c` and leaves `optarg` as it was. From `optind = 1` and
sub-position 1 the calls on `greet -m -c Hello World` with `maenc:` return `m`,
then `c` with `optarg = Hello`, then -1 with `optind = 4`, the index of `World`. -/
theorem emsh_getopt_option (cfg : emsh_tunables) (self : emsh_t) (argc : Int)
    (argv : List (Option (List Nat))) (optstring arg : List Nat)
    (hv : getopt_valid self argc argv)
    (he : getopt_element self.emsh_optind argc argv = some arg)
    (hnz : ∀ x ∈ optstring, x ≠ 0) :
    (getopt_takes_arg optstring (arg.getD self.cmd.optpos 0) →
      self.cmd.optpos + 1 = arg.length → self.emsh_optind + 1 < argc →
      ∃ s' : emsh_t, emsh_getopt cfg self argc argv optstring =
          some (s', ((arg.getD self.cmd.optpos 0 : Nat) : Int)) ∧
        s'.emsh_optarg = (argv[(self.emsh_optind + 1).toNat]?).join ∧
        s'.emsh_optind = self.emsh_optind + 2 ∧ s'.cmd.optpos = 1 ∧
        s'.emsh_optopt = self.emsh_optopt ∧ s'.out = self.out) ∧
    (arg.getD self.cmd.optpos 0 ∈ optstring →
      ¬ getopt_takes_arg optstring (arg.getD self.cmd.optpos 0) →
      ∃ s' : emsh_t, emsh_getopt cfg self argc argv optstring =
          some (s', ((arg.getD self.cmd.optpos 0 : Nat) : Int)) ∧
        s'.emsh_optarg = self.emsh_optarg ∧ s'.emsh_optopt = self.emsh_optopt ∧
        s'.out = self.out ∧
        s'.emsh_optind = (if self.cmd.optpos + 1 = arg.length then self.emsh_optind + 1
          else self.emsh_optind) ∧
        s'.cmd.optpos = (if self.cmd.optpos + 1 = arg.length then 1
          else self.cmd.optpos + 1)) ∧
    (emsh_getopt_calls {} 5 emsh_argv_E5 emsh_optstring_E5 3 (emsh_sample []) =
        some [(0x6D, none, 2, 0), (0x63, some [0x48, 0x65, 0x6C, 0x6C, 0x6F], 4, 0),
          (-1, some [0x48, 0x65, 0x6C, 0x6C, 0x6F], 4, 0)] ∧
      emsh_argv_E5[4]? = some (some [0x57, 0x6F, 0x72, 0x6C, 0x64])) := by
  obtain ⟨hopt, hc⟩ := emsh_getopt_some cfg self argc argv optstring arg hv he
  obtain ⟨h0, hlen, _, _, _⟩ := id hv
  rw [hopt]
  refine ⟨?_, ?_, by decide, by decide⟩
  · intro ht hl hn
    obtain ⟨a, ha1, ha2⟩ := getopt_argv_get argc argv (self.emsh_optind + 1) (by omega) hn hlen
    simp only [if_pos hl, decide_eq_true hl]
    rw [emsh_getopt_opt_consumed cfg _ argc argv optstring _ true a hc hnz ht rfl hn ha2]
    refine ⟨_, rfl, ?_, ?_, rfl, rfl, rfl⟩
    · show a = _
      rw [ha1]; rfl
    · show self.emsh_optind + 1 + 1 = self.emsh_optind + 2
      omega
  · intro hm ht
    rw [emsh_getopt_opt_flag cfg _ argc argv optstring _ _ hc hnz hm ht]
    by_cases hl : self.cmd.optpos + 1 = arg.length
    · simp only [if_pos hl]
      exact ⟨_, rfl, rfl, rfl, rfl, rfl, rfl⟩
    · simp only [if_neg hl]
      exact ⟨_, rfl, rfl, rfl, rfl, rfl, rfl⟩

/-- C16 on scenario E5: the second call (`-c Hello`) and the first call (`-m`). -/
theorem emsh_getopt_option_witness :
    (∃ s' : emsh_t, emsh_getopt {} { emsh_sample [] with emsh_optind := 2 } 5 emsh_argv_E5
          emsh_optstring_E5 = some (s', (([0x2D, 0x63].getD 1 0 : Nat) : Int)) ∧
        s'.emsh_optarg = (emsh_argv_E5[((2 : Int) + 1).toNat]?).join ∧
        s'.emsh_optind = 2 + 2 ∧ s'.cmd.optpos = 1 ∧
        s'.emsh_optopt = (emsh_sample []).emsh_optopt ∧ s'.out = (emsh_sample []).out) ∧
    (∃ s' : emsh_t, emsh_getopt {} (emsh_sample []) 5 emsh_argv_E5 emsh_optstring_E5 =
          some (s', (([0x2D, 0x6D].getD 1 0 : Nat) : Int)) ∧
        s'.emsh_optarg = (emsh_sample []).emsh_optarg ∧
        s'.emsh_optopt = (emsh_sample []).emsh_optopt ∧ s'.out = (emsh_sample []).out ∧
        s'.emsh_optind = (if 1 + 1 = [0x2D, 0x6D].length then (1 : Int) + 1 else 1) ∧
        s'.cmd.optpos = (if 1 + 1 = [0x2D, 0x6D].length then 1 else 1 + 1)) :=
  ⟨(emsh_getopt_option {} { emsh_sample [] with emsh_optind := 2 } 5 emsh_argv_E5
      emsh_optstring_E5 [0x2D, 0x63]
      (getopt_valid_of_pos_one _ 5 emsh_argv_E5 (by decide) (by decide) emsh_argv_E5_nz rfl)
      (by decide) (by decide)).1 (by decide) (by decide) (by decide),
   (emsh_getopt_option {} (emsh_sample []) 5 emsh_argv_E5
      emsh_optstring_E5 [0x2D, 0x6D]
      (getopt_valid_of_pos_one _ 5 emsh_argv_E5 (by decide) (by decide) emsh_argv_E5_nz rfl)
      (by decide) (by decide)).2.1 (by decide) (by decide)⟩

theorem emsh_argv_px_nz : ∀ arg, some arg ∈ emsh_argv_px → ∀ x ∈ arg, x ≠ 0 := by
  intro arg h
  simp only [emsh_argv_px, List.mem_cons, Option.some.injEq, List.mem_singleton,
    List.not_mem_nil, or_false] at h
  rcases h with h | h <;> subst h <;> decide

theorem emsh_argv_pc_nz : ∀ arg, some arg ∈ emsh_argv_pc → ∀ x ∈ arg, x ≠ 0 := by
  intro arg h
  simp only [emsh_argv_pc, List.mem_cons, Option.some.injEq, List.mem_singleton,
    List.not_mem_nil, or_false] at h
  rcases h with h | h <;> subst h <;> decide

/-- C17. In a call that reads the option character `c` from the element `arg`:
if `c` does not occur in `optstring` the call sets `optopt = c` and returns `?`;
if `c` takes an argument but is not the last character of `arg` or no following
element exists, the call sets `optopt = c` and returns `:` when `optstring`
starts with `:` and `?` otherwise. `optarg` is left as it was in both cases. -/
theorem emsh_getopt_error_return (cfg : emsh_tunables) (self : emsh_t) (argc : Int)
    (argv : List (Option (List Nat))) (optstring arg name : List Nat)
    (hv : getopt_valid self argc argv)
    (he : getopt_element self.emsh_optind argc argv = some arg)
    (hnz : ∀ x ∈ optstring, x ≠ 0) (hname : c_argv argv 0 = some (some name)) :
    (arg.getD self.cmd.optpos 0 ∉ optstring →
      ∃ s' : emsh_t, emsh_getopt cfg self argc argv optstring = some (s', 0x3F) ∧
        s'.emsh_optopt = (arg.getD self.cmd.optpos 0 : Nat) ∧
        s'.emsh_optarg = self.emsh_optarg) ∧
    (getopt_takes_arg optstring (arg.getD self.cmd.optpos 0) →
      (self.cmd.optpos + 1 ≠ arg.length ∨ argc ≤ self.emsh_optind + 1) →
      ∃ s' : emsh_t, emsh_getopt cfg self argc argv optstring =
          some (s', if optstring.head? = some 0x3A then 0x3A else 0x3F) ∧
        s'.emsh_optopt = (arg.getD self.cmd.optpos 0 : Nat) ∧
        s'.emsh_optarg = self.emsh_optarg) := by
  obtain ⟨s', r, e, _, _, hcases⟩ :=
    emsh_getopt_scan_cases cfg self argc argv optstring arg name hv he hnz hname
  refine ⟨?_, ?_⟩
  · intro hu
    rcases hcases with h | h | h | h
    · obtain ⟨_, hr, ho, ha, _, _⟩ := h
      rw [hr] at e
      exact ⟨s', e, ho, ha⟩
    · exact absurd h.1.1 hu
    · exact absurd h.1.1 hu
    · exact absurd h.1 hu
  · intro ht hm
    rcases hcases with h | h | h | h
    · exact absurd ht.1 h.1
    · obtain ⟨_, _, hr, ho, ha, _, _⟩ := h
      rw [hr] at e
      exact ⟨s', e, ho, ha⟩
    · rcases hm with hm | hm
      · exact absurd h.2.1 hm
      · exact absurd h.2.2.1 (not_lt.mpr hm)
    · exact absurd ht h.2.1

/-- C17 on `p -x` (unknown option) and on `p -c` (no element after `-c`), with the
option string `c:`. -/
theorem emsh_getopt_error_return_witness :
    (∃ s' : emsh_t, emsh_getopt {} (emsh_sample []) 2 emsh_argv_px [0x63, 0x3A] =
        some (s', 0x3F) ∧
      s'.emsh_optopt = ([0x2D, 0x78].getD (emsh_sample []).cmd.optpos 0 : Nat) ∧
      s'.emsh_optarg = (emsh_sample []).emsh_optarg) ∧
    (∃ s' : emsh_t, emsh_getopt {} (emsh_sample []) 2 emsh_argv_pc [0x63, 0x3A] =
        some (s', if [0x63, 0x3A].head? = some 0x3A then 0x3A else 0x3F) ∧
      s'.emsh_optopt = ([0x2D, 0x63].getD (emsh_sample []).cmd.optpos 0 : Nat) ∧
      s'.emsh_optarg = (emsh_sample []).emsh_optarg) :=
  ⟨(emsh_getopt_error_return {} (emsh_sample []) 2 emsh_argv_px [0x63, 0x3A] [0x2D, 0x78] [0x70]
      (getopt_valid_of_pos_one _ 2 emsh_argv_px (by decide) (by decide) emsh_argv_px_nz rfl)
      (by decide) (by decide) rfl).1 (by decide),
   (emsh_getopt_error_return {} (emsh_sample []) 2 emsh_argv_pc [0x63, 0x3A] [0x2D, 0x63] [0x70]
      (getopt_valid_of_pos_one _ 2 emsh_argv_pc (by decide) (by decide) emsh_argv_pc_nz rfl)
      (by decide) (by decide) rfl).2 (by decide) (Or.inr (by decide))⟩

/-- C18. Every call of `emsh_getopt` on well-formed arguments returns, and what it
writes is `getopt_diag`: when the call reports an unknown option or a missing
option argument, `optstring` does not start with `:` and `opterr` is not 0, the
bytes of `argv[0]`, `: `, the message (`illegal option` or
`option requires an argument`), ` -- `, the offending option character and the
newline string, in that order; nothing in every other case. -/
theorem emsh_getopt_diagnostic (cfg : emsh_tunables) (self : emsh_t) (argc : Int)
    (argv : List (Option (List Nat))) (optstring name : List Nat)
    (hv : getopt_valid self argc argv)
    (hnz : ∀ x ∈ optstring, x ≠ 0) (hname : c_argv argv 0 = some (some name)) :
    ∃ s' r, emsh_getopt cfg self argc argv optstring = some (s', r) ∧
      s'.out = self.out ++ getopt_diag cfg self argc argv optstring name := by
  cases hE : getopt_element self.emsh_optind argc argv with
  | none =>
    rw [emsh_getopt_none cfg self argc argv optstring hv hE]
    refine ⟨_, _, rfl, ?_⟩
    have hd : getopt_diag cfg self argc argv optstring name = [] := by
      unfold getopt_diag getopt_error
      rw [hE]
    rw [hd, List.append_nil]
    split_ifs <;> rfl
  | some arg =>
    obtain ⟨s', r, e, _, _, hcases⟩ :=
      emsh_getopt_scan_cases cfg self argc argv optstring arg name hv hE hnz hname
    refine ⟨s', r, e, ?_⟩
    unfold getopt_diag getopt_error
    rw [hE]
    rcases hcases with h | h | h | h
    · obtain ⟨hu, _, _, _, _, hout⟩ := h
      simp only [if_pos hu]
      exact hout
    · obtain ⟨ht, hm, _, _, _, _, hout⟩ := h
      simp only [if_neg (not_not.mpr ht.1), if_pos (⟨ht, hm⟩ :
        getopt_takes_arg optstring (arg.getD self.cmd.optpos 0) ∧
          ¬ (self.cmd.optpos + 1 = arg.length ∧ self.emsh_optind + 1 < argc))]
      exact hout
    · obtain ⟨ht, hl, hn, _, _, _, _, hout⟩ := h
      simp only [if_neg (not_not.mpr ht.1), if_neg (fun hh :
        getopt_takes_arg optstring (arg.getD self.cmd.optpos 0) ∧
          ¬ (self.cmd.optpos + 1 = arg.length ∧ self.emsh_optind + 1 < argc) => hh.2 ⟨hl, hn⟩)]
      rw [hout, List.append_nil]
    · obtain ⟨hm, ht, _, _, _, _, hout⟩ := h
      simp only [if_neg (not_not.mpr hm), if_neg (fun hh :
        getopt_takes_arg optstring (arg.getD self.cmd.optpos 0) ∧
          ¬ (self.cmd.optpos + 1 = arg.length ∧ self.emsh_optind + 1 < argc) => ht hh.1)]
      rw [hout, List.append_nil]

/-- C18 on `p -x` with the option string `c:` and `opterr = 1`: the call writes
`p: illegal option -- x` and the newline. -/
theorem emsh_getopt_diagnostic_witness :
    getopt_diag {} (emsh_sample []) 2 emsh_argv_px [0x63, 0x3A] [0x70] =
      [0x70] ++ [0x3A, 0x20] ++ emsh_s_illegal_option ++ [0x20, 0x2D, 0x2D, 0x20] ++ [0x78] ++
        [0x0A] ∧
    ∃ s' r, emsh_getopt {} (emsh_sample []) 2 emsh_argv_px [0x63, 0x3A] = some (s', r) ∧
      s'.out = (emsh_sample []).out ++
        getopt_diag {} (emsh_sample []) 2 emsh_argv_px [0x63, 0x3A] [0x70] :=
  ⟨by decide, emsh_getopt_diagnostic {} (emsh_sample []) 2 emsh_argv_px [0x63, 0x3A] [0x70]
    (getopt_valid_of_pos_one _ 2 emsh_argv_px (by decide) (by decide) emsh_argv_px_nz rfl)
    (by decide) rfl⟩

end Emsh

namespace Emsh

/-! ## emsh.c: `emsh_getopt` against the POSIX reference -/

theorem getopt_element_length (optind argc : Int) (argv : List (Option (List Nat)))
    (arg : List Nat) (he : getopt_element optind argc argv = some arg) : 1 < arg.length := by
  obtain ⟨_, _, _, hh, h1, _⟩ := getopt_element_some _ _ _ _ he
  cases arg with
  | nil => simp at hh
  | cons b t =>
    cases t with
    | nil =>
      simp only [List.head?_cons, Option.some.injEq] at hh
      subst hh
      exact absurd rfl h1
    | cons b1 t2 => simp

theorem getopt_inv_valid (self : emsh_t) (argc : Int) (argv : List (Option (List Nat)))
    (h : getopt_inv self argc argv) : getopt_valid self argc argv := by
  obtain ⟨h0, hlen, hnz, hp⟩ := h
  rcases hp with hp | ⟨arg, he, h1, h2⟩
  · exact getopt_valid_of_pos_one self argc argv h0 hlen hnz hp
  · refine ⟨h0, hlen, hnz, h1, ?_⟩
    intro arg2 he2
    rw [he] at he2
    rw [← Option.some.inj he2]
    exact h2

/-- One call of `emsh_getopt` from a state satisfying the scanner invariant returns,
keeps the invariant, and gives what the reference gives unless the call is
special. -/
theorem emsh_getopt_step (cfg : emsh_tunables) (s : emsh_t) (p : posix_getopt_t) (argc : Int)
    (argv : List (Option (List Nat))) (optstring : List Nat)
    (hi : getopt_inv s argc argv) (hall : ∀ a ∈ argv, ∃ arg, a = some arg)
    (hnz : ∀ x ∈ optstring, x ≠ 0) (hs : getopt_sim s p)
    (hp : posix_getopt_special p argc argv optstring = false) :
    ∃ s' r, emsh_getopt cfg s argc argv optstring = some (s', r) ∧
      getopt_inv s' argc argv ∧ getopt_sim s' (posix_getopt p argc argv optstring).1 ∧
      r = (posix_getopt p argc argv optstring).2 := by
  have hv := getopt_inv_valid s argc argv hi
  obtain ⟨h0, hlen, hnza, hpos⟩ := id hi
  obtain ⟨pa, pi, po, pn⟩ := p
  obtain ⟨s1, s2, s3, s4⟩ := id hs
  simp only at s1 s2 s3 s4
  subst s1 s2 s3 s4
  unfold posix_getopt_special at hp
  simp only [] at hp
  cases hE : getopt_element s.emsh_optind argc argv with
  | none =>
    rw [emsh_getopt_none cfg s argc argv optstring hv hE]
    have hp1 : s.cmd.optpos = 1 := by
      rcases hpos with h | ⟨arg, he, _⟩
      · exact h
      · rw [hE] at he; exact absurd he (by simp)
    by_cases hd : s.emsh_optind < argc ∧
        argv[s.emsh_optind.toNat]? = some (some [0x2D, 0x2D])
    · have hpx : posix_getopt ⟨s.emsh_optarg, s.emsh_optind, s.emsh_optopt, s.cmd.optpos⟩
          argc argv optstring =
          (⟨s.emsh_optarg, s.emsh_optind + 1, s.emsh_optopt, s.cmd.optpos⟩, -1) := by
        simp only [posix_getopt, hE, if_pos (⟨h0, hd.1, hd.2⟩ : 0 ≤ s.emsh_optind ∧
          s.emsh_optind < argc ∧ argv[s.emsh_optind.toNat]? = some (some [0x2D, 0x2D]))]
      rw [if_pos hd, hpx]
      exact ⟨_, _, rfl, ⟨by show 0 ≤ s.emsh_optind + 1; omega, hlen, hnza, Or.inl hp1⟩,
        ⟨rfl, rfl, rfl, rfl⟩, rfl⟩
    · have hpx : posix_getopt ⟨s.emsh_optarg, s.emsh_optind, s.emsh_optopt, s.cmd.optpos⟩
          argc argv optstring =
          (⟨s.emsh_optarg, s.emsh_optind, s.emsh_optopt, s.cmd.optpos⟩, -1) := by
        simp only [posix_getopt, hE, if_neg (fun h : 0 ≤ s.emsh_optind ∧
          s.emsh_optind < argc ∧ argv[s.emsh_optind.toNat]? = some (some [0x2D, 0x2D]) =>
            hd ⟨h.2.1, h.2.2⟩)]
      rw [if_neg hd, hpx]
      exact ⟨_, _, rfl, hi, hs, rfl⟩
  | some arg =>
    rw [hE] at hp
    simp only [decide_eq_false_iff_not, not_or, not_and, ne_eq, not_not] at hp
    obtain ⟨hcolon, hatt, hmiss⟩ := hp
    obtain ⟨_, hlt, ha, _, _, _⟩ := getopt_element_some _ _ _ _ hE
    have hname : ∃ name, c_argv argv 0 = some (some name) := by
      have hl0 : 0 < argv.length := by omega
      obtain ⟨nm, hnm⟩ := hall argv[0] (List.getElem_mem _)
      refine ⟨nm, ?_⟩
      rw [c_argv_eq argv 0 (le_refl _)]
      show argv[0]? = some (some nm)
      rw [List.getElem?_eq_getElem hl0, hnm]
    obtain ⟨name, hname⟩ := hname
    obtain ⟨s', r, e, _, hpp, hcases⟩ :=
      emsh_getopt_scan_cases cfg s argc argv optstring arg name hv hE hnz hname
    have hposlt := hv.2.2.2.2 arg hE
    refine ⟨s', r, e, ?_, ?_⟩
    · -- the invariant
      by_cases hl : s.cmd.optpos + 1 = arg.length
      · rw [if_pos hl] at hpp
        refine ⟨?_, hlen, hnza, Or.inl hpp⟩
        rcases hcases with h | h | h | h
        · rw [h.2.2.2.2.1, if_pos hl]; omega
        · rw [h.2.2.2.2.2.1, if_pos hl]; omega
        · rw [h.2.2.2.2.2.1]; omega
        · rw [h.2.2.2.2.2.1, if_pos hl]; omega
      · rw [if_neg hl] at hpp
        have hi' : s'.emsh_optind = s.emsh_optind := by
          rcases hcases with h | h | h | h
          · rw [h.2.2.2.2.1, if_neg hl]
          · rw [h.2.2.2.2.2.1, if_neg hl]
          · exact absurd h.2.1 hl
          · rw [h.2.2.2.2.2.1, if_neg hl]
        refine ⟨by rw [hi']; exact h0, hlen, hnza, Or.inr ⟨arg, by rw [hi']; exact hE, ?_, ?_⟩⟩
        · rw [hpp]; omega
        · rw [hpp]; omega
    · -- the reference
      rcases hcases with h | h | h | h
      · obtain ⟨hu, hr, ho, hao, hio, _⟩ := h
        have hpx : posix_getopt ⟨s.emsh_optarg, s.emsh_optind, s.emsh_optopt, s.cmd.optpos⟩
            argc argv optstring =
            (⟨s.emsh_optarg,
              if s.cmd.optpos + 1 = arg.length then s.emsh_optind + 1 else s.emsh_optind,
              (arg.getD s.cmd.optpos 0 : Nat),
              if s.cmd.optpos + 1 = arg.length then 1 else s.cmd.optpos + 1⟩, 0x3F) := by
          simp only [posix_getopt, hE, if_pos (Or.inr hu :
            arg.getD s.cmd.optpos 0 = 0x3A ∨ arg.getD s.cmd.optpos 0 ∉ optstring)]
          by_cases hl : s.cmd.optpos + 1 = arg.length
          · simp only [decide_eq_true hl, if_true, if_pos hl]
          · simp only [decide_eq_false hl, Bool.false_eq_true, if_false, if_neg hl]
        rw [hpx]
        exact ⟨⟨hao, hio, ho, hpp⟩, hr⟩
      · obtain ⟨ht, hm, _⟩ := h
        have hl : s.cmd.optpos + 1 = arg.length := hatt ht
        exact absurd ⟨hl, hmiss ht hl⟩ hm
      · obtain ⟨ht, hl, hn, hr, hao, hio, hoo, _⟩ := h
        have hc3 : ¬ arg.getD s.cmd.optpos 0 = 0x3A := by
          intro h3
          have := ht.1
          rw [h3] at this
          exact hcolon h3 this
        have hpx : posix_getopt ⟨s.emsh_optarg, s.emsh_optind, s.emsh_optopt, s.cmd.optpos⟩
            argc argv optstring =
            (⟨(argv[(s.emsh_optind + 1).toNat]?).join, s.emsh_optind + 1 + 1, s.emsh_optopt, 1⟩,
              ((arg.getD s.cmd.optpos 0 : Nat) : Int)) := by
          simp only [posix_getopt, hE, if_neg (not_or.mpr ⟨hc3, not_not.mpr ht.1⟩),
            if_pos ht, decide_eq_true hl, if_true, if_pos hn]
        rw [if_pos hl] at hpp
        rw [hpx]
        refine ⟨⟨hao, ?_, hoo, hpp⟩, hr⟩
        show s'.emsh_optind = s.emsh_optind + 1 + 1
        rw [hio]; omega
      · obtain ⟨hm, ht, hr, hao, hoo, hio, _⟩ := h
        have hc3 : ¬ arg.getD s.cmd.optpos 0 = 0x3A := fun h3 => hcolon h3 (h3 ▸ hm)
        have hpx : posix_getopt ⟨s.emsh_optarg, s.emsh_optind, s.emsh_optopt, s.cmd.optpos⟩
            argc argv optstring =
            (⟨s.emsh_optarg,
              if s.cmd.optpos + 1 = arg.length then s.emsh_optind + 1 else s.emsh_optind,
              s.emsh_optopt,
              if s.cmd.optpos + 1 = arg.length then 1 else s.cmd.optpos + 1⟩,
              ((arg.getD s.cmd.optpos 0 : Nat) : Int)) := by
          simp only [posix_getopt, hE, if_neg (not_or.mpr ⟨hc3, not_not.mpr hm⟩), if_neg ht]
          by_cases hl : s.cmd.optpos + 1 = arg.length
          · simp only [decide_eq_true hl, if_true, if_pos hl]
          · simp only [decide_eq_false hl, Bool.false_eq_true, if_false, if_neg hl]
        rw [hpx]
        exact ⟨⟨hao, hio, hoo, hpp⟩, hr⟩

theorem emsh_getopt_calls_sim (cfg : emsh_tunables) (argc : Int)
    (argv : List (Option (List Nat))) (optstring : List Nat)
    (hall : ∀ a ∈ argv, ∃ arg, a = some arg) (hnz : ∀ x ∈ optstring, x ≠ 0) :
    ∀ (n : Nat) (s : emsh_t) (p : posix_getopt_t), getopt_inv s argc argv → getopt_sim s p →
      posix_getopt_plain argc argv optstring n p = true →
      emsh_getopt_calls cfg argc argv optstring n s =
        some (posix_getopt_calls argc argv optstring n p)
  | 0, _, _, _, _, _ => rfl
  | n + 1, s, p, hi, hs, hp => by
    simp only [posix_getopt_plain, Bool.and_eq_true, Bool.not_eq_true'] at hp
    obtain ⟨s', r, e, hi', hs', hr⟩ :=
      emsh_getopt_step cfg s p argc argv optstring hi hall hnz hs hp.1
    have ih := emsh_getopt_calls_sim cfg argc argv optstring hall hnz n s'
      (posix_getopt p argc argv optstring).1 hi' hs' hp.2
    obtain ⟨a1, a2, a3, _⟩ := hs'
    simp only [emsh_getopt_calls, e, Option.bind_eq_bind, Option.some_bind, ih, Option.pure_def,
      posix_getopt_calls, a1, a2, a3, hr]

/-- A call of `emsh_getopt` that finds an option argument missing returns what the
reference returns, with the same `optarg` and `optopt`, and leaves `optind` one
below the `optind` of the reference. -/
theorem emsh_getopt_missing_call (cfg : emsh_tunables) (s : emsh_t) (p : posix_getopt_t)
    (argc : Int) (argv : List (Option (List Nat))) (optstring : List Nat)
    (hi : getopt_inv s argc argv) (hall : ∀ a ∈ argv, ∃ arg, a = some arg)
    (hnz : ∀ x ∈ optstring, x ≠ 0) (hs : getopt_sim s p)
    (hp : posix_getopt_missing p argc argv optstring = true) :
    ∃ s' r, emsh_getopt cfg s argc argv optstring = some (s', r) ∧
      r = (posix_getopt p argc argv optstring).2 ∧
      s'.emsh_optarg = (posix_getopt p argc argv optstring).1.optarg ∧
      s'.emsh_optind + 1 = (posix_getopt p argc argv optstring).1.optind ∧
      s'.emsh_optopt = (posix_getopt p argc argv optstring).1.optopt := by
  have hv := getopt_inv_valid s argc argv hi
  obtain ⟨pa, pi, po, pn⟩ := p
  obtain ⟨s1, s2, s3, s4⟩ := id hs
  simp only at s1 s2 s3 s4
  subst s1 s2 s3 s4
  unfold posix_getopt_missing at hp
  simp only [] at hp
  cases hE : getopt_element s.emsh_optind argc argv with
  | none =>
    rw [hE] at hp
    exact absurd hp (by simp)
  | some arg =>
    rw [hE] at hp
    simp only [decide_eq_true_eq] at hp
    obtain ⟨hc3, ht, hl, hn⟩ := hp
    obtain ⟨_, hlt, ha, _, _, _⟩ := getopt_element_some _ _ _ _ hE
    have hname : ∃ name, c_argv argv 0 = some (some name) := by
      have hlen := hi.2.1
      have hl0 : 0 < argv.length := by omega
      obtain ⟨nm, hnm⟩ := hall argv[0] (List.getElem_mem _)
      refine ⟨nm, ?_⟩
      rw [c_argv_eq argv 0 (le_refl _)]
      show argv[0]? = some (some nm)
      rw [List.getElem?_eq_getElem hl0, hnm]
    obtain ⟨name, hname⟩ := hname
    obtain ⟨s', r, e, _, _, hcases⟩ :=
      emsh_getopt_scan_cases cfg s argc argv optstring arg name hv hE hnz hname
    have hpx : posix_getopt ⟨s.emsh_optarg, s.emsh_optind, s.emsh_optopt, s.cmd.optpos⟩
        argc argv optstring =
        (⟨s.emsh_optarg, s.emsh_optind + 1 + 1, (arg.getD s.cmd.optpos 0 : Nat), 1⟩,
          if optstring.head? = some 0x3A then 0x3A else 0x3F) := by
      simp only [posix_getopt, hE, if_neg (not_or.mpr ⟨hc3, not_not.mpr ht.1⟩),
        if_pos ht, decide_eq_true hl, if_true, if_neg hn]
    rw [hpx]
    refine ⟨s', r, e, ?_⟩
    rcases hcases with h | h | h | h
    · exact absurd ht.1 h.1
    · obtain ⟨_, _, hr, ho, hao, hio, _⟩ := h
      rw [if_pos hl] at hio
      refine ⟨hr, hao, ?_, ho⟩
      show s'.emsh_optind + 1 = s.emsh_optind + 1 + 1
      rw [hio]
    · exact absurd h.2.2.1 hn
    · exact absurd ht h.2.1

/-- Calls of `emsh_getopt` against the reference up to the first missing option
argument: the calls before it agree, and the call that detects it agrees but for
`optind`, which `emsh_getopt` leaves one below the `optind` of the reference. -/
theorem emsh_getopt_calls_missing (cfg : emsh_tunables) (argc : Int)
    (argv : List (Option (List Nat))) (optstring : List Nat)
    (hall : ∀ a ∈ argv, ∃ arg, a = some arg) (hnz : ∀ x ∈ optstring, x ≠ 0) :
    ∀ (n : Nat) (s : emsh_t) (p : posix_getopt_t), getopt_inv s argc argv → getopt_sim s p →
      posix_getopt_plain argc argv optstring n p = true →
      posix_getopt_missing (posix_getopt_run argc argv optstring n p) argc argv optstring = true →
      ∃ l e, emsh_getopt_calls cfg argc argv optstring (n + 1) s = some (l ++ [e]) ∧
        posix_getopt_calls argc argv optstring (n + 1) p =
          l ++ [(e.1, e.2.1, e.2.2.1 + 1, e.2.2.2)]
  | 0, s, p, hi, hs, _, hm => by
    obtain ⟨s', r, e, hr, hao, hio, hoo⟩ :=
      emsh_getopt_missing_call cfg s p argc argv optstring hi hall hnz hs hm
    refine ⟨[], (r, s'.emsh_optarg, s'.emsh_optind, s'.emsh_optopt), ?_, ?_⟩
    · simp only [emsh_getopt_calls, e, Option.bind_eq_bind, Option.some_bind, Option.pure_def,
        List.nil_append]
    · simp only [posix_getopt_calls, List.nil_append, hr, hao, hio, hoo]
  | n + 1, s, p, hi, hs, hp, hm => by
    simp only [posix_getopt_plain, Bool.and_eq_true, Bool.not_eq_true'] at hp
    obtain ⟨s', r, e, hi', hs', hr⟩ :=
      emsh_getopt_step cfg s p argc argv optstring hi hall hnz hs hp.1
    obtain ⟨l, e2, h1, h2⟩ := emsh_getopt_calls_missing cfg argc argv optstring hall hnz n s'
      (posix_getopt p argc argv optstring).1 hi' hs' hp.2 hm
    obtain ⟨a1, a2, a3, _⟩ := hs'
    refine ⟨(r, s'.emsh_optarg, s'.emsh_optind, s'.emsh_optopt) :: l, e2, ?_, ?_⟩
    · rw [emsh_getopt_calls]
      simp only [e, Option.bind_eq_bind, Option.some_bind, h1, Option.pure_def, List.cons_append]
    · rw [posix_getopt_calls]
      simp only [h2, List.cons_append, a1, a2, a3, hr]

/-- C19, as stated, fails. On `p -cHi` with the option string `c:` the first call of
`emsh_getopt` returns `?` with `optopt = c`, `optarg` null and `optind = 1`, where
the reference returns `c` with `optarg = Hi` and `optind = 2`. On `p -:` with
`c:` the first call returns `:` with `optopt` untouched, where the reference
returns `?` with `optopt = :`. On `p -c` with `c:`, where the option argument is
missing, the first call returns `?` with `optopt = c` as the reference does, but
leaves `optind = 2` where the reference, which increments `optind` by 2, has 3. -/
theorem emsh_getopt_posix_counterexample :
    (emsh_getopt_calls {} 2 emsh_argv_pcHi [0x63, 0x3A] 1 (emsh_sample []) =
        some [(0x3F, none, 1, 0x63)] ∧
      posix_getopt_calls 2 emsh_argv_pcHi [0x63, 0x3A] 1 ⟨none, 1, 0, 1⟩ =
        [(0x63, some [0x48, 0x69], 2, 0)]) ∧
    (emsh_getopt_calls {} 2 emsh_argv_pcolon [0x63, 0x3A] 1 (emsh_sample []) =
        some [(0x3A, none, 2, 0)] ∧
      posix_getopt_calls 2 emsh_argv_pcolon [0x63, 0x3A] 1 ⟨none, 1, 0, 1⟩ =
        [(0x3F, none, 2, 0x3A)]) ∧
    (emsh_getopt_calls {} 2 emsh_argv_pc [0x63, 0x3A] 1 (emsh_sample []) =
        some [(0x3F, none, 2, 0x63)] ∧
      posix_getopt_calls 2 emsh_argv_pc [0x63, 0x3A] 1 ⟨none, 1, 0, 1⟩ =
        [(0x3F, none, 3, 0x63)]) := by
  refine ⟨⟨by decide, by decide⟩, ⟨by decide, by decide⟩, ⟨by decide, by decide⟩⟩

/-- C19, amended. For every `argv` of NUL-terminated strings and every `optstring`,
starting from `optind = 1` and sub-position 1, the first `n` calls of
`emsh_getopt` all return, and their return values with `optarg`, `optind` and
`optopt` after each call are those of the POSIX reference, provided none of these
calls is special: it reads an option character that takes an argument and has
more characters after it in its element, or it reads `:` while `:` occurs in
`optstring`, or it finds the argument of its option missing. If the next call
finds the argument of its option missing, it returns too, with the return value,
`optarg` and `optopt` of the reference and with `optind` one below the `optind`
of the reference. -/
theorem emsh_getopt_refines_posix (cfg : emsh_tunables) (self : emsh_t)
    (args : List (List Nat)) (optstring : List Nat) (n : Nat)
    (h1 : self.emsh_optind = 1) (h2 : self.cmd.optpos = 1)
    (hargs : ∀ arg ∈ args, ∀ x ∈ arg, x ≠ 0) (hnz : ∀ x ∈ optstring, x ≠ 0)
    (hplain : posix_getopt_plain args.length (args.map some) optstring n
      ⟨self.emsh_optarg, 1, self.emsh_optopt, 1⟩ = true) :
    emsh_getopt_calls cfg args.length (args.map some) optstring n self =
      some (posix_getopt_calls args.length (args.map some) optstring n
        ⟨self.emsh_optarg, 1, self.emsh_optopt, 1⟩) ∧
    (posix_getopt_missing (posix_getopt_run args.length (args.map some) optstring n
        ⟨self.emsh_optarg, 1, self.emsh_optopt, 1⟩) args.length (args.map some) optstring = true →
      ∃ l e, emsh_getopt_calls cfg args.length (args.map some) optstring (n + 1) self =
          some (l ++ [e]) ∧
        posix_getopt_calls args.length (args.map some) optstring (n + 1)
          ⟨self.emsh_optarg, 1, self.emsh_optopt, 1⟩ =
          l ++ [(e.1, e.2.1, e.2.2.1 + 1, e.2.2.2)]) := by
  have hall : ∀ a ∈ args.map some, ∃ arg, a = some arg := by
    intro a ha
    obtain ⟨arg, _, rfl⟩ := List.mem_map.mp ha
    exact ⟨arg, rfl⟩
  have hinv : getopt_inv self args.length (args.map some) := by
    refine ⟨by rw [h1]; decide, by simp, ?_, Or.inl h2⟩
    intro arg ha
    obtain ⟨arg2, hm, he⟩ := List.mem_map.mp ha
    rw [← Option.some.inj he]
    exact hargs arg2 hm
  have hsim : getopt_sim self ⟨self.emsh_optarg, 1, self.emsh_optopt, 1⟩ :=
    ⟨rfl, h1, rfl, h2⟩
  exact ⟨emsh_getopt_calls_sim cfg args.length (args.map some) optstring hall hnz n self _
      hinv hsim hplain,
    emsh_getopt_calls_missing cfg args.length (args.map some) optstring hall hnz n self _
      hinv hsim hplain⟩

/-- C19, amended, on scenario E5 (`greet -m -c Hello World`, `maenc:`), four calls,
and on `p -c` with `c:`, where the first call finds the argument missing. -/
theorem emsh_getopt_refines_posix_witness :
    emsh_getopt_calls {} emsh_args_E5.length (emsh_args_E5.map some) emsh_optstring_E5 4
        (emsh_sample []) =
      some (posix_getopt_calls emsh_args_E5.length (emsh_args_E5.map some) emsh_optstring_E5 4
        ⟨(emsh_sample []).emsh_optarg, 1, (emsh_sample []).emsh_optopt, 1⟩) ∧
    (∃ l e, emsh_getopt_calls {} ([[0x70], [0x2D, 0x63]] : List (List Nat)).length
          ([[0x70], [0x2D, 0x63]].map some) [0x63, 0x3A] (0 + 1) (emsh_sample []) =
          some (l ++ [e]) ∧
        posix_getopt_calls ([[0x70], [0x2D, 0x63]] : List (List Nat)).length
          ([[0x70], [0x2D, 0x63]].map some) [0x63, 0x3A] (0 + 1)
          ⟨(emsh_sample []).emsh_optarg, 1, (emsh_sample []).emsh_optopt, 1⟩ =
          l ++ [(e.1, e.2.1, e.2.2.1 + 1, e.2.2.2)]) :=
  ⟨(emsh_getopt_refines_posix {} (emsh_sample []) emsh_args_E5 emsh_optstring_E5 4 rfl rfl
      (by decide) (by decide) (by decide)).1,
    (emsh_getopt_refines_posix {} (emsh_sample []) [[0x70], [0x2D, 0x63]] [0x63, 0x3A] 0 rfl rfl
      (by decide) (by decide) (by decide)).2 (by decide)⟩

end Emsh

namespace Emsh

/-! ## numcast10: formatting an unsigned integer -/

theorem numcast10_bw_digits_eq : ∀ (fuel src : Nat), src ≤ fuel →
    numcast10_bw_digits fuel src = (Nat.digits 10 src).map (· + 0x30)
  | 0, src, h => by
    have h0 : src = 0 := by omega
    subst h0
    simp [numcast10_bw_digits]
  | fuel + 1, src, h => by
    by_cases h0 : src = 0
    · subst h0
      simp [numcast10_bw_digits]
    · have hd : Nat.digits 10 src = src % 10 :: Nat.digits 10 (src / 10) :=
        Nat.digits_def' (by norm_num) (Nat.pos_of_ne_zero h0)
      have hlt : src / 10 ≤ fuel := by omega
      simp [numcast10_bw_digits, h0, hd, numcast10_bw_digits_eq fuel (src / 10) hlt]

theorem list_getD_some (l : List Nat) (i : Nat) (h : i < l.length) :
    some (l.getD i 0) = l[i]? := by
  rw [List.getD_eq_getElem?_getD, List.getElem?_eq_getElem h]
  rfl

theorem numcast10_bw_swap_get (n : Nat) : ∀ (k i : Nat) (l : List Nat), l.length = n →
    i + k = n / 2 → ∀ j, (numcast10_bw_swap n k i l)[j]? =
      if i ≤ j ∧ j < n - i then l[n - 1 - j]? else l[j]?
  | 0, i, l, hl, hk => by
    intro j
    simp only [numcast10_bw_swap]
    split_ifs with h
    · have e : n - 1 - j = j := by omega
      rw [e]
    · rfl
  | k + 1, i, l, hl, hk => by
    intro j
    simp only [numcast10_bw_swap]
    have hlen : ((l.set i (l.getD (n - i - 1) 0)).set (n - i - 1) (l.getD i 0)).length = n := by
      simp [hl]
    rw [numcast10_bw_swap_get n k (i + 1) _ hlen (by omega) j]
    have hi : i < n - i - 1 := by omega
    have g1 : some (l.getD i 0) = l[i]? := list_getD_some l i (by omega)
    have g2 : some (l.getD (n - i - 1) 0) = l[n - i - 1]? := list_getD_some l _ (by omega)
    simp only [List.getElem?_set, List.length_set, hl]
    by_cases c1 : j < i
    · rw [if_neg (by omega), if_neg (by omega), if_neg (by omega), if_neg (by omega)]
    · by_cases c2 : j = i
      · subst c2
        rw [if_neg (by omega), if_neg (by omega), if_pos rfl, if_pos (by omega),
          if_pos (by omega), g2]
        congr 1
        omega
      · by_cases c3 : j < n - 1 - i
        · rw [if_pos (by omega), if_neg (by omega), if_neg (by omega), if_pos (by omega)]
        · by_cases c4 : j = n - 1 - i
          · subst c4
            rw [if_neg (by omega), if_pos (by omega), if_pos (by omega), if_pos (by omega), g1]
            congr 1
            omega
          · rw [if_neg (by omega), if_neg (by omega), if_neg (by omega), if_neg (by omega)]

theorem numcast10_bw_swap_eq (l : List Nat) :
    numcast10_bw_swap l.length (l.length / 2) 0 l = l.reverse := by
  apply List.ext_getElem?
  intro j
  rw [numcast10_bw_swap_get l.length (l.length / 2) 0 l rfl (by omega) j]
  by_cases h : j < l.length
  · rw [if_pos (by omega), List.getElem?_reverse h]
  · rw [if_neg (by omega), List.getElem?_eq_none (by omega), List.getElem?_eq_none (by simp; omega)]

theorem numcast10_impl_bw_eq (v : Nat) (hv : v ≠ 0) :
    numcast10_impl_bw v = ((Nat.digits 10 v).map (· + 0x30)).reverse := by
  simp only [numcast10_impl_bw, bne_iff_ne, ne_eq, hv, not_false_eq_true, if_true]
  rw [numcast10_bw_digits_eq v v (le_refl v)]
  exact numcast10_bw_swap_eq _

end Emsh

namespace Emsh

theorem dec_foldl_ge : ∀ (ds : List Nat) (a : Nat),
    a ≤ ds.foldl (fun a d => a * 10 + (d - 0x30)) a
  | [], a => le_refl a
  | d :: ds, a => by
    simp only [List.foldl_cons]
    exact le_trans (by omega) (dec_foldl_ge ds (a * 10 + (d - 0x30)))

theorem dec_value_reverse_digits (L : List Nat) :
    dec_value ((L.map (· + 0x30)).reverse) = Nat.ofDigits 10 L := by
  unfold dec_value
  rw [List.foldl_reverse]
  induction L with
  | nil => simp
  | cons d L ih =>
    simp only [List.map_cons, List.foldr_cons, Nat.ofDigits_cons]
    rw [ih]
    simp only [Nat.add_sub_cancel]
    ring

theorem dec_canonical_digits (v : Nat) (hv : v ≠ 0) :
    dec_canonical v (((Nat.digits 10 v).map (· + 0x30)).reverse) := by
  have hne : Nat.digits 10 v ≠ [] := Nat.digits_ne_nil_iff_ne_zero.mpr hv
  refine ⟨?_, ?_, ?_, ?_⟩
  · simpa using hne
  · intro d hd
    simp only [List.mem_reverse, List.mem_map] at hd
    obtain ⟨x, hx, rfl⟩ := hd
    have : x < 10 := Nat.digits_lt_base (by norm_num) hx
    omega
  · intro hh
    exfalso
    have hl := Nat.getLast_digit_ne_zero 10 hv
    rw [List.head?_reverse, List.getLast?_map, List.getLast?_eq_getLast _ hne] at hh
    simp only [Option.map_some', Option.some.injEq] at hh
    omega
  · rw [dec_value_reverse_digits, Nat.ofDigits_digits]

theorem numcast10_impl_bw_canonical (v : Nat) : dec_canonical v (numcast10_impl_bw v) := by
  by_cases hv : v = 0
  · subst hv
    exact ⟨by decide, by decide, by decide, by decide⟩
  · rw [numcast10_impl_bw_eq v hv]
    exact dec_canonical_digits v hv

theorem dec_digit_le_value : ∀ (ds : List Nat) (a : Nat), ∀ d ∈ ds,
    d - 0x30 ≤ ds.foldl (fun a d => a * 10 + (d - 0x30)) a
  | [], _, d, hd => by simp at hd
  | x :: xs, a, d, hd => by
    simp only [List.foldl_cons]
    rcases List.mem_cons.mp hd with rfl | hm
    · exact le_trans (by omega) (dec_foldl_ge xs (a * 10 + (d - 0x30)))
    · exact dec_digit_le_value xs _ d hm

/-- A canonical decimal representation of `v` is determined by `v`. -/
theorem dec_canonical_eq (v : Nat) (ds : List Nat) (h : dec_canonical v ds) :
    ds = if v = 0 then [0x30] else ((Nat.digits 10 v).map (· + 0x30)).reverse := by
  obtain ⟨hne, hdig, hlead, hval⟩ := h
  cases ds with
  | nil => exact absurd rfl hne
  | cons d ts =>
    have hd48 := hdig d (List.mem_cons_self _ _)
    have hts : ∀ x ∈ ts, 0x30 ≤ x ∧ x ≤ 0x39 := fun x hx => hdig x (List.mem_cons_of_mem _ hx)
    have hmap : ts.map (fun x => x - 0x30 + 0x30) = ts := by
      conv_rhs => rw [← List.map_id ts]
      apply List.map_congr_left
      intro x hx
      have := hts x hx
      simp only [id]
      omega
    have hrev : d :: ts =
        (((ts.reverse.map (· - 0x30)) ++ [d - 0x30]).map (· + 0x30)).reverse := by
      simp only [List.map_append, List.map_map, List.reverse_append, List.map_cons, List.map_nil,
        List.reverse_cons, List.reverse_nil, List.nil_append, List.singleton_append,
        List.map_reverse, List.reverse_reverse, Function.comp_def]
      rw [hmap]
      congr 1
      omega
    have hv : Nat.ofDigits 10 ((ts.reverse.map (· - 0x30)) ++ [d - 0x30]) = v := by
      rw [← dec_value_reverse_digits, ← hrev]
      exact hval
    by_cases hd : d = 0x30
    · have h1 := hlead (by simp [hd])
      have hv0 : v = 0 := by
        rw [← hval, h1]
        rfl
      rw [if_pos hv0]
      exact h1
    · have hlt : ∀ l ∈ (ts.reverse.map (· - 0x30)) ++ [d - 0x30], l < 10 := by
        intro l hl
        simp only [List.mem_append, List.mem_map, List.mem_reverse, List.mem_singleton] at hl
        rcases hl with ⟨x, hx, rfl⟩ | rfl
        · have := hts x hx
          omega
        · omega
      have hlast : ∀ hh : (ts.reverse.map (· - 0x30)) ++ [d - 0x30] ≠ [],
          ((ts.reverse.map (· - 0x30)) ++ [d - 0x30]).getLast hh ≠ 0 := by
        intro hh
        rw [List.getLast_append_singleton]
        omega
      have hdg := Nat.digits_ofDigits 10 (by norm_num) _ hlt hlast
      rw [hv] at hdg
      have hv0 : v ≠ 0 := by
        intro h0
        rw [h0] at hdg
        simp at hdg
      rw [if_neg hv0, hdg]
      exact hrev

/-- C23: for every unsigned value `v`, the bytes `numcast10_impl_bw` writes (its return
value is their number) are exactly the canonical decimal representation of `v`: at
least one byte, digits `'0'`-`'9'` only, most significant first denoting `v`, and no
leading zero except for the single byte `'0'`, with nothing after them, and no other
byte string is such a representation of `v`; `v = 0` writes the single byte `'0'`, so
that 1 is returned. -/
theorem numcast10_format_canonical (v : Nat) :
    dec_canonical v (numcast10_impl_bw v) ∧
      (∀ ds, dec_canonical v ds → ds = numcast10_impl_bw v) ∧
      (numcast10_impl_bw v).length = (if v = 0 then 1 else (Nat.digits 10 v).length) ∧
      numcast10_impl_bw 0 = [0x30] := by
  have hc := numcast10_impl_bw_canonical v
  refine ⟨hc, ?_, ?_, by decide⟩
  · intro ds hds
    rw [dec_canonical_eq v ds hds, dec_canonical_eq v _ hc]
  · by_cases hv : v = 0
    · subst hv
      decide
    · rw [numcast10_impl_bw_eq v hv]
      simp [hv]

end Emsh

namespace Emsh

/-! ## numcast10: parsing an unsigned integer -/

theorem numcast10_fw_loop_spec (w max : Nat) (hmax : max < 2 ^ w) :
    ∀ (ds pre rest : List Nat) (dst : Nat),
      (∀ d ∈ ds, 0x30 ≤ d ∧ d ≤ 0x39 ∧ d - 0x30 ≤ max) →
      (∀ r, rest.head? = some r → ¬ (0x30 ≤ r ∧ r ≤ 0x39)) →
      dst ≤ max →
      numcast10_fw_loop w (pre ++ ds ++ rest) max (max / 10) (ds.length + rest.length)
          pre.length dst =
        if ds.foldl (fun a d => a * 10 + (d - 0x30)) dst ≤ max then
          some (.ok (ds.foldl (fun a d => a * 10 + (d - 0x30)) dst) (pre.length + ds.length))
        else some (.err .ERANGE)
  | [], pre, rest, dst, _, hr, hd => by
    cases rest with
    | nil => simp [numcast10_fw_loop, hd]
    | cons r rs =>
      have hr' := hr r rfl
      have e : (pre ++ [] ++ r :: rs)[pre.length]? = some r := by
        rw [List.append_assoc, List.getElem?_append_right (le_refl _)]
        simp
      show numcast10_fw_loop w (pre ++ [] ++ r :: rs) max (max / 10) (0 + (rs.length + 1))
        pre.length dst = _
      rw [Nat.zero_add]
      simp only [numcast10_fw_loop, e, if_neg hr', List.foldl_nil, hd, if_true, List.length_nil,
        Nat.add_zero]
  | d :: ds, pre, rest, dst, hds, hr, hd => by
    obtain ⟨h1, h2, h3⟩ := hds d (List.mem_cons_self _ _)
    have e : (pre ++ d :: ds ++ rest)[pre.length]? = some d := by
      rw [List.append_assoc, List.getElem?_append_right (le_refl _)]
      simp
    have ek : (d :: ds).length + rest.length = (ds.length + rest.length) + 1 := by
      simp only [List.length_cons]; omega
    have ih := numcast10_fw_loop_spec w max hmax ds (pre ++ [d]) rest
    have epre : pre ++ [d] ++ ds ++ rest = pre ++ d :: ds ++ rest := by simp
    rw [ek]
    simp only [numcast10_fw_loop, e, if_pos (⟨h1, h2⟩ : 0x30 ≤ d ∧ d ≤ 0x39), List.foldl_cons]
    have hge := dec_foldl_ge ds (dst * 10 + (d - 0x30))
    by_cases c1 : dst > max / 10
    · rw [if_pos c1, if_neg (by omega)]
    · rw [if_neg c1]
      have m1 : dst * 10 % 2 ^ w = dst * 10 := Nat.mod_eq_of_lt (by omega)
      have m2 : (d - 0x30) % 2 ^ w = d - 0x30 := Nat.mod_eq_of_lt (by omega)
      have m3 : (max + 2 ^ w - (d - 0x30)) % 2 ^ w = max - (d - 0x30) := by
        have : max + 2 ^ w - (d - 0x30) = (max - (d - 0x30)) + 2 ^ w := by omega
        rw [this, Nat.add_mod_right]
        exact Nat.mod_eq_of_lt (by omega)
      simp only [m1, m2, m3]
      by_cases c2 : dst * 10 > max - (d - 0x30)
      · rw [if_pos c2, if_neg (by omega)]
      · rw [if_neg c2]
        have m4 : (dst * 10 + (d - 0x30)) % 2 ^ w = dst * 10 + (d - 0x30) :=
          Nat.mod_eq_of_lt (by omega)
        rw [m4]
        have := ih (dst * 10 + (d - 0x30)) (fun x hx => hds x (List.mem_cons_of_mem _ hx)) hr
          (by omega)
        rw [epre] at this
        simp only [List.length_append, List.length_singleton] at this
        rw [this]
        simp only [List.length_cons]
        have e2 : pre.length + 1 + ds.length = pre.length + (ds.length + 1) := by omega
        rw [e2]

theorem dec_lead_split (src : List Nat) :
    src = dec_lead src ++ src.dropWhile dec_digit ∧
      (∀ d ∈ dec_lead src, 0x30 ≤ d ∧ d ≤ 0x39) ∧
      (∀ r, (src.dropWhile dec_digit).head? = some r → ¬ (0x30 ≤ r ∧ r ≤ 0x39)) := by
  refine ⟨(List.takeWhile_append_dropWhile _ _).symm, ?_, ?_⟩
  · intro d hd
    have := List.mem_takeWhile_imp hd
    simpa [dec_digit] using this
  · intro r hr
    have := List.head?_dropWhile_not dec_digit src
    rw [hr] at this
    simpa [dec_digit] using this

/-- The result of `numcast10_impl_fw_*` on a byte string `src` of length `n_src` when
no digit of its digit prefix exceeds `max_value`, which holds as soon as
`max_value >= 9`. -/
theorem numcast10_impl_fw_spec (w max : Nat) (src : List Nat) (hmax : max < 2 ^ w)
    (hd : ∀ d ∈ dec_lead src, d - 0x30 ≤ max) :
    numcast10_impl_fw w (some src) src.length max (max / 10) =
      if dec_lead src = [] then some (.err .EILSEQ)
      else if dec_value (dec_lead src) ≤ max then
        some (.ok (dec_value (dec_lead src)) (dec_lead src).length)
      else some (.err .ERANGE) := by
  obtain ⟨hs, hp, hr⟩ := dec_lead_split src
  have hl : src.length = (dec_lead src).length + (src.dropWhile dec_digit).length := by
    conv_lhs => rw [hs]
    simp
  have h := numcast10_fw_loop_spec w max hmax (dec_lead src) [] (src.dropWhile dec_digit) 0
    (fun d hx => ⟨(hp d hx).1, (hp d hx).2, hd d hx⟩) hr (Nat.zero_le _)
  simp only [List.nil_append, List.length_nil, Nat.zero_add] at h
  rw [← hs, ← hl] at h
  simp only [numcast10_impl_fw, Option.isNone_some, Bool.false_eq_true, false_and, if_false,
    Option.getD_some, h]
  unfold dec_value
  by_cases c : dec_lead src = []
  · rw [c]
    simp
  · have hpos : (dec_lead src).length ≠ 0 := by
      simpa using c
    by_cases c2 : List.foldl (fun a d => a * 10 + (d - 0x30)) 0 (dec_lead src) ≤ max
    · simp only [if_pos c2, if_neg c, if_neg hpos]
    · simp only [if_neg c2, if_neg c]

end Emsh

namespace Emsh

theorem dec_lead_all (ds : List Nat) (h : ∀ d ∈ ds, 0x30 ≤ d ∧ d ≤ 0x39) :
    dec_lead ds = ds := by
  unfold dec_lead
  rw [List.takeWhile_eq_self_iff]
  intro d hd
  simpa [dec_digit] using h d hd

theorem numcast10_roundtrip (w v : Nat) (hv : v < 2 ^ w) :
    numcast10_impl_fw w (some (numcast10_impl_bw v)) (numcast10_impl_bw v).length
        (2 ^ w - 1) ((2 ^ w - 1) / 10) =
      some (.ok v (numcast10_impl_bw v).length) := by
  obtain ⟨hne, hdig, _, hval⟩ := numcast10_impl_bw_canonical v
  have hp := dec_lead_all _ hdig
  have hd : ∀ d ∈ dec_lead (numcast10_impl_bw v), d - 0x30 ≤ 2 ^ w - 1 := by
    intro d hx
    rw [hp] at hx
    have := dec_digit_le_value (numcast10_impl_bw v) 0 d hx
    unfold dec_value at hval
    omega
  rw [numcast10_impl_fw_spec w (2 ^ w - 1) _ (by omega) hd, hp, if_neg hne, hval,
    if_pos (by omega)]

/-- C21: for every value `v` of an unsigned type of `w` bits (`v < 2 ^ w`), parsing
the `n` bytes that `numcast10_impl_bw` writes for `v` with `max_value` the maximum
`2 ^ w - 1` of the type, by the implementation function or by its `numcast10_to_*`
wrapper, succeeds and yields the value `v` with `n` bytes consumed. -/
theorem numcast10_parse_format (w v : Nat) (hv : v < 2 ^ w) :
    numcast10_impl_fw w (some (numcast10_impl_bw v)) (numcast10_impl_bw v).length
        (2 ^ w - 1) ((2 ^ w - 1) / 10) =
      some (.ok v (numcast10_impl_bw v).length) ∧
    numcast10_to w (some (numcast10_impl_bw v)) (numcast10_impl_bw v).length (2 ^ w - 1) =
      some (.ok v (numcast10_impl_bw v).length) := by
  have h := numcast10_roundtrip w v hv
  refine ⟨h, ?_⟩
  unfold numcast10_to
  rw [Nat.mod_eq_of_lt (by omega : 2 ^ w - 1 < 2 ^ w)]
  exact h

theorem numcast10_parse_format_witness :
    (4294967295 : Nat) < 2 ^ 32 ∧
    (numcast10_impl_fw 32 (some (numcast10_impl_bw 4294967295))
        (numcast10_impl_bw 4294967295).length (2 ^ 32 - 1) ((2 ^ 32 - 1) / 10) =
      some (.ok 4294967295 (numcast10_impl_bw 4294967295).length) ∧
    numcast10_to 32 (some (numcast10_impl_bw 4294967295))
        (numcast10_impl_bw 4294967295).length (2 ^ 32 - 1) =
      some (.ok 4294967295 (numcast10_impl_bw 4294967295).length)) :=
  ⟨by norm_num, numcast10_parse_format 32 4294967295 (by norm_num)⟩

/-- C22 as stated fails for a bound below 9. At `src = "7"`, `n_src = 1`,
`max_value = 5`, `max_value_10 = 0` of the 32-bit implementation function the digit
prefix is `"7"`, its value 7 exceeds the bound 5, and the call returns 0 with the
value 7 and one byte consumed instead of failing with `ERANGE`: the difference
`max_value - a_i` of the range test wraps around when the digit exceeds the bound. -/
theorem numcast10_parse_small_max :
    dec_lead [0x37] = [0x37] ∧ dec_value (dec_lead [0x37]) = 7 ∧ ¬ (7 ≤ 5) ∧
      numcast10_impl_fw 32 (some [0x37]) [0x37].length 5 (5 / 10) = some (.ok 7 1) := by
  refine ⟨by decide, by decide, by decide, by decide⟩

/-- C22, amended. For every byte string `src` and every bound `max_value >= 9` of an
unsigned type of `w` bits (the `numcast10_to_*` functions, the only callers, pass the
maximum of a type, which is at least 127), with `max_value_10 = max_value / 10`: on the
longest digit prefix of `src` the call of `numcast10_impl_fw_*` fails with `EILSEQ`
exactly when the prefix is empty, with `ERANGE` exactly when its value exceeds
`max_value`, and otherwise returns 0 with the value of the prefix and its length;
the `NUMCAST10_IMPL_FW_FUNC_EXEC_IF_FITS` body of `numcast10_to_*` is this call. -/
theorem numcast10_impl_fw_contract (w max : Nat) (src : List Nat) (hmax : max < 2 ^ w)
    (h9 : 9 ≤ max) :
    (numcast10_impl_fw w (some src) src.length max (max / 10) = some (.err .EILSEQ) ↔
        dec_lead src = []) ∧
    (numcast10_impl_fw w (some src) src.length max (max / 10) = some (.err .ERANGE) ↔
        max < dec_value (dec_lead src)) ∧
    (dec_lead src ≠ [] → dec_value (dec_lead src) ≤ max →
      numcast10_impl_fw w (some src) src.length max (max / 10) =
        some (.ok (dec_value (dec_lead src)) (dec_lead src).length)) ∧
    numcast10_to w (some src) src.length max =
      numcast10_impl_fw w (some src) src.length max (max / 10) := by
  have hd : ∀ d ∈ dec_lead src, d - 0x30 ≤ max := by
    intro d hx
    have := ((dec_lead_split src).2.1 d hx).2
    omega
  have hto : numcast10_to w (some src) src.length max =
      numcast10_impl_fw w (some src) src.length max (max / 10) := by
    unfold numcast10_to
    rw [Nat.mod_eq_of_lt hmax]
  rw [hto, numcast10_impl_fw_spec w max src hmax hd]
  by_cases c : dec_lead src = []
  · simp [c, dec_value]
  · by_cases c2 : dec_value (dec_lead src) ≤ max
    · simp [c, c2]
    · simp [c, c2]
      omega

/-- C22, amended, on `src = "42x"` with the 32-bit bound `UINT_MAX`: the digit prefix
`42` is returned with 2 bytes consumed. -/
theorem numcast10_impl_fw_contract_witness :
    (4294967295 : Nat) < 2 ^ 32 ∧ 9 ≤ (4294967295 : Nat) ∧
    dec_lead [0x34, 0x32, 0x78] ≠ [] ∧ dec_value (dec_lead [0x34, 0x32, 0x78]) ≤ 4294967295 ∧
    numcast10_impl_fw 32 (some [0x34, 0x32, 0x78]) [0x34, 0x32, 0x78].length 4294967295
        (4294967295 / 10) =
      some (.ok (dec_value (dec_lead [0x34, 0x32, 0x78])) (dec_lead [0x34, 0x32, 0x78]).length) ∧
    dec_value (dec_lead [0x34, 0x32, 0x78]) = 42 ∧ (dec_lead [0x34, 0x32, 0x78]).length = 2 :=
  ⟨by norm_num, by norm_num, by decide, by decide,
    (numcast10_impl_fw_contract 32 4294967295 [0x34, 0x32, 0x78] (by norm_num)
      (by norm_num)).2.2.1 (by decide) (by decide),
    by decide, by decide⟩

end Emsh

namespace Emsh

/-! ## emsh.c: the bytes written and the line left by the editing actions -/

theorem emsh_line_length (m : emsh_mem) (d n : Nat) : (emsh_line m d n).length = n := by
  simp [emsh_line]

theorem emsh_line_get (m : emsh_mem) (d n i : Nat) :
    (emsh_line m d n)[i]? = if i < n then some (m d i) else none := by
  unfold emsh_line
  rw [List.getElem?_map]
  by_cases h : i < n
  · rw [List.getElem?_range h, if_pos h]
    rfl
  · rw [List.getElem?_eq_none (by simp; omega), if_neg h]
    rfl

theorem emsh_line_drop (m : emsh_mem) (d n p : Nat) :
    (emsh_line m d n).drop p = (List.range (n - p)).map (fun i => m d (p + i)) := by
  apply List.ext_getElem?
  intro i
  rw [List.getElem?_drop, emsh_line_get, List.getElem?_map]
  by_cases h : i < n - p
  · rw [List.getElem?_range h, if_pos (by omega)]
    rfl
  · rw [List.getElem?_eq_none (by simp; omega), if_neg (by omega)]
    rfl

theorem emsh_line_insert (m m' : emsh_mem) (d n p c : Nat) (hp : p ≤ n)
    (h1 : ∀ i, i < p → m' d i = m d i) (h2 : m' d p = c)
    (h3 : ∀ i, p < i → i ≤ n → m' d i = m d (i - 1)) :
    emsh_line m' d (n + 1) = (emsh_line m d n).take p ++ [c] ++ (emsh_line m d n).drop p := by
  apply List.ext_getElem?
  intro i
  have hl : ((emsh_line m d n).take p ++ [c]).length = p + 1 := by
    simp [emsh_line_length, hp]
  have hl2 : ((emsh_line m d n).take p).length = p := by
    simp [emsh_line_length, hp]
  rw [emsh_line_get, List.getElem?_append, hl]
  by_cases c1 : i < p
  · rw [if_pos (by omega), if_pos (by omega), List.getElem?_append, hl2, if_pos c1,
      List.getElem?_take, if_pos c1, emsh_line_get, if_pos (by omega), h1 i c1]
  · by_cases c2 : i = p
    · subst c2
      rw [if_pos (by omega), if_pos (by omega), List.getElem?_append, hl2, if_neg c1, h2]
      simp
    · rw [if_neg (by omega : ¬ i < p + 1), List.getElem?_drop, emsh_line_get]
      by_cases c3 : i ≤ n
      · rw [if_pos (by omega : i < n + 1), if_pos (by omega : p + (i - (p + 1)) < n),
          h3 i (by omega) c3]
        congr 2
        omega
      · rw [if_neg (by omega : ¬ i < n + 1), if_neg (by omega : ¬ p + (i - (p + 1)) < n)]

theorem emsh_line_erase (m m' : emsh_mem) (d n p : Nat) (hp : p < n)
    (h1 : ∀ i, i < p → m' d i = m d i)
    (h2 : ∀ i, p ≤ i → i < n - 1 → m' d i = m d (i + 1)) :
    emsh_line m' d (n - 1) = (emsh_line m d n).take p ++ (emsh_line m d n).drop (p + 1) := by
  apply List.ext_getElem?
  intro i
  have hl2 : ((emsh_line m d n).take p).length = p := by
    simp [emsh_line_length]
    omega
  rw [emsh_line_get, List.getElem?_append, hl2]
  by_cases c1 : i < p
  · rw [if_pos (by omega), if_pos c1, List.getElem?_take, if_pos c1, emsh_line_get,
      if_pos (by omega), h1 i c1]
  · rw [if_neg c1, List.getElem?_drop, emsh_line_get]
    by_cases c3 : i < n - 1
    · rw [if_pos c3, if_pos (by omega), h2 i (by omega) c3]
      congr 2
      omega
    · rw [if_neg c3, if_neg (by omega)]

theorem emsh_out_nil (s : emsh_t) : ({ s with out := s.out ++ [] } : emsh_t) = s := by
  cases s
  simp

theorem emsh_write_ctlseq_cub_eq (s : emsh_t) (n : Nat) :
    emsh_write_ctlseq_cub s n = { s with out := s.out ++ emsh_seq_cub n } := by
  unfold emsh_write_ctlseq_cub emsh_seq_cub
  by_cases h0 : n = 0
  · rw [if_pos h0, if_pos h0, emsh_out_nil]
  · rw [if_neg h0, if_neg h0]
    by_cases h1 : n = 1
    · rw [if_pos h1, if_pos h1]
      rfl
    · rw [if_neg h1, if_neg h1]
      simp only [emsh_write_ctlseq_1, emsh_write_strn, numcast10_impl_bw_eq n h0,
        CTLSEQ_C_CSI_1, CTLSEQ_C_CSI_2, List.take_length]
      rfl

theorem emsh_disp_refresh_cur_to_eol_eq (cfg : emsh_tunables) (s : emsh_t)
    (hp : s.buf.pos ≤ s.buf.array.size) (hs : s.buf.array.size ≤ cfg.EMSH_MAX_LINE_SIZE) :
    emsh_disp_refresh_cur_to_eol cfg s =
      some { s with out := s.out ++ emsh_seq_refresh (emsh_buf_line s) s.buf.pos } := by
  have hsl : mem_slice cfg s.hist.mem s.buf.array.data s.buf.pos (s.buf.array.size - s.buf.pos) =
      some ((emsh_buf_line s).drop s.buf.pos) := by
    simp only [mem_slice, emsh_buf_line, emsh_line_drop]
    rw [if_pos (by omega)]
  have hlen : ((emsh_buf_line s).drop s.buf.pos).length = s.buf.array.size - s.buf.pos := by
    simp [emsh_buf_line, emsh_line_length]
  have e1 : (emsh_write_str s [0x1B, 0x5B, 0x4B]).hist = s.hist := rfl
  have e2 : (emsh_write_str s [0x1B, 0x5B, 0x4B]).buf = s.buf := rfl
  simp only [emsh_disp_refresh_cur_to_eol, emsh_write_ctlseq_el, emsh_buf_size, emsh_buf_pos,
    emsh_buf_data, bytearray_size, bytearray_data, Option.bind_eq_bind, Option.some_bind,
    Option.pure_def]
  rw [e1, e2, hsl]
  simp only [Option.some_bind, emsh_write_ctlseq_cub_eq, emsh_write_strn, emsh_write_str_eq,
    emsh_seq_refresh, emsh_seq_el, emsh_line_length, emsh_buf_line]
  have hq : List.take (s.buf.array.size - s.buf.pos)
      (List.drop s.buf.pos (emsh_line s.hist.mem s.buf.array.data s.buf.array.size)) =
      List.drop s.buf.pos (emsh_line s.hist.mem s.buf.array.data s.buf.array.size) := by
    rw [← hlen]
    exact List.take_length _
  rw [hq]
  have hc : c_lit [0x1B, 0x5B, 0x4B] = [0x1B, 0x5B, 0x4B] := by decide
  rw [hc]
  simp only [List.append_assoc]

end Emsh

namespace Emsh

theorem emsh_seq_refresh_insert (L : List Nat) (p c : Nat) (hp : p ≤ L.length) :
    emsh_seq_refresh (L.take p ++ [c] ++ L.drop p) (p + 1) =
      emsh_seq_el ++ L.drop p ++ emsh_seq_cub (L.length - p) := by
  have hl : (L.take p ++ [c]).length = p + 1 := by simp [hp]
  have hd : (L.take p ++ [c] ++ L.drop p).drop (p + 1) = L.drop p := by
    rw [← hl]
    exact List.drop_left _ _
  have hn : (L.take p ++ [c] ++ L.drop p).length - (p + 1) = L.length - p := by
    simp [hp]
    omega
  unfold emsh_seq_refresh
  rw [hd, hn]

theorem emsh_seq_refresh_erase (L : List Nat) (p : Nat) (hp : p < L.length) :
    emsh_seq_refresh (L.take p ++ L.drop (p + 1)) p =
      emsh_seq_el ++ L.drop (p + 1) ++ emsh_seq_cub (L.length - (p + 1)) := by
  have hl : (L.take p).length = p := by simp; omega
  have hd : (L.take p ++ L.drop (p + 1)).drop p = L.drop (p + 1) := by
    have h := List.drop_left (L.take p) (L.drop (p + 1))
    rw [hl] at h
    exact h
  have hn : (L.take p ++ L.drop (p + 1)).length - p = L.length - (p + 1) := by
    simp
    omega
  unfold emsh_seq_refresh
  rw [hd, hn]

/-- The effect of `emsh_do_insert` when the line has room: the new state, the new
line and the bytes written, in full. -/
theorem emsh_do_insert_eq (cfg : emsh_tunables) (s : emsh_t) (al fl : List Nat) (c : Nat)
    (H : emsh_inv cfg s al fl) (hch : 0x20 ≤ c ∧ c ≤ 0x7E)
    (hroom : s.buf.array.size < cfg.EMSH_MAX_LINE_SIZE) :
    ∃ m', emsh_do_insert cfg s c = some { s with
        buf := ⟨{ s.buf.array with size := s.buf.array.size + 1 }, s.buf.pos + 1⟩,
        hist := { s.hist with mem := m' },
        out := s.out ++ [c] ++ emsh_seq_el ++ (emsh_buf_line s).drop s.buf.pos ++
          emsh_seq_cub (s.buf.array.size - s.buf.pos) } ∧
      emsh_line m' s.buf.array.data (s.buf.array.size + 1) =
        (emsh_buf_line s).take s.buf.pos ++ [c] ++ (emsh_buf_line s).drop s.buf.pos ∧
      (∀ b i, b ≠ s.buf.array.data → m' b i = s.hist.mem b i) ∧
      emsh_text_ok cfg (m' s.buf.array.data) (s.buf.array.size + 1) := by
  obtain ⟨_, _, _, hcap, hoff, htext, hpos⟩ := id H
  obtain ⟨m', hi, hfr, hpt, htx⟩ :=
    emsh_buf_insert_spec cfg s.buf s.hist.mem c hcap hoff htext hpos hroom hch
  have hline : emsh_line m' s.buf.array.data (s.buf.array.size + 1) =
      (emsh_buf_line s).take s.buf.pos ++ [c] ++ (emsh_buf_line s).drop s.buf.pos := by
    apply emsh_line_insert s.hist.mem m' s.buf.array.data s.buf.array.size s.buf.pos c hpos
    · intro i hi'
      rw [hpt i, if_pos hi']
    · rw [hpt s.buf.pos, if_neg (by omega), if_pos rfl]
    · intro i h1 h2
      rw [hpt i, if_neg (by omega), if_neg (by omega), if_pos h2]
  refine ⟨m', ?_, hline, hfr, htx⟩
  have hr := emsh_disp_refresh_cur_to_eol_eq cfg
    (emsh_write_char { s with
      buf := ⟨{ s.buf.array with size := s.buf.array.size + 1 }, s.buf.pos + 1⟩,
      hist := { s.hist with mem := m' } } c)
    (Nat.succ_le_succ hpos) (Nat.succ_le_of_lt hroom)
  have hroom' : s.buf.array.size < s.buf.array.capacity := by rw [hcap]; exact hroom
  simp only [emsh_do_insert, emsh_buf_size, emsh_buf_capacity, bytearray_size,
    bytearray_capacity, hroom', if_true, hi, Option.bind_eq_bind, Option.some_bind]
  rw [hr]
  have hbl : emsh_buf_line (emsh_write_char { s with
      buf := ⟨{ s.buf.array with size := s.buf.array.size + 1 }, s.buf.pos + 1⟩,
      hist := { s.hist with mem := m' } } c) =
      (emsh_buf_line s).take s.buf.pos ++ [c] ++ (emsh_buf_line s).drop s.buf.pos := hline
  rw [hbl]
  have hpl : s.buf.pos ≤ (emsh_buf_line s).length := by
    simp only [emsh_buf_line, emsh_line_length]
    exact hpos
  have hq := emsh_seq_refresh_insert (emsh_buf_line s) s.buf.pos c hpl
  have hll : (emsh_buf_line s).length = s.buf.array.size := by
    simp only [emsh_buf_line, emsh_line_length]
  rw [hll] at hq
  show some _ = some _
  congr 1
  simp only [emsh_write_char]
  rw [hq]
  simp only [List.append_assoc]

/-- The effect of `emsh_do_erase` when the caret is inside the line. -/
theorem emsh_do_erase_eq (cfg : emsh_tunables) (s : emsh_t) (al fl : List Nat)
    (H : emsh_inv cfg s al fl) (hlt : s.buf.pos < s.buf.array.size) :
    ∃ m', emsh_do_erase cfg s = some { s with
        buf := ⟨{ s.buf.array with size := s.buf.array.size - 1 }, s.buf.pos⟩,
        hist := { s.hist with mem := m' },
        out := s.out ++ emsh_seq_el ++ (emsh_buf_line s).drop (s.buf.pos + 1) ++
          emsh_seq_cub (s.buf.array.size - (s.buf.pos + 1)) } ∧
      emsh_line m' s.buf.array.data (s.buf.array.size - 1) =
        (emsh_buf_line s).take s.buf.pos ++ (emsh_buf_line s).drop (s.buf.pos + 1) ∧
      (∀ b i, b ≠ s.buf.array.data → m' b i = s.hist.mem b i) ∧
      emsh_text_ok cfg (m' s.buf.array.data) (s.buf.array.size - 1) := by
  obtain ⟨_, _, _, hcap, hoff, htext, hpos⟩ := id H
  obtain ⟨m', hi, hfr, hpt, htx⟩ := emsh_buf_erase_spec cfg s.buf s.hist.mem htext hlt
  have hline : emsh_line m' s.buf.array.data (s.buf.array.size - 1) =
      (emsh_buf_line s).take s.buf.pos ++ (emsh_buf_line s).drop (s.buf.pos + 1) := by
    apply emsh_line_erase s.hist.mem m' s.buf.array.data s.buf.array.size s.buf.pos hlt
    · intro i hi'
      rw [hpt i, if_neg (by omega), if_neg (by omega)]
    · intro i h1 h2
      rw [hpt i, if_neg (by omega), if_pos ⟨h1, h2⟩]
  refine ⟨m', ?_, hline, hfr, htx⟩
  have hr := emsh_disp_refresh_cur_to_eol_eq cfg
    { s with
      buf := ⟨{ s.buf.array with size := s.buf.array.size - 1 }, s.buf.pos⟩,
      hist := { s.hist with mem := m' } }
    (Nat.le_sub_one_of_lt hlt) (le_trans (Nat.sub_le _ _) htext.1)
  have hne : (s.buf.pos != s.buf.array.size) = true := by
    simp only [bne_iff_ne]; omega
  simp only [emsh_do_erase, emsh_buf_size, emsh_buf_pos, bytearray_size, hne, if_true, hi,
    Option.bind_eq_bind, Option.some_bind]
  rw [hr]
  have hbl : emsh_buf_line ({ s with
      buf := ⟨{ s.buf.array with size := s.buf.array.size - 1 }, s.buf.pos⟩,
      hist := { s.hist with mem := m' } } : emsh_t) =
      (emsh_buf_line s).take s.buf.pos ++ (emsh_buf_line s).drop (s.buf.pos + 1) := hline
  rw [hbl]
  have hll : (emsh_buf_line s).length = s.buf.array.size := by
    simp only [emsh_buf_line, emsh_line_length]
  have hq := emsh_seq_refresh_erase (emsh_buf_line s) s.buf.pos (by rw [hll]; exact hlt)
  rw [hll] at hq
  show some _ = some _
  congr 1
  show ({ s with
      buf := ⟨{ s.buf.array with size := s.buf.array.size - 1 }, s.buf.pos⟩,
      hist := { s.hist with mem := m' },
      out := s.out ++ emsh_seq_refresh (List.take s.buf.pos (emsh_buf_line s) ++
        List.drop (s.buf.pos + 1) (emsh_buf_line s)) s.buf.pos } : emsh_t) = _
  rw [hq]
  simp only [List.append_assoc]

/-- The effect of `emsh_do_cub` when the caret is not at the start of the line. -/
theorem emsh_do_cub_eq (s : emsh_t) (h : 0 < s.buf.pos) :
    emsh_do_cub s = some { s with
      buf := { s.buf with pos := s.buf.pos - 1 },
      out := s.out ++ [0x1B, 0x5B, 0x44] } := by
  simp [emsh_do_cub, emsh_cur_move_backward, c_assert, emsh_buf_dec_pos, emsh_buf_pos, h,
    emsh_write_ctlseq_cub_eq, emsh_seq_cub]

/-- The effect of `emsh_do_cuf` when the caret is not at the end of the line. -/
theorem emsh_do_cuf_eq (s : emsh_t) (h : s.buf.pos < s.buf.array.size) :
    emsh_do_cuf s = some { s with
      buf := { s.buf with pos := s.buf.pos + 1 },
      out := s.out ++ [0x1B, 0x5B, 0x43] } := by
  simp [emsh_do_cuf, emsh_cur_move_forward, c_assert, emsh_buf_inc_pos, emsh_buf_pos,
    emsh_buf_size, bytearray_size, h, emsh_write_ctlseq_cuf, emsh_write_str_eq]
  decide

end Emsh

namespace Emsh

/-! ## emsh.c: plain keystrokes -/

theorem emsh_task_init (cfg : emsh_tunables) (exec : emsh_exec_t) (s : emsh_t) (c : Nat)
    (hst : s.ctlseq.st = .INIT ∨ s.ctlseq.st = .FINAL) (hc : c ≠ 0x1B) :
    emsh_task cfg exec s c =
      emsh_task_key cfg exec { s with ctlseq := { s.ctlseq with st := .INIT } } c := by
  obtain ⟨r, hi, b, ⟨st, pb, ib⟩, cm, a1, a2, a3, a4, o, e⟩ := s
  simp only at hst
  rcases hst with rfl | rfl <;>
    simp [emsh_task, ctlseq_sm, ctlseq_sm_body, CTLSEQ_C_CSI_1, hc]

theorem emsh_cntrl_vals : ASCII_CNTRL 0x41 = 1 ∧ ASCII_CNTRL 0x42 = 2 ∧ ASCII_CNTRL 0x44 = 4 ∧
    ASCII_CNTRL 0x45 = 5 ∧ ASCII_CNTRL 0x46 = 6 ∧ ASCII_CNTRL 0x4E = 14 ∧
    ASCII_CNTRL 0x50 = 16 := by decide

theorem emsh_task_key_print (cfg : emsh_tunables) (exec : emsh_exec_t) (s : emsh_t) (c : Nat)
    (hch : 0x20 ≤ c ∧ c ≤ 0x7E) : emsh_task_key cfg exec s c = emsh_do_insert cfg s c := by
  obtain ⟨e1, e2, e4, e5, e6, e14, e16⟩ := emsh_cntrl_vals
  have hp : ascii_isprint c = true := by
    simp [ascii_isprint, hch.1, hch.2]
  simp only [emsh_task_key, ASCII_C_CR, ASCII_C_LF, ASCII_C_BS, ASCII_C_DEL, e1, e2, e4, e5, e6,
    e14, e16, hp, if_true]
  have hlo : ∀ k, k < 0x20 → ¬ c = k := fun k hk h => by omega
  have hbs : ¬ (c = 0x08 ∨ c = 0x7F) := by omega
  rw [if_neg (hlo 0x0D (by decide)), if_neg (hlo 0x0A (by decide)), if_neg hbs,
    if_neg (hlo 1 (by decide)), if_neg (hlo 2 (by decide)), if_neg (hlo 4 (by decide)),
    if_neg (hlo 5 (by decide)), if_neg (hlo 6 (by decide)), if_neg (hlo 14 (by decide)),
    if_neg (hlo 16 (by decide))]

theorem emsh_task_key_bs (cfg : emsh_tunables) (exec : emsh_exec_t) (s : emsh_t) (c : Nat)
    (hc : c = ASCII_C_BS ∨ c = ASCII_C_DEL) : emsh_task_key cfg exec s c = emsh_do_bs cfg s := by
  have h1 : c ≠ ASCII_C_CR := by
    rcases hc with rfl | rfl <;> decide
  have h2 : c ≠ ASCII_C_LF := by
    rcases hc with rfl | rfl <;> decide
  unfold emsh_task_key
  rw [if_neg h1, if_neg h2, if_pos hc]

/-- C24 as stated fails when the caret is at the end of the line: on the line `a`
with the caret after it, the byte `b` is echoed and followed by `CSI K`, not written
alone. -/
theorem emsh_insert_at_end_counterexample :
    emsh_inv {} (emsh_sample [0x61]) [0] [1] ∧
    (emsh_sample [0x61]).ctlseq.st = .INIT ∧
    (emsh_sample [0x61]).buf.array.size < (emsh_sample [0x61]).buf.array.capacity ∧
    (emsh_task {} emsh_exec_none (emsh_sample [0x61]) 0x62).map
        (fun s => (s.out, s.buf.pos, s.buf.array.size)) =
      some ([0x62, 0x1B, 0x5B, 0x4B], 2, 2) ∧
    (emsh_task {} emsh_exec_none (emsh_sample [0x61]) 0x62).map (fun s => s.out) ≠
      some ((emsh_sample [0x61]).out ++ [0x62]) :=
  ⟨emsh_sample_inv {} [0x61] rfl (by decide) (by decide), rfl, by decide, by decide, by decide⟩

/-- C24 (amended): for every engine state with control state `INIT` or `FINAL` and a
line shorter than its capacity, and every printable byte `c` fed to `emsh_task`, the
line becomes prefix, `c`, suffix, split at the old caret, the caret advances by one,
and the bytes written are `c` followed by refresh-from-caret-to-eol in every case:
`CSI K`, the suffix, then the cursor-back sequence for the suffix length (nothing for
0, `CSI D` for 1, `CSI n D` beyond); with the caret at the end they are `c`, `CSI K`. -/
theorem emsh_insert_printable (cfg : emsh_tunables) (exec : emsh_exec_t) (s : emsh_t)
    (al fl : List Nat) (c : Nat) (H : emsh_inv cfg s al fl)
    (hst : s.ctlseq.st = .INIT ∨ s.ctlseq.st = .FINAL)
    (hroom : s.buf.array.size < s.buf.array.capacity) (hch : 0x20 ≤ c ∧ c ≤ 0x7E) :
    ∃ s', emsh_task cfg exec s c = some s' ∧ emsh_inv cfg s' al fl ∧
      emsh_buf_line s' =
        (emsh_buf_line s).take s.buf.pos ++ [c] ++ (emsh_buf_line s).drop s.buf.pos ∧
      s'.buf.pos = s.buf.pos + 1 ∧
      s'.out = s.out ++ [c] ++ emsh_seq_el ++ (emsh_buf_line s).drop s.buf.pos ++
        emsh_seq_cub ((emsh_buf_line s).length - s.buf.pos) ∧
      (s.buf.pos = (emsh_buf_line s).length → s'.out = s.out ++ [c] ++ emsh_seq_el) := by
  have H0 : emsh_inv cfg { s with ctlseq := { s.ctlseq with st := .INIT } } al fl :=
    emsh_inv_ctlseq cfg s _ al fl H
  have hroom' : s.buf.array.size < cfg.EMSH_MAX_LINE_SIZE := by
    rw [← H.2.2.2.1]
    exact hroom
  obtain ⟨m', he, hline, hfr, htx⟩ := emsh_do_insert_eq cfg
    { s with ctlseq := { s.ctlseq with st := .INIT } } al fl c H0 hch hroom'
  have hll : (emsh_buf_line s).length = s.buf.array.size := by
    simp only [emsh_buf_line, emsh_line_length]
  rw [emsh_task_init cfg exec s c hst (by omega), emsh_task_key_print cfg exec _ c hch]
  refine ⟨_, he, ?_, hline, rfl, ?_, ?_⟩
  · exact emsh_inv_mem_update cfg _ _ al fl m' (s.buf.array.size + 1) (s.buf.pos + 1) H0 hfr htx
      (Nat.succ_le_succ H.2.2.2.2.2.2) rfl rfl
  · rw [hll]
    rfl
  · intro hend
    show s.out ++ [c] ++ emsh_seq_el ++ (emsh_buf_line s).drop s.buf.pos ++
      emsh_seq_cub (s.buf.array.size - s.buf.pos) = _
    rw [hend, hll, List.drop_of_length_le (by rw [hll]), Nat.sub_self]
    simp [emsh_seq_cub]

theorem emsh_insert_printable_witness :
    ∃ s', emsh_task {} emsh_exec_none emsh_nav_sample 0x78 = some s' ∧
      emsh_inv {} s' [1, 0] [] ∧
      emsh_buf_line s' = (emsh_buf_line emsh_nav_sample).take emsh_nav_sample.buf.pos ++ [0x78] ++
        (emsh_buf_line emsh_nav_sample).drop emsh_nav_sample.buf.pos ∧
      s'.buf.pos = emsh_nav_sample.buf.pos + 1 ∧
      s'.out = emsh_nav_sample.out ++ [0x78] ++ emsh_seq_el ++
        (emsh_buf_line emsh_nav_sample).drop emsh_nav_sample.buf.pos ++
        emsh_seq_cub ((emsh_buf_line emsh_nav_sample).length - emsh_nav_sample.buf.pos) ∧
      (emsh_nav_sample.buf.pos = (emsh_buf_line emsh_nav_sample).length →
        s'.out = emsh_nav_sample.out ++ [0x78] ++ emsh_seq_el) :=
  emsh_insert_printable {} emsh_exec_none emsh_nav_sample [1, 0] [] 0x78 emsh_nav_sample_inv
    (Or.inl rfl) (by decide) (by decide)

end Emsh

namespace Emsh

theorem emsh_line_full_inv : emsh_inv {} (emsh_sample (List.replicate 77 0x61)) [0] [1] :=
  emsh_sample_inv {} (List.replicate 77 0x61) rfl (by simp)
    (fun x hx => by rw [List.eq_of_mem_replicate hx]; decide)

/-- C25: for every engine state whose line length equals `EMSH_MAX_LINE_SIZE`, with
control state `INIT` or `FINAL`, and every printable byte `c`, `emsh_task` returns,
leaves the history, the line buffer (line and caret) and the executor log as they
were and writes no byte; only the control state is `INIT` afterwards. -/
theorem emsh_insert_full_line (cfg : emsh_tunables) (exec : emsh_exec_t) (s : emsh_t)
    (al fl : List Nat) (c : Nat) (H : emsh_inv cfg s al fl)
    (hst : s.ctlseq.st = .INIT ∨ s.ctlseq.st = .FINAL)
    (hfull : s.buf.array.size = cfg.EMSH_MAX_LINE_SIZE) (hch : 0x20 ≤ c ∧ c ≤ 0x7E) :
    emsh_task cfg exec s c = some { s with ctlseq := { s.ctlseq with st := .INIT } } ∧
    ∀ s', emsh_task cfg exec s c = some s' →
      s'.hist = s.hist ∧ s'.buf = s.buf ∧ emsh_buf_line s' = emsh_buf_line s ∧
        s'.out = s.out ∧ s'.execs = s.execs := by
  have hcap := H.2.2.2.1
  have he : emsh_task cfg exec s c =
      some { s with ctlseq := { s.ctlseq with st := .INIT } } := by
    rw [emsh_task_init cfg exec s c hst (by omega), emsh_task_key_print cfg exec _ c hch]
    have hroom : ¬ s.buf.array.size < s.buf.array.capacity := by
      rw [hcap, hfull]
      exact Nat.lt_irrefl _
    simp only [emsh_do_insert, emsh_buf_size, emsh_buf_capacity, bytearray_size,
      bytearray_capacity, hroom, if_false]
    rfl
  refine ⟨he, ?_⟩
  intro s' hs'
  rw [he] at hs'
  cases hs'
  exact ⟨rfl, rfl, rfl, rfl, rfl⟩

theorem emsh_insert_full_line_witness :
    emsh_task {} emsh_exec_none (emsh_sample (List.replicate 77 0x61)) 0x62 =
      some { emsh_sample (List.replicate 77 0x61) with
        ctlseq := { (emsh_sample (List.replicate 77 0x61)).ctlseq with st := .INIT } } ∧
    ∀ s', emsh_task {} emsh_exec_none (emsh_sample (List.replicate 77 0x61)) 0x62 = some s' →
      s'.hist = (emsh_sample (List.replicate 77 0x61)).hist ∧
        s'.buf = (emsh_sample (List.replicate 77 0x61)).buf ∧
        emsh_buf_line s' = emsh_buf_line (emsh_sample (List.replicate 77 0x61)) ∧
        s'.out = (emsh_sample (List.replicate 77 0x61)).out ∧
        s'.execs = (emsh_sample (List.replicate 77 0x61)).execs :=
  emsh_insert_full_line {} emsh_exec_none (emsh_sample (List.replicate 77 0x61)) [0] [1] 0x62
    emsh_line_full_inv (Or.inl rfl) (by simp [emsh_sample]) (by decide)

/-- The effect of `emsh_do_bs` when the caret is not at the start of the line. -/
theorem emsh_do_bs_eq (cfg : emsh_tunables) (s : emsh_t) (al fl : List Nat)
    (H : emsh_inv cfg s al fl) (hpos : 0 < s.buf.pos) :
    ∃ m', emsh_do_bs cfg s = some { s with
        buf := ⟨{ s.buf.array with size := s.buf.array.size - 1 }, s.buf.pos - 1⟩,
        hist := { s.hist with mem := m' },
        out := s.out ++ [0x1B, 0x5B, 0x44] ++ emsh_seq_el ++ (emsh_buf_line s).drop s.buf.pos ++
          emsh_seq_cub (s.buf.array.size - s.buf.pos) } ∧
      emsh_line m' s.buf.array.data (s.buf.array.size - 1) =
        (emsh_buf_line s).take (s.buf.pos - 1) ++ (emsh_buf_line s).drop s.buf.pos ∧
      (∀ b i, b ≠ s.buf.array.data → m' b i = s.hist.mem b i) ∧
      emsh_text_ok cfg (m' s.buf.array.data) (s.buf.array.size - 1) := by
  have hle := H.2.2.2.2.2.2
  have H1 : emsh_inv cfg { s with
      buf := { s.buf with pos := s.buf.pos - 1 },
      out := s.out ++ [0x1B, 0x5B, 0x44] } al fl :=
    emsh_inv_frame cfg s _ al fl H rfl rfl (by show s.buf.pos - 1 ≤ _; omega)
  obtain ⟨m', he, hline, hfr, htx⟩ := emsh_do_erase_eq cfg _ al fl H1
    (by show s.buf.pos - 1 < s.buf.array.size; omega)
  have e1 : s.buf.pos - 1 + 1 = s.buf.pos := by omega
  refine ⟨m', ?_, ?_, hfr, htx⟩
  · simp only [emsh_do_bs, emsh_buf_pos, gt_iff_lt, hpos, if_true, emsh_do_cub_eq s hpos,
      Option.bind_eq_bind, Option.some_bind]
    rw [he]
    simp only [e1]
    rfl
  · simp only [e1] at hline
    exact hline

end Emsh

namespace Emsh

/-- C26: for every engine state with control state `INIT` or `FINAL`, feeding BS
(0x08) or DEL (0x7F) to `emsh_task` returns; if the caret is not at the start, the
byte before the caret is removed, the caret decreases by one and the bytes written
are `CSI D`, `CSI K`, the text after the new caret and the cursor-back sequence for
the length of that text; if the caret is at the start, nothing is written and the
state is as before, with control state `INIT`. From the empty line the bytes `a`,
`b`, BS, LF run the executor on `argv = ["a"]`, and the echo holds `CSI K` after the
`CSI D` of the backspace. -/
theorem emsh_backspace (cfg : emsh_tunables) (exec : emsh_exec_t) (s : emsh_t)
    (al fl : List Nat) (c : Nat) (H : emsh_inv cfg s al fl)
    (hst : s.ctlseq.st = .INIT ∨ s.ctlseq.st = .FINAL)
    (hc : c = ASCII_C_BS ∨ c = ASCII_C_DEL) :
    (∃ s', emsh_task cfg exec s c = some s' ∧ emsh_inv cfg s' al fl ∧
      (0 < s.buf.pos →
        emsh_buf_line s' =
          (emsh_buf_line s).take (s.buf.pos - 1) ++ (emsh_buf_line s).drop s.buf.pos ∧
        s'.buf.pos = s.buf.pos - 1 ∧
        s'.out = s.out ++ [0x1B, 0x5B, 0x44] ++ emsh_seq_el ++
          (emsh_buf_line s).drop s.buf.pos ++
          emsh_seq_cub ((emsh_buf_line s).length - s.buf.pos)) ∧
      (s.buf.pos = 0 → s' = { s with ctlseq := { s.ctlseq with st := .INIT } })) ∧
    (emsh_feed {} emsh_exec_none (emsh_sample []) [0x61, 0x62, 0x08, 0x0A]).map
        (fun t => (t.execs, t.out)) =
      some ([(1, [[0x61]])],
        [0x61, 0x1B, 0x5B, 0x4B, 0x62, 0x1B, 0x5B, 0x4B, 0x1B, 0x5B, 0x44, 0x1B, 0x5B, 0x4B,
          0x0A, 0x3E, 0x20]) := by
  refine ⟨?_, by decide⟩
  have H0 : emsh_inv cfg { s with ctlseq := { s.ctlseq with st := .INIT } } al fl :=
    emsh_inv_ctlseq cfg s _ al fl H
  have hne : c ≠ 0x1B := by
    rcases hc with rfl | rfl <;> decide
  have hll : (emsh_buf_line s).length = s.buf.array.size := by
    simp only [emsh_buf_line, emsh_line_length]
  rw [emsh_task_init cfg exec s c hst hne, emsh_task_key_bs cfg exec _ c hc]
  by_cases hpos : 0 < s.buf.pos
  · obtain ⟨m', he, hline, hfr, htx⟩ := emsh_do_bs_eq cfg
      { s with ctlseq := { s.ctlseq with st := .INIT } } al fl H0 hpos
    refine ⟨_, he, ?_, ?_, ?_⟩
    · exact emsh_inv_mem_update cfg _ _ al fl m' (s.buf.array.size - 1) (s.buf.pos - 1) H0 hfr
        htx (by have := H.2.2.2.2.2.2; omega) rfl rfl
    · intro _
      refine ⟨hline, rfl, ?_⟩
      rw [hll]
      rfl
    · intro h0
      omega
  · have he : emsh_do_bs cfg { s with ctlseq := { s.ctlseq with st := .INIT } } =
        some { s with ctlseq := { s.ctlseq with st := .INIT } } := by
      simp only [emsh_do_bs, emsh_buf_pos, gt_iff_lt, hpos, if_false]
      rfl
    refine ⟨_, he, H0, ?_, ?_⟩
    · intro h
      exact absurd h hpos
    · intro _
      rfl

theorem emsh_backspace_witness :
    (∃ s', emsh_task {} emsh_exec_none emsh_nav_sample 0x7F = some s' ∧
      emsh_inv {} s' [1, 0] [] ∧
      (0 < emsh_nav_sample.buf.pos →
        emsh_buf_line s' =
          (emsh_buf_line emsh_nav_sample).take (emsh_nav_sample.buf.pos - 1) ++
            (emsh_buf_line emsh_nav_sample).drop emsh_nav_sample.buf.pos ∧
        s'.buf.pos = emsh_nav_sample.buf.pos - 1 ∧
        s'.out = emsh_nav_sample.out ++ [0x1B, 0x5B, 0x44] ++ emsh_seq_el ++
          (emsh_buf_line emsh_nav_sample).drop emsh_nav_sample.buf.pos ++
          emsh_seq_cub ((emsh_buf_line emsh_nav_sample).length - emsh_nav_sample.buf.pos)) ∧
      (emsh_nav_sample.buf.pos = 0 →
        s' = { emsh_nav_sample with ctlseq := { emsh_nav_sample.ctlseq with st := .INIT } })) ∧
    (emsh_feed {} emsh_exec_none (emsh_sample []) [0x61, 0x62, 0x08, 0x0A]).map
        (fun t => (t.execs, t.out)) =
      some ([(1, [[0x61]])],
        [0x61, 0x1B, 0x5B, 0x4B, 0x62, 0x1B, 0x5B, 0x4B, 0x1B, 0x5B, 0x44, 0x1B, 0x5B, 0x4B,
          0x0A, 0x3E, 0x20]) :=
  emsh_backspace {} emsh_exec_none emsh_nav_sample [1, 0] [] 0x7F emsh_nav_sample_inv
    (Or.inl rfl) (Or.inr rfl)

end Emsh

namespace Emsh

/-! ## emsh.c: control sequences -/

theorem emsh_task_esc (cfg : emsh_tunables) (exec : emsh_exec_t) (s : emsh_t)
    (hst : s.ctlseq.st = .INIT ∨ s.ctlseq.st = .FINAL) :
    emsh_task cfg exec s 0x1B = some { s with ctlseq := ⟨.ESC, 0x00, 0x00⟩ } := by
  obtain ⟨r, hi, b, ⟨st, pb, ib⟩, cm, a1, a2, a3, a4, o, e⟩ := s
  simp only at hst
  rcases hst with rfl | rfl <;> rfl

theorem emsh_task_csi (cfg : emsh_tunables) (exec : emsh_exec_t) (s : emsh_t) (pb ib : Nat) :
    emsh_task cfg exec { s with ctlseq := ⟨.ESC, pb, ib⟩ } 0x5B =
      some { s with ctlseq := ⟨.CSI, pb, ib⟩ } := rfl

theorem emsh_task_param_first (cfg : emsh_tunables) (exec : emsh_exec_t) (s : emsh_t)
    (pb ib p : Nat) (hp : 0x30 ≤ p ∧ p ≤ 0x3F) :
    emsh_task cfg exec { s with ctlseq := ⟨.CSI, pb, ib⟩ } p =
      some { s with ctlseq := ⟨.PARAM, p, ib⟩ } := by
  simp [emsh_task, ctlseq_sm, ctlseq_sm_body, ctlseq_is_param_byte, hp.1, hp.2]

theorem emsh_task_param_next (cfg : emsh_tunables) (exec : emsh_exec_t) (s : emsh_t)
    (pb ib p : Nat) (hp : 0x30 ≤ p ∧ p ≤ 0x3F) :
    emsh_task cfg exec { s with ctlseq := ⟨.PARAM, pb, ib⟩ } p =
      some { s with ctlseq := ⟨.PARAM, 0xFF, ib⟩ } := by
  simp [emsh_task, ctlseq_sm, ctlseq_sm_body, ctlseq_is_param_byte, hp.1, hp.2]

theorem emsh_task_interm_first (cfg : emsh_tunables) (exec : emsh_exec_t) (s : emsh_t)
    (st : ctlseq_st_t) (pb ib i : Nat) (hi : 0x20 ≤ i ∧ i ≤ 0x2F)
    (hst : st = .CSI ∨ st = .PARAM) :
    emsh_task cfg exec { s with ctlseq := ⟨st, pb, ib⟩ } i =
      some { s with ctlseq := ⟨.INTERM, pb, i⟩ } := by
  have h1 : ¬ 0x30 ≤ i := by omega
  rcases hst with rfl | rfl <;>
    simp [emsh_task, ctlseq_sm, ctlseq_sm_body, ctlseq_is_param_byte, ctlseq_is_interm_byte,
      hi.1, hi.2, h1]

theorem emsh_task_interm_next (cfg : emsh_tunables) (exec : emsh_exec_t) (s : emsh_t)
    (pb ib i : Nat) (hi : 0x20 ≤ i ∧ i ≤ 0x2F) :
    emsh_task cfg exec { s with ctlseq := ⟨.INTERM, pb, ib⟩ } i =
      some { s with ctlseq := ⟨.INTERM, pb, 0xFF⟩ } := by
  simp [emsh_task, ctlseq_sm, ctlseq_sm_body, ctlseq_is_interm_byte, hi.1, hi.2]

theorem emsh_task_final_byte (cfg : emsh_tunables) (exec : emsh_exec_t) (s : emsh_t)
    (st : ctlseq_st_t) (pb ib f : Nat) (hf : 0x40 ≤ f ∧ f ≤ 0x7E)
    (hst : st = .CSI ∨ st = .PARAM ∨ st = .INTERM) :
    emsh_task cfg exec { s with ctlseq := ⟨st, pb, ib⟩ } f =
      emsh_task_final cfg { s with ctlseq := ⟨.FINAL, pb, ib⟩ } f := by
  have h1 : ¬ f ≤ 0x3F := by omega
  have h2 : ¬ f ≤ 0x2F := by omega
  rcases hst with rfl | rfl | rfl <;>
    simp [emsh_task, ctlseq_sm, ctlseq_sm_body, ctlseq_is_param_byte, ctlseq_is_interm_byte,
      ctlseq_is_final_byte, hf.1, hf.2, h1, h2]

theorem emsh_feed_params_next (cfg : emsh_tunables) (exec : emsh_exec_t) (s : emsh_t)
    (ib : Nat) : ∀ (ps : List Nat) (pb : Nat), ps ≠ [] → (∀ p ∈ ps, 0x30 ≤ p ∧ p ≤ 0x3F) →
      emsh_feed cfg exec { s with ctlseq := ⟨.PARAM, pb, ib⟩ } ps =
        some { s with ctlseq := ⟨.PARAM, 0xFF, ib⟩ }
  | [], _, h, _ => absurd rfl h
  | p :: ps, pb, _, hps => by
    have hp := hps p (List.mem_cons_self _ _)
    simp only [emsh_feed, emsh_task_param_next cfg exec s pb ib p hp, Option.some_bind]
    cases ps with
    | nil => rfl
    | cons q qs =>
      exact emsh_feed_params_next cfg exec s ib (q :: qs) 0xFF (List.cons_ne_nil _ _)
        (fun x hx => hps x (List.mem_cons_of_mem _ hx))

theorem emsh_feed_params (cfg : emsh_tunables) (exec : emsh_exec_t) (s : emsh_t)
    (ib : Nat) (ps : List Nat) (hps : ∀ p ∈ ps, 0x30 ≤ p ∧ p ≤ 0x3F) :
    emsh_feed cfg exec { s with ctlseq := ⟨.CSI, 0x00, ib⟩ } ps =
      some { s with ctlseq := ⟨if ps = [] then .CSI else .PARAM, emsh_first_byte ps, ib⟩ } := by
  cases ps with
  | nil => rfl
  | cons p ps =>
    have hp := hps p (List.mem_cons_self _ _)
    simp only [emsh_feed, emsh_task_param_first cfg exec s 0x00 ib p hp, Option.some_bind]
    cases ps with
    | nil => rfl
    | cons q qs =>
      rw [emsh_feed_params_next cfg exec s ib (q :: qs) p (List.cons_ne_nil _ _)
        (fun x hx => hps x (List.mem_cons_of_mem _ hx))]
      rfl

theorem emsh_feed_interms_next (cfg : emsh_tunables) (exec : emsh_exec_t) (s : emsh_t)
    (pb : Nat) : ∀ (ints : List Nat) (ib : Nat), ints ≠ [] →
      (∀ i ∈ ints, 0x20 ≤ i ∧ i ≤ 0x2F) →
      emsh_feed cfg exec { s with ctlseq := ⟨.INTERM, pb, ib⟩ } ints =
        some { s with ctlseq := ⟨.INTERM, pb, 0xFF⟩ }
  | [], _, h, _ => absurd rfl h
  | i :: ints, ib, _, his => by
    have hi := his i (List.mem_cons_self _ _)
    simp only [emsh_feed, emsh_task_interm_next cfg exec s pb ib i hi, Option.some_bind]
    cases ints with
    | nil => rfl
    | cons q qs =>
      exact emsh_feed_interms_next cfg exec s pb (q :: qs) 0xFF (List.cons_ne_nil _ _)
        (fun x hx => his x (List.mem_cons_of_mem _ hx))

theorem emsh_feed_interms (cfg : emsh_tunables) (exec : emsh_exec_t) (s : emsh_t)
    (st : ctlseq_st_t) (pb : Nat) (ints : List Nat) (hst : st = .CSI ∨ st = .PARAM)
    (his : ∀ i ∈ ints, 0x20 ≤ i ∧ i ≤ 0x2F) :
    emsh_feed cfg exec { s with ctlseq := ⟨st, pb, 0x00⟩ } ints =
      some { s with ctlseq := ⟨if ints = [] then st else .INTERM, pb, emsh_first_byte ints⟩ } := by
  cases ints with
  | nil => rfl
  | cons i ints =>
    have hi := his i (List.mem_cons_self _ _)
    simp only [emsh_feed, emsh_task_interm_first cfg exec s st pb 0x00 i hi hst,
      Option.some_bind]
    cases ints with
    | nil => rfl
    | cons q qs =>
      rw [emsh_feed_interms_next cfg exec s pb (q :: qs) i (List.cons_ne_nil _ _)
        (fun x hx => his x (List.mem_cons_of_mem _ hx))]
      rfl

/-- Feeding a completed control sequence from control state `INIT` or `FINAL` runs
the `case CTLSEQ_EV_FINAL` of `emsh_task` on the final byte, with the first parameter
byte and the first intermediate byte recorded as `emsh_first_byte` says. -/
theorem emsh_feed_csi (cfg : emsh_tunables) (exec : emsh_exec_t) (s : emsh_t)
    (ps ints : List Nat) (f : Nat) (hst : s.ctlseq.st = .INIT ∨ s.ctlseq.st = .FINAL)
    (hps : ∀ p ∈ ps, 0x30 ≤ p ∧ p ≤ 0x3F) (his : ∀ i ∈ ints, 0x20 ≤ i ∧ i ≤ 0x2F)
    (hf : 0x40 ≤ f ∧ f ≤ 0x7E) :
    emsh_feed cfg exec s (csi_seq ps ints f) = emsh_task_final cfg (emsh_at_final s ps ints) f := by
  have e0 : csi_seq ps ints f = 0x1B :: 0x5B :: (ps ++ (ints ++ [f])) := by
    simp [csi_seq]
  rw [e0]
  simp only [emsh_feed, emsh_task_esc cfg exec s hst, Option.some_bind]
  have e1 : emsh_task cfg exec { s with ctlseq := ⟨.ESC, 0x00, 0x00⟩ } 0x5B =
      some { s with ctlseq := ⟨.CSI, 0x00, 0x00⟩ } := emsh_task_csi cfg exec s 0 0
  rw [e1, Option.some_bind, emsh_feed_append, emsh_feed_params cfg exec s 0x00 ps hps,
    Option.some_bind, emsh_feed_append]
  have hst2 : (if ps = [] then ctlseq_st_t.CSI else ctlseq_st_t.PARAM) = .CSI ∨
      (if ps = [] then ctlseq_st_t.CSI else ctlseq_st_t.PARAM) = .PARAM := by
    split_ifs
    · exact Or.inl rfl
    · exact Or.inr rfl
  rw [emsh_feed_interms cfg exec s _ (emsh_first_byte ps) ints hst2 his, Option.some_bind,
    emsh_feed_single]
  apply emsh_task_final_byte cfg exec s _ _ _ f hf
  split_ifs
  · exact Or.inl rfl
  · exact Or.inr (Or.inl rfl)
  · exact Or.inr (Or.inr rfl)

end Emsh

namespace Emsh

theorem emsh_first_byte_interm (ints : List Nat) (hne : ints ≠ [])
    (his : ∀ i ∈ ints, 0x20 ≤ i ∧ i ≤ 0x2F) : emsh_first_byte ints ≠ 0x00 := by
  cases ints with
  | nil => exact absurd rfl hne
  | cons i ints =>
    cases ints with
    | nil =>
      have := his i (List.mem_cons_self _ _)
      simp only [emsh_first_byte]
      omega
    | cons j js =>
      simp [emsh_first_byte]

theorem emsh_first_byte_eq (ps : List Nat) (b : Nat) (hb : b ≠ 0x00 ∧ b ≠ 0xFF) :
    emsh_first_byte ps = b ↔ ps = [b] := by
  cases ps with
  | nil =>
    simp only [emsh_first_byte]
    constructor
    · intro h
      exact absurd h.symm hb.1
    · intro h
      cases h
  | cons p ps =>
    cases ps with
    | nil => simp [emsh_first_byte]
    | cons q qs =>
      simp only [emsh_first_byte]
      constructor
      · intro h
        exact absurd h.symm hb.2
      · intro h
        simp at h

theorem emsh_task_final_interm (cfg : emsh_tunables) (s : emsh_t) (f : Nat)
    (h : s.ctlseq.interm_byte ≠ 0x00) : emsh_task_final cfg s f = some s := by
  unfold emsh_task_final
  rw [if_neg h]
  rfl

theorem emsh_task_final_tilde (cfg : emsh_tunables) (s : emsh_t)
    (h : s.ctlseq.interm_byte = 0x00) :
    emsh_task_final cfg s 0x7E =
      if s.ctlseq.param_byte = 0x31 then emsh_do_sol cfg s
      else if s.ctlseq.param_byte = 0x32 then some s
      else if s.ctlseq.param_byte = 0x33 then emsh_do_erase cfg s
      else if s.ctlseq.param_byte = 0x34 then emsh_do_eol cfg s
      else some s := by
  unfold emsh_task_final
  rw [if_pos h, if_neg (by decide), if_neg (by decide), if_neg (by decide), if_neg (by decide),
    if_pos rfl]
  rfl

/-- C27: for every engine state with control state `INIT` or `FINAL`, feeding a
completed control sequence `ESC [ ps ints f` returns. Without intermediate bytes and
whatever the parameter bytes `ps`, final byte `A` runs `emsh_do_cuu` (history-backward,
then the full-line refresh) and `C` runs `emsh_do_cuf` (caret-right); final byte `~`
runs caret-home, nothing, erase-at-caret or caret-end when `ps` is exactly the single
byte `1`, `2`, `3` or `4`, and nothing for every other `ps`; with an intermediate byte
nothing is done for any final byte. The actions start from the state with control
state `FINAL`. -/
theorem emsh_csi_actions (cfg : emsh_tunables) (exec : emsh_exec_t) (s : emsh_t)
    (al fl : List Nat) (ps ints : List Nat) (f : Nat) (hL : 1 ≤ cfg.EMSH_MAX_LINE_SIZE)
    (H : emsh_inv cfg s al fl) (hst : s.ctlseq.st = .INIT ∨ s.ctlseq.st = .FINAL)
    (hps : ∀ p ∈ ps, 0x30 ≤ p ∧ p ≤ 0x3F) (his : ∀ i ∈ ints, 0x20 ≤ i ∧ i ≤ 0x2F)
    (hf : 0x40 ≤ f ∧ f ≤ 0x7E) :
    (∃ s' al' fl', emsh_feed cfg exec s (csi_seq ps ints f) = some s' ∧
      emsh_inv cfg s' al' fl') ∧
    emsh_feed cfg exec s (csi_seq ps [] 0x41) = emsh_do_cuu cfg (emsh_at_final s ps []) ∧
    emsh_feed cfg exec s (csi_seq ps [] 0x43) = emsh_do_cuf (emsh_at_final s ps []) ∧
    (ps = [0x31] →
      emsh_feed cfg exec s (csi_seq ps [] 0x7E) = emsh_do_sol cfg (emsh_at_final s ps [])) ∧
    (ps = [0x32] →
      emsh_feed cfg exec s (csi_seq ps [] 0x7E) = some (emsh_at_final s ps [])) ∧
    (ps = [0x33] →
      emsh_feed cfg exec s (csi_seq ps [] 0x7E) = emsh_do_erase cfg (emsh_at_final s ps [])) ∧
    (ps = [0x34] →
      emsh_feed cfg exec s (csi_seq ps [] 0x7E) = emsh_do_eol cfg (emsh_at_final s ps [])) ∧
    (ps ≠ [0x31] → ps ≠ [0x32] → ps ≠ [0x33] → ps ≠ [0x34] →
      emsh_feed cfg exec s (csi_seq ps [] 0x7E) = some (emsh_at_final s ps [])) ∧
    (ints ≠ [] → emsh_feed cfg exec s (csi_seq ps ints f) = some (emsh_at_final s ps ints)) := by
  have hn : ∀ i ∈ ([] : List Nat), 0x20 ≤ i ∧ i ≤ 0x2F := fun i hi => by simp at hi
  have ht := emsh_task_final_tilde cfg (emsh_at_final s ps []) rfl
  have hpb : (emsh_at_final s ps []).ctlseq.param_byte = emsh_first_byte ps := rfl
  rw [hpb] at ht
  refine ⟨emsh_feed_inv cfg exec hL _ s al fl H, ?_, ?_, ?_, ?_, ?_, ?_, ?_, ?_⟩
  · rw [emsh_feed_csi cfg exec s ps [] 0x41 hst hps hn (by decide)]
    rfl
  · rw [emsh_feed_csi cfg exec s ps [] 0x43 hst hps hn (by decide)]
    rfl
  · intro h
    rw [emsh_feed_csi cfg exec s ps [] 0x7E hst hps hn (by decide), ht,
      if_pos ((emsh_first_byte_eq ps 0x31 (by decide)).mpr h)]
  · intro h
    rw [emsh_feed_csi cfg exec s ps [] 0x7E hst hps hn (by decide), ht]
    subst h
    rfl
  · intro h
    rw [emsh_feed_csi cfg exec s ps [] 0x7E hst hps hn (by decide), ht]
    subst h
    rfl
  · intro h
    rw [emsh_feed_csi cfg exec s ps [] 0x7E hst hps hn (by decide), ht]
    subst h
    rfl
  · intro h1 h2 h3 h4
    rw [emsh_feed_csi cfg exec s ps [] 0x7E hst hps hn (by decide), ht,
      if_neg (fun h => h1 ((emsh_first_byte_eq ps 0x31 (by decide)).mp h)),
      if_neg (fun h => h2 ((emsh_first_byte_eq ps 0x32 (by decide)).mp h)),
      if_neg (fun h => h3 ((emsh_first_byte_eq ps 0x33 (by decide)).mp h)),
      if_neg (fun h => h4 ((emsh_first_byte_eq ps 0x34 (by decide)).mp h))]
  · intro hne
    rw [emsh_feed_csi cfg exec s ps ints f hst hps his hf]
    exact emsh_task_final_interm cfg _ f (emsh_first_byte_interm ints hne his)

theorem emsh_csi_actions_witness :
    (∃ s' al' fl', emsh_feed {} emsh_exec_none emsh_nav_sample (csi_seq [0x33] [0x20] 0x7E) =
        some s' ∧ emsh_inv {} s' al' fl') ∧
    emsh_feed {} emsh_exec_none emsh_nav_sample (csi_seq [0x33] [] 0x41) =
      emsh_do_cuu {} (emsh_at_final emsh_nav_sample [0x33] []) ∧
    emsh_feed {} emsh_exec_none emsh_nav_sample (csi_seq [0x33] [] 0x43) =
      emsh_do_cuf (emsh_at_final emsh_nav_sample [0x33] []) ∧
    (([0x33] : List Nat) = [0x31] →
      emsh_feed {} emsh_exec_none emsh_nav_sample (csi_seq [0x33] [] 0x7E) =
        emsh_do_sol {} (emsh_at_final emsh_nav_sample [0x33] [])) ∧
    (([0x33] : List Nat) = [0x32] →
      emsh_feed {} emsh_exec_none emsh_nav_sample (csi_seq [0x33] [] 0x7E) =
        some (emsh_at_final emsh_nav_sample [0x33] [])) ∧
    (([0x33] : List Nat) = [0x33] →
      emsh_feed {} emsh_exec_none emsh_nav_sample (csi_seq [0x33] [] 0x7E) =
        emsh_do_erase {} (emsh_at_final emsh_nav_sample [0x33] [])) ∧
    (([0x33] : List Nat) = [0x34] →
      emsh_feed {} emsh_exec_none emsh_nav_sample (csi_seq [0x33] [] 0x7E) =
        emsh_do_eol {} (emsh_at_final emsh_nav_sample [0x33] [])) ∧
    (([0x33] : List Nat) ≠ [0x31] → ([0x33] : List Nat) ≠ [0x32] →
      ([0x33] : List Nat) ≠ [0x33] → ([0x33] : List Nat) ≠ [0x34] →
      emsh_feed {} emsh_exec_none emsh_nav_sample (csi_seq [0x33] [] 0x7E) =
        some (emsh_at_final emsh_nav_sample [0x33] [])) ∧
    (([0x20] : List Nat) ≠ [] →
      emsh_feed {} emsh_exec_none emsh_nav_sample (csi_seq [0x33] [0x20] 0x7E) =
        some (emsh_at_final emsh_nav_sample [0x33] [0x20])) :=
  emsh_csi_actions {} emsh_exec_none emsh_nav_sample [1, 0] [] [0x33] [0x20] 0x7E (by decide)
    emsh_nav_sample_inv (Or.inl rfl) (by decide) (by decide) (by decide)

/-- C28 as stated fails: on the line `ls` with the caret after the `l`, the sequence
`ESC [ D` moves the caret left and writes `CSI D`, which is not what history-forward
with a full-line refresh does there, and `ESC [ B` redraws the line, which is not
what caret-left does there. -/
theorem emsh_csi_final_D_B_counterexample :
    emsh_inv {} emsh_nav_sample [1, 0] [] ∧ emsh_nav_sample.ctlseq.st = .INIT ∧
    (emsh_feed {} emsh_exec_none emsh_nav_sample (csi_seq [] [] 0x44)).map
        (fun t => (t.out, t.buf.pos)) = some ([0x1B, 0x5B, 0x44], 0) ∧
    (emsh_do_cud {} (emsh_at_final emsh_nav_sample [] [])).map
        (fun t => (t.out, t.buf.pos)) =
      some ([0x0D, 0x1B, 0x5B, 0x4B, 0x3E, 0x20, 0x6C, 0x73], 2) ∧
    (emsh_feed {} emsh_exec_none emsh_nav_sample (csi_seq [] [] 0x42)).map
        (fun t => (t.out, t.buf.pos)) =
      some ([0x0D, 0x1B, 0x5B, 0x4B, 0x3E, 0x20, 0x6C, 0x73], 2) ∧
    (emsh_do_cub (emsh_at_final emsh_nav_sample [] [])).map
        (fun t => (t.out, t.buf.pos)) = some ([0x1B, 0x5B, 0x44], 0) ∧
    (emsh_feed {} emsh_exec_none emsh_nav_sample (csi_seq [] [] 0x44)).map (fun t => t.out) ≠
      (emsh_do_cud {} (emsh_at_final emsh_nav_sample [] [])).map (fun t => t.out) ∧
    (emsh_feed {} emsh_exec_none emsh_nav_sample (csi_seq [] [] 0x42)).map (fun t => t.out) ≠
      (emsh_do_cub (emsh_at_final emsh_nav_sample [] [])).map (fun t => t.out) :=
  ⟨emsh_nav_sample_inv, rfl, by decide, by decide, by decide, by decide, by decide, by decide⟩

/-- C28 (amended): for every completed control sequence with no intermediate byte
and any parameter bytes, fed from control state `INIT` or `FINAL`, final byte `B`
(`CTLSEQ_C_CUD`) runs `emsh_do_cud`, history-forward followed by the full-line
refresh, and final byte `D` (`CTLSEQ_C_CUB`) runs `emsh_do_cub`, caret-left. -/
theorem emsh_csi_final_B_D (cfg : emsh_tunables) (exec : emsh_exec_t) (s : emsh_t)
    (ps : List Nat) (hst : s.ctlseq.st = .INIT ∨ s.ctlseq.st = .FINAL)
    (hps : ∀ p ∈ ps, 0x30 ≤ p ∧ p ≤ 0x3F) :
    emsh_feed cfg exec s (csi_seq ps [] 0x42) = emsh_do_cud cfg (emsh_at_final s ps []) ∧
    emsh_feed cfg exec s (csi_seq ps [] 0x44) = emsh_do_cub (emsh_at_final s ps []) := by
  have hn : ∀ i ∈ ([] : List Nat), 0x20 ≤ i ∧ i ≤ 0x2F := fun i hi => by simp at hi
  constructor
  · rw [emsh_feed_csi cfg exec s ps [] 0x42 hst hps hn (by decide)]
    rfl
  · rw [emsh_feed_csi cfg exec s ps [] 0x44 hst hps hn (by decide)]
    rfl

theorem emsh_csi_final_B_D_witness :
    emsh_feed {} emsh_exec_none emsh_nav_sample (csi_seq [0x31, 0x3B, 0x35] [] 0x42) =
      emsh_do_cud {} (emsh_at_final emsh_nav_sample [0x31, 0x3B, 0x35] []) ∧
    emsh_feed {} emsh_exec_none emsh_nav_sample (csi_seq [0x31, 0x3B, 0x35] [] 0x44) =
      emsh_do_cub (emsh_at_final emsh_nav_sample [0x31, 0x3B, 0x35] []) :=
  emsh_csi_final_B_D {} emsh_exec_none emsh_nav_sample [0x31, 0x3B, 0x35] (Or.inl rfl)
    (by decide)

end Emsh

namespace Emsh

/-! ## emsh.c: cursor-back and cursor-down -/

/-- The effect of `emsh_disp_refresh_line`: the line buffer is rebound to the block
`c` under the history cursor, with the caret at the end, and the bytes written are CR,
`CSI K`, the prompt and the whole line. -/
theorem emsh_disp_refresh_line_eq (cfg : emsh_tunables) (s : emsh_t) (c n : Nat)
    (hL : 1 ≤ cfg.EMSH_MAX_LINE_SIZE) (hcur : s.hist.cur = some (.block c))
    (ht : emsh_text_ok cfg (s.hist.mem c) n) :
    emsh_disp_refresh_line cfg s = some { s with
      buf := ⟨⟨cfg.EMSH_MAX_LINE_SIZE, 0, n, c⟩, n⟩,
      out := s.out ++ [0x0D] ++ emsh_seq_el ++ c_lit cfg.EMSH_S_PROMPT ++
        emsh_line s.hist.mem c n } := by
  have hsl : mem_slice cfg s.hist.mem c 0 n = some (emsh_line s.hist.mem c n) := by
    simp only [mem_slice, emsh_line, Nat.zero_add]
    rw [if_pos (by have := ht.1; omega)]
  simp only [emsh_disp_refresh_line, emsh_hist_current, hcur,
    emsh_buf_init_spec cfg s.hist.mem c n hL ht, emsh_write_ctlseq_el, emsh_buf_size,
    emsh_buf_data, bytearray_size, bytearray_data, Option.bind_eq_bind, Option.some_bind,
    Option.pure_def]
  have e1 : (emsh_write_prompt cfg (emsh_write_str (emsh_write_cr
      { s with buf := ⟨⟨cfg.EMSH_MAX_LINE_SIZE, 0, n, c⟩, n⟩ }) [0x1B, 0x5B, 0x4B])).hist =
      s.hist := rfl
  have e2 : (emsh_write_prompt cfg (emsh_write_str (emsh_write_cr
      { s with buf := ⟨⟨cfg.EMSH_MAX_LINE_SIZE, 0, n, c⟩, n⟩ }) [0x1B, 0x5B, 0x4B])).buf =
      ⟨⟨cfg.EMSH_MAX_LINE_SIZE, 0, n, c⟩, n⟩ := rfl
  rw [e1, e2, hsl]
  have ht' : (emsh_line s.hist.mem c n).take n = emsh_line s.hist.mem c n :=
    List.take_of_length_le (by rw [emsh_line_length])
  have hc : c_lit [0x1B, 0x5B, 0x4B] = [0x1B, 0x5B, 0x4B] := by decide
  simp only [Option.some_bind, emsh_write_strn, emsh_write_prompt_eq, emsh_write_str_eq,
    emsh_write_cr, emsh_write_char, ht', ASCII_C_CR, emsh_seq_el, hc, List.append_assoc]

/-- The effect of `emsh_do_cud` on an engine state: the history cursor moves one
entry forward (towards the draft, staying there when already on it), the line
buffer is rebound to the entry under the cursor with the caret at its end, and the
bytes written are the full-line refresh: CR, `CSI K`, the prompt and that line. -/
theorem emsh_do_cud_out (cfg : emsh_tunables) (s : emsh_t) (al fl : List Nat)
    (hL : 1 ≤ cfg.EMSH_MAX_LINE_SIZE) (H : emsh_inv cfg s al fl) :
    ∃ s', emsh_do_cud cfg s = some s' ∧ emsh_inv cfg s' al fl ∧ s'.ctlseq = s.ctlseq ∧
      s'.hist = emsh_hist_at s.hist al (s.hist.pos - 1) ∧
      s'.buf.pos = s'.buf.array.size ∧
      s'.out = s.out ++ [0x0D] ++ emsh_seq_el ++ c_lit cfg.EMSH_S_PROMPT ++ emsh_buf_line s' ∧
      s'.execs = s.execs ∧ s'.running = s.running := by
  obtain ⟨s', he, hinv, hcs, hh⟩ := emsh_do_cud_at cfg s al fl hL H
  refine ⟨s', he, hinv, hcs, hh, ?_⟩
  obtain ⟨h', he', Hh, hm, _⟩ := emsh_hist_move_forward_inv s.hist al fl H.1
  obtain ⟨c, hc, hcur⟩ := emsh_hist_inv_cur h' al fl Hh
  obtain ⟨n, hn⟩ := H.2.1 c (List.getElem?_mem hc)
  have hn2 : emsh_text_ok cfg (({ s with hist := h' } : emsh_t).hist.mem c) n := by
    show emsh_text_ok cfg (h'.mem c) n
    rw [hm]
    exact hn
  have h2 := emsh_disp_refresh_line_eq cfg { s with hist := h' } c n hL hcur hn2
  have h3 : emsh_do_cud cfg s = emsh_disp_refresh_line cfg { s with hist := h' } := by
    simp only [emsh_do_cud, he', Option.bind_eq_bind, Option.some_bind]
  rw [h3, h2] at he
  cases he
  exact ⟨rfl, rfl, rfl, rfl⟩

end Emsh

namespace Emsh

/-- C29: final byte `D` is cursor-back and final byte `B` is cursor-down. For every
engine state with control state `INIT` or `FINAL` and caret > 0, feeding `ESC [ D`
moves the caret one position left and writes `CSI D`, leaving the text, the history
and its cursor as they were; feeding `ESC [ B` moves the history cursor one entry
forward and redraws the whole line (CR, `CSI K`, prompt, line; caret at the end).
From the empty line the bytes `a`, `c`, `ESC [ D`, `b`, LF run the executor on
`argv = ["abc"]`, the echo of `b` being followed by `CSI K`, `c`, `CSI D`. -/
theorem emsh_cursor_back_and_down (cfg : emsh_tunables) (exec : emsh_exec_t) (s : emsh_t)
    (al fl : List Nat) (hL : 1 ≤ cfg.EMSH_MAX_LINE_SIZE) (H : emsh_inv cfg s al fl)
    (hst : s.ctlseq.st = .INIT ∨ s.ctlseq.st = .FINAL) (hpos : 0 < s.buf.pos) :
    emsh_feed cfg exec s [0x1B, 0x5B, 0x44] = some { s with
      ctlseq := ⟨.FINAL, 0x00, 0x00⟩,
      buf := { s.buf with pos := s.buf.pos - 1 },
      out := s.out ++ [0x1B, 0x5B, 0x44] } ∧
    (∃ s', emsh_feed cfg exec s [0x1B, 0x5B, 0x42] = some s' ∧ emsh_inv cfg s' al fl ∧
      s'.hist = emsh_hist_at s.hist al (s.hist.pos - 1) ∧
      s'.buf.pos = s'.buf.array.size ∧
      s'.out = s.out ++ [0x0D] ++ emsh_seq_el ++ c_lit cfg.EMSH_S_PROMPT ++ emsh_buf_line s') ∧
    (emsh_feed {} emsh_exec_none (emsh_sample []) [0x61, 0x63, 0x1B, 0x5B, 0x44, 0x62, 0x0A]).map
        (fun t => (t.execs, t.out)) =
      some ([(1, [[0x61, 0x62, 0x63]])],
        [0x61, 0x1B, 0x5B, 0x4B, 0x63, 0x1B, 0x5B, 0x4B, 0x1B, 0x5B, 0x44,
          0x62, 0x1B, 0x5B, 0x4B, 0x63, 0x1B, 0x5B, 0x44, 0x0A, 0x3E, 0x20]) := by
  have hn : ∀ i ∈ ([] : List Nat), 0x20 ≤ i ∧ i ≤ 0x2F := fun i hi => by simp at hi
  have hp : ∀ p ∈ ([] : List Nat), 0x30 ≤ p ∧ p ≤ 0x3F := fun i hi => by simp at hi
  have eD := emsh_feed_csi cfg exec s [] [] 0x44 hst hp hn (by decide)
  have eB := emsh_feed_csi cfg exec s [] [] 0x42 hst hp hn (by decide)
  have hD : emsh_task_final cfg (emsh_at_final s [] []) 0x44 =
      emsh_do_cub (emsh_at_final s [] []) := rfl
  have hB : emsh_task_final cfg (emsh_at_final s [] []) 0x42 =
      emsh_do_cud cfg (emsh_at_final s [] []) := rfl
  refine ⟨?_, ?_, by decide⟩
  · show emsh_feed cfg exec s (csi_seq [] [] 0x44) = _
    rw [eD, hD, emsh_do_cub_eq (emsh_at_final s [] []) hpos]
    rfl
  · show ∃ s', emsh_feed cfg exec s (csi_seq [] [] 0x42) = some s' ∧ _
    rw [eB, hB]
    obtain ⟨s', he, hinv, _, hh, hp', ho, _, _⟩ := emsh_do_cud_out cfg (emsh_at_final s [] [])
      al fl hL (emsh_inv_ctlseq cfg s _ al fl H)
    exact ⟨s', he, hinv, hh, hp', ho⟩

theorem emsh_cursor_back_and_down_witness :
    emsh_feed {} emsh_exec_none emsh_nav_sample [0x1B, 0x5B, 0x44] = some { emsh_nav_sample with
      ctlseq := ⟨.FINAL, 0x00, 0x00⟩,
      buf := { emsh_nav_sample.buf with pos := emsh_nav_sample.buf.pos - 1 },
      out := emsh_nav_sample.out ++ [0x1B, 0x5B, 0x44] } ∧
    (∃ s', emsh_feed {} emsh_exec_none emsh_nav_sample [0x1B, 0x5B, 0x42] = some s' ∧
      emsh_inv {} s' [1, 0] [] ∧
      s'.hist = emsh_hist_at emsh_nav_sample.hist [1, 0] (emsh_nav_sample.hist.pos - 1) ∧
      s'.buf.pos = s'.buf.array.size ∧
      s'.out = emsh_nav_sample.out ++ [0x0D] ++ emsh_seq_el ++
        c_lit ({} : emsh_tunables).EMSH_S_PROMPT ++ emsh_buf_line s') ∧
    (emsh_feed {} emsh_exec_none (emsh_sample []) [0x61, 0x63, 0x1B, 0x5B, 0x44, 0x62, 0x0A]).map
        (fun t => (t.execs, t.out)) =
      some ([(1, [[0x61, 0x62, 0x63]])],
        [0x61, 0x1B, 0x5B, 0x4B, 0x63, 0x1B, 0x5B, 0x4B, 0x1B, 0x5B, 0x44,
          0x62, 0x1B, 0x5B, 0x4B, 0x63, 0x1B, 0x5B, 0x44, 0x0A, 0x3E, 0x20]) :=
  emsh_cursor_back_and_down {} emsh_exec_none emsh_nav_sample [1, 0] [] (by decide)
    emsh_nav_sample_inv (Or.inl rfl) (by decide)

end Emsh

namespace Emsh

/-! ## emsh.c: malformed control sequences -/

theorem ctlseq_sm_ilseq (st : ctlseq_st_t) (c : Nat)
    (h : (ctlseq_sm st c).2.1 = .ILSEQ) : (ctlseq_sm st c).1 = .INIT := by
  cases st <;> simp only [ctlseq_sm, ctlseq_sm_body] at h ⊢ <;> split_ifs at h ⊢ <;> rfl

theorem emsh_task_to_init (cfg : emsh_tunables) (exec : emsh_exec_t) (s : emsh_t) (c : Nat)
    (h : (ctlseq_sm s.ctlseq.st c).1 = .INIT) :
    emsh_task cfg exec s c =
      emsh_task_key cfg exec { s with ctlseq := { s.ctlseq with st := .INIT } } c := by
  simp only [emsh_task, h, if_true]

theorem emsh_task_key_inert (cfg : emsh_tunables) (exec : emsh_exec_t) (s : emsh_t) (c : Nat)
    (h : emsh_key_inert c) : emsh_task_key cfg exec s c = some s := by
  obtain ⟨e1, e2, e4, e5, e6, e14, e16⟩ := emsh_cntrl_vals
  simp only [emsh_task_key, ASCII_C_CR, ASCII_C_LF, ASCII_C_BS, ASCII_C_DEL, e1, e2, e4, e5, e6,
    e14, e16]
  by_cases h0 : c = 0x0D
  · rw [if_pos h0]
    rfl
  rcases h with h | ⟨h1, h2, h3, h4, h5, h6, h7, h8, h9, h10, h11⟩
  · exact absurd h h0
  · have hp : ascii_isprint c = false := by
      simp only [ascii_isprint, Bool.and_eq_false_iff, decide_eq_false_iff_not]
      omega
    rw [if_neg h0, if_neg h1, if_neg (by omega), if_neg h4, if_neg h5, if_neg h6,
      if_neg h7, if_neg h8, if_neg h9, if_neg h10, hp]
    rfl

/-- C30 as stated fails: in control state `ESC` on the line `ls` with the caret after
the `l`, the byte `x` is reported as `ILSEQ` and is then inserted and echoed, and the
byte LF is reported as `ILSEQ` and then commits the line and runs the executor. -/
theorem emsh_ilseq_counterexample :
    emsh_inv {} { emsh_nav_sample with ctlseq := ⟨.ESC, 0x00, 0x00⟩ } [1, 0] [] ∧
    (ctlseq_sm .ESC 0x78).2.1 = .ILSEQ ∧ (ctlseq_sm .ESC 0x0A).2.1 = .ILSEQ ∧
    (emsh_buf_line { emsh_nav_sample with ctlseq := ⟨.ESC, 0x00, 0x00⟩ },
      ({ emsh_nav_sample with ctlseq := ⟨.ESC, 0x00, 0x00⟩ } : emsh_t).buf.pos,
      ({ emsh_nav_sample with ctlseq := ⟨.ESC, 0x00, 0x00⟩ } : emsh_t).out,
      ({ emsh_nav_sample with ctlseq := ⟨.ESC, 0x00, 0x00⟩ } : emsh_t).execs) =
        ([0x6C, 0x73], 1, [], []) ∧
    (emsh_task {} emsh_exec_none { emsh_nav_sample with ctlseq := ⟨.ESC, 0x00, 0x00⟩ } 0x78).map
        (fun t => (emsh_buf_line t, t.buf.pos, t.out, t.ctlseq.st)) =
      some ([0x6C, 0x78, 0x73], 2, [0x78, 0x1B, 0x5B, 0x4B, 0x73, 0x1B, 0x5B, 0x44], .INIT) ∧
    (emsh_task {} emsh_exec_none { emsh_nav_sample with ctlseq := ⟨.ESC, 0x00, 0x00⟩ } 0x0A).map
        (fun t => (emsh_buf_line t, t.execs, t.out, t.hist.size)) =
      some ([], [(1, [[0x6C, 0x73]])], [0x0A, 0x3E, 0x20], 2) :=
  ⟨emsh_inv_ctlseq {} emsh_nav_sample _ [1, 0] [] emsh_nav_sample_inv, by decide, by decide,
    by decide, by decide, by decide⟩

/-- C30 (amended): for every engine state whose control state is `ESC`, `CSI`,
`PARAM` or `INTERM` and every byte on which `ctlseq_sm` reports `ILSEQ`, `emsh_task`
returns the control state to `INIT` and then handles that byte as the plain
keystroke it is in control state `INIT`; when the byte is no keystroke (CR, or
neither printable nor LF, BS, DEL, Ctrl-A, -B, -D, -E, -F, -N, -P; ESC is one), the
line, the caret, the history, the executor log and the bytes written are left as
they were and only the control state changes. -/
theorem emsh_ilseq_as_key (cfg : emsh_tunables) (exec : emsh_exec_t) (s : emsh_t) (c : Nat)
    (_hst : s.ctlseq.st = .ESC ∨ s.ctlseq.st = .CSI ∨ s.ctlseq.st = .PARAM ∨
      s.ctlseq.st = .INTERM)
    (hev : (ctlseq_sm s.ctlseq.st c).2.1 = .ILSEQ) :
    emsh_task cfg exec s c =
      emsh_task_key cfg exec { s with ctlseq := { s.ctlseq with st := .INIT } } c ∧
    (emsh_key_inert c →
      emsh_task cfg exec s c = some { s with ctlseq := { s.ctlseq with st := .INIT } }) := by
  have h := emsh_task_to_init cfg exec s c (ctlseq_sm_ilseq _ c hev)
  refine ⟨h, ?_⟩
  intro hk
  rw [h]
  exact emsh_task_key_inert cfg exec _ c hk

theorem emsh_ilseq_as_key_witness :
    emsh_task {} emsh_exec_none { emsh_nav_sample with ctlseq := ⟨.PARAM, 0x31, 0x00⟩ } 0x1B =
      emsh_task_key {} emsh_exec_none { emsh_nav_sample with
        ctlseq := { ({ emsh_nav_sample with ctlseq := ⟨.PARAM, 0x31, 0x00⟩ } : emsh_t).ctlseq with
          st := .INIT } } 0x1B ∧
    (emsh_key_inert 0x1B →
      emsh_task {} emsh_exec_none { emsh_nav_sample with ctlseq := ⟨.PARAM, 0x31, 0x00⟩ } 0x1B =
        some { emsh_nav_sample with
          ctlseq := { ({ emsh_nav_sample with ctlseq := ⟨.PARAM, 0x31, 0x00⟩ } : emsh_t).ctlseq with
            st := .INIT } }) :=
  emsh_ilseq_as_key {} emsh_exec_none { emsh_nav_sample with ctlseq := ⟨.PARAM, 0x31, 0x00⟩ }
    0x1B (Or.inr (Or.inr (Or.inl rfl))) (by decide)

end Emsh

namespace Emsh

/-! ## emsh.c: the cursor-move emitters -/

theorem emsh_write_ctlseq_cuf_eq (s : emsh_t) (n : Nat) :
    emsh_write_ctlseq_cuf s n = { s with out := s.out ++ emsh_seq_cuf n } := by
  unfold emsh_write_ctlseq_cuf emsh_seq_cuf
  by_cases h0 : n = 0
  · rw [if_pos h0, if_pos h0, emsh_out_nil]
  · rw [if_neg h0, if_neg h0]
    by_cases h1 : n = 1
    · rw [if_pos h1, if_pos h1]
      rfl
    · rw [if_neg h1, if_neg h1]
      simp only [emsh_write_ctlseq_1, emsh_write_strn, numcast10_impl_bw_eq n h0,
        CTLSEQ_C_CSI_1, CTLSEQ_C_CSI_2, List.take_length]
      rfl

/-- The effect of `emsh_cur_set_pos` for a position inside the line. -/
theorem emsh_cur_set_pos_eq (cfg : emsh_tunables) (s : emsh_t) (pos : Nat)
    (hpos : pos ≤ s.buf.array.size) :
    emsh_cur_set_pos cfg s pos = some { s with
      buf := { s.buf with pos := pos },
      out := s.out ++ [0x0D] ++ emsh_seq_cuf (c_strlen_lit cfg.EMSH_S_PROMPT + pos) } := by
  simp [emsh_cur_set_pos, emsh_buf_set_pos, c_assert, emsh_buf_size, bytearray_size, hpos,
    emsh_write_ctlseq_cuf_eq, emsh_write_cr, emsh_write_char, ASCII_C_CR]

theorem emsh_seq_digits (n : Nat) (hn : 2 ≤ n) :
    dec_canonical n (((Nat.digits 10 n).map (· + 0x30)).reverse) :=
  dec_canonical_digits n (by omega)

/-- C31: `emsh_write_ctlseq_cuf` and `emsh_write_ctlseq_cub` change nothing but the
output, to which they add nothing for `n = 0`, the bare `ESC [ C` (forward) or
`ESC [ D` (back) for `n = 1`, and `ESC [`, the canonical decimal digits of `n` and the
final byte for `n >= 2`. `emsh_cur_set_pos` for a position `pos <= length` sets the
caret to `pos` and writes CR followed by the cursor-forward sequence for the prompt
width plus `pos`; caret-home with the prompt `> ` writes CR, ESC, `[`, `2`, `C`. -/
theorem emsh_cursor_emitters (cfg : emsh_tunables) (s : emsh_t) (n pos : Nat)
    (hpos : pos ≤ s.buf.array.size) :
    emsh_write_ctlseq_cuf s n = { s with out := s.out ++ emsh_seq_cuf n } ∧
    emsh_write_ctlseq_cub s n = { s with out := s.out ++ emsh_seq_cub n } ∧
    emsh_seq_cuf 0 = [] ∧ emsh_seq_cub 0 = [] ∧
    emsh_seq_cuf 1 = [0x1B, 0x5B, 0x43] ∧ emsh_seq_cub 1 = [0x1B, 0x5B, 0x44] ∧
    (2 ≤ n → ∃ ds, dec_canonical n ds ∧ emsh_seq_cuf n = [0x1B, 0x5B] ++ ds ++ [0x43] ∧
      emsh_seq_cub n = [0x1B, 0x5B] ++ ds ++ [0x44]) ∧
    emsh_cur_set_pos cfg s pos = some { s with
      buf := { s.buf with pos := pos },
      out := s.out ++ [0x0D] ++ emsh_seq_cuf ((c_lit cfg.EMSH_S_PROMPT).length + pos) } ∧
    (emsh_do_sol {} (emsh_sample [0x6C, 0x73])).map (fun t => (t.out, t.buf.pos)) =
      some ([0x0D, 0x1B, 0x5B, 0x32, 0x43], 0) := by
  refine ⟨emsh_write_ctlseq_cuf_eq s n, emsh_write_ctlseq_cub_eq s n, rfl, rfl, rfl, rfl, ?_, ?_,
    by decide⟩
  · intro hn
    refine ⟨_, emsh_seq_digits n hn, ?_, ?_⟩
    · unfold emsh_seq_cuf
      rw [if_neg (by omega), if_neg (by omega)]
    · unfold emsh_seq_cub
      rw [if_neg (by omega), if_neg (by omega)]
  · rw [emsh_cur_set_pos_eq cfg s pos hpos]
    have : (c_lit cfg.EMSH_S_PROMPT).length = c_strlen_lit cfg.EMSH_S_PROMPT := by
      rw [c_lit_eq_takeWhile]
      rfl
    rw [this]

theorem emsh_cursor_emitters_witness :
    emsh_write_ctlseq_cuf emsh_nav_sample 12 =
      { emsh_nav_sample with out := emsh_nav_sample.out ++ emsh_seq_cuf 12 } ∧
    emsh_write_ctlseq_cub emsh_nav_sample 12 =
      { emsh_nav_sample with out := emsh_nav_sample.out ++ emsh_seq_cub 12 } ∧
    emsh_seq_cuf 0 = [] ∧ emsh_seq_cub 0 = [] ∧
    emsh_seq_cuf 1 = [0x1B, 0x5B, 0x43] ∧ emsh_seq_cub 1 = [0x1B, 0x5B, 0x44] ∧
    (2 ≤ 12 → ∃ ds, dec_canonical 12 ds ∧ emsh_seq_cuf 12 = [0x1B, 0x5B] ++ ds ++ [0x43] ∧
      emsh_seq_cub 12 = [0x1B, 0x5B] ++ ds ++ [0x44]) ∧
    emsh_cur_set_pos {} emsh_nav_sample 2 = some { emsh_nav_sample with
      buf := { emsh_nav_sample.buf with pos := 2 },
      out := emsh_nav_sample.out ++ [0x0D] ++
        emsh_seq_cuf ((c_lit ({} : emsh_tunables).EMSH_S_PROMPT).length + 2) } ∧
    (emsh_do_sol {} (emsh_sample [0x6C, 0x73])).map (fun t => (t.out, t.buf.pos)) =
      some ([0x0D, 0x1B, 0x5B, 0x32, 0x43], 0) :=
  emsh_cursor_emitters {} emsh_nav_sample 12 2 (by decide)

end Emsh

namespace Emsh

/-! ## emsh.c: history navigation redraws the line -/

/-- The effect of `emsh_do_cuu` on an engine state: the history cursor moves one
entry backward (staying on the oldest entry when already there), the line buffer is
rebound to the entry under the cursor with the caret at its end, and the bytes
written are the full-line refresh. -/
theorem emsh_do_cuu_out (cfg : emsh_tunables) (s : emsh_t) (al fl : List Nat)
    (hL : 1 ≤ cfg.EMSH_MAX_LINE_SIZE) (H : emsh_inv cfg s al fl) :
    ∃ s', emsh_do_cuu cfg s = some s' ∧ emsh_inv cfg s' al fl ∧ s'.ctlseq = s.ctlseq ∧
      s'.hist = emsh_hist_at s.hist al (min (s.hist.pos + 1) (al.length - 1)) ∧
      s'.buf.pos = s'.buf.array.size ∧
      s'.out = s.out ++ [0x0D] ++ emsh_seq_el ++ c_lit cfg.EMSH_S_PROMPT ++ emsh_buf_line s' ∧
      s'.execs = s.execs ∧ s'.running = s.running := by
  obtain ⟨s', he, hinv, hcs, hh⟩ := emsh_do_cuu_at cfg s al fl hL H
  refine ⟨s', he, hinv, hcs, hh, ?_⟩
  obtain ⟨h', he', Hh, hm, _⟩ := emsh_hist_move_backward_inv s.hist al fl H.1
  obtain ⟨c, hc, hcur⟩ := emsh_hist_inv_cur h' al fl Hh
  obtain ⟨n, hn⟩ := H.2.1 c (List.getElem?_mem hc)
  have hn2 : emsh_text_ok cfg (({ s with hist := h' } : emsh_t).hist.mem c) n := by
    show emsh_text_ok cfg (h'.mem c) n
    rw [hm]
    exact hn
  have h2 := emsh_disp_refresh_line_eq cfg { s with hist := h' } c n hL hcur hn2
  have h3 : emsh_do_cuu cfg s = emsh_disp_refresh_line cfg { s with hist := h' } := by
    simp only [emsh_do_cuu, he', Option.bind_eq_bind, Option.some_bind]
  rw [h3, h2] at he
  cases he
  exact ⟨rfl, rfl, rfl, rfl⟩

/-- C32: for every engine state with control state `INIT` or `FINAL` and every
history-navigation keystroke (Ctrl-P, Ctrl-N, `ESC [ A`, `ESC [ B`), the engine
returns with the history cursor one entry further back or forward, or where it was
at the end of the ring; in every case the line buffer is bound to the entry under the
cursor, its length is the length of the stored text, the caret is at that length, and
the bytes written are exactly CR, `CSI K`, the prompt literal and the full text of
the entry. -/
theorem emsh_navigation_redraws (cfg : emsh_tunables) (exec : emsh_exec_t) (s : emsh_t)
    (al fl : List Nat) (k : List Nat) (hL : 1 ≤ cfg.EMSH_MAX_LINE_SIZE)
    (H : emsh_inv cfg s al fl) (hst : s.ctlseq.st = .INIT ∨ s.ctlseq.st = .FINAL)
    (hk : emsh_key_nav k) :
    ∃ s', emsh_feed cfg exec s k = some s' ∧ emsh_inv cfg s' al fl ∧
      (emsh_key_backward k →
        s'.hist = emsh_hist_at s.hist al (min (s.hist.pos + 1) (al.length - 1))) ∧
      (emsh_key_forward k → s'.hist = emsh_hist_at s.hist al (s.hist.pos - 1)) ∧
      s'.hist.cur = some (.block s'.buf.array.data) ∧
      c_strlen cfg s'.hist.mem s'.buf.array.data = some s'.buf.array.size ∧
      s'.buf.pos = s'.buf.array.size ∧
      s'.out = s.out ++ emsh_seq_redraw cfg (emsh_buf_line s') := by
  have hkk : ¬ (emsh_key_backward k ∧ emsh_key_forward k) := by
    rintro ⟨h1, h2⟩
    rcases h1 with rfl | rfl <;> rcases h2 with h2 | h2 <;> exact absurd h2 (by decide)
  rcases hk with hb | hf
  · obtain ⟨cs, _, he⟩ := emsh_feed_key_backward cfg exec s k hb hst
    obtain ⟨s', he2, hinv, _, hh, hp, ho, _, _⟩ := emsh_do_cuu_out cfg { s with ctlseq := cs }
      al fl hL (emsh_inv_ctlseq cfg s cs al fl H)
    refine ⟨s', by rw [he]; exact he2, hinv, fun _ => hh, fun h => absurd ⟨hb, h⟩ hkk,
      hinv.2.2.1, c_strlen_text_ok cfg _ _ _ hinv.2.2.2.2.2.1, hp, ?_⟩
    rw [ho]
    simp only [emsh_seq_redraw, List.append_assoc]
  · obtain ⟨cs, _, he⟩ := emsh_feed_key_forward cfg exec s k hf hst
    obtain ⟨s', he2, hinv, _, hh, hp, ho, _, _⟩ := emsh_do_cud_out cfg { s with ctlseq := cs }
      al fl hL (emsh_inv_ctlseq cfg s cs al fl H)
    refine ⟨s', by rw [he]; exact he2, hinv, fun h => absurd ⟨h, hf⟩ hkk, fun _ => hh,
      hinv.2.2.1, c_strlen_text_ok cfg _ _ _ hinv.2.2.2.2.2.1, hp, ?_⟩
    rw [ho]
    simp only [emsh_seq_redraw, List.append_assoc]

theorem emsh_navigation_redraws_witness :
    ∃ s', emsh_feed {} emsh_exec_none emsh_nav_sample [0x1B, 0x5B, 0x42] = some s' ∧
      emsh_inv {} s' [1, 0] [] ∧
      (emsh_key_backward [0x1B, 0x5B, 0x42] →
        s'.hist = emsh_hist_at emsh_nav_sample.hist [1, 0]
          (min (emsh_nav_sample.hist.pos + 1) (([1, 0] : List Nat).length - 1))) ∧
      (emsh_key_forward [0x1B, 0x5B, 0x42] →
        s'.hist = emsh_hist_at emsh_nav_sample.hist [1, 0] (emsh_nav_sample.hist.pos - 1)) ∧
      s'.hist.cur = some (.block s'.buf.array.data) ∧
      c_strlen {} s'.hist.mem s'.buf.array.data = some s'.buf.array.size ∧
      s'.buf.pos = s'.buf.array.size ∧
      s'.out = emsh_nav_sample.out ++ emsh_seq_redraw {} (emsh_buf_line s') :=
  emsh_navigation_redraws {} emsh_exec_none emsh_nav_sample [1, 0] [] [0x1B, 0x5B, 0x42]
    (by decide) emsh_nav_sample_inv (Or.inl rfl) (by decide)

end Emsh

namespace Emsh

/-! ## numcast10.h: the documented buffer size -/

theorem numcast10_impl_bw_length_le (v k : Nat) (hk : 1 ≤ k) (hv : v < 10 ^ k) :
    (numcast10_impl_bw v).length ≤ k := by
  by_cases h0 : v = 0
  · subst h0
    exact hk
  · rw [numcast10_impl_bw_eq v h0, List.length_reverse, List.length_map]
    have h1 := Nat.base_pow_length_digits_le 10 v (by norm_num) h0
    have h2 : 10 ^ (Nat.digits 10 v).length < 10 ^ (k + 1) := by
      rw [pow_succ]
      omega
    have h3 := (Nat.pow_lt_pow_iff_right (by norm_num : 1 < 10)).mp h2
    omega

theorem emsh_write_ctlseq_1_buf_eq (s : emsh_t) (p i f : Nat) :
    emsh_write_ctlseq_1 s p i f =
      emsh_write_strn s (emsh_write_ctlseq_1_buf p i f).1 (emsh_write_ctlseq_1_buf p i f).2 :=
  rfl

theorem emsh_write_ctlseq_1_buf_length (p i f : Nat) :
    (emsh_write_ctlseq_1_buf p i f).2 ≤ 2 + (numcast10_impl_bw p).length + 1 + 1 ∧
      (emsh_write_ctlseq_1_buf p i f).2 = (emsh_write_ctlseq_1_buf p i f).1.length := by
  refine ⟨?_, rfl⟩
  simp only [emsh_write_ctlseq_1_buf]
  split_ifs <;> simp <;> omega

/-- C36: the documented buffer size is enough. `NUMCAST10_SIZE_OF` is 3, 5, 10, 20 for
the widths 8, 16, 32, 64, and for each of these widths `w` and every value `v < 2 ^ w`
the number of bytes `numcast10_impl_bw` writes is at most `NUMCAST10_SIZE_OF w`; the
local buffer of `emsh_write_ctlseq_1`, of `2 + NUMCAST10_SIZE_OF w + 1 + 1` elements
for a `uint_fast32_t` of `w` bits, holds every byte stored in it (the CSI, the digits
of a parameter below `2 ^ w`, the intermediate byte if any, the final byte), and these
are the bytes the function writes. -/
theorem numcast10_size_of_enough (w v : Nat) (hw : w = 8 ∨ w = 16 ∨ w = 32 ∨ w = 64)
    (hv : v < 2 ^ w) (s : emsh_t) (i f : Nat) :
    NUMCAST10_SIZE_OF 8 = 3 ∧ NUMCAST10_SIZE_OF 16 = 5 ∧ NUMCAST10_SIZE_OF 32 = 10 ∧
    NUMCAST10_SIZE_OF 64 = 20 ∧
    (numcast10_impl_bw v).length ≤ NUMCAST10_SIZE_OF w ∧
    (emsh_write_ctlseq_1_buf v i f).1.length ≤ emsh_write_ctlseq_1_bufsize w ∧
    (emsh_write_ctlseq_1_buf v i f).2 = (emsh_write_ctlseq_1_buf v i f).1.length ∧
    emsh_write_ctlseq_1 s v i f =
      { s with out := s.out ++ (emsh_write_ctlseq_1_buf v i f).1 } := by
  have hlen : (numcast10_impl_bw v).length ≤ NUMCAST10_SIZE_OF w := by
    rcases hw with rfl | rfl | rfl | rfl
    · exact numcast10_impl_bw_length_le v 3 (by norm_num) (lt_trans hv (by norm_num))
    · exact numcast10_impl_bw_length_le v 5 (by norm_num) (lt_trans hv (by norm_num))
    · exact numcast10_impl_bw_length_le v 10 (by norm_num) (lt_trans hv (by norm_num))
    · exact numcast10_impl_bw_length_le v 20 (by norm_num) (lt_trans hv (by norm_num))
  have hb := emsh_write_ctlseq_1_buf_length v i f
  refine ⟨by decide, by decide, by decide, by decide, hlen, ?_, hb.2, ?_⟩
  · rw [← hb.2]
    unfold emsh_write_ctlseq_1_bufsize
    omega
  · rw [emsh_write_ctlseq_1_buf_eq, hb.2]
    simp only [emsh_write_strn, List.take_length]

theorem numcast10_size_of_enough_witness :
    NUMCAST10_SIZE_OF 8 = 3 ∧ NUMCAST10_SIZE_OF 16 = 5 ∧ NUMCAST10_SIZE_OF 32 = 10 ∧
    NUMCAST10_SIZE_OF 64 = 20 ∧
    (numcast10_impl_bw 4294967295).length ≤ NUMCAST10_SIZE_OF 32 ∧
    (emsh_write_ctlseq_1_buf 4294967295 0x20 0x43).1.length ≤ emsh_write_ctlseq_1_bufsize 32 ∧
    (emsh_write_ctlseq_1_buf 4294967295 0x20 0x43).2 =
      (emsh_write_ctlseq_1_buf 4294967295 0x20 0x43).1.length ∧
    emsh_write_ctlseq_1 emsh_nav_sample 4294967295 0x20 0x43 =
      { emsh_nav_sample with
        out := emsh_nav_sample.out ++ (emsh_write_ctlseq_1_buf 4294967295 0x20 0x43).1 } :=
  numcast10_size_of_enough 32 4294967295 (Or.inr (Or.inr (Or.inl rfl))) (by norm_num)
    emsh_nav_sample 0x20 0x43

end Emsh

namespace Emsh

/-! ## The engine's own sequences are recognised -/

theorem ctlseq_trace_digits : ∀ (ps : List Nat), (∀ p ∈ ps, 0x30 ≤ p ∧ p ≤ 0x3F) →
    ∀ (st : ctlseq_st_t), st = .CSI ∨ st = .PARAM →
      ∀ x ∈ ctlseq_trace st ps, x.1 = .PARAM ∧ x.2 ≠ .ILSEQ ∧ x.2 ≠ .FINAL
  | [], _, _, _, x, hx => by simp [ctlseq_trace] at hx
  | p :: ps, hps, st, hst, x, hx => by
    have hp := hps p (List.mem_cons_self _ _)
    have h1 : (ctlseq_sm st p).1 = .PARAM ∧ (ctlseq_sm st p).2.1 ≠ .ILSEQ ∧
        (ctlseq_sm st p).2.1 ≠ .FINAL := by
      rcases hst with rfl | rfl <;>
        simp [ctlseq_sm, ctlseq_sm_body, ctlseq_is_param_byte, hp.1, hp.2]
    simp only [ctlseq_trace, List.mem_cons] at hx
    rcases hx with rfl | hx
    · exact h1
    · exact ctlseq_trace_digits ps (fun q hq => hps q (List.mem_cons_of_mem _ hq)) _
        (Or.inr h1.1) x hx

theorem ctlseq_recognised_csi (ps : List Nat) (f : Nat)
    (hps : ∀ p ∈ ps, 0x30 ≤ p ∧ p ≤ 0x3F) (hf : 0x40 ≤ f ∧ f ≤ 0x7E) :
    ctlseq_recognised ([0x1B, 0x5B] ++ ps ++ [f]) := by
  have hrun := (ctlseq_trace_params ps hps .CSI (Or.inl rfl)).1
  have hst : ctlseq_run .CSI ps = .CSI ∨ ctlseq_run .CSI ps = .PARAM ∨
      ctlseq_run .CSI ps = .INTERM := by
    rcases hrun with h | h
    · exact Or.inl h
    · exact Or.inr (Or.inl h)
  have hF := ctlseq_sm_final f hf (ctlseq_run .CSI ps) hst
  have ht : ctlseq_trace .INIT ([0x1B, 0x5B] ++ ps ++ [f]) =
      ((.ESC, .ESC) :: (.CSI, .CSI) :: ctlseq_trace .CSI ps) ++ [(.FINAL, .FINAL)] := by
    have e1 : [0x1B, 0x5B] ++ ps ++ [f] = [0x1B, 0x5B] ++ (ps ++ [f]) := by simp
    rw [e1, ctlseq_trace_append, ctlseq_trace_append]
    have e2 : ctlseq_run .INIT [0x1B, 0x5B] = .CSI := rfl
    have e3 : ctlseq_trace .INIT [0x1B, 0x5B] = [(.ESC, .ESC), (.CSI, .CSI)] := rfl
    rw [e2, e3]
    simp only [ctlseq_trace, hF.1, hF.2, List.cons_append, List.nil_append]
  refine ⟨?_, ?_, ?_⟩
  · rw [ht, List.getLast?_append]
    rfl
  · rw [ht, List.dropLast_concat]
    intro x hx
    simp only [List.mem_cons] at hx
    rcases hx with rfl | rfl | hx
    · exact ⟨Or.inl rfl, by decide, by decide⟩
    · exact ⟨Or.inr (Or.inl rfl), by decide, by decide⟩
    · have := ctlseq_trace_digits ps hps .CSI (Or.inl rfl) x hx
      exact ⟨Or.inr (Or.inr this.1), this.2.1, this.2.2⟩
  · have e1 : [0x1B, 0x5B] ++ ps ++ [f] = [0x1B, 0x5B] ++ (ps ++ [f]) := by simp
    rw [e1, ctlseq_run_append, ctlseq_run_append]
    have e2 : ctlseq_run .INIT [0x1B, 0x5B] = .CSI := rfl
    rw [e2]
    simp only [ctlseq_run, hF.1]

theorem emsh_seq_digits_param (n : Nat) :
    ∀ p ∈ ((Nat.digits 10 n).map (· + 0x30)).reverse, 0x30 ≤ p ∧ p ≤ 0x3F := by
  intro p hp
  simp only [List.mem_reverse, List.mem_map] at hp
  obtain ⟨x, hx, rfl⟩ := hp
  have : x < 10 := Nat.digits_lt_base (by norm_num) hx
  omega

theorem emsh_seq_cuf_recognised (n : Nat) (hn : 1 ≤ n) :
    ctlseq_recognised (emsh_seq_cuf n) ∧ (emsh_seq_cuf n).getLast? = some 0x43 := by
  unfold emsh_seq_cuf
  rw [if_neg (by omega)]
  by_cases h1 : n = 1
  · rw [if_pos h1]
    exact ⟨ctlseq_recognised_csi [] 0x43 (by simp) (by decide), rfl⟩
  · rw [if_neg h1]
    exact ⟨ctlseq_recognised_csi _ 0x43 (emsh_seq_digits_param n) (by decide), by
      rw [List.getLast?_append]
      rfl⟩

theorem emsh_seq_cub_recognised (n : Nat) (hn : 1 ≤ n) :
    ctlseq_recognised (emsh_seq_cub n) ∧ (emsh_seq_cub n).getLast? = some 0x44 := by
  unfold emsh_seq_cub
  rw [if_neg (by omega)]
  by_cases h1 : n = 1
  · rw [if_pos h1]
    exact ⟨ctlseq_recognised_csi [] 0x44 (by simp) (by decide), rfl⟩
  · rw [if_neg h1]
    exact ⟨ctlseq_recognised_csi _ 0x44 (emsh_seq_digits_param n) (by decide), by
      rw [List.getLast?_append]
      rfl⟩

/-- C38: the engine's own sequences are recognised by its own recogniser. For every
`n >= 1` the bytes `emsh_write_ctlseq_cuf` and `emsh_write_ctlseq_cub` write for `n`,
and for every parameter `p` in 0, 1, 2 the bytes `emsh_write_ctlseq_el` writes, fed to
`ctlseq_sm` from `INIT`, never give `ILSEQ`, pass only through the states `ESC`, `CSI`
and `PARAM`, and end in state `FINAL` with the only `FINAL` event on the last byte,
which is `C`, `D` or `K`. -/
theorem emsh_output_recognised (s : emsh_t) (n p : Nat) (hn : 1 ≤ n) (hp : p ≤ 2) :
    (∃ bs, (emsh_write_ctlseq_cuf s n).out = s.out ++ bs ∧ ctlseq_recognised bs ∧
      bs.getLast? = some 0x43) ∧
    (∃ bs, (emsh_write_ctlseq_cub s n).out = s.out ++ bs ∧ ctlseq_recognised bs ∧
      bs.getLast? = some 0x44) ∧
    (∃ s' bs, emsh_write_ctlseq_el s p = some s' ∧ s'.out = s.out ++ bs ∧
      ctlseq_recognised bs ∧ bs.getLast? = some 0x4B) := by
  refine ⟨⟨emsh_seq_cuf n, ?_, emsh_seq_cuf_recognised n hn⟩,
    ⟨emsh_seq_cub n, ?_, emsh_seq_cub_recognised n hn⟩, ?_⟩
  · rw [emsh_write_ctlseq_cuf_eq]
  · rw [emsh_write_ctlseq_cub_eq]
  · have h3 : p = 0 ∨ p = 1 ∨ p = 2 := by omega
    rcases h3 with rfl | rfl | rfl
    · exact ⟨_, [0x1B, 0x5B, 0x4B], rfl, rfl,
        ctlseq_recognised_csi [] 0x4B (by simp) (by decide), rfl⟩
    · exact ⟨_, [0x1B, 0x5B, 0x31, 0x4B], rfl, rfl,
        ctlseq_recognised_csi [0x31] 0x4B (by decide) (by decide), rfl⟩
    · exact ⟨_, [0x1B, 0x5B, 0x32, 0x4B], rfl, rfl,
        ctlseq_recognised_csi [0x32] 0x4B (by decide) (by decide), rfl⟩

theorem emsh_output_recognised_witness :
    (∃ bs, (emsh_write_ctlseq_cuf emsh_nav_sample 79).out = emsh_nav_sample.out ++ bs ∧
      ctlseq_recognised bs ∧ bs.getLast? = some 0x43) ∧
    (∃ bs, (emsh_write_ctlseq_cub emsh_nav_sample 79).out = emsh_nav_sample.out ++ bs ∧
      ctlseq_recognised bs ∧ bs.getLast? = some 0x44) ∧
    (∃ s' bs, emsh_write_ctlseq_el emsh_nav_sample 2 = some s' ∧
      s'.out = emsh_nav_sample.out ++ bs ∧ ctlseq_recognised bs ∧
      bs.getLast? = some 0x4B) :=
  emsh_output_recognised emsh_nav_sample 79 2 (by decide) (by decide)

end Emsh

namespace Emsh

/-! ## list.h: the operations act on the sequence of nodes -/

theorem list_is_wf_node (h : list_heap) (s : list_ptr) (l : List list_ptr)
    (H : list_is h s l) : ∀ n ∈ s :: l, list_wf_node h n := by
  intro n hn
  rcases List.mem_cons.mp hn with rfl | hm
  · obtain ⟨q, _, hq⟩ := list_seg_first_link h n n l H.1
    obtain ⟨p, _, hp⟩ := list_seg_last_link h n n l H.1
    exact ⟨p, q, hp.2, hq.1, hp.1, hq.2⟩
  · obtain ⟨l1, l2, rfl⟩ := List.append_of_mem hm
    have hsplit := (list_seg_append h s s n l1 l2).1 H.1
    obtain ⟨p, _, hp⟩ := list_seg_last_link h s n l1 hsplit.1
    obtain ⟨q, _, hq⟩ := list_seg_first_link h n s l2 hsplit.2
    exact ⟨p, q, hp.2, hq.1, hp.1, hq.2⟩

theorem list_is_not_unlinked (h : list_heap) (s nd : list_ptr) (l : List list_ptr)
    (H : list_is h s l) (hnd : h nd = ⟨none, none⟩) : nd ∉ s :: l := by
  intro hm
  obtain ⟨p, q, hp, _⟩ := list_is_wf_node h s l H nd hm
  rw [hnd] at hp
  cases hp

theorem list_is_pop_back_nil (h : list_heap) (s : list_ptr)
    (H : list_is h s []) : list_pop_back h s = some (h, none) := by
  simp [list_pop_back, list_is_sanity h s _ H, c_assert_true, list_is_empty_eq h s _ H]

theorem list_node_unlink_unlinked (h : list_heap) (x : list_ptr)
    (hx : h x = ⟨none, none⟩) : list_node_unlink h (some x) = some h := by
  simp [list_node_unlink, list_node_sanity_unlinked h x hx, c_assert_true,
    list_node_is_linked_unlinked h x hx]

/-- C35: on a circular list with head `s` whose nodes, front to back, are `l`
(every node of it is then well linked: `n->next->prev == n == n->prev->next`),
`list_is_empty` returns whether `l` is empty; `list_push_front` and `list_push_back`
of an unlinked node give the list of `nd :: l` and of `l ++ [nd]`; `list_pop_front`
and `list_pop_back` return the first and the last node and leave the list of the
others, the returned node having both links null, and on the empty list they return
null and change nothing; `list_node_unlink` of a node of the list leaves the list
without that node and the node with both links null, and of an unlinked node changes
nothing. -/
theorem list_ops_refine (h : list_heap) (s : list_ptr) (l : List list_ptr)
    (H : list_is h s l) :
    (∀ n ∈ s :: l, list_wf_node h n) ∧
    list_is_empty h s = some l.isEmpty ∧
    (∀ nd, h nd = ⟨none, none⟩ →
      ∃ h', list_push_front h s (some nd) = some h' ∧ list_is h' s (nd :: l)) ∧
    (∀ nd, h nd = ⟨none, none⟩ →
      ∃ h', list_push_back h s (some nd) = some h' ∧ list_is h' s (l ++ [nd])) ∧
    (∃ h', list_pop_front h s = some (h', l.head?) ∧ list_is h' s l.tail ∧
      (∀ x, l.head? = some x → h' x = ⟨none, none⟩) ∧ (l = [] → h' = h)) ∧
    (∃ h', list_pop_back h s = some (h', l.getLast?) ∧ list_is h' s l.dropLast ∧
      (∀ x, l.getLast? = some x → h' x = ⟨none, none⟩) ∧ (l = [] → h' = h)) ∧
    (∀ x ∈ l, ∃ h', list_node_unlink h (some x) = some h' ∧ list_is h' s (l.erase x) ∧
      h' x = ⟨none, none⟩) ∧
    (∀ x, h x = ⟨none, none⟩ → list_node_unlink h (some x) = some h) := by
  refine ⟨list_is_wf_node h s l H, list_is_empty_eq h s l H, ?_, ?_, ?_, ?_, ?_,
    list_node_unlink_unlinked h⟩
  · intro nd hnd
    obtain ⟨h', he, hl, _⟩ := list_is_push_front h s nd l H hnd
      (list_is_not_unlinked h s nd l H hnd)
    exact ⟨h', he, hl⟩
  · intro nd hnd
    obtain ⟨h', he, hl, _⟩ := list_is_push_back h s nd l H hnd
      (list_is_not_unlinked h s nd l H hnd)
    exact ⟨h', he, hl⟩
  · cases l with
    | nil =>
      exact ⟨h, list_is_pop_front_nil h s H, H, fun x hx => by simp at hx, fun _ => rfl⟩
    | cons x l =>
      obtain ⟨h', he, hl, hx, _⟩ := list_is_pop_front h s x l H
      refine ⟨h', he, hl, ?_, fun e => by simp at e⟩
      intro y hy
      simp only [List.head?_cons, Option.some.injEq] at hy
      rw [← hy]
      exact hx
  · rcases List.eq_nil_or_concat l with rfl | ⟨l', x, hlx⟩
    · exact ⟨h, list_is_pop_back_nil h s H, H, fun x hx => by simp at hx, fun _ => rfl⟩
    · rw [List.concat_eq_append] at hlx
      subst hlx
      obtain ⟨h', he, hl, hx, _⟩ := list_is_pop_back h s x l' H
      refine ⟨h', ?_, ?_, ?_, fun e => by simp at e⟩
      · rw [he, List.getLast?_append]
        rfl
      · rw [List.dropLast_concat]
        exact hl
      · intro y hy
        rw [List.getLast?_append] at hy
        have hy2 : some x = some y := hy
        rw [← Option.some.inj hy2]
        exact hx
  · intro x hx
    obtain ⟨l1, l2, rfl⟩ := List.append_of_mem hx
    have hnd : (l1 ++ x :: l2).Nodup := (List.nodup_cons.1 H.2).2
    have hx1 : x ∉ l1 := fun hm =>
      (List.nodup_append.1 hnd).2.2 hm (List.mem_cons_self _ _)
    obtain ⟨h', he, hl, hxx, _⟩ := list_is_unlink h s x l1 l2 H
    refine ⟨h', he, ?_, hxx⟩
    rw [List.erase_append_right _ hx1, List.erase_cons_head]
    exact hl

theorem list_ops_refine_witness :
    (∀ n ∈ list_ptr.list :: [list_ptr.block 3, .block 2, .block 1, .block 0],
      list_wf_node emsh_hist_E4.node n) ∧
    list_is_empty emsh_hist_E4.node .list =
      some ([list_ptr.block 3, .block 2, .block 1, .block 0] : List list_ptr).isEmpty ∧
    (∀ nd, emsh_hist_E4.node nd = ⟨none, none⟩ →
      ∃ h', list_push_front emsh_hist_E4.node .list (some nd) = some h' ∧
        list_is h' .list (nd :: [list_ptr.block 3, .block 2, .block 1, .block 0])) ∧
    (∀ nd, emsh_hist_E4.node nd = ⟨none, none⟩ →
      ∃ h', list_push_back emsh_hist_E4.node .list (some nd) = some h' ∧
        list_is h' .list ([list_ptr.block 3, .block 2, .block 1, .block 0] ++ [nd])) ∧
    (∃ h', list_pop_front emsh_hist_E4.node .list =
        some (h', ([list_ptr.block 3, .block 2, .block 1, .block 0] : List list_ptr).head?) ∧
      list_is h' .list ([list_ptr.block 3, .block 2, .block 1, .block 0] : List list_ptr).tail ∧
      (∀ x, ([list_ptr.block 3, .block 2, .block 1, .block 0] : List list_ptr).head? = some x →
        h' x = ⟨none, none⟩) ∧
      (([list_ptr.block 3, .block 2, .block 1, .block 0] : List list_ptr) = [] →
        h' = emsh_hist_E4.node)) ∧
    (∃ h', list_pop_back emsh_hist_E4.node .list =
        some (h', ([list_ptr.block 3, .block 2, .block 1, .block 0] : List list_ptr).getLast?) ∧
      list_is h' .list
        ([list_ptr.block 3, .block 2, .block 1, .block 0] : List list_ptr).dropLast ∧
      (∀ x, ([list_ptr.block 3, .block 2, .block 1, .block 0] : List list_ptr).getLast? = some x →
        h' x = ⟨none, none⟩) ∧
      (([list_ptr.block 3, .block 2, .block 1, .block 0] : List list_ptr) = [] →
        h' = emsh_hist_E4.node)) ∧
    (∀ x ∈ ([list_ptr.block 3, .block 2, .block 1, .block 0] : List list_ptr),
      ∃ h', list_node_unlink emsh_hist_E4.node (some x) = some h' ∧
        list_is h' .list
          (([list_ptr.block 3, .block 2, .block 1, .block 0] : List list_ptr).erase x) ∧
        h' x = ⟨none, none⟩) ∧
    (∀ x, emsh_hist_E4.node x = ⟨none, none⟩ →
      list_node_unlink emsh_hist_E4.node (some x) = some emsh_hist_E4.node) :=
  list_ops_refine emsh_hist_E4.node .list [.block 3, .block 2, .block 1, .block 0]
    ⟨by simp [list_seg, list_links, emsh_hist_E4], by decide⟩

end Emsh

namespace Emsh

/-! ## emsh.c: the edits touch only the text under the cursor -/

theorem emsh_edit_frame_refl (s : emsh_t) : emsh_edit_frame s s :=
  ⟨rfl, rfl, rfl, rfl, rfl, rfl, fun _ _ _ => rfl⟩

theorem emsh_edit_frame_hist (s s' : emsh_t) (hh : s'.hist = s.hist)
    (ha : s'.buf.array = s.buf.array) : emsh_edit_frame s s' := by
  refine ⟨by rw [hh], by rw [hh], by rw [hh], by rw [hh], by rw [hh], by rw [ha], ?_⟩
  intro b _ i
  rw [hh]

theorem emsh_edit_frame_ctlseq (s s' : emsh_t) (cs : emsh_ctlseq_t)
    (h : emsh_edit_frame { s with ctlseq := cs } s') : emsh_edit_frame s s' := h

theorem emsh_do_insert_frame (cfg : emsh_tunables) (s : emsh_t) (al fl : List Nat) (c : Nat)
    (H : emsh_inv cfg s al fl) (hch : 0x20 ≤ c ∧ c ≤ 0x7E) :
    ∃ s', emsh_do_insert cfg s c = some s' ∧ emsh_inv cfg s' al fl ∧ emsh_edit_frame s s' := by
  by_cases hroom : s.buf.array.size < cfg.EMSH_MAX_LINE_SIZE
  · obtain ⟨m', he, _, hfr, htx⟩ := emsh_do_insert_eq cfg s al fl c H hch hroom
    refine ⟨_, he, ?_, ⟨rfl, rfl, rfl, rfl, rfl, rfl, fun b hb i => hfr b i hb⟩⟩
    exact emsh_inv_mem_update cfg _ _ al fl m' (s.buf.array.size + 1) (s.buf.pos + 1) H hfr htx
      (Nat.succ_le_succ H.2.2.2.2.2.2) rfl rfl
  · have he : emsh_do_insert cfg s c = some s := by
      have hroom' : ¬ s.buf.array.size < s.buf.array.capacity := by
        rw [H.2.2.2.1]
        exact hroom
      simp only [emsh_do_insert, emsh_buf_size, emsh_buf_capacity, bytearray_size,
        bytearray_capacity, hroom', if_false]
      rfl
    exact ⟨s, he, H, emsh_edit_frame_refl s⟩

theorem emsh_do_erase_frame (cfg : emsh_tunables) (s : emsh_t) (al fl : List Nat)
    (H : emsh_inv cfg s al fl) :
    ∃ s', emsh_do_erase cfg s = some s' ∧ emsh_inv cfg s' al fl ∧ emsh_edit_frame s s' := by
  by_cases hlt : s.buf.pos < s.buf.array.size
  · obtain ⟨m', he, _, hfr, htx⟩ := emsh_do_erase_eq cfg s al fl H hlt
    refine ⟨_, he, ?_, ⟨rfl, rfl, rfl, rfl, rfl, rfl, fun b hb i => hfr b i hb⟩⟩
    exact emsh_inv_mem_update cfg _ _ al fl m' (s.buf.array.size - 1) s.buf.pos H hfr htx
      (Nat.le_sub_one_of_lt hlt) rfl rfl
  · have heq : s.buf.pos = s.buf.array.size := by
      have := H.2.2.2.2.2.2
      omega
    have he : emsh_do_erase cfg s = some s := by
      simp [emsh_do_erase, emsh_buf_size, emsh_buf_pos, bytearray_size, heq]
    exact ⟨s, he, H, emsh_edit_frame_refl s⟩

theorem emsh_do_bs_frame (cfg : emsh_tunables) (s : emsh_t) (al fl : List Nat)
    (H : emsh_inv cfg s al fl) :
    ∃ s', emsh_do_bs cfg s = some s' ∧ emsh_inv cfg s' al fl ∧ emsh_edit_frame s s' := by
  by_cases hpos : 0 < s.buf.pos
  · obtain ⟨m', he, _, hfr, htx⟩ := emsh_do_bs_eq cfg s al fl H hpos
    refine ⟨_, he, ?_, ⟨rfl, rfl, rfl, rfl, rfl, rfl, fun b hb i => hfr b i hb⟩⟩
    exact emsh_inv_mem_update cfg _ _ al fl m' (s.buf.array.size - 1) (s.buf.pos - 1) H hfr
      htx (by have := H.2.2.2.2.2.2; omega) rfl rfl
  · have he : emsh_do_bs cfg s = some s := by
      simp only [emsh_do_bs, emsh_buf_pos, gt_iff_lt, hpos, if_false]
      rfl
    exact ⟨s, he, H, emsh_edit_frame_refl s⟩

theorem emsh_do_cub_frame (cfg : emsh_tunables) (s : emsh_t) (al fl : List Nat)
    (H : emsh_inv cfg s al fl) :
    ∃ s', emsh_do_cub s = some s' ∧ emsh_inv cfg s' al fl ∧ emsh_edit_frame s s' := by
  obtain ⟨s', he, hi, hh, ha, _⟩ := emsh_do_cub_inv cfg s al fl H
  exact ⟨s', he, hi, emsh_edit_frame_hist s s' hh ha⟩

theorem emsh_do_cuf_frame (cfg : emsh_tunables) (s : emsh_t) (al fl : List Nat)
    (H : emsh_inv cfg s al fl) :
    ∃ s', emsh_do_cuf s = some s' ∧ emsh_inv cfg s' al fl ∧ emsh_edit_frame s s' := by
  obtain ⟨s', he, hi, hh, ha, _⟩ := emsh_do_cuf_inv cfg s al fl H
  exact ⟨s', he, hi, emsh_edit_frame_hist s s' hh ha⟩

theorem emsh_do_sol_frame (cfg : emsh_tunables) (s : emsh_t) (al fl : List Nat)
    (H : emsh_inv cfg s al fl) :
    ∃ s', emsh_do_sol cfg s = some s' ∧ emsh_inv cfg s' al fl ∧ emsh_edit_frame s s' := by
  obtain ⟨s', he, hi, hh, ha, _⟩ := emsh_do_sol_inv cfg s al fl H
  exact ⟨s', he, hi, emsh_edit_frame_hist s s' hh ha⟩

theorem emsh_do_eol_frame (cfg : emsh_tunables) (s : emsh_t) (al fl : List Nat)
    (H : emsh_inv cfg s al fl) :
    ∃ s', emsh_do_eol cfg s = some s' ∧ emsh_inv cfg s' al fl ∧ emsh_edit_frame s s' := by
  obtain ⟨s', he, hi, hh, ha, _⟩ := emsh_do_eol_inv cfg s al fl H
  exact ⟨s', he, hi, emsh_edit_frame_hist s s' hh ha⟩

end Emsh

namespace Emsh

theorem emsh_feed_ctrl (cfg : emsh_tunables) (exec : emsh_exec_t) (s : emsh_t) (c : Nat)
    (hst : s.ctlseq.st = .INIT ∨ s.ctlseq.st = .FINAL) (hc : c ≠ 0x1B) :
    emsh_feed cfg exec s [c] =
      emsh_task_key cfg exec { s with ctlseq := { s.ctlseq with st := .INIT } } c := by
  rw [emsh_feed_single, emsh_task_init cfg exec s c hst hc]

theorem emsh_feed_csi_plain (cfg : emsh_tunables) (exec : emsh_exec_t) (s : emsh_t)
    (ps : List Nat) (f : Nat) (hst : s.ctlseq.st = .INIT ∨ s.ctlseq.st = .FINAL)
    (hps : ∀ p ∈ ps, 0x30 ≤ p ∧ p ≤ 0x3F) (hf : 0x40 ≤ f ∧ f ≤ 0x7E) :
    emsh_feed cfg exec s ([0x1B, 0x5B] ++ ps ++ [f]) =
      emsh_task_final cfg (emsh_at_final s ps []) f := by
  have h := emsh_feed_csi cfg exec s ps [] f hst hps (fun i hi => by simp at hi) hf
  simp only [csi_seq, List.append_nil] at h
  exact h

/-- C37: for every engine state with control state `INIT` or `FINAL`, every edit
keystroke (printable insert, BS, DEL, erase-at-caret, caret-left, -right, -home,
-end, by control character or by control sequence) returns and changes at most the
text of the history block under the cursor: the list nodes (active and free list),
the capacity, the size, the cursor and its position are unchanged, and so is the text
of every other block. On the ring with the committed entry `hi` and the draft `ls`,
Ctrl-P, `x`, Ctrl-N leaves the committed entry as `hix` with the cursor back on the
draft `ls`, and a further Ctrl-P shows the line `hix`. -/
theorem emsh_edit_keystroke_frame (cfg : emsh_tunables) (exec : emsh_exec_t) (s : emsh_t)
    (al fl : List Nat) (k : List Nat) (H : emsh_inv cfg s al fl)
    (hst : s.ctlseq.st = .INIT ∨ s.ctlseq.st = .FINAL) (hk : emsh_key_edit k) :
    (∃ s', emsh_feed cfg exec s k = some s' ∧ emsh_inv cfg s' al fl ∧ emsh_edit_frame s s') ∧
    (emsh_feed {} emsh_exec_none emsh_nav_sample [0x10]).map
        (fun t => (emsh_buf_line t, t.hist.pos, t.buf.array.data)) =
      some ([0x68, 0x69], 1, 0) ∧
    (emsh_feed {} emsh_exec_none emsh_nav_sample [0x10, 0x78, 0x0E]).map
        (fun t => (emsh_line t.hist.mem 0 3, t.hist.pos, emsh_buf_line t, t.buf.array.data)) =
      some ([0x68, 0x69, 0x78], 0, [0x6C, 0x73], 1) ∧
    (emsh_feed {} emsh_exec_none emsh_nav_sample [0x10, 0x78, 0x0E, 0x10]).map
        (fun t => (emsh_buf_line t, t.hist.pos, t.buf.array.data)) =
      some ([0x68, 0x69, 0x78], 1, 0) := by
  refine ⟨?_, by decide, by decide, by decide⟩
  have H0 : ∀ cs, emsh_inv cfg { s with ctlseq := cs } al fl :=
    fun cs => emsh_inv_ctlseq cfg s cs al fl H
  have hn : ∀ p ∈ ([] : List Nat), 0x30 ≤ p ∧ p ≤ 0x3F := fun p hp => by simp at hp
  rcases hk with ⟨c, hc, rfl⟩ | hk
  · rw [emsh_feed_ctrl cfg exec s c hst (by omega), emsh_task_key_print cfg exec _ c hc]
    exact emsh_do_insert_frame cfg _ al fl c (H0 _) hc
  · simp only [List.mem_cons, List.mem_singleton, List.not_mem_nil, or_false] at hk
    rcases hk with rfl | rfl | rfl | rfl | rfl | rfl | rfl | rfl | rfl | rfl | rfl | rfl
    · rw [emsh_feed_ctrl cfg exec s _ hst (by decide)]
      exact emsh_do_bs_frame cfg _ al fl (H0 _)
    · rw [emsh_feed_ctrl cfg exec s _ hst (by decide)]
      exact emsh_do_bs_frame cfg _ al fl (H0 _)
    · rw [emsh_feed_ctrl cfg exec s _ hst (by decide)]
      exact emsh_do_erase_frame cfg _ al fl (H0 _)
    · rw [emsh_feed_ctrl cfg exec s _ hst (by decide)]
      exact emsh_do_cub_frame cfg _ al fl (H0 _)
    · rw [emsh_feed_ctrl cfg exec s _ hst (by decide)]
      exact emsh_do_cuf_frame cfg _ al fl (H0 _)
    · rw [emsh_feed_ctrl cfg exec s _ hst (by decide)]
      exact emsh_do_sol_frame cfg _ al fl (H0 _)
    · rw [emsh_feed_ctrl cfg exec s _ hst (by decide)]
      exact emsh_do_eol_frame cfg _ al fl (H0 _)
    · have e : emsh_feed cfg exec s [0x1B, 0x5B, 0x44] = _ :=
        emsh_feed_csi_plain cfg exec s [] 0x44 hst hn (by decide)
      rw [e]
      exact emsh_do_cub_frame cfg _ al fl (H0 _)
    · have e : emsh_feed cfg exec s [0x1B, 0x5B, 0x43] = _ :=
        emsh_feed_csi_plain cfg exec s [] 0x43 hst hn (by decide)
      rw [e]
      exact emsh_do_cuf_frame cfg _ al fl (H0 _)
    · have e : emsh_feed cfg exec s [0x1B, 0x5B, 0x31, 0x7E] = _ :=
        emsh_feed_csi_plain cfg exec s [0x31] 0x7E hst (by decide) (by decide)
      rw [e]
      exact emsh_do_sol_frame cfg _ al fl (H0 _)
    · have e : emsh_feed cfg exec s [0x1B, 0x5B, 0x34, 0x7E] = _ :=
        emsh_feed_csi_plain cfg exec s [0x34] 0x7E hst (by decide) (by decide)
      rw [e]
      exact emsh_do_eol_frame cfg _ al fl (H0 _)
    · have e : emsh_feed cfg exec s [0x1B, 0x5B, 0x33, 0x7E] = _ :=
        emsh_feed_csi_plain cfg exec s [0x33] 0x7E hst (by decide) (by decide)
      rw [e]
      exact emsh_do_erase_frame cfg _ al fl (H0 _)

theorem emsh_edit_keystroke_frame_witness :
    (∃ s', emsh_feed {} emsh_exec_none emsh_nav_sample [0x1B, 0x5B, 0x33, 0x7E] = some s' ∧
      emsh_inv {} s' [1, 0] [] ∧ emsh_edit_frame emsh_nav_sample s') ∧
    (emsh_feed {} emsh_exec_none emsh_nav_sample [0x10]).map
        (fun t => (emsh_buf_line t, t.hist.pos, t.buf.array.data)) =
      some ([0x68, 0x69], 1, 0) ∧
    (emsh_feed {} emsh_exec_none emsh_nav_sample [0x10, 0x78, 0x0E]).map
        (fun t => (emsh_line t.hist.mem 0 3, t.hist.pos, emsh_buf_line t, t.buf.array.data)) =
      some ([0x68, 0x69, 0x78], 0, [0x6C, 0x73], 1) ∧
    (emsh_feed {} emsh_exec_none emsh_nav_sample [0x10, 0x78, 0x0E, 0x10]).map
        (fun t => (emsh_buf_line t, t.hist.pos, t.buf.array.data)) =
      some ([0x68, 0x69, 0x78], 1, 0) :=
  emsh_edit_keystroke_frame {} emsh_exec_none emsh_nav_sample [1, 0] [] [0x1B, 0x5B, 0x33, 0x7E]
    emsh_nav_sample_inv (Or.inl rfl) (Or.inr (by decide))

end Emsh

namespace Emsh

/-! ## emsh.c: the `running` flag -/

theorem emsh_refresh_cur_running (cfg : emsh_tunables) (s : emsh_t) (b : Bool) :
    emsh_disp_refresh_cur_to_eol cfg { s with running := b } =
      (emsh_disp_refresh_cur_to_eol cfg s).map (fun t => { t with running := b }) := by
  obtain ⟨r, hi, bu, cs, cm, a1, a2, a3, a4, o, e⟩ := s
  simp only [emsh_disp_refresh_cur_to_eol, emsh_write_ctlseq_el, Option.bind_eq_bind,
    Option.some_bind, Option.pure_def]
  cases h : mem_slice cfg hi.mem (emsh_buf_data bu) (emsh_buf_pos bu)
      (emsh_buf_size bu - emsh_buf_pos bu) with
  | none => simp [emsh_write_str, emsh_write_strn, h]
  | some str =>
    simp [emsh_write_str, emsh_write_strn, h, emsh_write_ctlseq_cub, emsh_write_ctlseq_1]
    split_ifs <;> rfl

theorem emsh_refresh_line_running (cfg : emsh_tunables) (s : emsh_t) (b : Bool) :
    emsh_disp_refresh_line cfg { s with running := b } =
      (emsh_disp_refresh_line cfg s).map (fun t => { t with running := b }) := by
  obtain ⟨r, hi, bu, cs, cm, a1, a2, a3, a4, o, e⟩ := s
  simp only [emsh_disp_refresh_line, emsh_write_ctlseq_el, Option.bind_eq_bind,
    Option.some_bind, Option.pure_def]
  cases h1 : emsh_hist_current hi with
  | none => rfl
  | some d =>
    simp only [Option.some_bind]
    cases h2 : emsh_buf_init cfg hi.mem d cfg.EMSH_MAX_LINE_SIZE with
    | none => rfl
    | some bf =>
      simp only [Option.some_bind, emsh_write_cr, emsh_write_char, emsh_write_str,
        emsh_write_strn, emsh_write_prompt]
      cases h3 : mem_slice cfg hi.mem (emsh_buf_data bf) 0 (emsh_buf_size bf) with
      | none => rfl
      | some str => rfl

theorem emsh_do_insert_running (cfg : emsh_tunables) (s : emsh_t) (c : Nat) (b : Bool) :
    emsh_do_insert cfg { s with running := b } c =
      (emsh_do_insert cfg s c).map (fun t => { t with running := b }) := by
  obtain ⟨r, hi, bu, cs, cm, a1, a2, a3, a4, o, e⟩ := s
  simp only [emsh_do_insert]
  split_ifs with h
  · cases h2 : emsh_buf_insert cfg bu hi.mem c with
    | none => simp [h2]
    | some x =>
      simp only [h2, Option.bind_eq_bind, Option.some_bind]
      exact emsh_refresh_cur_running cfg
        (emsh_write_char ⟨r, { hi with mem := x.2 }, x.1, cs, cm, a1, a2, a3, a4, o, e⟩ c) b
  · rfl

theorem emsh_do_erase_running (cfg : emsh_tunables) (s : emsh_t) (b : Bool) :
    emsh_do_erase cfg { s with running := b } =
      (emsh_do_erase cfg s).map (fun t => { t with running := b }) := by
  obtain ⟨r, hi, bu, cs, cm, a1, a2, a3, a4, o, e⟩ := s
  simp only [emsh_do_erase]
  split_ifs with h
  · cases h2 : emsh_buf_erase cfg bu hi.mem with
    | none => simp [h2]
    | some x =>
      simp only [h2, Option.bind_eq_bind, Option.some_bind]
      exact emsh_refresh_cur_running cfg
        ⟨r, { hi with mem := x.2 }, x.1, cs, cm, a1, a2, a3, a4, o, e⟩ b
  · rfl

theorem emsh_do_cub_running (s : emsh_t) (b : Bool) :
    emsh_do_cub { s with running := b } =
      (emsh_do_cub s).map (fun t => { t with running := b }) := by
  obtain ⟨r, hi, bu, cs, cm, a1, a2, a3, a4, o, e⟩ := s
  simp only [emsh_do_cub, emsh_cur_move_backward, c_assert]
  split_ifs <;> rfl

theorem emsh_do_cuf_running (s : emsh_t) (b : Bool) :
    emsh_do_cuf { s with running := b } =
      (emsh_do_cuf s).map (fun t => { t with running := b }) := by
  obtain ⟨r, hi, bu, cs, cm, a1, a2, a3, a4, o, e⟩ := s
  simp only [emsh_do_cuf, emsh_cur_move_forward, c_assert]
  split_ifs <;> rfl

theorem emsh_do_bs_running (cfg : emsh_tunables) (s : emsh_t) (b : Bool) :
    emsh_do_bs cfg { s with running := b } =
      (emsh_do_bs cfg s).map (fun t => { t with running := b }) := by
  simp only [emsh_do_bs]
  have hp : emsh_buf_pos ({ s with running := b } : emsh_t).buf = emsh_buf_pos s.buf := rfl
  rw [hp]
  split_ifs with h
  · rw [emsh_do_cub_running]
    cases h2 : emsh_do_cub s with
    | none => rfl
    | some t =>
      simp only [Option.map_some', Option.bind_eq_bind, Option.some_bind]
      exact emsh_do_erase_running cfg t b
  · rfl

theorem emsh_cur_set_pos_running (cfg : emsh_tunables) (s : emsh_t) (pos : Nat) (b : Bool) :
    emsh_cur_set_pos cfg { s with running := b } pos =
      (emsh_cur_set_pos cfg s pos).map (fun t => { t with running := b }) := by
  obtain ⟨r, hi, bu, cs, cm, a1, a2, a3, a4, o, e⟩ := s
  simp only [emsh_cur_set_pos, c_assert, emsh_write_cr, emsh_write_char,
    emsh_write_ctlseq_cuf, emsh_write_ctlseq_1, emsh_write_str, emsh_write_strn]
  split_ifs <;> simp only [Option.bind_eq_bind, Option.some_bind, Option.none_bind,
    Option.map_none'] <;>
    (cases h : emsh_buf_set_pos bu pos <;> rfl)

theorem emsh_do_cuu_running (cfg : emsh_tunables) (s : emsh_t) (b : Bool) :
    emsh_do_cuu cfg { s with running := b } =
      (emsh_do_cuu cfg s).map (fun t => { t with running := b }) := by
  simp only [emsh_do_cuu]
  have hp : ({ s with running := b } : emsh_t).hist = s.hist := rfl
  rw [hp]
  cases h : emsh_hist_move_backward s.hist with
  | none => rfl
  | some h' =>
    simp only [Option.bind_eq_bind, Option.some_bind]
    exact emsh_refresh_line_running cfg { s with hist := h' } b

theorem emsh_do_cud_running (cfg : emsh_tunables) (s : emsh_t) (b : Bool) :
    emsh_do_cud cfg { s with running := b } =
      (emsh_do_cud cfg s).map (fun t => { t with running := b }) := by
  simp only [emsh_do_cud]
  have hp : ({ s with running := b } : emsh_t).hist = s.hist := rfl
  rw [hp]
  cases h : emsh_hist_move_forward s.hist with
  | none => rfl
  | some h' =>
    simp only [Option.bind_eq_bind, Option.some_bind]
    exact emsh_refresh_line_running cfg { s with hist := h' } b

end Emsh

namespace Emsh

theorem emsh_task_key_running (cfg : emsh_tunables) (exec : emsh_exec_t) (s : emsh_t)
    (c : Nat) (b : Bool) (hc : c ≠ ASCII_C_LF) :
    emsh_task_key cfg exec { s with running := b } c =
      (emsh_task_key cfg exec s c).map (fun t => { t with running := b }) := by
  unfold emsh_task_key
  by_cases h1 : c = ASCII_C_CR
  · simp only [if_pos h1]
    rfl
  simp only [if_neg h1, if_neg hc]
  by_cases h3 : c = ASCII_C_BS ∨ c = ASCII_C_DEL
  · simp only [if_pos h3]
    exact emsh_do_bs_running cfg s b
  simp only [if_neg h3]
  by_cases h4 : c = ASCII_CNTRL 0x41
  · simp only [if_pos h4]
    exact emsh_cur_set_pos_running cfg s 0 b
  simp only [if_neg h4]
  by_cases h5 : c = ASCII_CNTRL 0x42
  · simp only [if_pos h5]
    exact emsh_do_cub_running s b
  simp only [if_neg h5]
  by_cases h6 : c = ASCII_CNTRL 0x44
  · simp only [if_pos h6]
    exact emsh_do_erase_running cfg s b
  simp only [if_neg h6]
  by_cases h7 : c = ASCII_CNTRL 0x45
  · simp only [if_pos h7]
    exact emsh_cur_set_pos_running cfg s _ b
  simp only [if_neg h7]
  by_cases h8 : c = ASCII_CNTRL 0x46
  · simp only [if_pos h8]
    exact emsh_do_cuf_running s b
  simp only [if_neg h8]
  by_cases h9 : c = ASCII_CNTRL 0x4E
  · simp only [if_pos h9]
    exact emsh_do_cud_running cfg s b
  simp only [if_neg h9]
  by_cases h10 : c = ASCII_CNTRL 0x50
  · simp only [if_pos h10]
    exact emsh_do_cuu_running cfg s b
  simp only [if_neg h10]
  by_cases h11 : ascii_isprint c = true
  · simp only [if_pos h11]
    exact emsh_do_insert_running cfg s c b
  · simp only [if_neg h11]
    rfl

theorem emsh_task_final_running (cfg : emsh_tunables) (s : emsh_t) (c : Nat) (b : Bool) :
    emsh_task_final cfg { s with running := b } c =
      (emsh_task_final cfg s c).map (fun t => { t with running := b }) := by
  unfold emsh_task_final
  have hi : ({ s with running := b } : emsh_t).ctlseq = s.ctlseq := rfl
  simp only [hi]
  by_cases h0 : s.ctlseq.interm_byte = 0x00
  · simp only [if_pos h0]
    by_cases h1 : c = 0x41
    · simp only [if_pos h1]
      exact emsh_do_cuu_running cfg s b
    simp only [if_neg h1]
    by_cases h2 : c = 0x42
    · simp only [if_pos h2]
      exact emsh_do_cud_running cfg s b
    simp only [if_neg h2]
    by_cases h3 : c = 0x43
    · simp only [if_pos h3]
      exact emsh_do_cuf_running s b
    simp only [if_neg h3]
    by_cases h4 : c = 0x44
    · simp only [if_pos h4]
      exact emsh_do_cub_running s b
    simp only [if_neg h4]
    by_cases h5 : c = 0x7E
    · simp only [if_pos h5]
      by_cases p1 : s.ctlseq.param_byte = 0x31
      · simp only [if_pos p1]
        exact emsh_cur_set_pos_running cfg s 0 b
      simp only [if_neg p1]
      by_cases p2 : s.ctlseq.param_byte = 0x32
      · simp only [if_pos p2]
        rfl
      simp only [if_neg p2]
      by_cases p3 : s.ctlseq.param_byte = 0x33
      · simp only [if_pos p3]
        exact emsh_do_erase_running cfg s b
      simp only [if_neg p3]
      by_cases p4 : s.ctlseq.param_byte = 0x34
      · simp only [if_pos p4]
        exact emsh_cur_set_pos_running cfg s _ b
      · simp only [if_neg p4]
        rfl
    · simp only [if_neg h5]
      rfl
  · simp only [if_neg h0]
    rfl

/-- A byte other than LF is handled in the same way whatever the `running` flag
is, and leaves the flag as it was. -/
theorem emsh_task_running (cfg : emsh_tunables) (exec : emsh_exec_t) (s : emsh_t)
    (c : Nat) (b : Bool) (hc : c ≠ ASCII_C_LF) :
    emsh_task cfg exec { s with running := b } c =
      (emsh_task cfg exec s c).map (fun t => { t with running := b }) := by
  obtain ⟨r, hi, bu, ⟨st, pb, ib⟩, cm, a1, a2, a3, a4, o, e⟩ := s
  simp only [emsh_task]
  by_cases h : (ctlseq_sm st c).1 = .INIT
  · simp only [h, if_true]
    exact emsh_task_key_running cfg exec
      ⟨r, hi, bu, ⟨.INIT, pb, ib⟩, cm, a1, a2, a3, a4, o, e⟩ c b hc
  · simp only [if_neg h]
    cases h2 : (ctlseq_sm st c).2.1 with
    | NONE =>
      simp only
      split_ifs <;> rfl
    | ESC => rfl
    | CSI => rfl
    | PARAM => rfl
    | INTERM => rfl
    | FINAL =>
      exact emsh_task_final_running cfg
        ⟨r, hi, bu, ⟨(ctlseq_sm st c).1, pb, ib⟩, cm, a1, a2, a3, a4, o, e⟩ c b
    | ILSEQ => rfl

end Emsh

namespace Emsh

theorem emsh_cmd_split_running (cfg : emsh_tunables) (s : emsh_t) (b : Bool) :
    emsh_cmd_split cfg { s with running := b } =
      (emsh_cmd_split cfg s).map (fun t => { t with running := b }) := by
  obtain ⟨r, hi, bu, cs, cm, a1, a2, a3, a4, o, e⟩ := s
  simp only [emsh_cmd_split, Option.bind_eq_bind, Option.pure_def]
  cases h1 : emsh_cmd_split_scan cfg hi.mem (emsh_buf_data bu) (emsh_buf_size bu) true
      (emsh_buf_size bu) 0 with
  | none => rfl
  | some pos =>
    simp only [Option.some_bind]
    by_cases hp : pos = emsh_buf_size bu
    · simp only [if_pos hp]
      rfl
    · simp only [if_neg hp]
      cases h2 : emsh_cmd_split_args cfg (emsh_buf_data bu) (emsh_buf_size bu)
          (emsh_buf_size bu) pos hi.mem { cm with argc := 0 } with
      | none => rfl
      | some x => rfl

theorem emsh_cmd_restore_running (cfg : emsh_tunables) (s : emsh_t) (b : Bool) :
    emsh_cmd_restore cfg { s with running := b } =
      (emsh_cmd_restore cfg s).map (fun t => { t with running := b }) := by
  obtain ⟨r, hi, bu, cs, cm, a1, a2, a3, a4, o, e⟩ := s
  simp only [emsh_cmd_restore, Option.bind_eq_bind, Option.pure_def]
  cases h1 : emsh_cmd_restore_loop cfg (emsh_buf_data bu) (emsh_buf_size bu) 0 hi.mem with
  | none => rfl
  | some m => rfl

theorem emsh_cmd_exec_running (cfg : emsh_tunables) (exec : emsh_exec_t) (s : emsh_t) (b : Bool)
    (hexec : ∀ n a v, ∃ r, exec n a { v with running := b } =
      ({ (exec n a v).1 with running := r }, (exec n a v).2)) :
    ∃ r, emsh_cmd_exec cfg exec { s with running := b } =
      (emsh_cmd_exec cfg exec s).map (fun t => { t with running := r }) := by
  obtain ⟨r, hi, bu, cs, cm, a1, a2, a3, a4, o, e⟩ := s
  simp only [emsh_cmd_exec, Option.bind_eq_bind, Option.pure_def]
  cases h1 : emsh_cmd_argv_strings cfg
      ⟨r, hi, bu, cs, { cm with optpos := 1 }, a1, a2, 1, a4, o, e⟩ with
  | none =>
    refine ⟨b, ?_⟩
    have h2 : emsh_cmd_argv_strings cfg
        ⟨b, hi, bu, cs, { cm with optpos := 1 }, a1, a2, 1, a4, o, e⟩ = none := h1
    rw [h2]
    rfl
  | some av =>
    have h2 : emsh_cmd_argv_strings cfg
        ⟨b, hi, bu, cs, { cm with optpos := 1 }, a1, a2, 1, a4, o, e⟩ = some av := h1
    obtain ⟨r2, hr2⟩ := hexec cm.argc av ⟨r, 1, a1, a2, 1, a4⟩
    have hr3 : exec cm.argc av ⟨b, 1, a1, a2, 1, a4⟩ =
        ({ (exec cm.argc av ⟨r, 1, a1, a2, 1, a4⟩).1 with running := r2 },
          (exec cm.argc av ⟨r, 1, a1, a2, 1, a4⟩).2) := hr2
    refine ⟨r2, ?_⟩
    rw [h2]
    simp only [Option.some_bind, Option.map_some']
    rw [hr3]

theorem emsh_cmd_run_running (cfg : emsh_tunables) (exec : emsh_exec_t) (s : emsh_t) (b : Bool)
    (hexec : ∀ n a v, ∃ r, exec n a { v with running := b } =
      ({ (exec n a v).1 with running := r }, (exec n a v).2)) :
    ∃ r, emsh_cmd_run cfg exec { s with running := b } =
      (emsh_cmd_run cfg exec s).map (fun p => ({ p.1 with running := r }, p.2)) := by
  simp only [emsh_cmd_run, Option.bind_eq_bind, Option.pure_def]
  rw [emsh_cmd_split_running]
  cases h1 : emsh_cmd_split cfg s with
  | none => exact ⟨b, rfl⟩
  | some t =>
    simp only [Option.map_some', Option.some_bind]
    have ha : ({ t with running := b } : emsh_t).cmd.argc = t.cmd.argc := rfl
    rw [ha]
    by_cases h0 : t.cmd.argc = 0
    · refine ⟨b, ?_⟩
      simp only [if_pos h0, Option.some_bind]
      rw [emsh_cmd_restore_running]
      cases h2 : emsh_cmd_restore cfg t with
      | none => rfl
      | some u => rfl
    · simp only [if_neg h0]
      by_cases hm : t.cmd.argc ≤ cfg.EMSH_MAX_N_ARGS
      · simp only [if_pos hm]
        obtain ⟨r, hr⟩ := emsh_cmd_exec_running cfg exec t b hexec
        refine ⟨r, ?_⟩
        rw [hr]
        cases h2 : emsh_cmd_exec cfg exec t with
        | none => rfl
        | some u =>
          simp only [Option.map_some', Option.some_bind]
          rw [emsh_cmd_restore_running]
          cases h3 : emsh_cmd_restore cfg u with
          | none => rfl
          | some w => rfl
      · refine ⟨b, ?_⟩
        simp only [if_neg hm, Option.some_bind]
        have hw : emsh_write_str { t with running := b }
            (emsh_s_arg_list_too_long ++ cfg.EMSH_S_NEWLINE) =
            { emsh_write_str t (emsh_s_arg_list_too_long ++ cfg.EMSH_S_NEWLINE) with
              running := b } := rfl
        rw [hw, emsh_cmd_restore_running]
        cases h2 : emsh_cmd_restore cfg
            (emsh_write_str t (emsh_s_arg_list_too_long ++ cfg.EMSH_S_NEWLINE)) with
        | none => rfl
        | some u => rfl

theorem emsh_cmd_split_keeps_running (cfg : emsh_tunables) (s t : emsh_t)
    (h : emsh_cmd_split cfg s = some t) : t.running = s.running := by
  have h2 := emsh_cmd_split_running cfg s s.running
  have h3 : ({ s with running := s.running } : emsh_t) = s := rfl
  rw [h3, h] at h2
  have h4 := Option.some.inj h2
  rw [h4]

theorem emsh_cmd_restore_keeps_running (cfg : emsh_tunables) (s t : emsh_t)
    (h : emsh_cmd_restore cfg s = some t) : t.running = s.running := by
  have h2 := emsh_cmd_restore_running cfg s s.running
  have h3 : ({ s with running := s.running } : emsh_t) = s := rfl
  rw [h3, h] at h2
  have h4 := Option.some.inj h2
  rw [h4]

theorem emsh_cmd_exec_keeps_running (cfg : emsh_tunables) (exec : emsh_exec_t) (s t : emsh_t)
    (hk : ∀ n a v, (exec n a v).1.running = v.running)
    (h : emsh_cmd_exec cfg exec s = some t) : t.running = s.running := by
  obtain ⟨r, hi, bu, cs, cm, a1, a2, a3, a4, o, e⟩ := s
  simp only [emsh_cmd_exec, Option.bind_eq_bind, Option.pure_def] at h
  cases h1 : emsh_cmd_argv_strings cfg
      ⟨r, hi, bu, cs, { cm with optpos := 1 }, a1, a2, 1, a4, o, e⟩ with
  | none => rw [h1] at h; exact absurd h (by simp)
  | some av =>
    rw [h1] at h
    simp only [Option.some_bind, Option.some.injEq] at h
    rw [← h]
    exact hk _ _ _

theorem emsh_cmd_run_keeps_running (cfg : emsh_tunables) (exec : emsh_exec_t) (s : emsh_t)
    (p : emsh_t × Bool) (hk : ∀ n a v, (exec n a v).1.running = v.running)
    (h : emsh_cmd_run cfg exec s = some p) : p.1.running = s.running := by
  simp only [emsh_cmd_run, Option.bind_eq_bind, Option.pure_def] at h
  cases h1 : emsh_cmd_split cfg s with
  | none => rw [h1] at h; exact absurd h (by simp)
  | some t =>
    have ht := emsh_cmd_split_keeps_running cfg s t h1
    rw [h1] at h
    simp only [Option.some_bind] at h
    have key : ∀ u : emsh_t, u.running = s.running →
        (emsh_cmd_restore cfg u).bind (fun w => some (w, w.cmd.argc != 0)) = some p →
        p.1.running = s.running := by
      intro u hu hb
      cases h3 : emsh_cmd_restore cfg u with
      | none => rw [h3] at hb; exact absurd hb (by simp)
      | some w =>
        rw [h3] at hb
        simp only [Option.some_bind, Option.some.injEq] at hb
        rw [← hb]
        exact (emsh_cmd_restore_keeps_running cfg u w h3).trans hu
    by_cases h0 : t.cmd.argc = 0
    · simp only [if_pos h0, Option.some_bind] at h
      exact key t ht h
    · simp only [if_neg h0] at h
      by_cases hm : t.cmd.argc ≤ cfg.EMSH_MAX_N_ARGS
      · simp only [if_pos hm] at h
        cases h2 : emsh_cmd_exec cfg exec t with
        | none => rw [h2] at h; exact absurd h (by simp)
        | some u =>
          rw [h2] at h
          simp only [Option.some_bind] at h
          exact key u ((emsh_cmd_exec_keeps_running cfg exec t u hk h2).trans ht) h
      · simp only [if_neg hm, Option.some_bind] at h
        exact key (emsh_write_str t (emsh_s_arg_list_too_long ++ cfg.EMSH_S_NEWLINE)) ht h

end Emsh

namespace Emsh

theorem emsh_prompt_if_eq (cfg : emsh_tunables) (u : emsh_t) :
    (if u.running = true then some (emsh_write_prompt cfg u) else some u) =
      some { u with out := u.out ++ (if u.running = true then c_lit cfg.EMSH_S_PROMPT else []) } := by
  by_cases h : u.running = true
  · rw [if_pos h, if_pos h]
    rfl
  · rw [if_neg h, if_neg h, List.append_nil]

/-- The commit of a line in two engines that differ in the `running` flag only:
both calls fail, or both return, in states that differ in the flag and in the
prompt written last, which is written exactly when the flag is set on return. -/
theorem emsh_do_commit_running (cfg : emsh_tunables) (exec : emsh_exec_t) (s : emsh_t) (b : Bool)
    (hexec : ∀ n a v, ∃ r, exec n a { v with running := b } =
      ({ (exec n a v).1 with running := r }, (exec n a v).2)) :
    (emsh_do_commit cfg exec s = none ∧ emsh_do_commit cfg exec { s with running := b } = none) ∨
    ∃ (u : emsh_t) (r : Bool),
      emsh_do_commit cfg exec s = some { u with
        out := u.out ++ (if u.running = true then c_lit cfg.EMSH_S_PROMPT else []) } ∧
      emsh_do_commit cfg exec { s with running := b } = some { u with
        running := r
        out := u.out ++ (if r = true then c_lit cfg.EMSH_S_PROMPT else []) } ∧
      ((∀ n a v, (exec n a v).1.running = v.running) → u.running = s.running ∧ r = b) := by
  simp only [emsh_do_commit, Option.bind_eq_bind, Option.pure_def]
  have hn : emsh_write_newline cfg { s with running := b } =
      { emsh_write_newline cfg s with running := b } := rfl
  rw [hn]
  obtain ⟨r, hr⟩ := emsh_cmd_run_running cfg exec (emsh_write_newline cfg s) b hexec
  cases h1 : emsh_cmd_run cfg exec (emsh_write_newline cfg s) with
  | none =>
    rw [h1] at hr
    rw [hr]
    exact Or.inl ⟨rfl, rfl⟩
  | some p =>
    obtain ⟨t, f⟩ := p
    rw [h1] at hr
    have hr2 : emsh_cmd_run cfg exec { emsh_write_newline cfg s with running := b } =
        some ({ t with running := r }, f) := hr
    rw [hr2]
    simp only [Option.some_bind]
    have hkeep : (∀ n a v, (exec n a v).1.running = v.running) →
        t.running = s.running ∧ r = b := by
      intro hk
      exact ⟨emsh_cmd_run_keeps_running cfg exec _ _ hk h1,
        emsh_cmd_run_keeps_running cfg exec _ _ hk hr2⟩
    cases f with
    | false =>
      simp only [Bool.false_eq_true, if_false, Option.some_bind]
      refine Or.inr ⟨t, r, emsh_prompt_if_eq cfg t, ?_, hkeep⟩
      exact emsh_prompt_if_eq cfg { t with running := r }
    | true =>
      simp only [if_true]
      have hh : ({ t with running := r } : emsh_t).hist = t.hist := rfl
      rw [hh]
      cases h2 : emsh_hist_commit cfg t.hist with
      | none => exact Or.inl ⟨rfl, rfl⟩
      | some h' =>
        simp only [Option.some_bind]
        cases h3 : emsh_hist_current h' with
        | none => exact Or.inl ⟨rfl, rfl⟩
        | some d =>
          simp only [Option.some_bind]
          cases h4 : emsh_buf_init cfg h'.mem d cfg.EMSH_MAX_LINE_SIZE with
          | none => exact Or.inl ⟨rfl, rfl⟩
          | some bf =>
            simp only [Option.some_bind]
            refine Or.inr ⟨{ t with hist := h', buf := bf }, r,
              emsh_prompt_if_eq cfg { t with hist := h', buf := bf }, ?_, hkeep⟩
            exact emsh_prompt_if_eq cfg { t with hist := h', buf := bf, running := r }

/-- CLAIM C34. The `running` flag affects only the prompt written after a commit.
Take any engine state `s`, any byte `c` and any flag value `b`, with an executor
whose written bytes and option variables do not depend on the flag it finds.
`emsh_stop` changes the flag only, to false; `emsh_start` sets it and writes
exactly the prompt. For a byte other than LF, `emsh_task` on `s` with the flag
set to `b` does what it does on `s` (line, caret, history, control state,
executor calls, bytes written), the flag staying `b`. For LF, both calls fail or
both return; the two results are one state `u` (line, caret, history, control
state, executor calls, bytes written up to the prompt) with its own flag on each
side and the prompt appended exactly on the side whose flag is set on return;
with an executor that leaves the flag alone these flags are those on entry. -/
theorem emsh_running_only_prompt (cfg : emsh_tunables) (exec : emsh_exec_t) (s : emsh_t)
    (c : Nat) (b : Bool)
    (hexec : ∀ n a v, ∃ r, exec n a { v with running := b } =
      ({ (exec n a v).1 with running := r }, (exec n a v).2)) :
    emsh_stop s = { s with running := false } ∧
    emsh_start cfg s = { s with running := true, out := s.out ++ c_lit cfg.EMSH_S_PROMPT } ∧
    (c ≠ ASCII_C_LF →
      emsh_task cfg exec { s with running := b } c =
        (emsh_task cfg exec s c).map (fun t => { t with running := b })) ∧
    (c = ASCII_C_LF →
      (emsh_task cfg exec s c = none ∧ emsh_task cfg exec { s with running := b } c = none) ∨
      ∃ (u : emsh_t) (r : Bool),
        emsh_task cfg exec s c = some { u with
          out := u.out ++ (if u.running = true then c_lit cfg.EMSH_S_PROMPT else []) } ∧
        emsh_task cfg exec { s with running := b } c = some { u with
          running := r
          out := u.out ++ (if r = true then c_lit cfg.EMSH_S_PROMPT else []) } ∧
        ((∀ n a v, (exec n a v).1.running = v.running) → u.running = s.running ∧ r = b)) := by
  refine ⟨rfl, rfl, emsh_task_running cfg exec s c b, ?_⟩
  intro hc
  subst hc
  rw [emsh_task_lf, emsh_task_lf]
  exact emsh_do_commit_running cfg exec { s with ctlseq := { s.ctlseq with st := .INIT } } b hexec

theorem emsh_running_only_prompt_witness :
    (∀ n a v, ∃ r, emsh_exec_none n a { v with running := false } =
      ({ (emsh_exec_none n a v).1 with running := r }, (emsh_exec_none n a v).2)) ∧
    (emsh_stop emsh_nav_sample = { emsh_nav_sample with running := false } ∧
    emsh_start {} emsh_nav_sample = { emsh_nav_sample with
      running := true
      out := emsh_nav_sample.out ++ c_lit ({} : emsh_tunables).EMSH_S_PROMPT } ∧
    (ASCII_C_LF ≠ ASCII_C_LF →
      emsh_task {} emsh_exec_none { emsh_nav_sample with running := false } ASCII_C_LF =
        (emsh_task {} emsh_exec_none emsh_nav_sample ASCII_C_LF).map
          (fun t => { t with running := false })) ∧
    (ASCII_C_LF = ASCII_C_LF →
      (emsh_task {} emsh_exec_none emsh_nav_sample ASCII_C_LF = none ∧
        emsh_task {} emsh_exec_none { emsh_nav_sample with running := false } ASCII_C_LF = none) ∨
      ∃ (u : emsh_t) (r : Bool),
        emsh_task {} emsh_exec_none emsh_nav_sample ASCII_C_LF = some { u with
          out := u.out ++
            (if u.running = true then c_lit ({} : emsh_tunables).EMSH_S_PROMPT else []) } ∧
        emsh_task {} emsh_exec_none { emsh_nav_sample with running := false } ASCII_C_LF =
          some { u with
            running := r
            out := u.out ++ (if r = true then c_lit ({} : emsh_tunables).EMSH_S_PROMPT else []) } ∧
        ((∀ n a v, (emsh_exec_none n a v).1.running = v.running) →
          u.running = emsh_nav_sample.running ∧ r = false))) :=
  ⟨fun _ _ _ => ⟨false, rfl⟩,
    emsh_running_only_prompt {} emsh_exec_none emsh_nav_sample ASCII_C_LF false
      (fun _ _ _ => ⟨false, rfl⟩)⟩

end Emsh

namespace Emsh

/-! ## list.h, emsh.c: no pop of an empty list, no null node -/

theorem list_set_prev_next (h : list_heap) (p q : list_ptr) (v : Option list_ptr) :
    (list_set_prev h p v q).next = (h q).next := by
  unfold list_set_prev
  by_cases e : q = p
  · subst e
    rw [Function.update_same]
  · rw [Function.update_noteq e]

theorem list_set_next_same (h : list_heap) (p : list_ptr) (v : Option list_ptr) :
    (list_set_next h p v p).next = v := by
  unfold list_set_next
  rw [Function.update_same]

theorem list_push_front_null (h : list_heap) (s : list_ptr) : list_push_front h s none = none := by
  simp only [list_push_front, list_node_sanity_check, c_assert, Option.bind_eq_bind]
  cases list_sanity_check h s <;> rfl

theorem list_push_back_null (h : list_heap) (s : list_ptr) : list_push_back h s none = none := by
  simp only [list_push_back, list_node_sanity_check, c_assert, Option.bind_eq_bind]
  cases list_sanity_check h s <;> rfl

theorem list_pop_front_nonempty (h h' : list_heap) (s x : list_ptr)
    (e : list_pop_front h s = some (h', some x)) : list_is_empty h s = some false := by
  simp only [list_pop_front, Option.bind_eq_bind, Option.pure_def] at e
  cases hc : c_assert (list_sanity_check h s) with
  | none => rw [hc] at e; exact absurd e (by simp)
  | some u =>
    rw [hc] at e
    simp only [Option.some_bind] at e
    cases he : list_is_empty h s with
    | none => rw [he] at e; exact absurd e (by simp)
    | some b =>
      cases b with
      | false => rfl
      | true =>
        rw [he] at e
        simp at e

theorem list_pop_back_nonempty (h h' : list_heap) (s x : list_ptr)
    (e : list_pop_back h s = some (h', some x)) : list_is_empty h s = some false := by
  simp only [list_pop_back, Option.bind_eq_bind, Option.pure_def] at e
  cases hc : c_assert (list_sanity_check h s) with
  | none => rw [hc] at e; exact absurd e (by simp)
  | some u =>
    rw [hc] at e
    simp only [Option.some_bind] at e
    cases he : list_is_empty h s with
    | none => rw [he] at e; exact absurd e (by simp)
    | some b =>
      cases b with
      | false => rfl
      | true =>
        rw [he] at e
        simp at e

theorem list_front_nonempty (h : list_heap) (s x : list_ptr)
    (e : list_front h s = some (some x)) :
    list_is_empty h s = some false ∧ (h s).next = some x := by
  simp only [list_front, Option.bind_eq_bind, Option.pure_def] at e
  cases hc : c_assert (list_sanity_check h s) with
  | none => rw [hc] at e; exact absurd e (by simp)
  | some u =>
    rw [hc] at e
    simp only [Option.some_bind] at e
    cases he : list_is_empty h s with
    | none => rw [he] at e; exact absurd e (by simp)
    | some b =>
      cases b with
      | false =>
        rw [he] at e
        simp at e
        exact ⟨rfl, e⟩
      | true =>
        rw [he] at e
        simp at e

theorem list_push_front_next (h h' : list_heap) (s f : list_ptr)
    (e : list_push_front h s (some f) = some h') : (h' s).next = some f := by
  simp only [list_push_front, Option.bind_eq_bind, Option.pure_def] at e
  cases hc : c_assert (list_sanity_check h s) with
  | none => rw [hc] at e; exact absurd e (by simp)
  | some u =>
    rw [hc] at e
    simp only [Option.some_bind] at e
    cases hc2 : c_assert (list_node_sanity_check h (some f)) with
    | none => rw [hc2] at e; exact absurd e (by simp)
    | some u2 =>
      rw [hc2] at e
      simp only [Option.some_bind] at e
      cases hl : list_node_is_linked h (some f) with
      | none => rw [hl] at e; exact absurd e (by simp)
      | some b =>
        rw [hl] at e
        simp only [Option.some_bind] at e
        cases hc3 : c_assert (!b) with
        | none => rw [hc3] at e; exact absurd e (by simp)
        | some u3 =>
          rw [hc3] at e
          simp only [Option.some_bind] at e
          obtain ⟨n, _, hn2⟩ := Option.bind_eq_some.mp e
          rw [← Option.some.inj hn2, list_set_prev_next, list_set_next_same]

/-- The calls that take the new draft, read off a heap on which they succeed. -/
theorem emsh_hist_draft_calls_of (h h1 h2 : list_heap) (nd cur : Option list_ptr)
    (e1 : list_pop_front h .free_list = some (h1, nd))
    (e2 : list_push_front h1 .list nd = some h2)
    (e3 : list_front h2 .list = some cur) (hc : cur ≠ none) :
    ∃ f, cur = some f ∧ emsh_hist_draft_calls h f := by
  cases nd with
  | none => rw [list_push_front_null] at e2; exact absurd e2 (by simp)
  | some f =>
    cases cur with
    | none => exact absurd rfl hc
    | some c =>
      obtain ⟨hne, hnx⟩ := list_front_nonempty h2 .list c e3
      have hcf : c = f := by
        rw [list_push_front_next h1 h2 .list f e2] at hnx
        exact (Option.some.inj hnx).symm
      subst hcf
      exact ⟨c, rfl, h1, h2, list_pop_front_nonempty h h1 .free_list c e1, e1, e2, hne, e3⟩

theorem emsh_hist_commit_draft_calls (cfg : emsh_tunables) (self self' : emsh_hist_t)
    (e : emsh_hist_commit_draft cfg self = some self') :
    ∃ f, emsh_hist_draft_calls self.node f ∧ self'.cur = some f := by
  simp only [emsh_hist_commit_draft, Option.bind_eq_bind, Option.pure_def] at e
  obtain ⟨⟨h1, nd⟩, e1, e⟩ := Option.bind_eq_some.mp e
  obtain ⟨h2, e2, e⟩ := Option.bind_eq_some.mp e
  obtain ⟨cur, e3, e⟩ := Option.bind_eq_some.mp e
  obtain ⟨b, e4, e⟩ := Option.bind_eq_some.mp e
  obtain ⟨m, e5, e⟩ := Option.bind_eq_some.mp e
  have hc : cur ≠ none := by
    intro h0
    subst h0
    simp [emsh_hist_current] at e4
  obtain ⟨f, hf, hcalls⟩ := emsh_hist_draft_calls_of self.node h1 h2 nd cur e1 e2 e3 hc
  refine ⟨f, hcalls, ?_⟩
  rw [← Option.some.inj e, ← hf]

theorem emsh_hist_commit_calls_of (cfg : emsh_tunables) (self self' : emsh_hist_t)
    (e : emsh_hist_commit cfg self = some self') :
    ∃ d f, emsh_hist_commit_calls self d f ∧ self'.cur = some f := by
  simp only [emsh_hist_commit, Option.bind_eq_bind, Option.pure_def] at e
  by_cases hp : (self.pos != 0) = true
  · rw [if_pos hp] at e
    obtain ⟨⟨h1, nd⟩, e1, e⟩ := Option.bind_eq_some.mp e
    obtain ⟨h2, e2, e⟩ := Option.bind_eq_some.mp e
    obtain ⟨h3, e3, e⟩ := Option.bind_eq_some.mp e
    obtain ⟨h4, e4, e⟩ := Option.bind_eq_some.mp e
    simp only [Option.some_bind] at e
    obtain ⟨f, hcalls, hcur⟩ := emsh_hist_commit_draft_calls cfg _ self' e
    cases nd with
    | none => rw [list_push_back_null] at e2; exact absurd e2 (by simp)
    | some x =>
      cases hcu : self.cur with
      | none =>
        have e4b : list_push_front h3 .list self.cur = some h4 := e4
        rw [hcu, list_push_front_null] at e4b
        exact absurd e4b (by simp)
      | some c =>
        have e3b : list_node_unlink h2 self.cur = some h3 := e3
        have e4b : list_push_front h3 .list self.cur = some h4 := e4
        rw [hcu] at e3b e4b
        refine ⟨some x, f, ?_, hcur⟩
        unfold emsh_hist_commit_calls
        rw [if_pos hp]
        exact ⟨x, c, h1, h2, h3, h4, rfl, hcu,
          list_pop_front_nonempty self.node h1 .list x e1, e1, e2, e3b, e4b, hcalls⟩
  · rw [if_neg hp] at e
    by_cases hfull : self.size = self.capacity
    · rw [if_pos hfull] at e
      obtain ⟨⟨h1, nd⟩, e1, e⟩ := Option.bind_eq_some.mp e
      obtain ⟨h2, e2, e⟩ := Option.bind_eq_some.mp e
      simp only [Option.some_bind] at e
      obtain ⟨f, hcalls, hcur⟩ := emsh_hist_commit_draft_calls cfg _ self' e
      cases nd with
      | none => rw [list_push_back_null] at e2; exact absurd e2 (by simp)
      | some x =>
        refine ⟨some x, f, ?_, hcur⟩
        unfold emsh_hist_commit_calls
        rw [if_neg hp, if_pos hfull]
        exact ⟨x, h1, h2, rfl, list_pop_back_nonempty self.node h1 .list x e1, e1, e2, hcalls⟩
    · rw [if_neg hfull] at e
      simp only [Option.some_bind] at e
      obtain ⟨f, hcalls, hcur⟩ := emsh_hist_commit_draft_calls cfg _ self' e
      refine ⟨none, f, ?_, hcur⟩
      unfold emsh_hist_commit_calls
      rw [if_neg hp, if_neg hfull]
      exact ⟨rfl, hcalls⟩

theorem emsh_hist_init_calls_of (cfg : emsh_tunables) (self self' : emsh_hist_t) (n : Nat)
    (e : emsh_hist_init cfg self n = some self') (hcur : self'.cur ≠ none) :
    ∃ f, emsh_hist_init_calls cfg self n f ∧ self'.cur = some f := by
  simp only [emsh_hist_init, Option.bind_eq_bind, Option.pure_def] at e
  obtain ⟨u, _, e⟩ := Option.bind_eq_some.mp e
  obtain ⟨⟨h, m⟩, e1, e⟩ := Option.bind_eq_some.mp e
  obtain ⟨⟨h1, nd⟩, e2, e⟩ := Option.bind_eq_some.mp e
  obtain ⟨h2, e3, e⟩ := Option.bind_eq_some.mp e
  obtain ⟨cur, e4, e⟩ := Option.bind_eq_some.mp e
  have hcs : self'.cur = cur := by rw [← Option.some.inj e]
  rw [hcs] at hcur
  obtain ⟨f, hf, hcalls⟩ := emsh_hist_draft_calls_of (list_init h .list) h1 h2 nd cur e2 e3 e4 hcur
  exact ⟨f, ⟨h, m, e1, hcalls⟩, hcs.trans hf⟩

end Emsh

namespace Emsh

theorem emsh_hist_full2_nav_inv : emsh_hist_inv emsh_hist_full2_nav [1, 0] [] :=
  ⟨⟨by simp [list_seg, list_links, emsh_hist_full2_nav, emsh_hist_full2], by decide⟩,
    ⟨by simp [list_seg, list_links, emsh_hist_full2_nav, emsh_hist_full2], by decide⟩,
    by decide, rfl, by decide, rfl⟩

theorem emsh_hist_inv_cur_front (self : emsh_hist_t) (f : Nat) (al fl : List Nat)
    (H : emsh_hist_inv self (f :: al) fl) (hp : self.pos = 0) : self.cur = some (.block f) := by
  obtain ⟨c, hc, hcu⟩ := emsh_hist_inv_cur self _ _ H
  rw [hp] at hc
  simp only [List.getElem?_cons_zero, Option.some.injEq] at hc
  rw [hcu, hc]

/-- Under the ring invariant `emsh_hist_commit` returns, each of its pops is made on
a non-empty list and returns a block, and on a ring without free block the block
freed by the call is the one taken as the new draft. -/
theorem emsh_hist_commit_freed (cfg : emsh_tunables) (self : emsh_hist_t) (al fl : List Nat)
    (H : emsh_hist_inv self al fl) :
    ∃ self' d f, emsh_hist_commit cfg self = some self' ∧
      emsh_hist_commit_calls self d (.block f) ∧ self'.cur = some (.block f) ∧
      self'.capacity = self.capacity ∧ f < self.capacity ∧
      (fl = [] → d = some (.block f)) := by
  obtain ⟨self', f, al', fl', he, H', hp0, hcap, _, _⟩ := emsh_hist_commit_inv cfg self al fl H
  have hcur := emsh_hist_inv_cur_front self' f al' fl' H' hp0
  obtain ⟨d, f2, hcalls, hcur2⟩ := emsh_hist_commit_calls_of cfg self self' he
  have hf2 : f2 = .block f := by
    rw [hcur] at hcur2
    exact (Option.some.inj hcur2).symm
  subst hf2
  have hflt : f < self.capacity := by
    have hm : f ∈ List.range self'.capacity :=
      (List.Perm.mem_iff H'.2.2.1).1 (by simp)
    rw [hcap] at hm
    exact List.mem_range.mp hm
  refine ⟨self', d, f, he, hcalls, hcur, hcap, hflt, ?_⟩
  intro hfl
  subst hfl
  have hnd := emsh_hist_inv_nodup self _ _ H
  have hlen := emsh_hist_inv_length self _ _ H
  by_cases hp : self.pos = 0
  · have hfull : self.size = self.capacity := by
      rw [H.2.2.2.1]
      simpa using hlen
    have hne : al ≠ [] := by
      intro h0
      have := H.2.2.2.2.1
      rw [h0] at this
      exact absurd this (by simp)
    rcases List.eq_nil_or_concat al with h0 | ⟨al0, t, hal⟩
    · exact absurd h0 hne
    · rw [List.concat_eq_append] at hal
      subst hal
      obtain ⟨s2, he2, H2, hp2, _⟩ := emsh_hist_commit_full cfg self t al0 H hp hfull
      rw [he] at he2
      have hs2 := Option.some.inj he2
      subst hs2
      have hcur3 := emsh_hist_inv_cur_front self' t al0 [] H2 hp2
      rw [hcur] at hcur3
      have hft : f = t := by
        injection hcur3 with h1
        injection h1
      subst hft
      unfold emsh_hist_commit_calls at hcalls
      have hpb : ¬ ((self.pos != 0) = true) := by simp [hp]
      rw [if_neg hpb, if_pos hfull] at hcalls
      obtain ⟨x, h1, h2, hd, _, e1, _⟩ := hcalls
      obtain ⟨h1', e1', _⟩ := hist_pop_back self.node .list .free_list f al0 []
        (by decide) (Or.inl rfl) (Or.inr rfl) H.1 H.2.1 (by simp)
      rw [e1] at e1'
      have hx : x = .block f := by
        injection e1' with h3
        injection h3 with _ h4
        injection h4
      rw [hd, hx]
  · obtain ⟨d0, c, r1, r2, hal, hpos, _, _⟩ := emsh_hist_inv_split self al [] H (by omega)
    subst hal
    obtain ⟨s2, f', ft, hfl2, he2, H2, hp2, _⟩ := emsh_hist_commit_nav cfg self d0 c r1 r2 [] H hpos
    rw [he] at he2
    have hs2 := Option.some.inj he2
    subst hs2
    have hcur3 := emsh_hist_inv_cur_front self' f' _ ft H2 hp2
    rw [hcur] at hcur3
    have hff : f = f' := by
      injection hcur3 with h1
      injection h1
    have hfd : d0 = f' := by
      simp only [List.nil_append, List.cons.injEq] at hfl2
      exact hfl2.1
    unfold emsh_hist_commit_calls at hcalls
    have hpb : (self.pos != 0) = true := by simp [hp]
    rw [if_pos hpb] at hcalls
    obtain ⟨x, c2, h1, h2, h3, h4, hd, _, _, e1, _⟩ := hcalls
    obtain ⟨h1', e1', _⟩ := hist_pop_front self.node .list .free_list d0 (r1 ++ c :: r2) []
      (by decide) (Or.inl rfl) (Or.inr rfl) H.1 H.2.1 (by simp)
    rw [e1] at e1'
    have hx : x = .block d0 := by
      injection e1' with h3
      injection h3 with _ h4
      injection h4
    rw [hd, hx, hfd, hff]

/-- CLAIM C40. No list call of the history ring is made on an empty list.
`emsh_hist_init` with at least one block returns; its `list_pop_front` finds the
free list non-empty and returns block 0, which is pushed, and its `list_front`
finds the active list non-empty and returns block 0. Under the ring invariant
`emsh_hist_commit` returns; in each of its branches every `list_pop_front`,
`list_pop_back` and `list_front` is called on a non-empty list and returns a
block, every node pushed is a block, and the cursor of the result is the block
taken as the new draft. On a ring without free block (a full ring, committed
from the draft or from a navigated position) the block freed by the call is the
one taken as the new draft; so it is for a pool of capacity 1, where block 0 is
retired and taken again. -/
theorem emsh_hist_pops_nonempty (cfg : emsh_tunables) (self0 self : emsh_hist_t) (n : Nat)
    (al fl : List Nat) (hn : 1 ≤ n) (H : emsh_hist_inv self al fl) :
    (∃ s1, emsh_hist_init cfg self0 n = some s1 ∧
      emsh_hist_init_calls cfg self0 n (.block 0) ∧ s1.cur = some (.block 0)) ∧
    (∃ self' d f, emsh_hist_commit cfg self = some self' ∧
      emsh_hist_commit_calls self d (.block f) ∧ self'.cur = some (.block f) ∧
      (fl = [] → d = some (.block f))) ∧
    (∃ s1 s2, emsh_hist_init cfg self0 1 = some s1 ∧ emsh_hist_commit cfg s1 = some s2 ∧
      emsh_hist_commit_calls s1 (some (.block 0)) (.block 0) ∧ s2.cur = some (.block 0)) := by
  have hinit : ∀ k, 1 ≤ k → ∃ s1, emsh_hist_init cfg self0 k = some s1 ∧
      emsh_hist_init_calls cfg self0 k (.block 0) ∧ s1.cur = some (.block 0) ∧
      emsh_hist_inv s1 [0] ((List.range (k - 1)).map Nat.succ) ∧ s1.capacity = k := by
    intro k hk
    obtain ⟨s1, he, H1, hcap, hp, _⟩ := emsh_hist_init_spec cfg self0 k hk
    have hcur := emsh_hist_inv_cur_front s1 0 [] _ H1 hp
    obtain ⟨f, hcalls, hcf⟩ := emsh_hist_init_calls_of cfg self0 s1 k he (by rw [hcur]; simp)
    have hf : f = .block 0 := by
      rw [hcur] at hcf
      exact (Option.some.inj hcf).symm
    subst hf
    exact ⟨s1, he, hcalls, hcur, H1, hcap⟩
  refine ⟨?_, ?_, ?_⟩
  · obtain ⟨s1, he, hcalls, hcur, _, _⟩ := hinit n hn
    exact ⟨s1, he, hcalls, hcur⟩
  · obtain ⟨self', d, f, he, hcalls, hcur, _, _, hd⟩ := emsh_hist_commit_freed cfg self al fl H
    exact ⟨self', d, f, he, hcalls, hcur, hd⟩
  · obtain ⟨s1, he, _, _, H1, hcap⟩ := hinit 1 (le_refl 1)
    have H1' : emsh_hist_inv s1 [0] [] := H1
    obtain ⟨s2, d, f, he2, hcalls, hcur, _, hflt, hd⟩ := emsh_hist_commit_freed cfg s1 [0] [] H1'
    have hf0 : f = 0 := by omega
    subst hf0
    have hd0 := hd rfl
    subst hd0
    exact ⟨s1, s2, he, he2, hcalls, hcur⟩

theorem emsh_hist_pops_nonempty_witness :
    1 ≤ 1 ∧ emsh_hist_inv emsh_hist_full2_nav [1, 0] [] ∧
    ((∃ s1, emsh_hist_init {} emsh_hist_fresh2 1 = some s1 ∧
      emsh_hist_init_calls {} emsh_hist_fresh2 1 (.block 0) ∧ s1.cur = some (.block 0)) ∧
    (∃ self' d f, emsh_hist_commit {} emsh_hist_full2_nav = some self' ∧
      emsh_hist_commit_calls emsh_hist_full2_nav d (.block f) ∧ self'.cur = some (.block f) ∧
      (([] : List Nat) = [] → d = some (.block f))) ∧
    (∃ s1 s2, emsh_hist_init {} emsh_hist_fresh2 1 = some s1 ∧
      emsh_hist_commit {} s1 = some s2 ∧
      emsh_hist_commit_calls s1 (some (.block 0)) (.block 0) ∧ s2.cur = some (.block 0))) :=
  ⟨le_refl 1, emsh_hist_full2_nav_inv,
    emsh_hist_pops_nonempty {} emsh_hist_fresh2 emsh_hist_full2_nav 1 [1, 0] [] (le_refl 1)
      emsh_hist_full2_nav_inv⟩

end Emsh

namespace Emsh

/-! ## emsh.c: the scan of `emsh_getopt` ends -/

/-- One call of `emsh_getopt` from a state satisfying the scanner invariant
returns and keeps the invariant; it returns -1 exactly when there is no element
to scan, and otherwise reads a character of the element and moves on. -/
theorem emsh_getopt_advance (cfg : emsh_tunables) (s : emsh_t) (argc : Int)
    (argv : List (Option (List Nat))) (optstring : List Nat)
    (hi : getopt_inv s argc argv) (hall : ∀ a ∈ argv, ∃ arg, a = some arg)
    (hnz : ∀ x ∈ optstring, x ≠ 0) :
    ∃ s' r, emsh_getopt cfg s argc argv optstring = some (s', r) ∧
      getopt_inv s' argc argv ∧
      (getopt_element s.emsh_optind argc argv = none → r = -1) ∧
      (∀ arg, getopt_element s.emsh_optind argc argv = some arg →
        r ≠ -1 ∧ s.cmd.optpos < arg.length ∧ arg.getD s.cmd.optpos 0 ≠ 0 ∧
        ((s.cmd.optpos + 1 < arg.length ∧ s'.emsh_optind = s.emsh_optind ∧
            s'.cmd.optpos = s.cmd.optpos + 1) ∨
          (s.cmd.optpos + 1 = arg.length ∧ s'.cmd.optpos = 1 ∧
            (s'.emsh_optind = s.emsh_optind + 1 ∨ s'.emsh_optind = s.emsh_optind + 2)))) := by
  have hv := getopt_inv_valid s argc argv hi
  obtain ⟨h0, hlen, hnza, hpos⟩ := id hi
  cases hE : getopt_element s.emsh_optind argc argv with
  | none =>
    rw [emsh_getopt_none cfg s argc argv optstring hv hE]
    have hp1 : s.cmd.optpos = 1 := by
      rcases hpos with h | ⟨arg, he, _⟩
      · exact h
      · rw [hE] at he; exact absurd he (by simp)
    refine ⟨_, _, rfl, ?_, fun _ => rfl, fun arg ha => absurd ha (by simp)⟩
    by_cases hd : s.emsh_optind < argc ∧
        argv[s.emsh_optind.toNat]? = some (some [0x2D, 0x2D])
    · rw [if_pos hd]
      exact ⟨by show 0 ≤ s.emsh_optind + 1; omega, hlen, hnza, Or.inl hp1⟩
    · rw [if_neg hd]
      exact hi
  | some arg =>
    obtain ⟨_, hlt, ha, _, _, _⟩ := getopt_element_some _ _ _ _ hE
    have hname : ∃ name, c_argv argv 0 = some (some name) := by
      have hl0 : 0 < argv.length := by omega
      obtain ⟨nm, hnm⟩ := hall argv[0] (List.getElem_mem _)
      refine ⟨nm, ?_⟩
      rw [c_argv_eq argv 0 (le_refl _)]
      show argv[0]? = some (some nm)
      rw [List.getElem?_eq_getElem hl0, hnm]
    obtain ⟨name, hname⟩ := hname
    obtain ⟨s', r, e, _, hpp, hcases⟩ :=
      emsh_getopt_scan_cases cfg s argc argv optstring arg name hv hE hnz hname
    have hposlt := hv.2.2.2.2 arg hE
    have hread := (emsh_getopt_some cfg s argc argv optstring arg hv hE).2
    have hind : (s.cmd.optpos + 1 = arg.length →
          s'.emsh_optind = s.emsh_optind + 1 ∨ s'.emsh_optind = s.emsh_optind + 2) ∧
        (¬ s.cmd.optpos + 1 = arg.length → s'.emsh_optind = s.emsh_optind) := by
      rcases hcases with h | h | h | h
      · refine ⟨fun hl => Or.inl ?_, fun hl => ?_⟩
        · rw [h.2.2.2.2.1, if_pos hl]
        · rw [h.2.2.2.2.1, if_neg hl]
      · refine ⟨fun hl => Or.inl ?_, fun hl => ?_⟩
        · rw [h.2.2.2.2.2.1, if_pos hl]
        · rw [h.2.2.2.2.2.1, if_neg hl]
      · refine ⟨fun _ => Or.inr h.2.2.2.2.2.1, fun hl => absurd h.2.1 hl⟩
      · refine ⟨fun hl => Or.inl ?_, fun hl => ?_⟩
        · rw [h.2.2.2.2.2.1, if_pos hl]
        · rw [h.2.2.2.2.2.1, if_neg hl]
    have hr : r ≠ -1 := by
      rcases hcases with h | h | h | h
      · rw [h.2.1]; decide
      · rw [h.2.2.1]
        split_ifs <;> decide
      · rw [h.2.2.2.1]
        omega
      · rw [h.2.2.1]
        omega
    refine ⟨s', r, e, ?_, fun hn => absurd hn (by simp), ?_⟩
    · by_cases hl : s.cmd.optpos + 1 = arg.length
      · rw [if_pos hl] at hpp
        refine ⟨?_, hlen, hnza, Or.inl hpp⟩
        rcases hind.1 hl with h | h <;> rw [h] <;> omega
      · rw [if_neg hl] at hpp
        have hi' := hind.2 hl
        refine ⟨by rw [hi']; exact h0, hlen, hnza, Or.inr ⟨arg, by rw [hi']; exact hE, ?_, ?_⟩⟩
        · rw [hpp]; omega
        · rw [hpp]; omega
    · intro arg2 he2
      have ha2 : arg2 = arg := (Option.some.inj he2).symm
      subst ha2
      refine ⟨hr, hposlt, hread, ?_⟩
      by_cases hl : s.cmd.optpos + 1 = arg2.length
      · rw [if_pos hl] at hpp
        exact Or.inr ⟨hl, hpp, hind.1 hl⟩
      · rw [if_neg hl] at hpp
        exact Or.inl ⟨by omega, hind.2 hl, hpp⟩

theorem getopt_chars_from_succ_le (argv : List (Option (List Nat))) (i : Nat) :
    getopt_chars_from argv (i + 1) ≤ getopt_chars_from argv i := by
  unfold getopt_chars_from
  rw [← List.tail_drop]
  cases argv.drop i with
  | nil => simp
  | cons a t => simp

theorem getopt_chars_from_get (argv : List (Option (List Nat))) (i : Nat) (arg : List Nat)
    (h : argv[i]? = some (some arg)) :
    getopt_chars_from argv i = arg.length + getopt_chars_from argv (i + 1) := by
  unfold getopt_chars_from
  obtain ⟨hlt, hget⟩ := List.getElem?_eq_some_iff.mp h
  rw [List.drop_eq_getElem_cons hlt, hget]
  simp

end Emsh

namespace Emsh

/-- The loop over `emsh_getopt` ends: from a state satisfying the scanner
invariant, more calls are allowed than characters are left from the scan
position on, and the loop makes at most that many calls plus one. -/
theorem emsh_getopt_loop_ends (cfg : emsh_tunables) (argc : Int)
    (argv : List (Option (List Nat))) (optstring : List Nat)
    (hall : ∀ a ∈ argv, ∃ arg, a = some arg) (hnz : ∀ x ∈ optstring, x ≠ 0) :
    ∀ (n : Nat) (s : emsh_t), getopt_inv s argc argv →
      getopt_chars_from argv s.emsh_optind.toNat - s.cmd.optpos < n →
      ∃ k, emsh_getopt_loop cfg argc argv optstring n s = some k ∧
        k ≤ getopt_chars_from argv s.emsh_optind.toNat - s.cmd.optpos + 1 := by
  intro n
  induction n with
  | zero => intro s _ h; exact absurd h (by omega)
  | succ n ih =>
    intro s hi hfuel
    obtain ⟨s', r, e, hi', hnone, hsome⟩ :=
      emsh_getopt_advance cfg s argc argv optstring hi hall hnz
    simp only [emsh_getopt_loop, e]
    cases hE : getopt_element s.emsh_optind argc argv with
    | none =>
      rw [if_pos (hnone hE)]
      exact ⟨1, rfl, by omega⟩
    | some arg =>
      obtain ⟨hr, hlt, _, hadv⟩ := hsome arg hE
      obtain ⟨h0, _, hget, _⟩ := getopt_element_some _ _ _ _ hE
      have hC := getopt_chars_from_get argv s.emsh_optind.toNat arg hget
      have hdec : getopt_chars_from argv s'.emsh_optind.toNat - s'.cmd.optpos + 1 ≤
          getopt_chars_from argv s.emsh_optind.toNat - s.cmd.optpos := by
        rcases hadv with ⟨h1, h2, h3⟩ | ⟨h1, h2, h3⟩
        · rw [h2, h3]
          omega
        · have hD1 := getopt_chars_from_succ_le argv (s.emsh_optind.toNat + 1)
          have hle : getopt_chars_from argv s'.emsh_optind.toNat ≤
              getopt_chars_from argv (s.emsh_optind.toNat + 1) := by
            rcases h3 with h3 | h3
            · have : s'.emsh_optind.toNat = s.emsh_optind.toNat + 1 := by rw [h3]; omega
              rw [this]
            · have : s'.emsh_optind.toNat = s.emsh_optind.toNat + 1 + 1 := by rw [h3]; omega
              rw [this]
              exact hD1
          rw [h2]
          omega
      obtain ⟨k, hk, hkle⟩ := ih s' hi' (by omega)
      rw [if_neg hr, hk]
      exact ⟨k + 1, rfl, by omega⟩

end Emsh

namespace Emsh

/-- C39 as stated fails. On `p -a x` with `optstring = a`, from `optind = 1` and
sub-position 1, the first call returns `a`, not -1, and leaves `optind = 2 < 3`
with sub-position 1, which is not below the length 1 of `argv[2] = x`. On `p`
alone the loop makes one call, the one that returns -1, while `argv[1..argc-1]`
holds no character. -/
theorem emsh_getopt_position_counterexample :
    ((emsh_getopt {} (emsh_sample []) 3 emsh_argv_pax [0x61]).map
        (fun r => (r.2, r.1.emsh_optind, r.1.cmd.optpos)) = some (0x61, 2, 1) ∧
      emsh_argv_pax[2]? = some (some [0x78]) ∧ ¬ (1 < [0x78].length)) ∧
    (emsh_getopt_loop {} 1 emsh_argv_p [0x61] 1 (emsh_sample []) = some 1 ∧
      getopt_chars_from emsh_argv_p 1 = 0) := by
  refine ⟨⟨by decide, by decide, by decide⟩, by decide, by decide⟩

/-- CLAIM C39, amended. Take an `argv` of NUL-terminated strings and a scan that
starts from `optind = 1` and sub-position 1. The scanner invariant holds at the
start, and from every state that satisfies it a call of `emsh_getopt` returns and
keeps it: the sub-position is at least 1, and it is below the length of
`argv[optind]` whenever that element is one a call scans (`optind < argc`, the
element starts with `-` and is neither `-` nor `--`). A call that does not return
-1 reads the option character at an index below the length of the element it
scans, so never the terminator nor a byte after it, and strictly advances
`(optind, sub-position)` in lexicographic order. The loop that calls
`emsh_getopt` until it returns -1 ends after at most `max 1 N` calls, `N` being
the number of characters in `argv[1..argc-1]`. -/
theorem emsh_getopt_scan_ends (cfg : emsh_tunables) (self : emsh_t) (args : List (List Nat))
    (optstring : List Nat) (h1 : self.emsh_optind = 1) (h2 : self.cmd.optpos = 1)
    (hargs : ∀ arg ∈ args, ∀ x ∈ arg, x ≠ 0) (hnz : ∀ x ∈ optstring, x ≠ 0) :
    getopt_inv self args.length (args.map some) ∧
    (∀ s, getopt_inv s args.length (args.map some) →
      ∃ s' r, emsh_getopt cfg s args.length (args.map some) optstring = some (s', r) ∧
        getopt_inv s' args.length (args.map some) ∧
        1 ≤ s'.cmd.optpos ∧
        (∀ arg, getopt_element s'.emsh_optind args.length (args.map some) = some arg →
          s'.cmd.optpos < arg.length) ∧
        (r ≠ -1 →
          ∃ arg, getopt_element s.emsh_optind args.length (args.map some) = some arg ∧
            s.cmd.optpos < arg.length ∧ arg.getD s.cmd.optpos 0 ≠ 0 ∧
            ((s'.emsh_optind = s.emsh_optind ∧ s.cmd.optpos < s'.cmd.optpos) ∨
              s.emsh_optind < s'.emsh_optind))) ∧
    (∃ k, emsh_getopt_loop cfg args.length (args.map some) optstring
        (max 1 (getopt_chars_from (args.map some) 1)) self = some k ∧
      k ≤ max 1 (getopt_chars_from (args.map some) 1)) := by
  have hall : ∀ a ∈ args.map some, ∃ arg, a = some arg := by
    intro a ha
    obtain ⟨arg, _, rfl⟩ := List.mem_map.mp ha
    exact ⟨arg, rfl⟩
  have hinv : getopt_inv self args.length (args.map some) := by
    refine ⟨by rw [h1]; decide, by simp, ?_, Or.inl h2⟩
    intro arg ha
    obtain ⟨arg2, hm, he⟩ := List.mem_map.mp ha
    rw [← Option.some.inj he]
    exact hargs arg2 hm
  refine ⟨hinv, ?_, ?_⟩
  · intro s hi
    obtain ⟨s', r, e, hi', hnone, hsome⟩ :=
      emsh_getopt_advance cfg s args.length (args.map some) optstring hi hall hnz
    have hv := getopt_inv_valid s' _ _ hi'
    refine ⟨s', r, e, hi', hv.2.2.2.1, hv.2.2.2.2, ?_⟩
    intro hr
    cases hE : getopt_element s.emsh_optind args.length (args.map some) with
    | none => exact absurd (hnone hE) hr
    | some arg =>
      obtain ⟨_, hlt, hread, hadv⟩ := hsome arg hE
      refine ⟨arg, rfl, hlt, hread, ?_⟩
      rcases hadv with ⟨_, h3, h4⟩ | ⟨_, _, h3⟩
      · exact Or.inl ⟨h3, by omega⟩
      · exact Or.inr (by omega)
  · obtain ⟨k, hk, hkle⟩ := emsh_getopt_loop_ends cfg args.length (args.map some) optstring
      hall hnz (max 1 (getopt_chars_from (args.map some) 1)) self hinv (by
        rw [h1, h2]
        show getopt_chars_from (args.map some) 1 - 1 < _
        omega)
    refine ⟨k, hk, ?_⟩
    rw [h1, h2] at hkle
    have hkle2 : k ≤ getopt_chars_from (args.map some) 1 - 1 + 1 := hkle
    omega

/-- C39, amended, on scenario E5 (`greet -m -c Hello World`, `maenc:`). -/
theorem emsh_getopt_scan_ends_witness :
    getopt_inv (emsh_sample []) emsh_args_E5.length (emsh_args_E5.map some) ∧
    (∀ s, getopt_inv s emsh_args_E5.length (emsh_args_E5.map some) →
      ∃ s' r, emsh_getopt {} s emsh_args_E5.length (emsh_args_E5.map some)
          emsh_optstring_E5 = some (s', r) ∧
        getopt_inv s' emsh_args_E5.length (emsh_args_E5.map some) ∧
        1 ≤ s'.cmd.optpos ∧
        (∀ arg, getopt_element s'.emsh_optind emsh_args_E5.length (emsh_args_E5.map some) =
            some arg → s'.cmd.optpos < arg.length) ∧
        (r ≠ -1 →
          ∃ arg, getopt_element s.emsh_optind emsh_args_E5.length (emsh_args_E5.map some) =
              some arg ∧
            s.cmd.optpos < arg.length ∧ arg.getD s.cmd.optpos 0 ≠ 0 ∧
            ((s'.emsh_optind = s.emsh_optind ∧ s.cmd.optpos < s'.cmd.optpos) ∨
              s.emsh_optind < s'.emsh_optind))) ∧
    (∃ k, emsh_getopt_loop {} emsh_args_E5.length (emsh_args_E5.map some) emsh_optstring_E5
        (max 1 (getopt_chars_from (emsh_args_E5.map some) 1)) (emsh_sample []) = some k ∧
      k ≤ max 1 (getopt_chars_from (emsh_args_E5.map some) 1)) :=
  emsh_getopt_scan_ends {} (emsh_sample []) emsh_args_E5 emsh_optstring_E5 rfl rfl
    (by decide) (by decide)

end Emsh

namespace Emsh

/-! ## emsh.c: the echo of a line typed at the end -/

/-- A printable byte typed at the end of a line with room: it is appended, the
caret stays at the end, and the byte and `CSI K` are written. -/
theorem emsh_echo_byte (cfg : emsh_tunables) (exec : emsh_exec_t) (s : emsh_t)
    (al fl : List Nat) (c : Nat) (H : emsh_inv cfg s al fl)
    (hst : s.ctlseq.st = .INIT ∨ s.ctlseq.st = .FINAL)
    (hend : s.buf.pos = s.buf.array.size)
    (hroom : s.buf.array.size < cfg.EMSH_MAX_LINE_SIZE) (hch : 0x20 ≤ c ∧ c ≤ 0x7E) :
    ∃ s', emsh_task cfg exec s c = some s' ∧ emsh_inv cfg s' al fl ∧
      s'.ctlseq.st = .INIT ∧ s'.buf.pos = s'.buf.array.size ∧
      emsh_buf_line s' = emsh_buf_line s ++ [c] ∧
      s'.out = s.out ++ (c :: emsh_seq_el) ∧ s'.running = s.running := by
  have H0 : emsh_inv cfg { s with ctlseq := { s.ctlseq with st := .INIT } } al fl :=
    emsh_inv_ctlseq cfg s _ al fl H
  obtain ⟨m', he, hline, hfr, htx⟩ := emsh_do_insert_eq cfg
    { s with ctlseq := { s.ctlseq with st := .INIT } } al fl c H0 hch hroom
  have hll : (emsh_buf_line s).length = s.buf.array.size := by
    simp only [emsh_buf_line, emsh_line_length]
  rw [emsh_task_init cfg exec s c hst (by omega), emsh_task_key_print cfg exec _ c hch]
  refine ⟨_, he, ?_, rfl, ?_, ?_, ?_, rfl⟩
  · exact emsh_inv_mem_update cfg _ _ al fl m' (s.buf.array.size + 1) (s.buf.pos + 1) H0 hfr htx
      (Nat.succ_le_succ H.2.2.2.2.2.2) rfl rfl
  · show s.buf.pos + 1 = s.buf.array.size + 1
    rw [hend]
  · have h1 : emsh_line m' s.buf.array.data (s.buf.array.size + 1) =
        (emsh_buf_line s).take s.buf.pos ++ [c] ++ (emsh_buf_line s).drop s.buf.pos := hline
    show emsh_line m' s.buf.array.data (s.buf.array.size + 1) = _
    rw [h1, hend, ← hll, List.take_length, List.drop_length, List.append_nil]
  · show s.out ++ [c] ++ emsh_seq_el ++ (emsh_buf_line s).drop s.buf.pos ++
      emsh_seq_cub (s.buf.array.size - s.buf.pos) = _
    rw [hend, ← hll, List.drop_length, Nat.sub_self]
    simp [emsh_seq_cub]

/-- Printable bytes typed at the end of a line that has room for them. -/
theorem emsh_echo_feed (cfg : emsh_tunables) (exec : emsh_exec_t) (al fl : List Nat) :
    ∀ (bs : List Nat) (s : emsh_t), emsh_inv cfg s al fl →
      (s.ctlseq.st = .INIT ∨ s.ctlseq.st = .FINAL) → s.buf.pos = s.buf.array.size →
      s.buf.array.size + bs.length ≤ cfg.EMSH_MAX_LINE_SIZE →
      (∀ c ∈ bs, 0x20 ≤ c ∧ c ≤ 0x7E) →
      ∃ s', emsh_feed cfg exec s bs = some s' ∧ emsh_inv cfg s' al fl ∧
        (s'.ctlseq.st = .INIT ∨ s'.ctlseq.st = .FINAL) ∧ s'.buf.pos = s'.buf.array.size ∧
        emsh_buf_line s' = emsh_buf_line s ++ bs ∧
        s'.out = s.out ++ emsh_echo bs ∧ s'.running = s.running
  | [], s, H, hst, hend, _, _ =>
    ⟨s, rfl, H, hst, hend, by rw [List.append_nil], by simp [emsh_echo], rfl⟩
  | c :: bs, s, H, hst, hend, hfit, hpr => by
    have hroom : s.buf.array.size < cfg.EMSH_MAX_LINE_SIZE := by
      simp only [List.length_cons] at hfit
      omega
    obtain ⟨s1, he1, H1, hst1, hend1, hline1, hout1, hrun1⟩ :=
      emsh_echo_byte cfg exec s al fl c H hst hend hroom (hpr c (List.mem_cons_self _ _))
    have hsz1 : s1.buf.array.size = s.buf.array.size + 1 := by
      have := congrArg List.length hline1
      simpa [emsh_buf_line, emsh_line_length] using this
    obtain ⟨s2, he2, H2, hst2, hend2, hline2, hout2, hrun2⟩ :=
      emsh_echo_feed cfg exec al fl bs s1 H1 (Or.inl hst1) hend1 (by
        simp only [List.length_cons] at hfit
        omega) (fun x hx => hpr x (List.mem_cons_of_mem _ hx))
    refine ⟨s2, ?_, H2, hst2, hend2, ?_, ?_, hrun2.trans hrun1⟩
    · simp only [emsh_feed, he1, Option.some_bind]
      exact he2
    · rw [hline2, hline1, List.append_assoc]
      rfl
    · rw [hout2, hout1, List.append_assoc]
      rfl

theorem csi_strip_echo : ∀ (bs : List Nat) (st : ctlseq_st_t),
    (st = .INIT ∨ st = .FINAL) → (∀ c ∈ bs, 0x20 ≤ c ∧ c ≤ 0x7E) →
    csi_strip st (emsh_echo bs) = bs
  | [], _, _, _ => rfl
  | c :: bs, st, hst, hpr => by
    have hc := hpr c (List.mem_cons_self _ _)
    have hne : c ≠ 0x1B := by omega
    have ih := csi_strip_echo bs .FINAL (Or.inr rfl) (fun x hx => hpr x (List.mem_cons_of_mem _ hx))
    have hsm : ctlseq_sm st c = (.INIT, .NONE, 0) := by
      rcases hst with rfl | rfl <;>
        simp [ctlseq_sm, ctlseq_sm_body, CTLSEQ_C_CSI_1, hne]
    have he : emsh_echo (c :: bs) = c :: 0x1B :: 0x5B :: 0x4B :: emsh_echo bs := rfl
    rw [he]
    simp only [csi_strip, hsm]
    have h1 : ctlseq_sm .INIT 0x1B = (.ESC, .ESC, 0) := by decide
    have h2 : ctlseq_sm .ESC 0x5B = (.CSI, .CSI, 0) := by decide
    have h3 : ctlseq_sm .CSI 0x4B = (.FINAL, .FINAL, 0) := by decide
    simp only [h1, h2, h3, ih]
    simp

end Emsh

namespace Emsh

/-- LF on a well-formed engine: the line is committed; the newline, what the
commit writes and the prompt (when running) are written; a blank line stays in
the buffer and any other line leaves an empty draft, the caret at its end. -/
theorem emsh_echo_commit (cfg : emsh_tunables) (exec : emsh_exec_t) (s : emsh_t)
    (al fl : List Nat) (hL : 1 ≤ cfg.EMSH_MAX_LINE_SIZE) (H : emsh_inv cfg s al fl)
    (hend : s.buf.pos = s.buf.array.size) :
    ∃ s2, emsh_task cfg exec s ASCII_C_LF = some s2 ∧ emsh_at_eol cfg s2 ∧
      s2.out = s.out ++ c_lit cfg.EMSH_S_NEWLINE ++ emsh_commit_bytes cfg exec s ++
        (if s2.running = true then c_lit cfg.EMSH_S_PROMPT else []) ∧
      emsh_buf_line s2 = (if emsh_words (emsh_buf_line s) = [] then emsh_buf_line s else []) ∧
      ((∀ n a v, (exec n a v).1.running = v.running) → s2.running = s.running) := by
  have H' : emsh_inv cfg { s with ctlseq := { s.ctlseq with st := .INIT } } al fl :=
    emsh_inv_ctlseq cfg s _ al fl H
  rw [emsh_task_lf]
  by_cases hw : emsh_words (emsh_buf_line s) = []
  · obtain ⟨s2, he, hcs, hh, hb, hr, _, _, hout⟩ :=
      emsh_do_commit_blank cfg exec { s with ctlseq := { s.ctlseq with st := .INIT } } al fl H' hw
    have hh' : s2.hist = s.hist := hh
    have hb' : s2.buf = s.buf := hb
    have hr' : s2.running = s.running := hr
    have hout' : s2.out = s.out ++ c_lit cfg.EMSH_S_NEWLINE ++
        (if s.running = true then c_lit cfg.EMSH_S_PROMPT else []) := hout
    refine ⟨s2, he, ⟨⟨al, fl, ?_⟩, ?_, ?_⟩, ?_, ?_, fun _ => hr'⟩
    · exact emsh_inv_frame cfg _ s2 al fl H' hh (by rw [hb]) (by rw [hb]; exact H'.2.2.2.2.2.2)
    · rw [hcs]
      exact Or.inl rfl
    · rw [hb', hend]
    · rw [hout', hr']
      simp only [emsh_commit_bytes, if_pos hw, List.append_nil]
    · rw [if_pos hw]
      simp only [emsh_buf_line, hh', hb']
  · obtain ⟨s2, f, al', fl', he, hcs, hcom, Hinv, hle, hgt⟩ :=
      emsh_do_commit_run cfg exec { s with ctlseq := { s.ctlseq with st := .INIT } } al fl hL H' hw
    obtain ⟨_, f2, _, _, _, hbuf⟩ := hcom
    refine ⟨s2, he, ⟨⟨_, _, Hinv⟩, ?_, ?_⟩, ?_, ?_, ?_⟩
    · rw [hcs]
      exact Or.inl rfl
    · rw [hbuf]
    · by_cases hm : (emsh_words (emsh_buf_line s)).length ≤ cfg.EMSH_MAX_N_ARGS
      · obtain ⟨hr, _, _, hout⟩ := hle hm
        have hr' : s2.running = (exec (emsh_words (emsh_buf_line s)).length
            (emsh_words (emsh_buf_line s)) (emsh_exec_entry s)).1.running := hr
        have hout' : s2.out = s.out ++ c_lit cfg.EMSH_S_NEWLINE ++
            (exec (emsh_words (emsh_buf_line s)).length (emsh_words (emsh_buf_line s))
              (emsh_exec_entry s)).2 ++
            (if (exec (emsh_words (emsh_buf_line s)).length (emsh_words (emsh_buf_line s))
              (emsh_exec_entry s)).1.running = true then c_lit cfg.EMSH_S_PROMPT else []) := hout
        rw [hout', hr']
        simp only [emsh_commit_bytes, if_neg hw, if_pos hm]
      · have hm2 : cfg.EMSH_MAX_N_ARGS < (emsh_words (emsh_buf_line s)).length := by omega
        obtain ⟨hr, _, _, hout⟩ := hgt hm2
        have hr' : s2.running = s.running := hr
        have hout' : s2.out = s.out ++ c_lit cfg.EMSH_S_NEWLINE ++
            c_lit (emsh_s_arg_list_too_long ++ cfg.EMSH_S_NEWLINE) ++
            (if s.running = true then c_lit cfg.EMSH_S_PROMPT else []) := hout
        rw [hout', hr']
        simp only [emsh_commit_bytes, if_neg hw, if_neg hm]
    · rw [if_neg hw]
      simp only [emsh_buf_line, hbuf, emsh_line, List.range_zero, List.map_nil]
    · intro hk
      by_cases hm : (emsh_words (emsh_buf_line s)).length ≤ cfg.EMSH_MAX_N_ARGS
      · obtain ⟨hr, _⟩ := hle hm
        have hr' : s2.running = (exec (emsh_words (emsh_buf_line s)).length
            (emsh_words (emsh_buf_line s)) (emsh_exec_entry s)).1.running := hr
        rw [hr', hk]
        rfl
      · have hm2 : cfg.EMSH_MAX_N_ARGS < (emsh_words (emsh_buf_line s)).length := by omega
        obtain ⟨hr, _⟩ := hgt hm2
        exact hr

/-- One line that fits the line buffer, typed at its end and followed by LF. -/
theorem emsh_echo_line_fit (cfg : emsh_tunables) (exec : emsh_exec_t) (s : emsh_t)
    (l : List Nat) (hL : 1 ≤ cfg.EMSH_MAX_LINE_SIZE) (H : emsh_at_eol cfg s)
    (hpr : ∀ c ∈ l, 0x20 ≤ c ∧ c ≤ 0x7E)
    (hfit : (emsh_buf_line s ++ l).length ≤ cfg.EMSH_MAX_LINE_SIZE) :
    ∃ s1 s2, emsh_feed cfg exec s l = some s1 ∧ emsh_buf_line s1 = emsh_buf_line s ++ l ∧
      s1.out = s.out ++ emsh_echo l ∧ s1.running = s.running ∧
      emsh_task cfg exec s1 ASCII_C_LF = some s2 ∧
      s2.out = s1.out ++ c_lit cfg.EMSH_S_NEWLINE ++ emsh_commit_bytes cfg exec s1 ++
        (if s2.running = true then c_lit cfg.EMSH_S_PROMPT else []) ∧
      ((∀ n a v, (exec n a v).1.running = v.running) → s2.running = s.running) ∧
      emsh_echo_line cfg exec s l s2 ∧ emsh_at_eol cfg s2 ∧
      emsh_buf_line s2 =
        (if emsh_words (emsh_buf_line s ++ l) = [] then emsh_buf_line s ++ l else []) := by
  obtain ⟨⟨al, fl, Hi⟩, hst, hend⟩ := H
  have hsz : s.buf.array.size + l.length ≤ cfg.EMSH_MAX_LINE_SIZE := by
    simpa [emsh_buf_line, emsh_line_length] using hfit
  obtain ⟨s1, he1, H1, hst1, hend1, hline1, hout1, hrun1⟩ :=
    emsh_echo_feed cfg exec al fl l s Hi hst hend hsz hpr
  obtain ⟨s2, he2, Heol2, hout2, hline2, hrun2⟩ :=
    emsh_echo_commit cfg exec s1 al fl hL H1 hend1
  refine ⟨s1, s2, he1, hline1, hout1, hrun1, he2, hout2, ?_, ?_, Heol2, ?_⟩
  · intro hk
    rw [hrun2 hk, hrun1]
  · exact ⟨s1, emsh_echo l, he1, hout1, csi_strip_echo l .INIT (Or.inl rfl) hpr, he2, hout2⟩
  · rw [hline2, hline1]

end Emsh

namespace Emsh

theorem emsh_feed_line (cfg : emsh_tunables) (exec : emsh_exec_t) (s s1 s2 : emsh_t)
    (l : List Nat) (c : Nat) (h1 : emsh_feed cfg exec s l = some s1)
    (h2 : emsh_task cfg exec s1 c = some s2) : emsh_feed cfg exec s (l ++ [c]) = some s2 := by
  rw [emsh_feed_append, h1, Option.some_bind, emsh_feed_single, h2]

theorem emsh_sample_at_eol : emsh_at_eol {} (emsh_sample []) :=
  ⟨⟨[0], [1], emsh_sample_inv {} [] rfl (by decide) (by decide)⟩, Or.inl rfl, rfl⟩

/-- Lines that fit the line buffer, typed one after the other. -/
theorem emsh_echo_lines_of_fit (cfg : emsh_tunables) (exec : emsh_exec_t)
    (hL : 1 ≤ cfg.EMSH_MAX_LINE_SIZE) :
    ∀ (ls : List (List Nat)) (s : emsh_t), emsh_at_eol cfg s →
      (∀ l ∈ ls, ∀ c ∈ l, 0x20 ≤ c ∧ c ≤ 0x7E) →
      emsh_lines_fit cfg (emsh_buf_line s) ls → emsh_echo_lines cfg exec s ls
  | [], _, _, _, _ => trivial
  | l :: ls, s, H, hpr, hfit => by
    obtain ⟨hfit1, hfit2⟩ := hfit
    obtain ⟨_, s2, _, _, _, _, _, _, _, hline, Heol2, hbuf2⟩ :=
      emsh_echo_line_fit cfg exec s l hL H (hpr l (List.mem_cons_self _ _)) hfit1
    refine ⟨s2, hline, ?_⟩
    apply emsh_echo_lines_of_fit cfg exec hL ls s2 Heol2
      (fun x hx => hpr x (List.mem_cons_of_mem _ hx))
    rw [hbuf2]
    exact hfit2

/-- C33 as stated fails. A byte that is neither printable nor a control character
(0xE9) is not echoed: after LF only the newline and the prompt have been
written. Of 78 bytes `a` typed on an empty line of capacity 77 the last is
dropped: 77 are echoed. And the commit of a line of 11 words writes the
diagnostic `emsh: Argument list too long.` between the newline and the prompt. -/
theorem emsh_echo_counterexample :
    (emsh_feed {} emsh_exec_none (emsh_sample []) [0xE9, 0x0A]).map (fun s => s.out) =
      some [0x0A, 0x3E, 0x20] ∧
    (∃ s2, emsh_feed {} emsh_exec_none (emsh_sample []) (List.replicate 78 0x61 ++ [0x0A]) =
        some s2 ∧
      s2.out = emsh_echo (List.replicate 77 0x61) ++ [0x0A, 0x3E, 0x20] ∧
      csi_strip .INIT (emsh_echo (List.replicate 77 0x61)) = List.replicate 77 0x61) ∧
    (∃ s2, emsh_feed {} emsh_exec_none (emsh_sample []) (emsh_line_11 ++ [0x0A]) = some s2 ∧
      s2.out = emsh_echo emsh_line_11 ++ [0x0A] ++ emsh_s_arg_list_too_long ++ [0x0A] ++
        [0x3E, 0x20]) := by
  have hk : ∀ (n : Nat) (a : List (List Nat)) (v : emsh_exec_view),
      (emsh_exec_none n a v).1.running = v.running := fun _ _ _ => rfl
  have hN : c_lit ({} : emsh_tunables).EMSH_S_NEWLINE = [0x0A] := by decide
  have hP : c_lit ({} : emsh_tunables).EMSH_S_PROMPT = [0x3E, 0x20] := by decide
  have hO : (emsh_sample []).out = [] := rfl
  refine ⟨by decide, ?_, ?_⟩
  · have hpr : ∀ c ∈ List.replicate 77 0x61, 0x20 ≤ c ∧ c ≤ 0x7E := by
      intro c hc
      rw [List.eq_of_mem_replicate hc]
      decide
    obtain ⟨s1, he1, H1, hst1, hend1, hline1, hout1, hrun1⟩ :=
      emsh_echo_feed {} emsh_exec_none [0] [1] (List.replicate 77 0x61) (emsh_sample [])
        (emsh_sample_inv {} [] rfl (by decide) (by decide)) (Or.inl rfl) rfl (by decide) hpr
    have hline1' : emsh_buf_line s1 = List.replicate 77 0x61 := hline1
    have hfull : s1.buf.array.size = ({} : emsh_tunables).EMSH_MAX_LINE_SIZE := by
      have := congrArg List.length hline1'
      simpa [emsh_buf_line, emsh_line_length] using this
    have he78 := (emsh_insert_full_line {} emsh_exec_none s1 [0] [1] 0x61 H1 hst1 hfull
      (by decide)).1
    obtain ⟨s2, he2, _, hout2, _, hrun2⟩ :=
      emsh_echo_commit {} emsh_exec_none { s1 with ctlseq := { s1.ctlseq with st := .INIT } }
        [0] [1] (by decide) (emsh_inv_ctlseq {} s1 _ [0] [1] H1) hend1
    have hcb : emsh_commit_bytes {} emsh_exec_none
        { s1 with ctlseq := { s1.ctlseq with st := .INIT } } = [] := by
      have hl : emsh_buf_line { s1 with ctlseq := { s1.ctlseq with st := .INIT } } =
          List.replicate 77 0x61 := hline1'
      have hw : emsh_words (List.replicate 77 0x61) = [List.replicate 77 0x61] := by decide
      simp only [emsh_commit_bytes, hl, hw]
      rfl
    have hr2 : s2.running = true := by
      rw [hrun2 hk]
      exact hrun1
    refine ⟨s2, ?_, ?_, csi_strip_echo _ .INIT (Or.inl rfl) hpr⟩
    · have h78 : List.replicate 78 0x61 = List.replicate 77 0x61 ++ [0x61] := by decide
      rw [h78]
      exact emsh_feed_line {} emsh_exec_none _ _ s2 _ 0x0A
        (emsh_feed_line {} emsh_exec_none _ s1 _ _ 0x61 he1 he78) he2
    · have hout2' : s2.out = s1.out ++ c_lit ({} : emsh_tunables).EMSH_S_NEWLINE ++
          emsh_commit_bytes {} emsh_exec_none
            { s1 with ctlseq := { s1.ctlseq with st := .INIT } } ++
          (if s2.running = true then c_lit ({} : emsh_tunables).EMSH_S_PROMPT else []) := hout2
      rw [hout2', hcb, hr2, hout1, hO, hN, hP]
      simp
  · have hpr : ∀ c ∈ emsh_line_11, 0x20 ≤ c ∧ c ≤ 0x7E := by decide
    obtain ⟨s1, s2, he1, hline1, hout1, _, he2, hout2, hrun2, _⟩ :=
      emsh_echo_line_fit {} emsh_exec_none (emsh_sample []) emsh_line_11 (by decide)
        emsh_sample_at_eol hpr (by decide)
    have hline1' : emsh_buf_line s1 = emsh_line_11 := hline1
    have hcb : emsh_commit_bytes {} emsh_exec_none s1 =
        emsh_s_arg_list_too_long ++ [0x0A] := by
      have hw : (emsh_words emsh_line_11).length = 11 := by decide
      have hne : emsh_words emsh_line_11 ≠ [] := by
        intro h0
        rw [h0] at hw
        exact absurd hw (by decide)
      simp only [emsh_commit_bytes, hline1', if_neg hne, hw]
      rw [if_neg (by decide)]
      decide
    have hr2 : s2.running = true := hrun2 hk
    refine ⟨s2, emsh_feed_line {} emsh_exec_none _ s1 s2 _ 0x0A he1 he2, ?_⟩
    rw [hout2, hcb, hr2, hout1, hO, hN, hP]
    simp

end Emsh

namespace Emsh

/-- CLAIM C33, amended. Take lines `ls` of printable bytes (0x20..0x7E), fed one
after the other, each followed by LF, to an engine that is well formed with no
control sequence pending and the caret at the end of its line; the engine right
after `emsh_init` and `emsh_start` is such an engine, with an empty line. If
every line fits the line buffer (with what the buffer holds when the line
starts: a blank line stays in it after LF, any other line leaves it empty),
then every byte is accepted and, for each line, the bytes written while the line
is fed are, once the control sequences are removed, the bytes of the line; the
LF then writes the newline, what the commit writes (nothing for a blank line,
the bytes of the executor, or the diagnostic for too many words) and the prompt
when the engine is running. -/
theorem emsh_echo_equals_input (cfg : emsh_tunables) (exec : emsh_exec_t)
    (ls : List (List Nat)) (hL : 1 ≤ cfg.EMSH_MAX_LINE_SIZE) (hH : 1 ≤ cfg.EMSH_MAX_HIST_SIZE)
    (hpr : ∀ l ∈ ls, ∀ c ∈ l, 0x20 ≤ c ∧ c ≤ 0x7E) :
    (∀ s0, ∃ s, emsh_init cfg s0 = some s ∧ emsh_at_eol cfg (emsh_start cfg s) ∧
      emsh_buf_line (emsh_start cfg s) = [] ∧
      (emsh_lines_fit cfg [] ls → emsh_echo_lines cfg exec (emsh_start cfg s) ls)) ∧
    (∀ s, emsh_at_eol cfg s → emsh_lines_fit cfg (emsh_buf_line s) ls →
      emsh_echo_lines cfg exec s ls) := by
  have hgen : ∀ s, emsh_at_eol cfg s → emsh_lines_fit cfg (emsh_buf_line s) ls →
      emsh_echo_lines cfg exec s ls :=
    fun s H hfit => emsh_echo_lines_of_fit cfg exec hL ls s H hpr hfit
  refine ⟨?_, hgen⟩
  intro s0
  obtain ⟨s, he, Hi, _, hst, _, hbuf⟩ := emsh_init_inv cfg s0 hL hH
  have Hs : emsh_inv cfg (emsh_start cfg s) _ _ :=
    emsh_inv_frame cfg s (emsh_start cfg s) _ _ Hi rfl rfl Hi.2.2.2.2.2.2
  have hb : (emsh_start cfg s).buf = ⟨⟨cfg.EMSH_MAX_LINE_SIZE, 0, 0, 0⟩, 0⟩ := hbuf
  have heol : emsh_at_eol cfg (emsh_start cfg s) := by
    refine ⟨⟨_, _, Hs⟩, Or.inl hst, ?_⟩
    rw [hb]
  have hline : emsh_buf_line (emsh_start cfg s) = [] := by
    simp only [emsh_buf_line, hb, emsh_line, List.range_zero, List.map_nil]
  refine ⟨s, he, heol, hline, ?_⟩
  intro hfit
  apply hgen _ heol
  rw [hline]
  exact hfit

theorem emsh_lines_fit_sample :
    emsh_lines_fit {} (emsh_buf_line (emsh_sample [])) [[0x68, 0x69], [0x6C, 0x73]] := by
  have h0 : emsh_buf_line (emsh_sample []) = [] := rfl
  rw [h0]
  simp only [emsh_lines_fit]
  decide

/-- C33, amended, on the lines `hi` and `ls` typed on an empty line. -/
theorem emsh_echo_equals_input_witness :
    emsh_at_eol {} (emsh_sample []) ∧
    emsh_lines_fit {} (emsh_buf_line (emsh_sample [])) [[0x68, 0x69], [0x6C, 0x73]] ∧
    emsh_echo_lines {} emsh_exec_none (emsh_sample []) [[0x68, 0x69], [0x6C, 0x73]] :=
  ⟨emsh_sample_at_eol, emsh_lines_fit_sample,
    (emsh_echo_equals_input {} emsh_exec_none [[0x68, 0x69], [0x6C, 0x73]] (by decide)
      (by decide) (by decide)).2 (emsh_sample []) emsh_sample_at_eol emsh_lines_fit_sample⟩

end Emsh

